import Mathlib

/-!
# Ubuntu Time Machine: the backup engine

A shallow embedding of `src/core/src/backup_engine.cpp` (class
`BackupEngine::Impl`) and of the types of `include/utm/backup_engine.hpp`.

* Paths are lists of components of an absolute path.
* A `time_point` is a number of seconds since the epoch.
* The file system that snapshots are written to is a table from paths to
  file types plus an inode table, so that a hard link and a copy differ.
* The source side is a tree of directory entries, walked in listing order; a
  symbolic link shows as what it points to, and `weakly_canonical` of the
  engine state tells the path it resolves to.
* Functions that can throw return `Option`; every `try`/`catch` of the source
  is a `match` on that result.
* The C and C++ library calls on calendar time (`std::get_time`, `mktime`,
  `localtime`, `strftime`) are the fields of `TimeLib`; `utc` is an instance
  for the UTC time zone.
* The worker thread runs as a function on `State`; a concurrent
  `cancelBackup` call is delivered at one of the worker's reads of the flag.
* The functions of the engine are given first for a progress callback that
  returns from every invocation; the functions named `Catching.` are the same
  functions for a callback that may throw.
-/

namespace utm

/-! ## Types of backup_engine.hpp -/

/-- Status of a backup operation (`enum class BackupStatus`). -/
inductive BackupStatus where
  | IDLE
  | SCANNING
  | BACKING_UP
  | VERIFYING
  | COMPLETED
  | FAILED
  | CANCELLED
  deriving DecidableEq, Repr

/-- A `std::filesystem::path`, as the components of an absolute path; the empty
list is both the root and the empty path. -/
abbrev Path := List String

/-- Configuration of a backup (`struct BackupConfig`), with its default member
initialisers. -/
structure BackupConfig where
  sourcePaths : List Path := []
  destinationPath : Path := []
  excludePatterns : List String := []
  useCompression : Bool := false
  encryptionKey : Option String := none
  verifyBackup : Bool := true
  useHardLinks : Bool := true
  compressionLevel : Int := 6
  threadCount : Int := 0
  deriving DecidableEq, Repr

/-- Statistics of a backup (`struct BackupStats`). The `size_t` counters are
natural numbers; `compressionRatio`, a `double` that the engine never writes,
is left out. -/
structure BackupStats where
  totalFiles : Nat := 0
  totalDirectories : Nat := 0
  totalSize : Nat := 0
  processedFiles : Nat := 0
  processedSize : Nat := 0
  newFiles : Nat := 0
  modifiedFiles : Nat := 0
  unchangedFiles : Nat := 0
  skippedFiles : Nat := 0
  startTime : Nat := 0
  endTime : Option Nat := none
  dedupSavings : Nat := 0
  deriving DecidableEq, Repr

/-! ## The file system -/

/-- What a path names. A regular file names an inode, so two paths that are
hard links of each other carry the same inode number. -/
inductive FileType where
  | regular (ino : Nat)
  | directory
  | other
  deriving DecidableEq, Repr

/-- The file system snapshots are written to: the existing paths in listing
order, and the contents of the inodes, inode `i` at position `i`. -/
structure FileSystem where
  entries : List (Path × FileType) := []
  inodes : List (List Nat) := []
  deriving DecidableEq, Repr

namespace FileSystem

/-- What `status(p)` finds; the root always is a directory. -/
def status (fs : FileSystem) (p : Path) : Option FileType :=
  if p = [] then some FileType.directory
  else (fs.entries.find? (fun e => decide (e.1 = p))).map Prod.snd

/-- Model of `std::filesystem::exists`. -/
def pathExists (fs : FileSystem) (p : Path) : Bool :=
  (fs.status p).isSome

/-- Model of `std::filesystem::is_directory`. -/
def is_directory (fs : FileSystem) (p : Path) : Bool :=
  decide (fs.status p = some FileType.directory)

/-- The bytes of inode `ino`. -/
def content (fs : FileSystem) (ino : Nat) : List Nat :=
  (fs.inodes.get? ino).getD []

/-- Model of `std::filesystem::file_size`: the size of a regular file; it
throws (`none`) on a directory, on any other file type and on a missing
path. -/
def file_size (fs : FileSystem) (p : Path) : Option Nat :=
  match fs.status p with
  | some (FileType.regular ino) => some (fs.content ino).length
  | _ => none

/-- The bytes read from a path through an `std::ifstream`; `none` when the
stream does not open on a regular file. -/
def read (fs : FileSystem) (p : Path) : Option (List Nat) :=
  match fs.status p with
  | some (FileType.regular ino) => some (fs.content ino)
  | _ => none

/-- Model of `std::filesystem::directory_iterator`: the names and types of
the entries directly below `p`, in listing order; it throws (`none`) when `p`
is not a directory. -/
def directory_iterator (fs : FileSystem) (p : Path) : Option (List (String × FileType)) :=
  if fs.is_directory p then
    some (fs.entries.filterMap (fun e =>
      match e.1.getLast? with
      | some name => if e.1.dropLast = p then some (name, e.2) else none
      | none => none))
  else none

/-- One step of `create_directories`: make `p` a directory when nothing is
there, keep it when it is one, throw when it is something else. -/
def mkdirStep (fs : Option FileSystem) (p : Path) : Option FileSystem :=
  match fs with
  | none => none
  | some fs =>
    match fs.status p with
    | none => some { fs with entries := fs.entries ++ [(p, FileType.directory)] }
    | some FileType.directory => some fs
    | some _ => none

/-- Model of `std::filesystem::create_directories`: every prefix of `p`, the
shortest first. The call throws (`none`) at a prefix that exists and is not a
directory; where every existing path has its parent, all shorter prefixes then
exist already, so a call that throws has created nothing. -/
def create_directories (fs : FileSystem) (p : Path) : Option FileSystem :=
  p.inits.foldl mkdirStep (some fs)

/-- Model of `std::filesystem::copy_file` with `overwrite_existing`, the source
being a regular file with the given bytes: a missing target is created with an
inode of its own, an existing regular file is rewritten in place, anything else
throws. -/
def copy_file (fs : FileSystem) (bytes : List Nat) (dest : Path) : Option FileSystem :=
  match fs.status dest with
  | none =>
    if fs.is_directory dest.dropLast then
      some { entries := fs.entries ++ [(dest, FileType.regular fs.inodes.length)],
             inodes := fs.inodes ++ [bytes] }
    else none
  | some (FileType.regular ino) => some { fs with inodes := fs.inodes.set ino bytes }
  | some _ => none

/-- Model of `std::filesystem::create_hard_link`: a new name for the inode
of `target`; it throws when `target` is not a regular file, when `link` exists
or when the parent of `link` is not a directory. -/
def create_hard_link (fs : FileSystem) (target link : Path) : Option FileSystem :=
  match fs.status target with
  | some (FileType.regular ino) =>
    if fs.pathExists link then none
    else if fs.is_directory link.dropLast then
      some { fs with entries := fs.entries ++ [(link, FileType.regular ino)] }
    else none
  | _ => none

/-- Model of `std::filesystem::remove_all`: the path and everything below. -/
def remove_all (fs : FileSystem) (p : Path) : FileSystem :=
  { fs with entries := fs.entries.filter (fun e => !(p.isPrefixOf e.1)) }

end FileSystem

/-- An entry of the source side: a regular file with its bytes, a directory
with its entries in listing order, or something else (a socket, a device). -/
inductive Node where
  | file (bytes : List Nat)
  | dir (entries : List (String × Node))
  | other

/-! ## Calendar time -/

/-- The calendar functions of the C and C++ libraries, as the engine calls them.
* `get_time name`: `ss >> std::get_time(&tm, "%Y%m%d-%H%M%S")` on the name,
  then `mktime`; `none` when the stream fails.
* `stamp t`: `strftime(.., "%Y%m%d-%H%M%S", localtime(t))`.
* `day t`, `week t`, `month t`: `strftime` of `localtime(t)` with the formats
  `"%Y-%m-%d"`, `"%G-%V"` and `"%Y-%m"`. -/
structure TimeLib where
  get_time : String → Option Nat
  stamp : Nat → String
  day : Nat → String
  week : Nat → String
  month : Nat → String

/-- A number in decimal, padded with zeros to a width. -/
def zeroPad (width n : Nat) : List Char :=
  let ds := Nat.toDigits 10 n
  List.replicate (width - ds.length) '0' ++ ds

/-- The civil date (year, month, day) of a day number counted from
1970-01-01, in the proleptic Gregorian calendar. -/
def civilFromDays (days : Nat) : Nat × Nat × Nat :=
  let z := days + 719468
  let era := z / 146097
  let doe := z % 146097
  let yoe := (doe + doe / 36524 - doe / 1460 - doe / 146096) / 365
  let y := yoe + era * 400
  let doy := doe - (365 * yoe + yoe / 4 - yoe / 100)
  let mp := (5 * doy + 2) / 153
  let d := doy - (153 * mp + 2) / 5 + 1
  let m := if mp < 10 then mp + 3 else mp - 9
  (if m ≤ 2 then y + 1 else y, m, d)

/-- The day number of a civil date, counted from 1970-01-01; a day past the
end of its month runs on into the next one, as `mktime` normalises it. -/
def daysFromCivil (y m d : Nat) : Nat :=
  let y1 := if m ≤ 2 then y - 1 else y
  let era := y1 / 400
  let yoe := y1 % 400
  let doy := (153 * (if m > 2 then m - 3 else m + 9) + 2) / 5 + d - 1
  let doe := yoe * 365 + yoe / 4 - yoe / 100 + doy
  era * 146097 + doe - 719468

/-- The ISO 8601 week-numbering year and week of a day number: those of the
Thursday of its Monday-to-Sunday week. -/
def isoWeek (days : Nat) : Nat × Nat :=
  let thursday := days - (days + 3) % 7 + 3
  let y := (civilFromDays thursday).1
  (y, (thursday - daysFromCivil y 1 1) / 7 + 1)

/-- A decimal field of a name: the digits from `pos` on, `len` of them. -/
def readField (cs : List Char) (pos len : Nat) : Option Nat :=
  let ds := (cs.drop pos).take len
  if ds.length = len ∧ ds.all Char.isDigit then
    some (ds.foldl (fun acc c => 10 * acc + (c.toNat - 48)) 0)
  else none

/-- The fixed-width form `YYYYMMDD-HHMMSS` read from the start of a name, as a
time in UTC; what follows the seconds is left in the stream unread. For a
name that starts with the fourteen digits of this form and a year from 1970
on, this is what `std::get_time` and `mktime` return in the UTC time zone.
`std::get_time` also reads fields of one digit, names that end after the date
and names with leading blanks, which are not read here; the instance `utc` is
used only at names of the fixed-width form. -/
def utcGetTime (name : String) : Option Nat :=
  let cs := name.data
  match readField cs 0 4, readField cs 4 2, readField cs 6 2,
        readField cs 9 2, readField cs 11 2, readField cs 13 2 with
  | some y, some mo, some d, some h, some mi, some sec =>
    if cs.get? 8 = some '-' ∧ 1970 ≤ y ∧ 1 ≤ mo ∧ mo ≤ 12 ∧ 1 ≤ d ∧ d ≤ 31 ∧
        h ≤ 23 ∧ mi ≤ 59 ∧ sec ≤ 60 then
      some (daysFromCivil y mo d * 86400 + h * 3600 + mi * 60 + sec)
    else none
  | _, _, _, _, _, _ => none

/-- The calendar functions for the UTC time zone and the years 1970 to 9999. -/
def utc : TimeLib where
  get_time := utcGetTime
  stamp := fun t =>
    let c := civilFromDays (t / 86400)
    String.mk (zeroPad 4 c.1 ++ zeroPad 2 c.2.1 ++ zeroPad 2 c.2.2 ++ ['-'] ++
      zeroPad 2 (t % 86400 / 3600) ++ zeroPad 2 (t % 3600 / 60) ++ zeroPad 2 (t % 60))
  day := fun t =>
    let c := civilFromDays (t / 86400)
    String.mk (zeroPad 4 c.1 ++ ['-'] ++ zeroPad 2 c.2.1 ++ ['-'] ++ zeroPad 2 c.2.2)
  week := fun t =>
    let w := isoWeek (t / 86400)
    String.mk (zeroPad 4 w.1 ++ ['-'] ++ zeroPad 2 w.2)
  month := fun t =>
    let c := civilFromDays (t / 86400)
    String.mk (zeroPad 4 c.1 ++ ['-'] ++ zeroPad 2 c.2.1)

/-! ## listBackups and pruneBackups -/

/-- Model of `BackupEngine::Impl::listBackups`: the time of every directory
below `<destination>/backups` whose name reads as a timestamp, newest first. -/
def listBackups (lib : TimeLib) (fs : FileSystem) (destination : Path) : List Nat :=
  if !fs.pathExists destination then []
  else if !fs.is_directory destination then []
  else
    let backupsDir := destination ++ ["backups"]
    if !fs.pathExists backupsDir then []
    else
      match fs.directory_iterator backupsDir with
      | none => []
      | some entries =>
        let result := entries.filterMap (fun e =>
          if e.2 = FileType.directory then lib.get_time e.1 else none)
        result.insertionSort (fun a b => a ≥ b)

/-- Model of `m[key].push_back(backup)` on a
`std::map<std::string, std::vector<time_point>>`, the map being the list of its
pairs in ascending key order. -/
def mapPush {κ : Type} [LinearOrder κ] (m : List (κ × List Nat)) (key : κ) (backup : Nat) :
    List (κ × List Nat) :=
  match m with
  | [] => [(key, [backup])]
  | (k, v) :: rest =>
    if key < k then (key, [backup]) :: (k, v) :: rest
    else if key = k then (k, v ++ [backup]) :: rest
    else (k, v) :: mapPush rest key backup

/-- The grouping loop of `pruneBackups` for one of its three maps: every
backup is pushed to the bucket of its key. -/
def groupBackups {κ : Type} [LinearOrder κ] (key : Nat → κ) (backups : List Nat) :
    List (κ × List Nat) :=
  backups.foldl (fun m b => mapPush m (key b) b) []

/-- One of the three keep loops of `pruneBackups`, from a bucket on: the
buckets in ascending key order, `count` selected so far, `toKeep` the set
`backupsToKeep` (a list without repetition). -/
def keepLoop {κ : Type} (buckets : List (κ × List Nat)) (keep count : Int)
    (toKeep : List Nat) : List Nat :=
  match buckets with
  | [] => toKeep
  | (_, v) :: rest =>
    if count ≥ keep then toKeep
    else
      match v.insertionSort (fun a b => a ≥ b) with
      | [] => keepLoop rest keep count toKeep
      | newest :: _ => keepLoop rest keep (count + 1) (toKeep.insert newest)

/-- The keys of the three maps of `pruneBackups`, as character sequences in
the order of `std::string`. -/
def dayKey (lib : TimeLib) (t : Nat) : List Char := (lib.day t).data

/-- The key of the weekly map. -/
def weekKey (lib : TimeLib) (t : Nat) : List Char := (lib.week t).data

/-- The key of the monthly map. -/
def monthKey (lib : TimeLib) (t : Nat) : List Char := (lib.month t).data

/-- One keep loop of `pruneBackups` run on an empty set: what the pass with
bucket key `key` and count `keep` puts into `backupsToKeep`. -/
def keepPass {κ : Type} [LinearOrder κ] (key : Nat → κ) (backups : List Nat) (keep : Int) :
    List Nat :=
  keepLoop (groupBackups key backups) keep 0 []

/-- The set `backupsToKeep` that `pruneBackups` computes from the catalog:
the daily, the weekly and the monthly pass, one after the other on one set. -/
def backupsToKeep (lib : TimeLib) (backups : List Nat)
    (keepDaily keepWeekly keepMonthly : Int) : List Nat :=
  let toKeep := keepLoop (groupBackups (dayKey lib) backups) keepDaily 0 []
  let toKeep := keepLoop (groupBackups (weekKey lib) backups) keepWeekly 0 toKeep
  keepLoop (groupBackups (monthKey lib) backups) keepMonthly 0 toKeep

/-- The deletion loop of `pruneBackups`: every backup that is not in the keep
set and whose directory exists is removed and counted. -/
def deleteLoop (lib : TimeLib) (destination : Path) (toKeep : List Nat)
    (backups : List Nat) (fs : FileSystem) (deletedCount : Nat) : FileSystem × Nat :=
  match backups with
  | [] => (fs, deletedCount)
  | backup :: rest =>
    if backup ∈ toKeep then deleteLoop lib destination toKeep rest fs deletedCount
    else
      let backupDir := destination ++ ["backups", lib.stamp backup]
      if fs.pathExists backupDir then
        deleteLoop lib destination toKeep rest (fs.remove_all backupDir) (deletedCount + 1)
      else deleteLoop lib destination toKeep rest fs deletedCount

/-- What a call of `pruneBackups` leaves: its return value, the file system,
and the two counts of its log line (`deletedCount`, `backupsToKeep.size()`). -/
structure PruneResult where
  result : Bool
  fs : FileSystem
  deletedCount : Nat
  keptCount : Nat

/-- Model of `BackupEngine::Impl::pruneBackups`. -/
def pruneBackups (lib : TimeLib) (fs : FileSystem) (destination : Path)
    (keepDaily keepWeekly keepMonthly : Int) : PruneResult :=
  let backups := listBackups lib fs destination
  if backups.isEmpty then
    { result := true, fs := fs, deletedCount := 0, keptCount := 0 }
  else
    let toKeep := backupsToKeep lib backups keepDaily keepWeekly keepMonthly
    let r := deleteLoop lib destination toKeep backups fs 0
    { result := true, fs := r.1, deletedCount := r.2, keptCount := toKeep.length }

/-! ## The engine -/

/-- The members of `BackupEngine::Impl` together with the world the engine
acts on.
* `progressCallback`: the stored `std::function`, `none` when it is empty,
  otherwise an identifier of the callable.
* `backupThread`: the number of worker threads started so far. The code never
  joins or detaches the thread object, so the object is joinable exactly when
  this number is positive.
* `source`: what lies at each source path.
* `now`: the reading of `std::chrono::system_clock::now()`, in seconds.
* `calls`: the invocations of the progress callback, oldest first.
* `cancelIn`: a `cancelBackup` call of another thread that is under way; it
  lands just before the worker reads the flag for the `n + 1`-th time from
  now on.
* `hardwareIdentifier`: what `utm::system::getHardwareIdentifier()` returns.
* `statusLog`: the values the worker has assigned to `status`, oldest first; the
  code has no such member, it is kept to speak about the order of the phases.
* `weakly_canonical`: what `std::filesystem::weakly_canonical` returns for a
  path of the source side, the path with every symbolic link on it resolved;
  the identity where the source side holds no symbolic link. -/
structure State where
  metadataPath : Path := []
  config : BackupConfig := {}
  progressCallback : Option Nat := none
  status : BackupStatus := BackupStatus.IDLE
  stats : BackupStats := {}
  backupThread : Nat := 0
  cancelRequested : Bool := false
  source : List (Path × Node) := []
  fs : FileSystem := {}
  now : Nat := 0
  calls : List (BackupStatus × BackupStats) := []
  cancelIn : Option Nat := none
  hardwareIdentifier : String := ""
  statusLog : List BackupStatus := []
  weakly_canonical : Path → Path := id

/-- Model of `BackupEngine::Impl::startBackup`. The result `none` stands for
the end of the process: the statement `backupThread = std::thread(...)` is a
move assignment, and `std::thread::operator=` calls `std::terminate` when the
thread object assigned to is joinable. The assignments before that statement
are then of no account, the engine being gone with the process. -/
def startBackup (config : BackupConfig) (progressCallback : Option Nat) (s : State) :
    Option (Bool × State) :=
  if s.status ≠ BackupStatus.IDLE ∧ s.status ≠ BackupStatus.COMPLETED ∧
      s.status ≠ BackupStatus.FAILED ∧ s.status ≠ BackupStatus.CANCELLED then
    some (false, s)
  else
    let stats : BackupStats := {}
    let stats := { stats with startTime := s.now }
    let s := { s with stats := stats, config := config, progressCallback := progressCallback,
                      status := BackupStatus.SCANNING }
    if 0 < s.backupThread then none
    else some (true, { s with backupThread := s.backupThread + 1 })

/-- The engine after a call of `startBackup` that returns; the engine as it
was when the call does not return. -/
def started (config : BackupConfig) (progressCallback : Option Nat) (s : State) : State :=
  match startBackup config progressCallback s with
  | some (_, s) => s
  | none => s

/-- Model of `BackupEngine::Impl::cancelBackup`. -/
def cancelBackup (s : State) : Bool × State :=
  if s.status ≠ BackupStatus.SCANNING ∧ s.status ≠ BackupStatus.BACKING_UP ∧
      s.status ≠ BackupStatus.VERIFYING then
    (false, s)
  else (true, { s with cancelRequested := true })

/-- Model of `BackupEngine::Impl::getStatus`. -/
def getStatus (s : State) : BackupStatus := s.status

/-- Model of `BackupEngine::Impl::getStats`. -/
def getStats (s : State) : BackupStats := s.stats

/-- An assignment `status = ...` of the worker. -/
def setStatus (status : BackupStatus) (s : State) : State :=
  { s with status := status, statusLog := s.statusLog ++ [status] }

/-- The world just before the worker reads `cancelRequested`: a `cancelBackup`
call that is due lands, one that is not yet due comes one read closer. -/
def poll (s : State) : State :=
  match s.cancelIn with
  | none => s
  | some 0 => (cancelBackup { s with cancelIn := none }).2
  | some (n + 1) => { s with cancelIn := some n }

/-- The statement `if (progressCallback) progressCallback(status, stats)` for a
callback that returns. -/
def notify (s : State) : State :=
  match s.progressCallback with
  | none => s
  | some _ => { s with calls := s.calls ++ [(s.status, s.stats)] }

/-- The text of `path.string()`. -/
def pathString (p : Path) : String := "/" ++ "/".intercalate p

/-- Whether `s.find(pattern) != std::string::npos`. -/
def isSubstring (pattern s : List Char) : Bool :=
  s.tails.any (fun t => pattern.isPrefixOf t)

/-- The exclusion loop of `scanDirectory` and `backupDirectory`: some pattern
occurs in the text of the path. -/
def isExcluded (excludePatterns : List String) (p : Path) : Bool :=
  excludePatterns.any (fun pattern => isSubstring pattern.data (pathString p).data)

mutual
/-- Model of `BackupEngine::Impl::scanDirectory`, `node` being what lies at
`path`; the iterator throws on anything but a directory, which the function
catches and logs. -/
def scanDirectory (path : Path) (node : Node) (s : State) : State :=
  match node with
  | Node.dir entries => scanEntries path entries s
  | _ => s
/-- The loop of `scanDirectory` over the entries that are still to come. -/
def scanEntries (path : Path) (entries : List (String × Node)) (s : State) : State :=
  match entries with
  | [] => s
  | (name, Node.dir sub) :: rest =>
    if isExcluded s.config.excludePatterns (path ++ [name]) then scanEntries path rest s
    else
      let s := { s with stats := { s.stats with totalDirectories := s.stats.totalDirectories + 1 } }
      let s := poll (scanDirectory (path ++ [name]) (Node.dir sub) s)
      if s.cancelRequested then s else scanEntries path rest s
  | (name, Node.file bytes) :: rest =>
    if isExcluded s.config.excludePatterns (path ++ [name]) then scanEntries path rest s
    else
      let s := { s with stats := { s.stats with totalFiles := s.stats.totalFiles + 1,
                                                totalSize := s.stats.totalSize + bytes.length } }
      let s := poll s
      if s.cancelRequested then s else scanEntries path rest s
  | (name, Node.other) :: rest =>
    if isExcluded s.config.excludePatterns (path ++ [name]) then scanEntries path rest s
    else
      let s := poll s
      if s.cancelRequested then s else scanEntries path rest s
end

/-- The loop of `scanFiles` over the source paths that are still to come;
`false` when a source path does not exist or the flag is found set. -/
def scanSources (sourcePaths : List Path) (s : State) : Bool × State :=
  match sourcePaths with
  | [] => (true, s)
  | sourcePath :: rest =>
    match s.source.lookup sourcePath with
    | none => (false, s)
    | some node =>
      let s := poll (scanDirectory sourcePath node s)
      if s.cancelRequested then (false, s) else scanSources rest s

/-- Model of `BackupEngine::Impl::scanFiles`. -/
def scanFiles (s : State) : Bool × State :=
  match scanSources s.config.sourcePaths s with
  | (false, s) => (false, s)
  | (true, s) => (true, notify s)

/-- The loop of `areFilesEqual` from the current read positions on: both
streams read a buffer of 4096 bytes, and the loop goes on while both are good,
that is, while neither read came short. `fuel` bounds the iterations. -/
def compareChunks (fuel : Nat) (rest1 rest2 : List Nat) : Bool :=
  match fuel with
  | 0 => true
  | fuel + 1 =>
    let buffer1 := rest1.take 4096
    let buffer2 := rest2.take 4096
    if buffer1.length ≠ buffer2.length then false
    else if buffer1 ≠ buffer2 then false
    else if buffer1.length < 4096 ∨ buffer2.length < 4096 then true
    else compareChunks fuel (rest1.drop 4096) (rest2.drop 4096)

/-- Model of `BackupEngine::Impl::areFilesEqual`, the first file being a source
file with the given bytes and the second a path of the file system. -/
def areFilesEqual (fs : FileSystem) (bytes1 : List Nat) (file2 : Path) : Bool :=
  match fs.file_size file2 with
  | none => false
  | some size2 =>
    if bytes1.length ≠ size2 then false
    else
      match fs.read file2 with
      | none => false
      | some bytes2 => compareChunks (bytes1.length / 4096 + 1) bytes1 bytes2

/-- The number of leading components that two paths share, as `std::mismatch`
finds it in `path::lexically_relative`. -/
def commonPrefixLength : Path → Path → Nat
  | a :: p, b :: base => if a = b then commonPrefixLength p base + 1 else 0
  | _, _ => 0

/-- Model of `path::lexically_relative` on two canonical absolute paths: the
number of `..` elements of the result and the elements that follow them; the
result `.` is `(0, [])`. -/
def lexically_relative (p base : Path) : Nat × Path :=
  (base.length - commonPrefixLength p base, p.drop (commonPrefixLength p base))

/-- Model of `std::filesystem::relative(p, base)`, which is
`weakly_canonical(p).lexically_relative(weakly_canonical(base))`. -/
def relative (s : State) (p base : Path) : Nat × Path :=
  lexically_relative (s.weakly_canonical p) (s.weakly_canonical base)

/-- The path `dir / rel` as the system resolves it when `dir` is a directory
reached through no symbolic link: every `..` element leaves the last
component, at the root it stays there. -/
def joinRelative (dir : Path) (rel : Nat × Path) : Path :=
  dir.take (dir.length - rel.1) ++ rel.2

/-- The tail of `backupFile`: `copy_file` with `overwrite_existing`, then the
counter that the flag `fileChanged` selects. -/
def copyAndCount (bytes : List Nat) (destFile : Path) (fileChanged : Bool) (s : State) :
    Bool × State :=
  match s.fs.copy_file bytes destFile with
  | none => (false, s)
  | some fs =>
    if fileChanged then
      (true, { s with fs := fs,
                      stats := { s.stats with modifiedFiles := s.stats.modifiedFiles + 1 } })
    else
      (true, { s with fs := fs, stats := { s.stats with newFiles := s.stats.newFiles + 1 } })

/-- Model of `BackupEngine::Impl::backupFile`, `bytes` being the content of the
regular file `sourceFile`. The relative path is what `std::filesystem::relative`
returns, so a symbolic link on the way to the source file is resolved before
the path is joined to `backupDir`. A call that throws returns `false` with
what it had done until then. -/
def backupFile (sourceFile : Path) (bytes : List Nat)
    (backupDir basePath previousBackupDir : Path) (s : State) : Bool × State :=
  let relativePath := relative s sourceFile basePath
  let destFile := joinRelative backupDir relativePath
  match s.fs.create_directories destFile.dropLast with
  | none => (false, s)
  | some fs =>
    let s := { s with fs := fs }
    let fileChanged := true
    if previousBackupDir ≠ [] then
      let prevFile := joinRelative previousBackupDir relativePath
      if s.fs.pathExists prevFile then
        match s.fs.file_size prevFile with
        | none => (false, s)
        | some prevSize =>
          if prevSize = bytes.length then
            let fileChanged := !areFilesEqual s.fs bytes prevFile
            if !fileChanged then
              match s.fs.create_hard_link prevFile destFile with
              | none => (false, s)
              | some fs =>
                (true, { s with fs := fs,
                                stats := { s.stats with
                                  unchangedFiles := s.stats.unchangedFiles + 1 } })
            else copyAndCount bytes destFile fileChanged s
          else copyAndCount bytes destFile fileChanged s
      else copyAndCount bytes destFile fileChanged s
    else copyAndCount bytes destFile fileChanged s

mutual
/-- Model of `BackupEngine::Impl::backupDirectory`, `node` being what lies at
`sourcePath`; the relative path is what `std::filesystem::relative` returns.
The callback is one that returns from every invocation; for a callback that
may throw see `Catching.backupDirectory`. -/
def backupDirectory (sourcePath : Path) (node : Node)
    (backupDir basePath previousBackupDir : Path) (s : State) : Bool × State :=
  let relativePath := relative s sourcePath basePath
  let destPath := joinRelative backupDir relativePath
  match (if s.fs.pathExists destPath then some s.fs else s.fs.create_directories destPath) with
  | none => (false, s)
  | some fs =>
    match node with
    | Node.dir entries =>
      backupEntries sourcePath entries backupDir basePath previousBackupDir { s with fs := fs }
    | _ => (false, { s with fs := fs })
/-- The loop of `backupDirectory` over the entries that are still to come. -/
def backupEntries (sourcePath : Path) (entries : List (String × Node))
    (backupDir basePath previousBackupDir : Path) (s : State) : Bool × State :=
  match entries with
  | [] => (true, s)
  | (name, Node.dir sub) :: rest =>
    if isExcluded s.config.excludePatterns (sourcePath ++ [name]) then
      backupEntries sourcePath rest backupDir basePath previousBackupDir
        { s with stats := { s.stats with skippedFiles := s.stats.skippedFiles + 1 } }
    else
      match backupDirectory (sourcePath ++ [name]) (Node.dir sub) backupDir basePath
          previousBackupDir s with
      | (false, s) => (false, s)
      | (true, s) =>
        let s := poll s
        if s.cancelRequested then (false, s)
        else backupEntries sourcePath rest backupDir basePath previousBackupDir s
  | (name, Node.file bytes) :: rest =>
    if isExcluded s.config.excludePatterns (sourcePath ++ [name]) then
      backupEntries sourcePath rest backupDir basePath previousBackupDir
        { s with stats := { s.stats with skippedFiles := s.stats.skippedFiles + 1 } }
    else
      match backupFile (sourcePath ++ [name]) bytes backupDir basePath previousBackupDir s with
      | (false, s) => (false, s)
      | (true, s) =>
        let s := { s with stats := { s.stats with
                    processedFiles := s.stats.processedFiles + 1,
                    processedSize := s.stats.processedSize + bytes.length } }
        let s := poll (notify s)
        if s.cancelRequested then (false, s)
        else backupEntries sourcePath rest backupDir basePath previousBackupDir s
  | (name, Node.other) :: rest =>
    if isExcluded s.config.excludePatterns (sourcePath ++ [name]) then
      backupEntries sourcePath rest backupDir basePath previousBackupDir
        { s with stats := { s.stats with skippedFiles := s.stats.skippedFiles + 1 } }
    else
      let s := poll s
      if s.cancelRequested then (false, s)
      else backupEntries sourcePath rest backupDir basePath previousBackupDir s
end

/-- The text that `saveBackupMetadata` writes to `backup-info.json`. -/
def backupInfo (s : State) : String :=
  "\x7b\n" ++
  "  \"timestamp\": \"" ++ toString s.stats.startTime ++ "\",\n" ++
  "  \"endTime\": \"" ++ toString s.now ++ "\",\n" ++
  "  \"totalFiles\": " ++ toString s.stats.totalFiles ++ ",\n" ++
  "  \"totalDirectories\": " ++ toString s.stats.totalDirectories ++ ",\n" ++
  "  \"totalSize\": " ++ toString s.stats.totalSize ++ ",\n" ++
  "  \"newFiles\": " ++ toString s.stats.newFiles ++ ",\n" ++
  "  \"modifiedFiles\": " ++ toString s.stats.modifiedFiles ++ ",\n" ++
  "  \"unchangedFiles\": " ++ toString s.stats.unchangedFiles ++ ",\n" ++
  "  \"skippedFiles\": " ++ toString s.stats.skippedFiles ++ ",\n" ++
  "  \"hardwareIdentifier\": \"" ++ s.hardwareIdentifier ++ "\",\n" ++
  "  \"compressionEnabled\": " ++ (if s.config.useCompression then "true" else "false") ++ ",\n" ++
  "  \"compressionLevel\": " ++ toString s.config.compressionLevel ++ ",\n" ++
  "  \"encryptionEnabled\": " ++
    (if s.config.encryptionKey.isSome then "true" else "false") ++ "\n" ++
  "\x7d\n"

/-- Model of `BackupEngine::Impl::saveBackupMetadata`: the sidecar is written
when the stream opens; a stream that does not open is logged and nothing is
written. -/
def saveBackupMetadata (backupDir : Path) (s : State) : State :=
  match s.fs.copy_file ((backupInfo s).data.map Char.toNat) (backupDir ++ ["backup-info.json"]) with
  | none => s
  | some fs => { s with fs := fs }

/-- The loop of `backupFiles` over the source paths that are still to come. A
source path at which nothing lies makes the iterator of `backupDirectory`
throw, as a path that is not a directory does. -/
def backupSources (sourcePaths : List Path) (backupDir previousBackupDir : Path) (s : State) :
    Bool × State :=
  match sourcePaths with
  | [] => (true, s)
  | sourcePath :: rest =>
    match backupDirectory sourcePath ((s.source.lookup sourcePath).getD Node.other)
        backupDir sourcePath previousBackupDir s with
    | (false, s) => (false, s)
    | (true, s) =>
      let s := poll s
      if s.cancelRequested then (false, s)
      else backupSources rest backupDir previousBackupDir s

/-- The directory `backupFiles` creates for this run:
`<destination>/backups/<stamp of now>`. -/
def newBackupDir (lib : TimeLib) (s : State) : Path :=
  s.config.destinationPath ++ ["backups", lib.stamp s.now]

/-- The block "Find the previous backup for hard linking if enabled" of
`backupFiles`, on the file system as it is when the block runs. -/
def findPreviousBackupDir (lib : TimeLib) (s : State) : Path :=
  if s.config.useHardLinks then
    match listBackups lib s.fs s.config.destinationPath with
    | [] => []
    | newest :: _ => s.config.destinationPath ++ ["backups", lib.stamp newest]
  else []

/-- The start of `backupFiles`: the destination, its `backups` directory and
the directory of this run are created; `none` when one of the calls throws,
which then, as for `create_directories`, has created nothing. -/
def createBackupDir (lib : TimeLib) (s : State) : Option State :=
  let backupRoot := s.config.destinationPath
  match (if s.fs.pathExists backupRoot then some s.fs
         else s.fs.create_directories backupRoot) with
  | none => none
  | some fs =>
    let backupsDir := backupRoot ++ ["backups"]
    match (if fs.pathExists backupsDir then some fs else fs.create_directories backupsDir) with
    | none => none
    | some fs =>
      match fs.create_directories (newBackupDir lib s) with
      | none => none
      | some fs => some { s with fs := fs }

/-- Model of `BackupEngine::Impl::backupFiles`. -/
def backupFiles (lib : TimeLib) (s : State) : Bool × State :=
  match createBackupDir lib s with
  | none => (false, s)
  | some s =>
    let backupDir := newBackupDir lib s
    let previousBackupDir := findPreviousBackupDir lib s
    match backupSources s.config.sourcePaths backupDir previousBackupDir s with
    | (false, s) => (false, s)
    | (true, s) => (true, saveBackupMetadata backupDir s)

/-- The loop of `verifyBackup`: `n` rounds of a sleep and a look at the
flag. -/
def verifyTicks (n : Nat) (s : State) : Bool × State :=
  match n with
  | 0 => (true, s)
  | n + 1 =>
    let s := poll s
    if s.cancelRequested then (false, s) else verifyTicks n s

/-- Model of `BackupEngine::Impl::verifyBackup`. -/
def verifyBackup (s : State) : Bool × State := verifyTicks 5 s

/-- Model of `BackupEngine::Impl::completeBackup`. -/
def completeBackup (success : Bool) (cancelled : Bool) (s : State) : State :=
  let status :=
    if cancelled then BackupStatus.CANCELLED
    else if success then BackupStatus.COMPLETED
    else BackupStatus.FAILED
  let s := setStatus status s
  notify { s with stats := { s.stats with endTime := some s.now } }

/-- Model of `BackupEngine::Impl::backupThreadFunction`, the worker run from
its start to its end, for a callback that returns from every invocation: no
exception then leaves the `try` block and its handler is not entered. The
worker for a callback that may throw, handler included, is
`Catching.backupThreadFunction`, which equals this one when the callback never
throws (`backupThreadFunction_neverThrows`). -/
def backupThreadFunction (lib : TimeLib) (s : State) : State :=
  let s := setStatus BackupStatus.SCANNING s
  match scanFiles s with
  | (false, s) => completeBackup false false s
  | (true, s) =>
    let s := poll s
    if s.cancelRequested then completeBackup false true s
    else
      let s := setStatus BackupStatus.BACKING_UP s
      match backupFiles lib s with
      | (false, s) => completeBackup false false s
      | (true, s) =>
        let s := poll s
        if s.cancelRequested then completeBackup false true s
        else if s.config.verifyBackup then
          let s := setStatus BackupStatus.VERIFYING s
          match verifyBackup s with
          | (false, s) => completeBackup false false s
          | (true, s) =>
            let s := poll s
            if s.cancelRequested then completeBackup false true s
            else completeBackup true false s
        else completeBackup true false s

/-! ## Notions used to state the properties -/

/-- The step of `mapPush` on the keys alone: a key enters an ascending list of
distinct keys at its place, unless it is there. -/
def insKey {κ : Type} [LinearOrder κ] (ks : List κ) (key : κ) : List κ :=
  match ks with
  | [] => [key]
  | k :: rest =>
    if key < k then key :: k :: rest
    else if key = k then k :: rest
    else k :: insKey rest key

/-- The keys of the map that the grouping loop builds. -/
def sortedKeys {κ : Type} [LinearOrder κ] (key : Nat → κ) (backups : List Nat) : List κ :=
  (backups.map key).foldl insKey []

/-- The map whose keys are `ks` and whose bucket for a key holds the backups
with that key, in catalog order. -/
def bucketsOf {κ : Type} [LinearOrder κ] (key : Nat → κ) (ks : List κ) (backups : List Nat) :
    List (κ × List Nat) :=
  ks.map (fun k => (k, backups.filter (fun b => decide (key b = k))))

/-- The newest member of a bucket: the front of the bucket sorted newest first. -/
def newestOf (v : List Nat) : Option Nat := (v.insertionSort (fun a b => a ≥ b)).head?

/-- The number of distinct keys of the catalog that are smaller than `k`. -/
def keyRank {κ : Type} [LinearOrder κ] (key : Nat → κ) (backups : List Nat) (k : κ) : Nat :=
  ((backups.map key).dedup.filter (fun x => decide (x < k))).length

/-- A snapshot is selected by a pass with bucket key `key` and count `n`: it
is the newest member of its bucket, and fewer than `n` buckets of the catalog
have a smaller key. -/
def SelectedBy {κ : Type} [LinearOrder κ] (key : Nat → κ) (n : Nat) (backups : List Nat)
    (t : Nat) : Prop :=
  t ∈ backups ∧ (∀ b ∈ backups, key b = key t → b ≤ t) ∧ keyRank key backups (key t) < n

/-- The keys of the catalog, each once, in ascending order. -/
def ascendingKeys {κ : Type} [LinearOrder κ] (key : Nat → κ) (backups : List Nat) : List κ :=
  (backups.map key).dedup.insertionSort (fun a b => a ≤ b)

/-- The names of the directories directly below `<destination>/backups`. -/
def snapshotNames (fs : FileSystem) (destination : Path) : List String :=
  match fs.directory_iterator (destination ++ ["backups"]) with
  | none => []
  | some entries =>
    entries.filterMap (fun e => if e.2 = FileType.directory then some e.1 else none)

/-- The name under which an entry shows in the listing of `B`, when it is a directory. -/
def nameBelow (B : Path) (e : Path × FileType) : Option String :=
  (match e.1.getLast? with
    | some name => if e.1.dropLast = B then some (name, e.2) else none
    | none => none).bind (fun x => if x.2 = FileType.directory then some x.1 else none)

/-- The directory of the snapshot taken at `t`. -/
def snapshotDir (lib : TimeLib) (destination : Path) (t : Nat) : Path :=
  destination ++ ["backups", lib.stamp t]

/-- The names of the directories that the deletion loop goes for. -/
def doomedNames (lib : TimeLib) (toKeep backups : List Nat) : List String :=
  (backups.filter (fun t => decide (t ∉ toKeep))).map lib.stamp

/-- Every directory below `<destination>/backups` whose name reads as a time
carries the stamp of that time as its name. -/
@[reducible] def CanonicalNames (lib : TimeLib) (fs : FileSystem) (destination : Path) : Prop :=
  ∀ name ∈ snapshotNames fs destination, ∀ t ∈ lib.get_time name, lib.stamp t = name

/-- The second state differs from the first at most in the statistics, the status, the
cancellation flag, the pending cancel call and the record of callback invocations. -/
def SameWorld (s s' : State) : Prop :=
  s'.fs = s.fs ∧ s'.config = s.config ∧ s'.now = s.now ∧ s'.source = s.source ∧
  s'.progressCallback = s.progressCallback ∧ s'.hardwareIdentifier = s.hardwareIdentifier ∧
  s'.metadataPath = s.metadataPath ∧ s'.backupThread = s.backupThread

/-- The second state has the world of the first, except that the file system may have more
entries at its end and other inode contents. -/
def Grows (s s' : State) : Prop :=
  s.fs.entries <+: s'.fs.entries ∧ s'.config = s.config ∧ s'.now = s.now ∧
  s'.source = s.source ∧ s'.progressCallback = s.progressCallback ∧
  s'.hardwareIdentifier = s.hardwareIdentifier ∧ s'.metadataPath = s.metadataPath ∧
  s'.backupThread = s.backupThread

/-- The state in which the worker calls `backupFiles`, when it gets that far: the scan is
done, the flag was read once more, and the status is BACKING_UP. -/
def backupPhaseEntry (s : State) : State :=
  setStatus BackupStatus.BACKING_UP (poll (scanFiles (setStatus BackupStatus.SCANNING s)).2)

/-! ## Concrete inputs -/

/-- A catalog of four snapshots: 2024-01-03 00:00, 2024-01-02 00:00, 2024-01-01 12:00 and
2024-01-01 00:00 (UTC), newest first. -/
def cat4 : List Nat := [1704240000, 1704153600, 1704110400, 1704067200]

/-- A destination `/mnt` with four snapshot directories, one of them holding a file, and a
directory whose name is not a timestamp. -/
def fsW : FileSystem := { entries := [(["mnt"], .directory), (["mnt","backups"], .directory),
  (["mnt","backups","20240101-000000"], .directory), (["mnt","backups","20240101-120000"], .directory),
  (["mnt","backups","20240101-120000", "A"], .regular 0),
  (["mnt","backups","20240102-000000"], .directory), (["mnt","backups","20240103-000000"], .directory),
  (["mnt","backups","junk"], .directory)], inodes := [[1,2,3]] }

/-- The source tree of the scenario: files A, B and C of 100 bytes each. -/
def sourceABC : Node :=
  Node.dir [("A", Node.file (List.replicate 100 1)), ("B", Node.file (List.replicate 100 2)),
    ("C", Node.file (List.replicate 100 3))]

/-- The source tree of the scenario after the content of B was changed. -/
def sourceABC2 : Node :=
  Node.dir [("A", Node.file (List.replicate 100 1)), ("B", Node.file (List.replicate 100 7)),
    ("C", Node.file (List.replicate 100 3))]

/-- The configuration of the scenario: source `/home`, destination `/mnt`, hard links on, no
exclusions, no verification phase. -/
def scenarioConfig : BackupConfig :=
  { sourcePaths := [["home"]], destinationPath := ["mnt"], useHardLinks := true,
    verifyBackup := false }

/-- The engine before the first run, at 2024-01-01 00:00:00 UTC, with an empty destination. -/
def beforeRun1 : State := { source := [(["home"], sourceABC)], now := 1704067200 }

/-- The engine after the first run of the scenario. -/
def afterRun1 : State :=
  backupThreadFunction utc (started scenarioConfig (some 1) beforeRun1)

/-- The engine of a new process before the second run, a day later, B changed, on the file
system that the first run left. -/
def beforeRun2 : State :=
  { source := [(["home"], sourceABC2)], now := 1704153600, fs := afterRun1.fs }

/-- The engine after the second run of the scenario. -/
def afterRun2 : State :=
  backupThreadFunction utc (started scenarioConfig (some 1) beforeRun2)

/-- The worker of a first run during which `cancelBackup` is called while file A is backed up:
the call lands before the sixth read of the flag, the first one of the backup phase. -/
def cancelledStart : State :=
  started scenarioConfig (some 1) { beforeRun1 with cancelIn := some 5 }

/-- A file system with a complete snapshot of 2024-01-01 holding the file `A` with bytes 1, 2, 3,
and the empty directory of a snapshot of 2024-01-02 under way. -/
def fsBaseline : FileSystem :=
  { entries := [(["mnt"], FileType.directory), (["mnt", "backups"], FileType.directory),
      (["mnt", "backups", "20240101-000000"], FileType.directory),
      (["mnt", "backups", "20240101-000000", "A"], FileType.regular 0),
      (["mnt", "backups", "20240102-000000"], FileType.directory)],
    inodes := [[1, 2, 3]] }

/-- A destination `/mnt` with the snapshot of 2024-01-01 and a snapshot of 2024-01-02 whose
directory was renamed by hand to `20240102-000000-old`; the name still reads as a time. -/
def fsRenamed : FileSystem :=
  { entries := [(["mnt"], FileType.directory), (["mnt", "backups"], FileType.directory),
      (["mnt", "backups", "20240101-000000"], FileType.directory),
      (["mnt", "backups", "20240102-000000-old"], FileType.directory)] }

/-- A file system in which the baseline of 2024-01-01 holds a directory `notes` where the
source now has a regular file `notes`. -/
def fsBaselineDirectory : FileSystem :=
  { entries := [(["mnt"], FileType.directory), (["mnt", "backups"], FileType.directory),
      (["mnt", "backups", "20240101-000000"], FileType.directory),
      (["mnt", "backups", "20240101-000000", "notes"], FileType.directory),
      (["mnt", "backups", "20240102-000000"], FileType.directory)] }

/-! ## Notions and inputs for the control calls, the phases and the exclusions -/

/-- The state that `startBackup` leaves when it returns true: statistics with every counter at
zero, no end time and the start time read from the clock, the configuration and the callback
of the call, status SCANNING, and one more worker thread. -/
def startedState (config : BackupConfig) (progressCallback : Option Nat) (s : State) : State :=
  { s with
    stats := { totalFiles := 0, totalDirectories := 0, totalSize := 0, processedFiles := 0,
               processedSize := 0, newFiles := 0, modifiedFiles := 0, unchangedFiles := 0,
               skippedFiles := 0, startTime := s.now, endTime := none, dedupSavings := 0 },
    config := config, progressCallback := progressCallback,
    status := BackupStatus.SCANNING, backupThread := s.backupThread + 1 }

/-- The worker of a first run during which `cancelBackup` is called while the scan walks the
source: the call lands before the first read of the flag, the one after file A was counted. -/
def cancelledInScan : State :=
  started scenarioConfig (some 1) { beforeRun1 with cancelIn := some 0 }

/-- The worker of a first run during which `cancelBackup` is called when the scan has walked
the source root: the call lands before the fourth read of the flag, the one of `scanFiles`. -/
def cancelledAfterRoot : State :=
  started scenarioConfig (some 1) { beforeRun1 with cancelIn := some 3 }

/-- The worker of a first run with the verification phase enabled, during which `cancelBackup`
is called in the first round of `verifyBackup`: the call lands before the eleventh read of the
flag. -/
def cancelledInVerify : State :=
  started { scenarioConfig with verifyBackup := true } (some 1)
    { beforeRun1 with cancelIn := some 10 }

/-- A relation between the state before and the state after a stretch of the worker that
holds of every step the phases are made of: a read of the flag, an invocation of the callback,
an update of the statistics, an update of the file system. -/
structure PhaseInvariant (R : State → State → Prop) : Prop where
  same : ∀ s, R s s
  andThen : ∀ a b c, R a b → R b c → R a c
  ofPoll : ∀ s, R s (poll s)
  ofNotify : ∀ s, R s (notify s)
  ofStats : ∀ s stats, R s { s with stats := stats }
  ofFs : ∀ s fs, R s { s with fs := fs }

/-- The second state is one that a phase reaches from the first: status, log of statuses,
configuration, callback, clock and thread count are the same, a flag that was set is still
set, and the callback was invoked, if at all, with the status of the phase. -/
def WithinPhase (s s' : State) : Prop :=
  s'.status = s.status ∧ s'.statusLog = s.statusLog ∧ s'.config = s.config ∧
  s'.progressCallback = s.progressCallback ∧ s'.backupThread = s.backupThread ∧
  s'.now = s.now ∧ (s.cancelRequested = true → s'.cancelRequested = true) ∧
  ∃ pre, s'.calls = s.calls ++ pre ∧ (s.progressCallback = none → pre = []) ∧
    ∀ c ∈ pre, c.1 = s.status

/-- Whether the scan phase of the worker started in `s` returns true. -/
def scanOk (s : State) : Bool := (scanFiles (setStatus BackupStatus.SCANNING s)).1

/-- The state in which the worker reads the flag after the scan phase. -/
def afterScan (s : State) : State := poll (scanFiles (setStatus BackupStatus.SCANNING s)).2

/-- Whether the backup phase of the worker started in `s` returns true, when the worker gets
that far. -/
def backupOk (lib : TimeLib) (s : State) : Bool := (backupFiles lib (backupPhaseEntry s)).1

/-- The state in which the worker reads the flag after the backup phase. -/
def afterBackup (lib : TimeLib) (s : State) : State :=
  poll (backupFiles lib (backupPhaseEntry s)).2

/-- The state in which the worker calls `verifyBackup`, when it gets that far. -/
def verifyPhaseEntry (lib : TimeLib) (s : State) : State :=
  setStatus BackupStatus.VERIFYING (afterBackup lib s)

/-- Whether the verification phase of the worker started in `s` returns true, when the
worker gets that far. -/
def verifyOk (lib : TimeLib) (s : State) : Bool := (verifyBackup (verifyPhaseEntry lib s)).1

/-- The state in which the worker reads the flag after the verification phase. -/
def afterVerify (lib : TimeLib) (s : State) : State :=
  poll (verifyBackup (verifyPhaseEntry lib s)).2

/-- The statuses that the worker started in `s` assigns, in order. -/
def workerStatuses (lib : TimeLib) (s : State) : List BackupStatus :=
  (backupThreadFunction lib s).statusLog.drop s.statusLog.length

/-- The statuses of a run as a table, from what the three phases returned, what the reads of
the flag after them found, and whether verification is enabled. -/
def runStatuses (scanOk flag1 backupOk flag2 verify verifyOk flag3 : Bool) :
    List BackupStatus :=
  if scanOk = false then [BackupStatus.SCANNING, BackupStatus.FAILED]
  else if flag1 = true then [BackupStatus.SCANNING, BackupStatus.CANCELLED]
  else if backupOk = false then
    [BackupStatus.SCANNING, BackupStatus.BACKING_UP, BackupStatus.FAILED]
  else if flag2 = true then
    [BackupStatus.SCANNING, BackupStatus.BACKING_UP, BackupStatus.CANCELLED]
  else if verify = false then
    [BackupStatus.SCANNING, BackupStatus.BACKING_UP, BackupStatus.COMPLETED]
  else if verifyOk = false then
    [BackupStatus.SCANNING, BackupStatus.BACKING_UP, BackupStatus.VERIFYING,
      BackupStatus.FAILED]
  else if flag3 = true then
    [BackupStatus.SCANNING, BackupStatus.BACKING_UP, BackupStatus.VERIFYING,
      BackupStatus.CANCELLED]
  else
    [BackupStatus.SCANNING, BackupStatus.BACKING_UP, BackupStatus.VERIFYING,
      BackupStatus.COMPLETED]

/-- The worker of a first run of the scenario with the verification phase enabled. -/
def verifiedStart : State :=
  started { scenarioConfig with verifyBackup := true } (some 1) beforeRun1

/-- The second state is one that a run started in the first has reached: callback, clock and
thread count are the same, and the callback was invoked, if at all, with the status of a
phase. -/
def RunPrefix (s s' : State) : Prop :=
  s'.progressCallback = s.progressCallback ∧ s'.now = s.now ∧
  s'.backupThread = s.backupThread ∧
  ∃ pre, s'.calls = s.calls ++ pre ∧ (s.progressCallback = none → pre = []) ∧
    ∀ c ∈ pre, c.1 = BackupStatus.SCANNING ∨ c.1 = BackupStatus.BACKING_UP ∨
      c.1 = BackupStatus.VERIFYING

/-- The status is that of a phase. -/
def InPhase (s : State) : Prop :=
  s.status = BackupStatus.SCANNING ∨ s.status = BackupStatus.BACKING_UP ∨
    s.status = BackupStatus.VERIFYING

mutual
/-- Every entry that lies below `node` at `path`, with its path; a directory comes before
what lies below it. -/
def entriesBelow (path : Path) (node : Node) : List (Path × Node) :=
  match node with
  | Node.dir entries => entriesOf path entries
  | _ => []
/-- The entries of a listing of the directory `path`, each followed by what lies below it. -/
def entriesOf (path : Path) (entries : List (String × Node)) : List (Path × Node) :=
  match entries with
  | [] => []
  | (name, node) :: rest =>
    (path ++ [name], node) :: (entriesBelow (path ++ [name]) node ++ entriesOf path rest)
end

/-- What `entry.is_regular_file()` returns. -/
def isRegularFile (node : Node) : Bool :=
  match node with
  | Node.file _ => true
  | _ => false

/-- What `entry.is_directory()` returns. -/
def isDirectory (node : Node) : Bool :=
  match node with
  | Node.dir _ => true
  | _ => false

/-- The size of a regular file, 0 for anything else. -/
def fileSize (node : Node) : Nat :=
  match node with
  | Node.file bytes => bytes.length
  | _ => 0

/-- The entry at `p` below the source root `root` is not excluded and lies under no excluded
directory: no path from `p` up to the root, the root itself left out, contains an exclude
pattern. -/
def isCounted (excludePatterns : List String) (root p : Path) : Bool :=
  (p.inits.filter (fun q => decide (root.length < q.length))).all
    (fun q => !isExcluded excludePatterns q)

/-- The entries below a source root that are not excluded and lie under no excluded
directory. -/
def keptBelow (excludePatterns : List String) (root : Path) (node : Node) :
    List (Path × Node) :=
  (entriesBelow root node).filter (fun e => isCounted excludePatterns root e.1)

/-- The entries below the source roots of the configuration that are not excluded and lie
under no excluded directory, root by root. -/
def keptEntries (s : State) : List (Path × Node) :=
  s.config.sourcePaths.flatMap (fun root =>
    keptBelow s.config.excludePatterns root ((s.source.lookup root).getD Node.other))

/-- The statistics with the entries of `l` added to the totals: the regular files to
`totalFiles`, their sizes to `totalSize`, the directories to `totalDirectories`. -/
def addTotals (stats : BackupStats) (l : List (Path × Node)) : BackupStats :=
  { stats with
    totalFiles := stats.totalFiles + l.countP (fun e => isRegularFile e.2),
    totalSize := stats.totalSize + (l.map (fun e => fileSize e.2)).sum,
    totalDirectories := stats.totalDirectories + l.countP (fun e => isDirectory e.2) }

/-- A source tree with a directory `cache` holding two files, a file `notes` and a directory
`docs` holding one file. -/
def sourceWithCache : Node :=
  Node.dir [("cache", Node.dir [("x", Node.file [1, 2]), ("y", Node.file [3])]),
    ("notes", Node.file [4, 5, 6]),
    ("docs", Node.dir [("a", Node.file [7, 8, 9, 10])])]

/-- The engine before a run over `sourceWithCache` that excludes the pattern `cache`. -/
def beforeRunWithCache : State :=
  { source := [(["home"], sourceWithCache)], now := 1704067200,
    config := { scenarioConfig with excludePatterns := ["cache"] } }

/-- No cancellation is under way: the flag is clear and no call of `cancelBackup` is
pending. When that holds of the first state it holds of the second, which has the same
sources and configuration. -/
def StaysUncancelled (s s' : State) : Prop :=
  (s.cancelRequested = false ∧ s.cancelIn = none →
    s'.cancelRequested = false ∧ s'.cancelIn = none) ∧
  s'.source = s.source ∧ s'.config = s.config

/-- The entry at `p` below the source root `root` is one that the walk skips: it is excluded,
and the directory it lies in is the root or is counted. -/
def isSkipped (excludePatterns : List String) (root p : Path) : Bool :=
  isExcluded excludePatterns p && isCounted excludePatterns root p.dropLast

/-- The entries below a source root that are excluded and lie under no excluded directory. -/
def skippedBelow (excludePatterns : List String) (root : Path) (node : Node) :
    List (Path × Node) :=
  (entriesBelow root node).filter (fun e => isSkipped excludePatterns root e.1)

/-- The entries below the source roots of the configuration that are excluded and lie under
no excluded directory, root by root. -/
def skippedEntries (s : State) : List (Path × Node) :=
  s.config.sourcePaths.flatMap (fun root =>
    skippedBelow s.config.excludePatterns root ((s.source.lookup root).getD Node.other))

/-- Every entry of the second file system is an entry of the first or lies at a path of
`A`. -/
def AddsOnly (A : Path → Prop) (fs fs' : FileSystem) : Prop :=
  ∀ e ∈ fs'.entries, e ∈ fs.entries ∨ A e.1

/-- The paths that the walk of the source directory `basePath ++ rel` may create when it
mirrors into `backupDir`: the mirror of that directory, and the mirror of every path below
that directory that contains no exclude pattern, each with the directories above it. The
mirror of a source path is `backupDir / relative(path, basePath)`. -/
def MirrorsVisited (s : State) (backupDir basePath rel : Path) (q : Path) : Prop :=
  q <+: joinRelative backupDir (relative s (basePath ++ rel) basePath) ∨
  ∃ r, r ≠ [] ∧ q <+: joinRelative backupDir (relative s (basePath ++ rel ++ r) basePath) ∧
    isExcluded s.config.excludePatterns (basePath ++ rel ++ r) = false

/-- The paths that the backup phase may create: the directory `backupDir` of the run and the
directories above it, the sidecar, and the mirror of every path below a source root that
contains no exclude pattern, with the directories above that mirror. -/
def MirrorsRoots (s : State) (sourcePaths : List Path) (backupDir : Path) (q : Path) : Prop :=
  q <+: backupDir ∨ q = backupDir ++ ["backup-info.json"] ∨
  ∃ root ∈ sourcePaths, ∃ r, r ≠ [] ∧
    q <+: joinRelative backupDir (relative s (root ++ r) root) ∧
    isExcluded s.config.excludePatterns (root ++ r) = false

/-- The source side resolves symbolic links in the second state as in the first. -/
def SameLinks (s s' : State) : Prop := s'.weakly_canonical = s.weakly_canonical

/-- A source tree with a directory `cache` holding two files, and a file `notes`. -/
def sourceCacheNotes : Node :=
  Node.dir [("cache", Node.dir [("x", Node.file [1, 2]), ("y", Node.file [3])]),
    ("notes", Node.file [4, 5, 6])]

/-- The counters of the backup phase are the same in both statistics. -/
def SameProgress (st st' : BackupStats) : Prop :=
  st'.processedFiles = st.processedFiles ∧ st'.processedSize = st.processedSize ∧
  st'.newFiles = st.newFiles ∧ st'.modifiedFiles = st.modifiedFiles ∧
  st'.unchangedFiles = st.unchangedFiles ∧ st'.skippedFiles = st.skippedFiles

/-- The second state is reached from the first without an invocation of the callback and
without a change to the counters of the backup phase. -/
def Quiet (s s' : State) : Prop :=
  s'.calls = s.calls ∧ SameProgress s.stats s'.stats

/-- A flag that is set in the first state is set in the second. -/
def FlagStays (s s' : State) : Prop :=
  s.cancelRequested = true → s'.cancelRequested = true

/-- The engine of the scenario before a run, with the cancellation flag left set by an earlier
accepted `cancelBackup`. -/
def flaggedStart : State :=
  started scenarioConfig (some 1) { beforeRun1 with cancelRequested := true }

/-- The worker of a run whose second source path does not exist. -/
def missingSourceStart : State :=
  started { scenarioConfig with sourcePaths := [["home"], ["nowhere"]] } (some 1) beforeRun1

/-- Type `ScheduleType` of config.hpp. -/
inductive ScheduleType where
  | HOURLY
  | DAILY
  | WEEKLY
  | MONTHLY
  | CUSTOM
  deriving DecidableEq, Repr

/-- Type `ScheduleConfig` of config.hpp; the start time in seconds, the interval in hours. -/
structure ScheduleConfig where
  type : ScheduleType := ScheduleType.DAILY
  startTime : Nat := 0
  interval : Int := 24
  dayOfWeek : Int := 1
  dayOfMonth : Int := 1
  enabled : Bool := true
  deriving DecidableEq, Repr

/-- Type `RetentionPolicy` of config.hpp. -/
structure RetentionPolicy where
  keepDaily : Int := 7
  keepWeekly : Int := 4
  keepMonthly : Int := 12
  keepYearly : Int := 5
  autoDelete : Bool := true
  deriving DecidableEq, Repr

/-- Type `BackupProfile` of config.hpp. -/
structure BackupProfile where
  name : String := ""
  sourcePaths : List Path := []
  destinationPath : Path := []
  excludePatterns : List String := []
  useCompression : Bool := false
  compressionLevel : Int := 6
  useEncryption : Bool := false
  encryptionMethod : String := ""
  verifyBackup : Bool := true
  useHardLinks : Bool := true
  threadCount : Int := 0
  schedule : ScheduleConfig := {}
  retention : RetentionPolicy := {}
  deriving DecidableEq, Repr

/-- The members of `Config::Impl` that `saveProfile` and the getters use, with the file
system. -/
structure ConfigState where
  profilesDir : Path := []
  profiles : List BackupProfile := []
  fs : FileSystem := {}

/-- The local `profileId` of `saveProfile`: the name with every space replaced by an underscore
and every character erased that is neither alphanumeric nor `_` nor `-`. -/
def sanitizedId (name : String) : String :=
  String.mk ((name.data.map (fun c => if c = ' ' then '_' else c)).filter
    (fun c => !(!c.isAlphanum && c != '_' && c != '-')))

/-- The update of the vector `profiles` in `saveProfile`: `std::find_if` for the first entry
whose name is `profileId`; that entry is assigned the profile, and when there is none the
profile is pushed at the back. -/
def updateProfiles (profiles : List BackupProfile) (profileId : String)
    (profile : BackupProfile) : List BackupProfile :=
  match profiles with
  | [] => [profile]
  | p :: rest =>
    if p.name = profileId then profile :: rest
    else p :: updateProfiles rest profileId profile

/-- Model of `Config::Impl::saveProfile`. The text that `write_json` produces for the
property tree of a profile is the parameter `json`; a call in which `create_directories` or
`write_json` throws returns false. -/
def saveProfile (json : BackupProfile → List Nat) (profile : BackupProfile)
    (c : ConfigState) : Bool × ConfigState :=
  let profileId := sanitizedId profile.name
  let profilePath := c.profilesDir ++ [profileId ++ ".json"]
  match c.fs.create_directories c.profilesDir with
  | none => (false, c)
  | some fs =>
    match fs.copy_file (json profile) profilePath with
    | none => (false, { c with fs := fs })
    | some fs =>
      (true, { c with fs := fs, profiles := updateProfiles c.profiles profileId profile })

/-- Model of `Config::Impl::getAllBackupProfiles`. -/
def getAllBackupProfiles (c : ConfigState) : List BackupProfile := c.profiles

/-- Model of `Config::Impl::getBackupProfile`. -/
def getBackupProfile (profileId : String) (c : ConfigState) : Option BackupProfile :=
  c.profiles.find? (fun profile => decide (profile.name = profileId))

/-- A configuration without profiles, its directory `/etc/utm/profiles`. -/
def emptyConfig : ConfigState := { profilesDir := ["etc", "utm", "profiles"] }

/-- A profile named `My Backup`. -/
def myBackup : BackupProfile := { name := "My Backup", sourcePaths := [["home"]] }

/-- The profile `My Backup` with compression switched on. -/
def myBackupCompressed : BackupProfile := { myBackup with useCompression := true }

/-- The number of entries directly in the source roots of the configuration, root by
root. -/
def topLevelCount (s : State) : Nat :=
  (s.config.sourcePaths.map (fun root =>
    match (s.source.lookup root).getD Node.other with
    | Node.dir entries => entries.length
    | _ => 0)).sum

/-- The engine before a run over `sourceCacheNotes` whose exclude patterns hold the empty
string. -/
def beforeRunEmptyPattern : State :=
  { source := [(["home"], sourceCacheNotes)], now := 1704067200,
    config := { scenarioConfig with excludePatterns := [""] } }

/-- The engine in which the worker of the run with the empty pattern calls `backupFiles`. -/
def emptyPatternPhaseEntry : State :=
  backupPhaseEntry (started beforeRunEmptyPattern.config (some 1) beforeRunEmptyPattern)

/-- From the first statistics to the second, `k` files were processed: `processedFiles` has
grown by `k`, so has the sum of `modifiedFiles` and `unchangedFiles`, and `newFiles` is the
same. -/
def Advanced (st st' : BackupStats) (k : Nat) : Prop :=
  st'.processedFiles = st.processedFiles + k ∧ st'.newFiles = st.newFiles ∧
  st'.modifiedFiles + st'.unchangedFiles = st.modifiedFiles + st.unchangedFiles + k

/-- The totals of the scan are the same in both statistics. -/
def SameTotals (st st' : BackupStats) : Prop :=
  st'.totalFiles = st.totalFiles ∧ st'.totalSize = st.totalSize ∧
  st'.totalDirectories = st.totalDirectories

/-- What a call of `backupFile` does to the engine besides the file system: nothing when it
returns false; when it returns true, one of `modifiedFiles` and `unchangedFiles` is
incremented and nothing else changes. -/
def FileOutcome (s : State) (r : Bool × State) : Prop :=
  r.2.calls = s.calls ∧ r.2.status = s.status ∧ r.2.progressCallback = s.progressCallback ∧
  (r.1 = false → r.2.stats = s.stats) ∧
  (r.1 = true →
    r.2.stats = { s.stats with modifiedFiles := s.stats.modifiedFiles + 1 } ∨
    r.2.stats = { s.stats with unchangedFiles := s.stats.unchangedFiles + 1 })

/-- The second state is one that the backup walk reaches from the first: status, callback
and the totals of the scan are the same, some number `k` of files were processed, and the
callback, when there is one, was invoked `k` times, the `i`-th time with the status of the
phase and with statistics in which `i` files were processed. -/
def BackupTally (s s' : State) : Prop :=
  s'.status = s.status ∧ s'.progressCallback = s.progressCallback ∧
  SameTotals s.stats s'.stats ∧
  ∃ k, Advanced s.stats s'.stats k ∧ ∃ L, s'.calls = s.calls ++ L ∧
    (s.progressCallback = none → L = []) ∧ (s.progressCallback ≠ none → L.length = k) ∧
    ∀ i c, L[i]? = some c → c.1 = s.status ∧ Advanced s.stats c.2 (i + 1)

/-- The second state is one that a run reaches from the first: some number of files were
processed, and every invocation of the callback in between got statistics in which some
number of files were processed. -/
def KeepsBalance (s s' : State) : Prop :=
  ∃ k, Advanced s.stats s'.stats k ∧ ∃ L, s'.calls = s.calls ++ L ∧
    ∀ c ∈ L, ∃ i, Advanced s.stats c.2 i

/-- The statistics in which every processed file is counted under exactly one outcome. -/
def Balanced (st : BackupStats) : Prop :=
  st.processedFiles = st.newFiles + st.modifiedFiles + st.unchangedFiles

/-- A call that the backup walk makes: the recursive call of `backupDirectory` on a
directory entry, or the call of `backupFile` on a regular file of the given size, with what
it returned. -/
inductive WalkEvent where
  | recursed (dir : Path)
  | filed (file : Path) (size : Nat) (ok : Bool)
  deriving DecidableEq, Repr

/-- The event is a call of `backupFile` that returned true. -/
def WalkEvent.isOk : WalkEvent → Bool
  | WalkEvent.filed _ _ true => true
  | _ => false

/-- The size of the file of a call of `backupFile` that returned true, 0 for any other
event. -/
def WalkEvent.okSize : WalkEvent → Nat
  | WalkEvent.filed _ n true => n
  | _ => 0

/-- The event is a call of `backupFile` that returned false. -/
def WalkEvent.isFailure : WalkEvent → Bool
  | WalkEvent.filed _ _ false => true
  | _ => false

/-- The event is a recursive call of `backupDirectory`. -/
def WalkEvent.isRecursed : WalkEvent → Bool
  | WalkEvent.recursed _ => true
  | _ => false

mutual
/-- The calls that `backupDirectory` makes, in order: the control flow is that of
`backupDirectory`. -/
def traceDirectory (sourcePath : Path) (node : Node)
    (backupDir basePath previousBackupDir : Path) (s : State) : List WalkEvent :=
  let relativePath := relative s sourcePath basePath
  let destPath := joinRelative backupDir relativePath
  match (if s.fs.pathExists destPath then some s.fs else s.fs.create_directories destPath) with
  | none => []
  | some fs =>
    match node with
    | Node.dir entries =>
      traceEntries sourcePath entries backupDir basePath previousBackupDir { s with fs := fs }
    | _ => []
/-- The calls that the loop of `backupDirectory` makes over the entries that are still to
come, in order: the control flow is that of `backupEntries`. -/
def traceEntries (sourcePath : Path) (entries : List (String × Node))
    (backupDir basePath previousBackupDir : Path) (s : State) : List WalkEvent :=
  match entries with
  | [] => []
  | (name, Node.dir sub) :: rest =>
    if isExcluded s.config.excludePatterns (sourcePath ++ [name]) then
      traceEntries sourcePath rest backupDir basePath previousBackupDir
        { s with stats := { s.stats with skippedFiles := s.stats.skippedFiles + 1 } }
    else
      WalkEvent.recursed (sourcePath ++ [name]) ::
        (traceDirectory (sourcePath ++ [name]) (Node.dir sub) backupDir basePath
            previousBackupDir s ++
          match backupDirectory (sourcePath ++ [name]) (Node.dir sub) backupDir basePath
              previousBackupDir s with
          | (false, _) => []
          | (true, s) =>
            let s := poll s
            if s.cancelRequested then []
            else traceEntries sourcePath rest backupDir basePath previousBackupDir s)
  | (name, Node.file bytes) :: rest =>
    if isExcluded s.config.excludePatterns (sourcePath ++ [name]) then
      traceEntries sourcePath rest backupDir basePath previousBackupDir
        { s with stats := { s.stats with skippedFiles := s.stats.skippedFiles + 1 } }
    else
      match backupFile (sourcePath ++ [name]) bytes backupDir basePath previousBackupDir s with
      | (false, _) => [WalkEvent.filed (sourcePath ++ [name]) bytes.length false]
      | (true, s) =>
        let s := { s with stats := { s.stats with
                    processedFiles := s.stats.processedFiles + 1,
                    processedSize := s.stats.processedSize + bytes.length } }
        let s := poll (notify s)
        WalkEvent.filed (sourcePath ++ [name]) bytes.length true ::
          (if s.cancelRequested then []
           else traceEntries sourcePath rest backupDir basePath previousBackupDir s)
  | (name, Node.other) :: rest =>
    if isExcluded s.config.excludePatterns (sourcePath ++ [name]) then
      traceEntries sourcePath rest backupDir basePath previousBackupDir
        { s with stats := { s.stats with skippedFiles := s.stats.skippedFiles + 1 } }
    else
      let s := poll s
      if s.cancelRequested then []
      else traceEntries sourcePath rest backupDir basePath previousBackupDir s
end

/-- The calls that the loop of `backupFiles` makes over the source paths that are still to
come, in order: the control flow is that of `backupSources`. -/
def traceSources (sourcePaths : List Path) (backupDir previousBackupDir : Path) (s : State) :
    List WalkEvent :=
  match sourcePaths with
  | [] => []
  | sourcePath :: rest =>
    traceDirectory sourcePath ((s.source.lookup sourcePath).getD Node.other)
        backupDir sourcePath previousBackupDir s ++
      match backupDirectory sourcePath ((s.source.lookup sourcePath).getD Node.other)
          backupDir sourcePath previousBackupDir s with
      | (false, _) => []
      | (true, s) =>
        let s := poll s
        if s.cancelRequested then []
        else traceSources rest backupDir previousBackupDir s

/-- The calls that `backupFiles` makes, in order. -/
def traceFiles (lib : TimeLib) (s : State) : List WalkEvent :=
  match createBackupDir lib s with
  | none => []
  | some s =>
    traceSources s.config.sourcePaths (newBackupDir lib s) (findPreviousBackupDir lib s) s

/-- The calls that the backup phase of the worker started in `s` makes, in order; none when
the worker does not get as far as the backup phase. -/
def runTrace (lib : TimeLib) (s : State) : List WalkEvent :=
  if scanOk s = true ∧ (afterScan s).cancelRequested = false then
    traceFiles lib (backupPhaseEntry s)
  else []

/-- The calls that a walk makes which meets the entries of `l`, in order, when every call
of `backupFile` returns true. -/
def specTrace (l : List (Path × Node)) : List WalkEvent :=
  l.filterMap (fun e =>
    match e.2 with
    | Node.dir _ => some (WalkEvent.recursed e.1)
    | Node.file bytes => some (WalkEvent.filed e.1 bytes.length true)
    | Node.other => none)

/-- No call of `backupFile` in the list returned false. -/
def NoFailure (T : List WalkEvent) : Prop := ∀ x ∈ T, x.isFailure = false

/-- A walk with the calls `T` that returned `ok` stopped at the first call of `backupFile`
that returned false: there is none, or the walk returned false and the call is the last
one. -/
def FailFast (T : List WalkEvent) (ok : Bool) : Prop :=
  NoFailure T ∨ (ok = false ∧ ∃ pre e, T = pre ++ [e] ∧ NoFailure pre ∧ e.isFailure = true)

/-- The walk that started in `s`, returned `r` and made the calls `T`, `K` being the entries
it is to meet: the counters of processed files and sizes have grown by the calls of
`backupFile` that returned true, configuration and sources are the same, the walk stopped at
the first failure, and a walk that returned true made the calls for the entries of `K`. -/
def Traced (s : State) (r : Bool × State) (T : List WalkEvent) (K : List (Path × Node)) :
    Prop :=
  r.2.stats.processedFiles = s.stats.processedFiles + T.countP WalkEvent.isOk ∧
  r.2.stats.processedSize = s.stats.processedSize + (T.map WalkEvent.okSize).sum ∧
  r.2.config = s.config ∧ r.2.source = s.source ∧
  FailFast T r.1 ∧ (r.1 = true → T = specTrace K)

/-- A destination in which a directory stands where the run of the scenario is to write the
file B. -/
def fsBlockedB : FileSystem :=
  { entries := [(["mnt"], FileType.directory), (["mnt", "backups"], FileType.directory),
      (["mnt", "backups", "20240101-000000"], FileType.directory),
      (["mnt", "backups", "20240101-000000", "B"], FileType.directory)] }

/-- The worker of a run of the scenario on the destination `fsBlockedB`. -/
def blockedStart : State :=
  started scenarioConfig (some 1) { beforeRun1 with fs := fsBlockedB }

/-- The worker of a run over `sourceCacheNotes` that excludes the pattern `x`: the directory
`cache` is kept, of its files only `y`. -/
def keptCacheStart : State :=
  started { scenarioConfig with excludePatterns := ["x"] } (some 1)
    { source := [(["home"], sourceCacheNotes)], now := 1704067200 }

/-- A source tree in which the directory `cache` holds a file `x`, and `data` is a symbolic
link to `cache`: the iterator finds a directory at `data`, with the entries of `cache`. -/
def sourceLinked : Node :=
  Node.dir [("cache", Node.dir [("x", Node.file [1, 2])]),
    ("data", Node.dir [("x", Node.file [1, 2])])]

/-- What `weakly_canonical` returns on the source side of `sourceLinked`: a path through the
link `/home/data` is the path through `/home/cache`. -/
def linkedCanonical (p : Path) : Path :=
  if ["home", "data"] <+: p then ["home", "cache"] ++ p.drop 2 else p

/-- The engine before a run over `sourceLinked` that excludes the pattern `cache`. -/
def beforeRunLinked : State :=
  { source := [(["home"], sourceLinked)], now := 1704067200,
    config := { scenarioConfig with excludePatterns := ["cache"] },
    weakly_canonical := linkedCanonical }

/-- The engine in which the worker of the run over `sourceLinked` calls `backupFiles`. -/
def linkedPhaseEntry : State :=
  backupPhaseEntry (started beforeRunLinked.config (some 1) beforeRunLinked)

/-- The statement `if (progressCallback) progressCallback(status, stats)` for a callback
that may throw: `throws status stats` tells whether the callback throws when it is invoked
with these arguments. The result is whether the invocation threw, and the engine after
it. -/
def Catching.invoke (throws : BackupStatus → BackupStats → Bool) (s : State) : Bool × State :=
  (s.progressCallback.isSome && throws s.status s.stats, notify s)

/-- Model of `BackupEngine::Impl::scanFiles` for a callback that may throw: the exception
of the callback is caught by the `catch` of `scanFiles`, which returns false. -/
def Catching.scanFiles (throws : BackupStatus → BackupStats → Bool) (s : State) :
    Bool × State :=
  match scanSources s.config.sourcePaths s with
  | (false, s) => (false, s)
  | (true, s) =>
    match Catching.invoke throws s with
    | (true, s) => (false, s)
    | (false, s) => (true, s)

mutual
/-- Model of `BackupEngine::Impl::backupDirectory` for a callback that may throw. -/
def Catching.backupDirectory (throws : BackupStatus → BackupStats → Bool)
    (sourcePath : Path) (node : Node)
    (backupDir basePath previousBackupDir : Path) (s : State) : Bool × State :=
  let relativePath := relative s sourcePath basePath
  let destPath := joinRelative backupDir relativePath
  match (if s.fs.pathExists destPath then some s.fs else s.fs.create_directories destPath) with
  | none => (false, s)
  | some fs =>
    match node with
    | Node.dir entries =>
      Catching.backupEntries throws sourcePath entries backupDir basePath previousBackupDir
        { s with fs := fs }
    | _ => (false, { s with fs := fs })
/-- The loop of `backupDirectory` over the entries that are still to come, for a callback
that may throw: the exception of the callback is caught by the `catch` of
`backupDirectory`, which returns false. -/
def Catching.backupEntries (throws : BackupStatus → BackupStats → Bool)
    (sourcePath : Path) (entries : List (String × Node))
    (backupDir basePath previousBackupDir : Path) (s : State) : Bool × State :=
  match entries with
  | [] => (true, s)
  | (name, Node.dir sub) :: rest =>
    if isExcluded s.config.excludePatterns (sourcePath ++ [name]) then
      Catching.backupEntries throws sourcePath rest backupDir basePath previousBackupDir
        { s with stats := { s.stats with skippedFiles := s.stats.skippedFiles + 1 } }
    else
      match Catching.backupDirectory throws (sourcePath ++ [name]) (Node.dir sub) backupDir
          basePath previousBackupDir s with
      | (false, s) => (false, s)
      | (true, s) =>
        let s := poll s
        if s.cancelRequested then (false, s)
        else Catching.backupEntries throws sourcePath rest backupDir basePath
          previousBackupDir s
  | (name, Node.file bytes) :: rest =>
    if isExcluded s.config.excludePatterns (sourcePath ++ [name]) then
      Catching.backupEntries throws sourcePath rest backupDir basePath previousBackupDir
        { s with stats := { s.stats with skippedFiles := s.stats.skippedFiles + 1 } }
    else
      match backupFile (sourcePath ++ [name]) bytes backupDir basePath previousBackupDir s with
      | (false, s) => (false, s)
      | (true, s) =>
        let s := { s with stats := { s.stats with
                    processedFiles := s.stats.processedFiles + 1,
                    processedSize := s.stats.processedSize + bytes.length } }
        match Catching.invoke throws s with
        | (true, s) => (false, s)
        | (false, s) =>
          let s := poll s
          if s.cancelRequested then (false, s)
          else Catching.backupEntries throws sourcePath rest backupDir basePath
            previousBackupDir s
  | (name, Node.other) :: rest =>
    if isExcluded s.config.excludePatterns (sourcePath ++ [name]) then
      Catching.backupEntries throws sourcePath rest backupDir basePath previousBackupDir
        { s with stats := { s.stats with skippedFiles := s.stats.skippedFiles + 1 } }
    else
      let s := poll s
      if s.cancelRequested then (false, s)
      else Catching.backupEntries throws sourcePath rest backupDir basePath
        previousBackupDir s
end

/-- The loop of `backupFiles` over the source paths that are still to come, for a callback
that may throw. -/
def Catching.backupSources (throws : BackupStatus → BackupStats → Bool)
    (sourcePaths : List Path) (backupDir previousBackupDir : Path) (s : State) :
    Bool × State :=
  match sourcePaths with
  | [] => (true, s)
  | sourcePath :: rest =>
    match Catching.backupDirectory throws sourcePath
        ((s.source.lookup sourcePath).getD Node.other)
        backupDir sourcePath previousBackupDir s with
    | (false, s) => (false, s)
    | (true, s) =>
      let s := poll s
      if s.cancelRequested then (false, s)
      else Catching.backupSources throws rest backupDir previousBackupDir s

/-- Model of `BackupEngine::Impl::backupFiles` for a callback that may throw. -/
def Catching.backupFiles (throws : BackupStatus → BackupStats → Bool) (lib : TimeLib)
    (s : State) : Bool × State :=
  match createBackupDir lib s with
  | none => (false, s)
  | some s =>
    let backupDir := newBackupDir lib s
    let previousBackupDir := findPreviousBackupDir lib s
    match Catching.backupSources throws s.config.sourcePaths backupDir previousBackupDir s with
    | (false, s) => (false, s)
    | (true, s) => (true, saveBackupMetadata backupDir s)

/-- Model of `BackupEngine::Impl::completeBackup` for a callback that may throw: whether
the last invocation threw, and the engine after it. The function has no `try`, so the
exception leaves it. -/
def Catching.completeBackup (throws : BackupStatus → BackupStats → Bool)
    (success : Bool) (cancelled : Bool) (s : State) : Bool × State :=
  let status :=
    if cancelled then BackupStatus.CANCELLED
    else if success then BackupStatus.COMPLETED
    else BackupStatus.FAILED
  let s := setStatus status s
  Catching.invoke throws { s with stats := { s.stats with endTime := some s.now } }

/-- The `try` block of `backupThreadFunction` for a callback that may throw: whether an
exception left it, which only the callback in `completeBackup` can raise, and the engine
at that point. -/
def Catching.tryBlock (throws : BackupStatus → BackupStats → Bool) (lib : TimeLib)
    (s : State) : Bool × State :=
  let s := setStatus BackupStatus.SCANNING s
  match Catching.scanFiles throws s with
  | (false, s) => Catching.completeBackup throws false false s
  | (true, s) =>
    let s := poll s
    if s.cancelRequested then Catching.completeBackup throws false true s
    else
      let s := setStatus BackupStatus.BACKING_UP s
      match Catching.backupFiles throws lib s with
      | (false, s) => Catching.completeBackup throws false false s
      | (true, s) =>
        let s := poll s
        if s.cancelRequested then Catching.completeBackup throws false true s
        else if s.config.verifyBackup then
          let s := setStatus BackupStatus.VERIFYING s
          match verifyBackup s with
          | (false, s) => Catching.completeBackup throws false false s
          | (true, s) =>
            let s := poll s
            if s.cancelRequested then Catching.completeBackup throws false true s
            else Catching.completeBackup throws true false s
        else Catching.completeBackup throws true false s

/-- Model of `BackupEngine::Impl::backupThreadFunction` for a callback that may throw, the
worker run from its start to its end. An exception that leaves the `try` block is caught:
the status becomes FAILED and the callback is invoked once more. The result `none` stands
for the end of the process: an exception of that last invocation leaves the function of
the thread, and `std::terminate` is called. -/
def Catching.backupThreadFunction (throws : BackupStatus → BackupStats → Bool)
    (lib : TimeLib) (s : State) : Option State :=
  match Catching.tryBlock throws lib s with
  | (false, s) => some s
  | (true, s) =>
    let s := setStatus BackupStatus.FAILED s
    match Catching.invoke throws s with
    | (true, _) => none
    | (false, s) => some s

/-- A callback that returns from every invocation. -/
def neverThrows : BackupStatus → BackupStats → Bool := fun _ _ => false

/-- A callback that throws when it is handed the status COMPLETED and returns from every
other invocation. -/
def throwsOnCompleted : BackupStatus → BackupStats → Bool :=
  fun status _ => decide (status = BackupStatus.COMPLETED)

/-- A callback that throws whenever it is handed COMPLETED, FAILED or CANCELLED. -/
def throwsOnTerminal : BackupStatus → BackupStats → Bool :=
  fun status _ => decide (status = BackupStatus.COMPLETED ∨ status = BackupStatus.FAILED ∨
    status = BackupStatus.CANCELLED)

/-- A destination `/mnt` with the snapshots of 2024-01-01 and 2024-01-03 and a snapshot of
2024-01-02 whose directory was renamed by hand to `20240102-000000-old`; the name still
reads as a time. -/
def fsRenamedOfThree : FileSystem :=
  { entries := [(["mnt"], FileType.directory), (["mnt", "backups"], FileType.directory),
      (["mnt", "backups", "20240101-000000"], FileType.directory),
      (["mnt", "backups", "20240102-000000-old"], FileType.directory),
      (["mnt", "backups", "20240103-000000"], FileType.directory)] }

/-- A file system in which the baseline of 2024-01-01 holds the file `notes` with the bytes
1, 2, 3, and the snapshot of 2024-01-02 under way holds a file `notes` already. -/
def fsTargetExists : FileSystem :=
  { entries := [(["mnt"], FileType.directory), (["mnt", "backups"], FileType.directory),
      (["mnt", "backups", "20240101-000000"], FileType.directory),
      (["mnt", "backups", "20240101-000000", "notes"], FileType.regular 0),
      (["mnt", "backups", "20240102-000000"], FileType.directory),
      (["mnt", "backups", "20240102-000000", "notes"], FileType.regular 1)],
    inodes := [[1, 2, 3], [9]] }

/-! ## Retention: the grouping loop and the keep loops -/

theorem mem_insKey {κ : Type} [LinearOrder κ] (ks : List κ) (key k : κ) : k ∈ insKey ks key ↔ k = key ∨ k ∈ ks := by
  induction ks with
  | nil => simp [insKey]
  | cons a rest ih =>
    unfold insKey
    split_ifs with h1 h2
    · simp
    · subst h2; simp
    · simp [ih]; tauto

theorem sorted_insKey {κ : Type} [LinearOrder κ] (ks : List κ) (key : κ) (h : ks.Sorted (· < ·)) :
    (insKey ks key).Sorted (· < ·) := by
  induction ks with
  | nil => simp [insKey]
  | cons a rest ih =>
    unfold insKey
    have hs := List.sorted_cons.mp h
    split_ifs with h1 h2
    · refine List.sorted_cons.mpr ⟨?_, h⟩
      intro b hb
      rcases List.mem_cons.mp hb with rfl | hb
      · exact h1
      · exact lt_trans h1 (hs.1 b hb)
    · exact h
    · refine List.sorted_cons.mpr ⟨?_, ih hs.2⟩
      intro b hb
      rcases (mem_insKey rest key b).mp hb with rfl | hb
      · exact lt_of_le_of_ne (not_lt.mp h1) (Ne.symm h2)
      · exact hs.1 b hb

theorem mapPush_bucketsOf {κ : Type} [LinearOrder κ] (key : Nat → κ) (ks : List κ) (l : List Nat) (b : Nat)
    (hs : ks.Sorted (· < ·))
    (hnew : key b ∉ ks → l.filter (fun x => decide (key x = key b)) = []) :
    mapPush (bucketsOf key ks l) (key b) b = bucketsOf key (insKey ks (key b)) (l ++ [b]) := by
  induction ks with
  | nil =>
    have := hnew (by simp)
    simp [bucketsOf, mapPush, insKey, List.filter_append, this]
  | cons a rest ih =>
    have hs' := List.sorted_cons.mp hs
    have htail : ∀ k ∈ rest, k ≠ key b → 
        (k, List.filter (fun x => decide (key x = k)) (l ++ [b])) =
        (k, List.filter (fun x => decide (key x = k)) l) := by
      intro k _ hk
      simp [List.filter_append, List.filter_cons, Ne.symm hk]
    simp only [bucketsOf, List.map_cons, mapPush, insKey]
    split_ifs with h1 h2
    · have hnot : key b ∉ a :: rest := by
        intro hm
        rcases List.mem_cons.mp hm with h | h
        · exact absurd h1 (by rw [h]; exact lt_irrefl _)
        · exact absurd (hs'.1 _ h) (not_lt.mpr (le_of_lt h1))
      have := hnew hnot
      simp only [List.map_cons]
      congr 1
      · simp [List.filter_append, this]
      · congr 1
        · simp [List.filter_append, List.filter_cons, ne_of_lt h1]
        · apply List.map_congr_left
          intro k hk
          exact (htail k hk (ne_of_gt (lt_trans h1 (hs'.1 k hk)))).symm
    · simp only [List.map_cons]
      congr 1
      · simp [List.filter_append, List.filter_cons, h2]
      · apply List.map_congr_left
        intro k hk
        exact (htail k hk (by rw [h2]; exact ne_of_gt (hs'.1 k hk))).symm
    · have ih' := ih hs'.2 (fun hn => hnew (by
        intro hm
        rcases List.mem_cons.mp hm with h | h
        · exact h2 h
        · exact hn h))
      simp only [bucketsOf] at ih'
      rw [ih']
      simp only [List.map_cons]
      congr 1
      simp [List.filter_append, List.filter_cons, h2]

theorem sortedKeys_append {κ : Type} [LinearOrder κ] (key : Nat → κ) (l : List Nat) (b : Nat) :
    sortedKeys key (l ++ [b]) = insKey (sortedKeys key l) (key b) := by
  simp [sortedKeys, List.foldl_append]

theorem sorted_sortedKeys {κ : Type} [LinearOrder κ] (key : Nat → κ) (l : List Nat) :
    (sortedKeys key l).Sorted (· < ·) := by
  induction l using List.reverseRecOn with
  | nil => simp [sortedKeys]
  | append_singleton l b ih =>
    rw [sortedKeys_append]
    exact sorted_insKey _ _ ih

theorem mem_sortedKeys {κ : Type} [LinearOrder κ] (key : Nat → κ) (l : List Nat) (k : κ) :
    k ∈ sortedKeys key l ↔ ∃ b ∈ l, key b = k := by
  induction l using List.reverseRecOn with
  | nil => simp [sortedKeys]
  | append_singleton l b ih =>
    rw [sortedKeys_append, mem_insKey, ih]
    constructor
    · rintro (rfl | ⟨x, hx, rfl⟩)
      · exact ⟨b, by simp, rfl⟩
      · exact ⟨x, by simp [hx], rfl⟩
    · rintro ⟨x, hx, rfl⟩
      rcases List.mem_append.mp hx with h | h
      · exact Or.inr ⟨x, h, rfl⟩
      · left
        simp at h
        rw [h]

theorem groupBackups_append {κ : Type} [LinearOrder κ] (key : Nat → κ) (l : List Nat) (b : Nat) :
    groupBackups key (l ++ [b]) = mapPush (groupBackups key l) (key b) b := by
  simp [groupBackups, List.foldl_append]

theorem groupBackups_eq {κ : Type} [LinearOrder κ] (key : Nat → κ) (l : List Nat) :
    groupBackups key l = bucketsOf key (sortedKeys key l) l := by
  induction l using List.reverseRecOn with
  | nil => simp [groupBackups, sortedKeys, bucketsOf]
  | append_singleton l b ih =>
    rw [groupBackups_append, ih, sortedKeys_append]
    apply mapPush_bucketsOf _ _ _ _ (sorted_sortedKeys key l)
    intro hn
    rw [List.filter_eq_nil_iff]
    intro x hx
    simp only [decide_eq_true_eq]
    intro hk
    exact hn ((mem_sortedKeys key l (key b)).mpr ⟨x, hx, hk⟩)

theorem newestOf_eq_some (v : List Nat) (t : Nat) :
    newestOf v = some t ↔ t ∈ v ∧ ∀ b ∈ v, b ≤ t := by
  unfold newestOf
  have hperm := List.perm_insertionSort (fun a b : Nat => a ≥ b) v
  have hsort := List.sorted_insertionSort (fun a b : Nat => a ≥ b) v
  cases hs : v.insertionSort (fun a b => a ≥ b) with
  | nil =>
    rw [hs] at hperm
    have : v = [] := List.Perm.eq_nil (hperm.symm)
    simp [this]
  | cons a rest =>
    rw [hs] at hperm hsort
    have hs' := List.sorted_cons.mp hsort
    simp only [List.head?_cons, Option.some.injEq]
    constructor
    · rintro rfl
      refine ⟨hperm.mem_iff.mp (by simp), ?_⟩
      intro b hb
      rcases List.mem_cons.mp (hperm.mem_iff.mpr hb) with rfl | h
      · exact le_refl _
      · exact hs'.1 b h
    · rintro ⟨ht, hmax⟩
      have ha : a ∈ v := hperm.mem_iff.mp (by simp)
      rcases List.mem_cons.mp (hperm.mem_iff.mpr ht) with rfl | h
      · rfl
      · exact le_antisymm (hs'.1 t h) (hmax a ha) |>.symm |> fun e => by omega

theorem newestOf_eq_none (v : List Nat) : newestOf v = none ↔ v = [] := by
  unfold newestOf
  have hperm := List.perm_insertionSort (fun a b : Nat => a ≥ b) v
  cases hs : v.insertionSort (fun a b => a ≥ b) with
  | nil =>
    rw [hs] at hperm
    simp [List.Perm.eq_nil hperm.symm]
  | cons a rest =>
    rw [hs] at hperm
    simp only [List.head?_cons]
    constructor
    · intro h
      exact absurd h (by simp)
    · rintro rfl
      exact absurd (List.Perm.eq_nil hperm) (by simp)

theorem keepLoop_eq {κ : Type} (buckets : List (κ × List Nat)) (keep count : Int) (toKeep : List Nat) :
    keepLoop buckets keep count toKeep =
      match buckets with
      | [] => toKeep
      | (_, v) :: rest =>
        if count ≥ keep then toKeep
        else
          match newestOf v with
          | none => keepLoop rest keep count toKeep
          | some newest => keepLoop rest keep (count + 1) (toKeep.insert newest) := by
  cases buckets with
  | nil => simp [keepLoop]
  | cons kv rest =>
    obtain ⟨k, v⟩ := kv
    simp only [keepLoop, newestOf]
    split_ifs with h
    · rfl
    · cases hs : v.insertionSort (fun a b => a ≥ b) <;> simp

/-- Membership in the result of a keep loop over buckets that are all non-empty. -/
theorem mem_keepLoop {κ : Type} (buckets : List (κ × List Nat)) (keep count : Int) (toKeep : List Nat)
    (hne : ∀ kv ∈ buckets, kv.2 ≠ []) (t : Nat) :
    t ∈ keepLoop buckets keep count toKeep ↔
      t ∈ toKeep ∨ ∃ kv ∈ buckets.take (keep - count).toNat, newestOf kv.2 = some t := by
  induction buckets generalizing count toKeep with
  | nil => simp [keepLoop]
  | cons kv rest ih =>
    obtain ⟨k, v⟩ := kv
    rw [keepLoop_eq]
    simp only
    split_ifs with h
    · have : (keep - count).toNat = 0 := by omega
      simp [this]
    · have hv : v ≠ [] := hne (k, v) (by simp)
      cases hn : newestOf v with
      | none => exact absurd ((newestOf_eq_none v).mp hn) hv
      | some newest =>
        simp only
        rw [ih _ _ (fun kv hkv => hne kv (by simp [hkv]))]
        have hsucc : (keep - count).toNat = (keep - (count + 1)).toNat + 1 := by omega
        rw [hsucc, List.take_succ_cons]
        simp only [List.mem_insert_iff, List.mem_cons, exists_eq_or_imp, hn, Option.some.injEq]
        tauto

theorem mem_take_sorted {κ : Type} [LinearOrder κ] (ks : List κ) (hs : ks.Sorted (· < ·)) (n : Nat) (k : κ) :
    k ∈ ks.take n ↔ k ∈ ks ∧ (ks.filter (fun x => decide (x < k))).length < n := by
  induction ks generalizing n with
  | nil => simp
  | cons a rest ih =>
    have hs' := List.sorted_cons.mp hs
    cases n with
    | zero => simp
    | succ n =>
      rw [List.take_succ_cons, List.mem_cons, ih hs'.2, List.mem_cons]
      constructor
      · rintro (rfl | ⟨hk, hlen⟩)
        · refine ⟨Or.inl rfl, ?_⟩
          have : (k :: rest).filter (fun x => decide (x < k)) = [] := by
            rw [List.filter_eq_nil_iff]
            intro x hx
            simp only [decide_eq_true_eq, not_lt]
            rcases List.mem_cons.mp hx with rfl | hx
            · exact le_refl _
            · exact le_of_lt (hs'.1 x hx)
          rw [this]
          simp
        · refine ⟨Or.inr hk, ?_⟩
          simp only [List.filter_cons, hs'.1 k hk, decide_True, if_true, List.length_cons]
          omega
      · rintro ⟨hk | hk, hlen⟩
        · exact Or.inl hk
        · right
          refine ⟨hk, ?_⟩
          simp only [List.filter_cons, hs'.1 k hk, decide_True, if_true, List.length_cons] at hlen
          omega

theorem sortedKeys_perm {κ : Type} [LinearOrder κ] (key : Nat → κ) (l : List Nat) :
    (sortedKeys key l).Perm (l.map key).dedup := by
  rw [List.perm_ext_iff_of_nodup (List.Sorted.nodup (sorted_sortedKeys key l)) (List.nodup_dedup _)]
  intro k
  rw [mem_sortedKeys, List.mem_dedup, List.mem_map]

theorem sortedKeys_rank {κ : Type} [LinearOrder κ] (key : Nat → κ) (l : List Nat) (k : κ) :
    ((sortedKeys key l).filter (fun x => decide (x < k))).length = keyRank key l k :=
  ((sortedKeys_perm key l).filter _).length_eq

theorem bucketsOf_nonempty {κ : Type} [LinearOrder κ] (key : Nat → κ) (l : List Nat) :
    ∀ kv ∈ bucketsOf key (sortedKeys key l) l, kv.2 ≠ [] := by
  intro kv hkv
  simp only [bucketsOf, List.mem_map] at hkv
  obtain ⟨k, hk, rfl⟩ := hkv
  obtain ⟨b, hb, hkb⟩ := (mem_sortedKeys key l k).mp hk
  simp only [ne_eq, List.filter_eq_nil_iff, decide_eq_true_eq, not_forall, not_not]
  exact ⟨b, hb, hkb⟩

theorem mem_keepLoop_group {κ : Type} [LinearOrder κ] (key : Nat → κ) (l : List Nat) (keep : Int) (toKeep : List Nat) (t : Nat) :
    t ∈ keepLoop (groupBackups key l) keep 0 toKeep ↔
      t ∈ toKeep ∨ SelectedBy key keep.toNat l t := by
  rw [groupBackups_eq, mem_keepLoop _ _ _ _ (bucketsOf_nonempty key l)]
  apply or_congr Iff.rfl
  simp only [sub_zero, bucketsOf, ← List.map_take, List.mem_map, exists_exists_and_eq_and,
    newestOf_eq_some, List.mem_filter, decide_eq_true_eq, SelectedBy]
  constructor
  · rintro ⟨k, hk, ⟨ht, hkt⟩, hmax⟩
    subst hkt
    have := (mem_take_sorted _ (sorted_sortedKeys key l) _ _).mp hk
    rw [sortedKeys_rank] at this
    exact ⟨ht, fun b hb hbk => hmax b ⟨hb, hbk⟩, this.2⟩
  · rintro ⟨ht, hmax, hrank⟩
    refine ⟨key t, ?_, ⟨ht, rfl⟩, fun b hb => hmax b hb.1 hb.2⟩
    rw [mem_take_sorted _ (sorted_sortedKeys key l), sortedKeys_rank]
    exact ⟨(mem_sortedKeys key l _).mpr ⟨t, ht, rfl⟩, hrank⟩

theorem mem_keepPass {κ : Type} [LinearOrder κ] (key : Nat → κ) (l : List Nat) (keep : Int) (t : Nat) :
    t ∈ keepPass key l keep ↔ SelectedBy key keep.toNat l t := by
  unfold keepPass
  rw [mem_keepLoop_group]
  simp

theorem sortedKeys_eq_ascendingKeys {κ : Type} [LinearOrder κ] (key : Nat → κ) (l : List Nat) :
    sortedKeys key l = ascendingKeys key l := by
  apply List.eq_of_perm_of_sorted (r := fun a b : κ => a ≤ b)
  · exact (sortedKeys_perm key l).trans (List.perm_insertionSort _ _).symm
  · exact (sorted_sortedKeys key l).le_of_lt
  · exact List.sorted_insertionSort _ _

theorem length_keepLoop_le {κ : Type} (buckets : List (κ × List Nat)) (keep count : Int)
    (toKeep : List Nat) :
    (keepLoop buckets keep count toKeep).length ≤ toKeep.length + (keep - count).toNat := by
  induction buckets generalizing count toKeep with
  | nil => simp [keepLoop]
  | cons kv rest ih =>
    obtain ⟨k, v⟩ := kv
    rw [keepLoop_eq]
    simp only
    split_ifs with h
    · omega
    · cases hn : newestOf v with
      | none =>
        simp only
        exact ih _ _
      | some newest =>
        simp only
        have h1 := ih (count + 1) (List.insert newest toKeep)
        have h2 : (List.insert newest toKeep).length ≤ toKeep.length + 1 := by
          by_cases hm : newest ∈ toKeep
          · rw [List.insert_of_mem hm]; omega
          · rw [List.insert_of_not_mem hm]; simp
        omega

theorem nodup_keepLoop {κ : Type} (buckets : List (κ × List Nat)) (keep count : Int)
    (toKeep : List Nat) (h : toKeep.Nodup) : (keepLoop buckets keep count toKeep).Nodup := by
  induction buckets generalizing count toKeep with
  | nil => simpa [keepLoop] using h
  | cons kv rest ih =>
    obtain ⟨k, v⟩ := kv
    rw [keepLoop_eq]
    simp only
    split_ifs with hc
    · exact h
    · cases hn : newestOf v with
      | none => exact ih _ _ h
      | some newest => exact ih _ _ (h.insert)

theorem mem_map_keepPass {κ : Type} [LinearOrder κ] (key : Nat → κ) (l : List Nat) (keep : Int) (k : κ) :
    k ∈ (keepPass key l keep).map key ↔ k ∈ (ascendingKeys key l).take keep.toNat := by
  rw [← sortedKeys_eq_ascendingKeys, mem_take_sorted _ (sorted_sortedKeys key l), sortedKeys_rank,
    List.mem_map]
  constructor
  · rintro ⟨t, ht, rfl⟩
    have := (mem_keepPass key l keep t).mp ht
    exact ⟨(mem_sortedKeys key l _).mpr ⟨t, this.1, rfl⟩, this.2.2⟩
  · rintro ⟨hk, hrank⟩
    have hne := bucketsOf_nonempty key l (k, l.filter (fun b => decide (key b = k)))
      (by simp only [bucketsOf, List.mem_map]; exact ⟨k, hk, rfl⟩)
    cases hn : newestOf (l.filter (fun b => decide (key b = k))) with
    | none => exact absurd ((newestOf_eq_none _).mp hn) hne
    | some t =>
      have ht := (newestOf_eq_some _ _).mp hn
      simp only [List.mem_filter, decide_eq_true_eq] at ht
      refine ⟨t, (mem_keepPass key l keep t).mpr ⟨ht.1.1, ?_, ?_⟩, ht.1.2⟩
      · intro b hb hbk
        exact ht.2 b ⟨hb, by rw [hbk, ht.1.2]⟩
      · rw [ht.1.2]; exact hrank

theorem nodup_map_keepPass {κ : Type} [LinearOrder κ] (key : Nat → κ) (l : List Nat) (keep : Int) :
    ((keepPass key l keep).map key).Nodup := by
  apply List.Nodup.map_on
  · intro a ha b hb hab
    have h1 := (mem_keepPass key l keep a).mp ha
    have h2 := (mem_keepPass key l keep b).mp hb
    exact le_antisymm (h2.2.1 a h1.1 hab) (h1.2.1 b h2.1 hab.symm)
  · exact nodup_keepLoop _ _ _ _ List.nodup_nil

theorem length_keepPass {κ : Type} [LinearOrder κ] (key : Nat → κ) (l : List Nat) (keep : Int) :
    (keepPass key l keep).length = min keep.toNat (ascendingKeys key l).length := by
  have hperm : ((keepPass key l keep).map key).Perm ((ascendingKeys key l).take keep.toNat) := by
    rw [List.perm_ext_iff_of_nodup (nodup_map_keepPass key l keep)]
    · exact mem_map_keepPass key l keep
    · rw [← sortedKeys_eq_ascendingKeys]
      exact ((sorted_sortedKeys key l).nodup).sublist (List.take_sublist _ _)
  have := hperm.length_eq
  simpa using this

theorem keyRank_mono {κ : Type} [LinearOrder κ] (key : Nat → κ) (l : List Nat) {a b : κ} (h : a ≤ b) :
    keyRank key l a ≤ keyRank key l b := by
  unfold keyRank
  apply List.Sublist.length_le
  apply List.monotone_filter_right
  intro x hx
  simp only [decide_eq_true_eq] at hx ⊢
  exact lt_of_lt_of_le hx h

/-! ## Retention: the catalog and the deletion loop -/

theorem find_congr_mem {α : Type} (l : List α) (p q : α → Bool) (h : ∀ a ∈ l, p a = q a) :
    l.find? p = l.find? q := by
  induction l with
  | nil => rfl
  | cons a rest ih =>
    simp only [List.find?_cons, h a (List.mem_cons_self _ _)]
    rw [ih (fun b hb => h b (List.mem_cons_of_mem _ hb))]

theorem status_remove_all (fs : FileSystem) (D p : Path) (hD : D ≠ []) :
    (fs.remove_all D).status p = if D.isPrefixOf p then none else fs.status p := by
  unfold FileSystem.status FileSystem.remove_all
  by_cases hp : p = []
  · subst hp
    cases D with
    | nil => exact absurd rfl hD
    | cons a D => simp [List.isPrefixOf]
  · simp only [hp, if_false, List.find?_filter]
    split_ifs with hpre
    · rw [Option.map_eq_none', List.find?_eq_none]
      intro e _
      by_cases he : e.1 = p
      · simp [he, hpre]
      · simp [he]
    · congr 1
      apply find_congr_mem
      intro e _
      by_cases he : e.1 = p
      · simp [he, hpre]
      · simp [he]

theorem inodes_remove_all (fs : FileSystem) (D : Path) : (fs.remove_all D).inodes = fs.inodes := rfl

theorem listBackups_eq (lib : TimeLib) (fs : FileSystem) (destination : Path) :
    listBackups lib fs destination =
      if fs.is_directory destination then
        ((snapshotNames fs destination).filterMap lib.get_time).insertionSort (fun a b => a ≥ b)
      else [] := by
  unfold listBackups snapshotNames
  by_cases hd : fs.is_directory destination = true
  · have he : fs.pathExists destination = true := by
      unfold FileSystem.is_directory at hd
      unfold FileSystem.pathExists
      simp only [decide_eq_true_eq] at hd
      simp [hd]
    simp only [he, hd, Bool.not_true, Bool.false_eq_true, if_false, if_true]
    cases hit : fs.directory_iterator (destination ++ ["backups"]) with
    | none => 
      simp only [List.filterMap_nil, List.insertionSort]
      split_ifs <;> rfl
    | some entries =>
      have hb : fs.pathExists (destination ++ ["backups"]) = true := by
        unfold FileSystem.directory_iterator at hit
        split_ifs at hit with h
        unfold FileSystem.is_directory at h
        unfold FileSystem.pathExists
        simp only [decide_eq_true_eq] at h
        simp [h]
      simp only [hb, Bool.not_true, Bool.false_eq_true, if_false, List.filterMap_filterMap]
      congr 1
      apply List.filterMap_congr
      intro e _
      by_cases h : e.2 = FileType.directory <;> simp [h]
  · simp only [Bool.not_eq_true] at hd
    simp [hd]

theorem isPrefixOf_append_singleton (B : Path) (n0 : String) (p : Path) :
    (B ++ [n0]).isPrefixOf p = true → B.isPrefixOf p = true := by
  simp only [List.isPrefixOf_iff_prefix]
  intro h
  exact (List.prefix_append B [n0]).trans h

theorem not_isPrefixOf_self_append (B : Path) (x : String) (rest : Path) :
    (B ++ x :: rest).isPrefixOf B = false := by
  rw [Bool.eq_false_iff]
  intro h
  have := List.IsPrefix.length_le (List.isPrefixOf_iff_prefix.mp h)
  simp at this

theorem getLast_dropLast_eq (q B : Path) (name : String) :
    (q.getLast? = some name ∧ q.dropLast = B) ↔ q = B ++ [name] := by
  constructor
  · rintro ⟨h1, h2⟩
    have hne : q ≠ [] := by
      rintro rfl
      simp at h1
    have := List.dropLast_append_getLast hne
    rw [List.getLast?_eq_getLast _ hne] at h1
    simp only [Option.some.injEq] at h1
    rw [← this, h1, h2]
  · rintro rfl
    simp

theorem nameBelow_eq_some (B : Path) (e : Path × FileType) (n : String) :
    nameBelow B e = some n ↔ e.1 = B ++ [n] ∧ e.2 = FileType.directory := by
  unfold nameBelow
  cases hl : e.1.getLast? with
  | none =>
    simp only [Option.none_bind]
    constructor
    · intro h; exact absurd h (by simp)
    · rintro ⟨h, -⟩
      rw [h] at hl
      simp at hl
  | some name =>
    simp only
    by_cases hd : e.1.dropLast = B
    · simp only [hd, if_true, Option.some_bind]
      have := (getLast_dropLast_eq e.1 B name).mp ⟨hl, hd⟩
      by_cases ht : e.2 = FileType.directory
      · simp only [ht, if_true, Option.some.injEq, and_true]
        constructor
        · rintro rfl; exact this
        · intro h
          rw [this] at h
          simpa using (List.append_cancel_left h)
      · simp [ht]
    · simp only [hd, if_false, Option.none_bind]
      constructor
      · intro h; exact absurd h (by simp)
      · rintro ⟨h, -⟩
        exact absurd ((getLast_dropLast_eq e.1 B n).mpr h).2 hd

theorem snapshotNames_eq (fs : FileSystem) (destination : Path) :
    snapshotNames fs destination =
      if fs.is_directory (destination ++ ["backups"]) then
        fs.entries.filterMap (nameBelow (destination ++ ["backups"]))
      else [] := by
  unfold snapshotNames FileSystem.directory_iterator
  split_ifs with h
  · simp only [List.filterMap_filterMap]
    rfl
  · rfl

theorem is_directory_remove_all (fs : FileSystem) (D p : Path) (hD : D ≠ [])
    (hp : D.isPrefixOf p = false) : (fs.remove_all D).is_directory p = fs.is_directory p := by
  unfold FileSystem.is_directory
  rw [status_remove_all fs D p hD, hp]
  simp

theorem pathExists_remove_all (fs : FileSystem) (D p : Path) (hD : D ≠ []) :
    (fs.remove_all D).pathExists p = (fs.pathExists p && !D.isPrefixOf p) := by
  unfold FileSystem.pathExists
  rw [status_remove_all fs D p hD]
  cases h : D.isPrefixOf p <;> simp

theorem snapshotNames_remove_all (fs : FileSystem) (destination : Path) (n0 : String) :
    snapshotNames (fs.remove_all (destination ++ ["backups", n0])) destination =
      (snapshotNames fs destination).filter (fun n => decide (n ≠ n0)) := by
  have hD : destination ++ ["backups", n0] ≠ [] := by simp
  have hB : (destination ++ ["backups", n0]).isPrefixOf (destination ++ ["backups"]) = false := by
    have := not_isPrefixOf_self_append (destination ++ ["backups"]) n0 []
    simpa using this
  rw [snapshotNames_eq, snapshotNames_eq, is_directory_remove_all _ _ _ hD hB]
  split_ifs with h
  · simp only [FileSystem.remove_all, List.filterMap_filter, List.filter_filterMap]
    apply List.filterMap_congr
    intro e _
    cases hn : nameBelow (destination ++ ["backups"]) e with
    | none => simp [Option.filter]
    | some n =>
      have he := ((nameBelow_eq_some _ _ _).mp hn).1
      have : (destination ++ ["backups", n0]).isPrefixOf e.1 = decide (n0 = n) := by
        rw [he]
        have h1 : destination ++ ["backups", n0] = (destination ++ ["backups"]) ++ [n0] := by simp
        rw [h1, Bool.eq_iff_iff, List.isPrefixOf_iff_prefix, List.prefix_append_right_inj]
        simp
      simp only [this, Option.filter]
      by_cases hnn : n0 = n
      · simp [hnn]
      · simp [hnn, Ne.symm hnn]
  · simp

theorem pathExists_of_mem_snapshotNames (fs : FileSystem) (destination : Path) (n : String)
    (h : n ∈ snapshotNames fs destination) :
    fs.pathExists (destination ++ ["backups", n]) = true := by
  rw [snapshotNames_eq] at h
  split_ifs at h with hd
  · rw [List.mem_filterMap] at h
    obtain ⟨e, he, hn⟩ := h
    have h1 := ((nameBelow_eq_some _ _ _).mp hn).1
    unfold FileSystem.pathExists FileSystem.status
    have hne : destination ++ ["backups", n] ≠ [] := by simp
    simp only [hne, if_false, Option.isSome_map', List.find?_isSome]
    exact ⟨e, he, by simp [h1]⟩
  · simp at h

theorem isPrefixOf_snapshot_iff (destination : Path) (n m : String) :
    (destination ++ ["backups", n]).isPrefixOf (destination ++ ["backups", m]) = true ↔ n = m := by
  rw [List.isPrefixOf_iff_prefix]
  constructor
  · intro h
    have hlen : (destination ++ ["backups", n]).length = (destination ++ ["backups", m]).length := by
      simp
    have := List.IsPrefix.eq_of_length h hlen
    have := List.append_cancel_left this
    simpa using this
  · rintro rfl
    exact List.prefix_rfl

theorem deleteLoop_spec (lib : TimeLib) (destination : Path) (toKeep backups : List Nat)
    (fs : FileSystem) (c : Nat) :
    (deleteLoop lib destination toKeep backups fs c).1.inodes = fs.inodes ∧
    (∀ p, (∀ n ∈ doomedNames lib toKeep backups,
        (destination ++ ["backups", n]).isPrefixOf p = false) →
      (deleteLoop lib destination toKeep backups fs c).1.status p = fs.status p) ∧
    (∀ n ∈ doomedNames lib toKeep backups,
      (deleteLoop lib destination toKeep backups fs c).1.pathExists
        (destination ++ ["backups", n]) = false) ∧
    snapshotNames (deleteLoop lib destination toKeep backups fs c).1 destination =
      (snapshotNames fs destination).filter
        (fun n => decide (n ∉ doomedNames lib toKeep backups)) := by
  induction backups generalizing fs c with
  | nil => simp [deleteLoop, doomedNames]
  | cons t rest ih =>
    unfold deleteLoop
    by_cases hk : t ∈ toKeep
    · simp only [hk, if_true]
      have hd : doomedNames lib toKeep (t :: rest) = doomedNames lib toKeep rest := by
        simp [doomedNames, List.filter_cons, hk]
      rw [hd]
      exact ih fs c
    · simp only [hk, if_false]
      have hd : doomedNames lib toKeep (t :: rest) =
          lib.stamp t :: doomedNames lib toKeep rest := by
        simp [doomedNames, List.filter_cons, hk]
      rw [hd]
      have hD : destination ++ ["backups", lib.stamp t] ≠ [] := by simp
      by_cases he : fs.pathExists (destination ++ ["backups", lib.stamp t]) = true
      · simp only [he, if_true]
        obtain ⟨h1, h2, h3, h4⟩ := ih (fs.remove_all (destination ++ ["backups", lib.stamp t])) (c + 1)
        refine ⟨h1, ?_, ?_, ?_⟩
        · intro p hp
          rw [h2 p (fun n hn => hp n (List.mem_cons_of_mem _ hn)),
            status_remove_all _ _ _ hD, hp _ (List.mem_cons_self _ _)]
          simp
        · intro n hn
          rcases List.mem_cons.mp hn with rfl | hn
          · by_cases hm : lib.stamp t ∈ doomedNames lib toKeep rest
            · exact h3 _ hm
            · have := h2 (destination ++ ["backups", lib.stamp t]) (by
                intro n hn
                rw [Bool.eq_false_iff]
                intro hpre
                exact hm (((isPrefixOf_snapshot_iff destination _ _).mp hpre) ▸ hn))
              unfold FileSystem.pathExists
              rw [this, status_remove_all _ _ _ hD]
              simp
          · exact h3 n hn
        · rw [h4, snapshotNames_remove_all, List.filter_filter]
          apply List.filter_congr
          intro n _
          simp only [List.mem_cons, not_or, Bool.decide_and, Bool.and_comm]
      · simp only [Bool.not_eq_true] at he
        simp only [he, Bool.false_eq_true, if_false]
        obtain ⟨h1, h2, h3, h4⟩ := ih fs c
        refine ⟨h1, ?_, ?_, ?_⟩
        · intro p hp
          exact h2 p (fun n hn => hp n (List.mem_cons_of_mem _ hn))
        · intro n hn
          rcases List.mem_cons.mp hn with rfl | hn
          · by_cases hm : lib.stamp t ∈ doomedNames lib toKeep rest
            · exact h3 _ hm
            · have := h2 (destination ++ ["backups", lib.stamp t]) (by
                intro n hn
                rw [Bool.eq_false_iff]
                intro hpre
                exact hm (((isPrefixOf_snapshot_iff destination _ _).mp hpre) ▸ hn))
              unfold FileSystem.pathExists at he ⊢
              rw [this]
              exact he
          · exact h3 n hn
        · rw [h4]
          apply List.filter_congr
          intro n hn
          have : n ≠ lib.stamp t := by
            rintro rfl
            have := pathExists_of_mem_snapshotNames fs destination _ hn
            rw [he] at this
            exact absurd this (by simp)
          simp [this]

theorem deleteLoop_all_kept (lib : TimeLib) (destination : Path) (toKeep backups : List Nat)
    (fs : FileSystem) (c : Nat) (h : ∀ t ∈ backups, t ∈ toKeep) :
    deleteLoop lib destination toKeep backups fs c = (fs, c) := by
  induction backups with
  | nil => rfl
  | cons t rest ih =>
    unfold deleteLoop
    simp only [h t (List.mem_cons_self _ _), if_true]
    exact ih (fun x hx => h x (List.mem_cons_of_mem _ hx))

theorem deleteLoop_count (lib : TimeLib) (destination : Path) (toKeep backups : List Nat)
    (fs : FileSystem) (c : Nat)
    (hex : ∀ t ∈ backups, t ∉ toKeep → fs.pathExists (destination ++ ["backups", lib.stamp t]) = true)
    (hnd : (doomedNames lib toKeep backups).Nodup) :
    (deleteLoop lib destination toKeep backups fs c).2 =
      c + (doomedNames lib toKeep backups).length := by
  induction backups generalizing fs c with
  | nil => simp [deleteLoop, doomedNames]
  | cons t rest ih =>
    unfold deleteLoop
    by_cases hk : t ∈ toKeep
    · have hd : doomedNames lib toKeep (t :: rest) = doomedNames lib toKeep rest := by
        simp [doomedNames, List.filter_cons, hk]
      simp only [hk, if_true, hd]
      rw [hd] at hnd
      exact ih fs c (fun x hx => hex x (List.mem_cons_of_mem _ hx)) hnd
    · have hd : doomedNames lib toKeep (t :: rest) =
          lib.stamp t :: doomedNames lib toKeep rest := by
        simp [doomedNames, List.filter_cons, hk]
      rw [hd] at hnd
      have hnd' := List.nodup_cons.mp hnd
      have hD : destination ++ ["backups", lib.stamp t] ≠ [] := by simp
      simp only [hk, if_false, hex t (List.mem_cons_self _ _) hk, if_true, hd, List.length_cons]
      rw [ih _ _ _ hnd'.2]
      · omega
      · intro x hx hxk
        rw [pathExists_remove_all _ _ _ hD, hex x (List.mem_cons_of_mem _ hx) hxk]
        simp only [Bool.true_and, Bool.not_eq_true']
        rw [Bool.eq_false_iff]
        intro hpre
        have := (isPrefixOf_snapshot_iff destination _ _).mp hpre
        apply hnd'.1
        rw [this]
        simp only [doomedNames, List.mem_map, List.mem_filter, decide_eq_true_eq]
        exact ⟨x, ⟨hx, hxk⟩, rfl⟩

theorem nodup_filterMap_on {α β : Type} (f : α → Option β) (l : List α) (hl : l.Nodup)
    (hinj : ∀ a ∈ l, ∀ a' ∈ l, ∀ b, f a = some b → f a' = some b → a = a') :
    (l.filterMap f).Nodup := by
  induction l with
  | nil => simp
  | cons a rest ih =>
    have hl' := List.nodup_cons.mp hl
    have ih' := ih hl'.2 (fun x hx y hy b h1 h2 =>
      hinj x (List.mem_cons_of_mem _ hx) y (List.mem_cons_of_mem _ hy) b h1 h2)
    cases hfa : f a with
    | none => rw [List.filterMap_cons_none hfa]; exact ih'
    | some b =>
      rw [List.filterMap_cons_some hfa, List.nodup_cons]
      refine ⟨?_, ih'⟩
      intro hb
      obtain ⟨x, hx, hfx⟩ := List.mem_filterMap.mp hb
      have := hinj a (List.mem_cons_self _ _) x (List.mem_cons_of_mem _ hx) b hfa hfx
      exact hl'.1 (this ▸ hx)

theorem mem_listBackups (lib : TimeLib) (fs : FileSystem) (destination : Path) (t : Nat) :
    t ∈ listBackups lib fs destination ↔
      fs.is_directory destination = true ∧
        ∃ n ∈ snapshotNames fs destination, lib.get_time n = some t := by
  rw [listBackups_eq]
  split_ifs with h
  · rw [(List.perm_insertionSort _ _).mem_iff, List.mem_filterMap]
    simp [h]
  · simp [h]

theorem nodup_snapshotNames (fs : FileSystem) (destination : Path) (h : fs.entries.Nodup) :
    (snapshotNames fs destination).Nodup := by
  rw [snapshotNames_eq]
  split_ifs
  · apply List.Nodup.filterMap _ h
    intro a a' b h1 h2
    have e1 := (nameBelow_eq_some _ _ _).mp h1
    have e2 := (nameBelow_eq_some _ _ _).mp h2
    exact Prod.ext (e1.1.trans e2.1.symm) (e1.2.trans e2.2.symm)
  · exact List.nodup_nil

theorem nodup_listBackups (lib : TimeLib) (fs : FileSystem) (destination : Path)
    (h : fs.entries.Nodup) (hc : CanonicalNames lib fs destination) :
    (listBackups lib fs destination).Nodup := by
  rw [listBackups_eq]
  split_ifs
  · rw [(List.perm_insertionSort _ _).nodup_iff]
    apply nodup_filterMap_on _ _ (nodup_snapshotNames fs destination h)
    intro a ha a' ha' b h1 h2
    rw [← hc a ha b h1, ← hc a' ha' b h2]
  · exact List.nodup_nil

theorem mem_backupsToKeep (lib : TimeLib) (backups : List Nat) (kd kw km : Int) (t : Nat) :
    t ∈ backupsToKeep lib backups kd kw km ↔
      SelectedBy (dayKey lib) kd.toNat backups t ∨ SelectedBy (weekKey lib) kw.toNat backups t ∨
        SelectedBy (monthKey lib) km.toNat backups t := by
  unfold backupsToKeep
  simp only [mem_keepLoop_group]
  simp only [List.not_mem_nil, false_or]
  tauto

theorem nodup_backupsToKeep (lib : TimeLib) (backups : List Nat) (kd kw km : Int) :
    (backupsToKeep lib backups kd kw km).Nodup := by
  unfold backupsToKeep
  exact nodup_keepLoop _ _ _ _ (nodup_keepLoop _ _ _ _ (nodup_keepLoop _ _ _ _ List.nodup_nil))

theorem backupsToKeep_subset (lib : TimeLib) (backups : List Nat) (kd kw km : Int) (t : Nat)
    (h : t ∈ backupsToKeep lib backups kd kw km) : t ∈ backups := by
  rcases (mem_backupsToKeep lib backups kd kw km t).mp h with h | h | h <;> exact h.1

theorem length_le_one_of_forall_eq {α : Type} (l : List α) (a : α) (hn : l.Nodup)
    (h : ∀ x ∈ l, x = a) : l.length ≤ 1 := by
  have : l.Subperm [a] := List.Nodup.subperm hn (fun x hx => by simp [h x hx])
  simpa using this.length_le

theorem keyRank_of_max {κ : Type} [LinearOrder κ] (key : Nat → κ) (l : List Nat) (kmax : κ)
    (hmax : ∀ b ∈ l, key b ≤ kmax) :
    (ascendingKeys key l).length ≤ keyRank key l kmax + 1 := by
  unfold ascendingKeys keyRank
  rw [List.length_insertionSort,
    List.length_eq_length_filter_add (l := (l.map key).dedup) (fun x => decide (x < kmax))]
  have : ((l.map key).dedup.filter (fun x => !decide (x < kmax))).length ≤ 1 := by
    apply length_le_one_of_forall_eq _ kmax ((List.nodup_dedup _).filter _)
    intro x hx
    simp only [List.mem_filter, List.mem_dedup, List.mem_map, Bool.not_eq_true',
      decide_eq_false_iff_not, not_lt] at hx
    obtain ⟨⟨b, hb, rfl⟩, hge⟩ := hx
    exact le_antisymm (hmax b hb) hge
  omega

/-- The set `backupsToKeep` that `pruneBackups` computes is the union of what its three passes
keep; a pass keeps a snapshot exactly when it is the newest member of its
bucket (day, ISO week, month) and the bucket is among the first `count` of the
pass (for a negative count: none); and a pass keeps at most `count`
snapshots, one for each bucket it selects. -/
theorem backupsToKeep_is_union_of_passes (lib : TimeLib) (backups : List Nat)
    (keepDaily keepWeekly keepMonthly : Int) :
    (∀ t, t ∈ backupsToKeep lib backups keepDaily keepWeekly keepMonthly ↔
      t ∈ keepPass (dayKey lib) backups keepDaily ∨
      t ∈ keepPass (weekKey lib) backups keepWeekly ∨
      t ∈ keepPass (monthKey lib) backups keepMonthly) ∧
    (∀ t, t ∈ keepPass (dayKey lib) backups keepDaily ↔
      SelectedBy (dayKey lib) keepDaily.toNat backups t) ∧
    (∀ t, t ∈ keepPass (weekKey lib) backups keepWeekly ↔
      SelectedBy (weekKey lib) keepWeekly.toNat backups t) ∧
    (∀ t, t ∈ keepPass (monthKey lib) backups keepMonthly ↔
      SelectedBy (monthKey lib) keepMonthly.toNat backups t) ∧
    (keepPass (dayKey lib) backups keepDaily).length ≤ keepDaily.toNat ∧
    (keepPass (weekKey lib) backups keepWeekly).length ≤ keepWeekly.toNat ∧
    (keepPass (monthKey lib) backups keepMonthly).length ≤ keepMonthly.toNat := by
  refine ⟨?_, mem_keepPass _ _ _, mem_keepPass _ _ _, mem_keepPass _ _ _, ?_, ?_, ?_⟩
  · intro t
    rw [mem_backupsToKeep, mem_keepPass, mem_keepPass, mem_keepPass]
  all_goals
    rw [length_keepPass]
    exact min_le_left _ _

/-- C6. Each pass of `pruneBackups` (bucket key: day, ISO week or month)
selects the buckets with the `N` smallest keys. When the keys of the catalog
are in the order of time, these are the oldest buckets: every snapshot of a
bucket that is not selected is newer than every snapshot the pass keeps, and
when the catalog has more than `N` buckets no snapshot of the bucket of the
newest snapshot is kept by the pass. -/
theorem keepPass_selects_oldest (lib : TimeLib) (backups : List Nat) (N : Int)
    (key : Nat → List Char)
    (_hkey : key = dayKey lib ∨ key = weekKey lib ∨ key = monthKey lib)
    (hchron : ∀ a ∈ backups, ∀ b ∈ backups, a ≤ b → key a ≤ key b) :
    (∀ k, k ∈ (keepPass key backups N).map key ↔ k ∈ (ascendingKeys key backups).take N.toNat) ∧
    (∀ t ∈ keepPass key backups N, ∀ b ∈ backups,
      key b ∉ (keepPass key backups N).map key → t < b) ∧
    (N.toNat < (ascendingKeys key backups).length →
      ∀ newest ∈ backups, (∀ b ∈ backups, b ≤ newest) →
        ∀ t ∈ backups, key t = key newest → t ∉ keepPass key backups N) := by
  refine ⟨mem_map_keepPass key backups N, ?_, ?_⟩
  · intro t ht b hb hnot
    have hsel := (mem_keepPass key backups N t).mp ht
    rw [mem_map_keepPass, ← sortedKeys_eq_ascendingKeys,
      mem_take_sorted _ (sorted_sortedKeys key backups), sortedKeys_rank] at hnot
    have hrank : N.toNat ≤ keyRank key backups (key b) := by
      by_contra hlt
      exact hnot ⟨(mem_sortedKeys key backups _).mpr ⟨b, hb, rfl⟩, not_le.mp hlt⟩
    by_contra hle
    have := keyRank_mono key backups (hchron b hb t hsel.1 (not_lt.mp hle))
    have := hsel.2.2
    omega
  · intro hlen newest hnew hmax t ht hk hmem
    have hsel := (mem_keepPass key backups N t).mp hmem
    have := keyRank_of_max key backups (key newest) (fun b hb => hchron b hb newest hnew (hmax b hb))
    have := hsel.2.2
    rw [hk] at this
    omega

/-- C7. With `keepDaily = N`, `N ≥ 0`, on a catalog with at least `N` distinct
days, the daily pass puts exactly `N` snapshots into the keep set, no two of
the same day, each the newest snapshot of its day. -/
theorem daily_pass_keeps_exactly_N (lib : TimeLib) (backups : List Nat) (N : Int)
    (hN : 0 ≤ N) (hM : N ≤ ((ascendingKeys (dayKey lib) backups).length : Int)) :
    ((keepPass (dayKey lib) backups N).length : Int) = N ∧
    ((keepPass (dayKey lib) backups N).map (dayKey lib)).Nodup ∧
    (∀ t ∈ keepPass (dayKey lib) backups N,
      t ∈ backups ∧ ∀ b ∈ backups, dayKey lib b = dayKey lib t → b ≤ t) := by
  refine ⟨?_, nodup_map_keepPass _ _ _, ?_⟩
  · rw [length_keepPass]
    omega
  · intro t ht
    have := (mem_keepPass (dayKey lib) backups N t).mp ht
    exact ⟨this.1, this.2.1⟩

theorem keepPass_selects_oldest_witness :
    (∀ a ∈ cat4, ∀ b ∈ cat4, a ≤ b → dayKey utc a ≤ dayKey utc b) ∧
    ((∀ k, k ∈ (keepPass (dayKey utc) cat4 2).map (dayKey utc) ↔
        k ∈ (ascendingKeys (dayKey utc) cat4).take (2 : Int).toNat) ∧
    (∀ t ∈ keepPass (dayKey utc) cat4 2, ∀ b ∈ cat4,
      dayKey utc b ∉ (keepPass (dayKey utc) cat4 2).map (dayKey utc) → t < b) ∧
    ((2 : Int).toNat < (ascendingKeys (dayKey utc) cat4).length →
      ∀ newest ∈ cat4, (∀ b ∈ cat4, b ≤ newest) →
        ∀ t ∈ cat4, dayKey utc t = dayKey utc newest → t ∉ keepPass (dayKey utc) cat4 2)) :=
  ⟨by decide, keepPass_selects_oldest utc cat4 2 (dayKey utc) (Or.inl rfl) (by decide)⟩

theorem daily_pass_keeps_exactly_N_witness :
    (0 : Int) ≤ 2 ∧ (2 : Int) ≤ ((ascendingKeys (dayKey utc) cat4).length : Int) ∧
    (((keepPass (dayKey utc) cat4 2).length : Int) = 2 ∧
    ((keepPass (dayKey utc) cat4 2).map (dayKey utc)).Nodup ∧
    (∀ t ∈ keepPass (dayKey utc) cat4 2,
      t ∈ cat4 ∧ ∀ b ∈ cat4, dayKey utc b = dayKey utc t → b ≤ t)) :=
  ⟨by decide, by decide, daily_pass_keeps_exactly_N utc cat4 2 (by decide) (by decide)⟩

theorem is_directory_deleteLoop (lib : TimeLib) (destination : Path) (toKeep backups : List Nat)
    (fs : FileSystem) (c : Nat) :
    (deleteLoop lib destination toKeep backups fs c).1.is_directory destination =
      fs.is_directory destination := by
  unfold FileSystem.is_directory
  rw [(deleteLoop_spec lib destination toKeep backups fs c).2.1 destination]
  intro n _
  have := not_isPrefixOf_self_append destination "backups" [n]
  simpa using this

theorem mem_listBackups_deleteLoop (lib : TimeLib) (destination : Path) (toKeep backups : List Nat)
    (fs : FileSystem) (c : Nat) (t : Nat) :
    t ∈ listBackups lib (deleteLoop lib destination toKeep backups fs c).1 destination ↔
      fs.is_directory destination = true ∧
        ∃ n ∈ snapshotNames fs destination, n ∉ doomedNames lib toKeep backups ∧
          lib.get_time n = some t := by
  rw [mem_listBackups, is_directory_deleteLoop,
    (deleteLoop_spec lib destination toKeep backups fs c).2.2.2]
  simp only [List.mem_filter, decide_eq_true_eq, and_assoc]

/-- What is left in the catalog after the deletion loop run on the whole
catalog is in the keep set, when the names are canonical. -/
theorem mem_toKeep_of_mem_listBackups_deleteLoop (lib : TimeLib) (destination : Path)
    (toKeep : List Nat) (fs : FileSystem) (c : Nat) (hc : CanonicalNames lib fs destination)
    (t : Nat)
    (ht : t ∈ listBackups lib
      (deleteLoop lib destination toKeep (listBackups lib fs destination) fs c).1 destination) :
    t ∈ toKeep ∧ t ∈ listBackups lib fs destination := by
  rw [mem_listBackups_deleteLoop] at ht
  obtain ⟨hd, n, hn, hnot, hgt⟩ := ht
  have hmem : t ∈ listBackups lib fs destination := (mem_listBackups _ _ _ _).mpr ⟨hd, n, hn, hgt⟩
  refine ⟨?_, hmem⟩
  by_contra hk
  apply hnot
  simp only [doomedNames, List.mem_map, List.mem_filter, decide_eq_true_eq]
  exact ⟨t, ⟨hmem, hk⟩, hc n hn t hgt⟩

theorem stamp_mem_snapshotNames (lib : TimeLib) (fs : FileSystem) (destination : Path)
    (hc : CanonicalNames lib fs destination) (t : Nat)
    (ht : t ∈ listBackups lib fs destination) :
    lib.stamp t ∈ snapshotNames fs destination ∧ lib.get_time (lib.stamp t) = some t := by
  obtain ⟨_, n, hn, hgt⟩ := (mem_listBackups _ _ _ _).mp ht
  have := hc n hn t hgt
  rw [this]
  exact ⟨hn, hgt⟩

theorem stamp_injOn_listBackups (lib : TimeLib) (fs : FileSystem) (destination : Path)
    (hc : CanonicalNames lib fs destination) (t t' : Nat)
    (ht : t ∈ listBackups lib fs destination) (ht' : t' ∈ listBackups lib fs destination)
    (h : lib.stamp t = lib.stamp t') : t = t' := by
  have h1 := (stamp_mem_snapshotNames lib fs destination hc t ht).2
  have h2 := (stamp_mem_snapshotNames lib fs destination hc t' ht').2
  rw [h, h2] at h1
  exact (Option.some.inj h1).symm

theorem stamp_not_doomed (lib : TimeLib) (fs : FileSystem) (destination : Path)
    (toKeep : List Nat) (hc : CanonicalNames lib fs destination) (t : Nat)
    (ht : t ∈ listBackups lib fs destination) (hk : t ∈ toKeep) :
    lib.stamp t ∉ doomedNames lib toKeep (listBackups lib fs destination) := by
  intro hd
  simp only [doomedNames, List.mem_map, List.mem_filter, decide_eq_true_eq] at hd
  obtain ⟨t', ⟨ht', hk'⟩, hst⟩ := hd
  have := stamp_injOn_listBackups lib fs destination hc t' t ht' ht hst
  exact hk' (this ▸ hk)

theorem isPrefixOf_two_snapshots (destination : Path) (n m : String) (p : Path)
    (h1 : (destination ++ ["backups", n]).isPrefixOf p = true)
    (h2 : (destination ++ ["backups", m]).isPrefixOf p = true) : n = m := by
  rw [List.isPrefixOf_iff_prefix] at h1 h2
  have := List.prefix_of_prefix_length_le h1 h2 (by simp)
  exact (isPrefixOf_snapshot_iff destination n m).mp (List.isPrefixOf_iff_prefix.mpr this)

/-- The deletion loop where every name is a stamp. Let every snapshot directory carry the
stamp of its time as its name, and let no entry of the file system be listed twice. Then
`pruneBackups` succeeds; every cataloged snapshot outside the keep set is deleted (its
directory is gone and the catalog no longer lists it); every cataloged snapshot
in the keep set is left in place (its directory and all below it are as before,
and the catalog still lists it); the deleted and the kept count add up to the
size of the catalog; and on an empty catalog nothing is deleted. -/
theorem pruneBackups_deletes_the_rest (lib : TimeLib) (fs : FileSystem) (destination : Path)
    (keepDaily keepWeekly keepMonthly : Int) (hc : CanonicalNames lib fs destination)
    (hwf : fs.entries.Nodup) :
    (pruneBackups lib fs destination keepDaily keepWeekly keepMonthly).result = true ∧
    (∀ t ∈ listBackups lib fs destination,
      t ∉ backupsToKeep lib (listBackups lib fs destination) keepDaily keepWeekly keepMonthly →
        (pruneBackups lib fs destination keepDaily keepWeekly keepMonthly).fs.pathExists
          (snapshotDir lib destination t) = false ∧
        t ∉ listBackups lib
          (pruneBackups lib fs destination keepDaily keepWeekly keepMonthly).fs destination) ∧
    (∀ t ∈ listBackups lib fs destination,
      t ∈ backupsToKeep lib (listBackups lib fs destination) keepDaily keepWeekly keepMonthly →
        (pruneBackups lib fs destination keepDaily keepWeekly keepMonthly).fs.pathExists
          (snapshotDir lib destination t) = true ∧
        (∀ p, (snapshotDir lib destination t).isPrefixOf p = true →
          (pruneBackups lib fs destination keepDaily keepWeekly keepMonthly).fs.status p =
            fs.status p) ∧
        t ∈ listBackups lib
          (pruneBackups lib fs destination keepDaily keepWeekly keepMonthly).fs destination) ∧
    (pruneBackups lib fs destination keepDaily keepWeekly keepMonthly).deletedCount +
      (pruneBackups lib fs destination keepDaily keepWeekly keepMonthly).keptCount =
        (listBackups lib fs destination).length ∧
    (listBackups lib fs destination = [] →
      (pruneBackups lib fs destination keepDaily keepWeekly keepMonthly).deletedCount = 0 ∧
      (pruneBackups lib fs destination keepDaily keepWeekly keepMonthly).fs = fs) := by
  by_cases he : (listBackups lib fs destination).isEmpty = true
  · have hnil := List.isEmpty_iff.mp he
    unfold pruneBackups
    simp only [he, if_true]
    rw [hnil]
    simp
  · have hne : listBackups lib fs destination ≠ [] := fun h => he (List.isEmpty_iff.mpr h)
    unfold pruneBackups
    simp only [he, Bool.false_eq_true, if_false]
    set catalog := listBackups lib fs destination with hcat
    set toKeep := backupsToKeep lib catalog keepDaily keepWeekly keepMonthly with hkeep
    have hspec := deleteLoop_spec lib destination toKeep catalog fs 0
    refine ⟨trivial, ?_, ?_, ?_, fun h => absurd h hne⟩
    · intro t ht hk
      have hdoomed : lib.stamp t ∈ doomedNames lib toKeep catalog := by
        simp only [doomedNames, List.mem_map, List.mem_filter, decide_eq_true_eq]
        exact ⟨t, ⟨ht, hk⟩, rfl⟩
      refine ⟨hspec.2.2.1 _ hdoomed, ?_⟩
      intro hmem
      exact hk (mem_toKeep_of_mem_listBackups_deleteLoop lib destination toKeep fs 0 hc t hmem).1
    · intro t ht hk
      have hnd := stamp_not_doomed lib fs destination toKeep hc t ht hk
      have hsn := stamp_mem_snapshotNames lib fs destination hc t ht
      have hfree : ∀ p, (snapshotDir lib destination t).isPrefixOf p = true →
          ∀ n ∈ doomedNames lib toKeep catalog,
            (destination ++ ["backups", n]).isPrefixOf p = false := by
        intro p hp n hn
        rw [Bool.eq_false_iff]
        intro hpre
        have := isPrefixOf_two_snapshots destination _ _ p hpre hp
        exact hnd (this ▸ hn)
      refine ⟨?_, fun p hp => hspec.2.1 p (hfree p hp), ?_⟩
      · unfold FileSystem.pathExists
        rw [hspec.2.1 _ (hfree _ (by simp [snapshotDir]))]
        exact pathExists_of_mem_snapshotNames fs destination _ hsn.1
      · rw [mem_listBackups_deleteLoop]
        exact ⟨((mem_listBackups _ _ _ _).mp ht).1, _, hsn.1, hnd, hsn.2⟩
    · have hcnd : catalog.Nodup := nodup_listBackups lib fs destination hwf hc
      have hdn : (doomedNames lib toKeep catalog).Nodup := by
        unfold doomedNames
        apply List.Nodup.map_on
        · intro x hx y hy hxy
          exact stamp_injOn_listBackups lib fs destination hc x y (List.mem_filter.mp hx).1
            (List.mem_filter.mp hy).1 hxy
        · exact hcnd.filter _
      rw [deleteLoop_count lib destination toKeep catalog fs 0 _ hdn]
      · have hperm : (catalog.filter (fun t => !decide (t ∉ toKeep))).Perm toKeep := by
          rw [List.perm_ext_iff_of_nodup (hcnd.filter _)
            (nodup_backupsToKeep lib catalog keepDaily keepWeekly keepMonthly)]
          intro a
          simp only [List.mem_filter, Bool.not_eq_true', decide_eq_false_iff_not, not_not]
          exact ⟨fun h => h.2, fun h => ⟨backupsToKeep_subset _ _ _ _ _ a h, h⟩⟩
        have hlen := List.length_eq_length_filter_add (l := catalog) (fun t => decide (t ∉ toKeep))
        rw [hperm.length_eq] at hlen
        simp only [doomedNames, List.length_map, zero_add]
        omega
      · intro t ht _
        exact pathExists_of_mem_snapshotNames fs destination _
          (stamp_mem_snapshotNames lib fs destination hc t ht).1

theorem pruneBackups_deletes_the_rest_witness :
    CanonicalNames utc fsW ["mnt"] ∧ fsW.entries.Nodup ∧
    (pruneBackups utc fsW ["mnt"] 2 0 0).deletedCount +
      (pruneBackups utc fsW ["mnt"] 2 0 0).keptCount = (listBackups utc fsW ["mnt"]).length :=
  ⟨by decide, by decide,
    (pruneBackups_deletes_the_rest utc fsW ["mnt"] 2 0 0 (by decide) (by decide)).2.2.2.1⟩

/-- C10. While the status is SCANNING, BACKING_UP or VERIFYING, `startBackup`
returns false and leaves the whole state as it is: status, statistics,
configuration, callback, cancellation flag, and the count of worker threads
started. -/
theorem startBackup_refused_while_running (config : BackupConfig)
    (progressCallback : Option Nat) (s : State)
    (h : s.status = BackupStatus.SCANNING ∨ s.status = BackupStatus.BACKING_UP ∨
      s.status = BackupStatus.VERIFYING) :
    startBackup config progressCallback s = some (false, s) := by
  unfold startBackup
  rcases h with h | h | h <;> simp [h]

theorem startBackup_refused_while_running_witness :
    ((started {} none {}).status = BackupStatus.SCANNING ∨
      (started {} none {}).status = BackupStatus.BACKING_UP ∨
      (started {} none {}).status = BackupStatus.VERIFYING) ∧
    startBackup { verifyBackup := false } (some 7) (started {} none {}) =
      some (false, started {} none {}) :=
  ⟨by decide, startBackup_refused_while_running _ _ _ (by decide)⟩

/-! ## The dedup decision of backupFile -/

theorem compareChunks_eq (fuel : Nat) (r1 r2 : List Nat) (hlen : r1.length = r2.length)
    (hfuel : r1.length / 4096 < fuel) : compareChunks fuel r1 r2 = decide (r1 = r2) := by
  induction fuel generalizing r1 r2 with
  | zero => omega
  | succ fuel ih =>
    unfold compareChunks
    simp only
    have htl : (r1.take 4096).length = (r2.take 4096).length := by
      simp [List.length_take, hlen]
    rw [if_neg (by simpa using htl)]
    by_cases hb : r1.take 4096 = r2.take 4096
    · rw [if_neg (by simpa using hb)]
      by_cases hshort : (r1.take 4096).length < 4096 ∨ (r2.take 4096).length < 4096
      · rw [if_pos hshort]
        have h1 : r1.length < 4096 := by
          simp only [List.length_take] at hshort
          omega
        have e1 : r1.take 4096 = r1 := List.take_of_length_le (by omega)
        have e2 : r2.take 4096 = r2 := List.take_of_length_le (by omega)
        rw [e1, e2] at hb
        simp [hb]
      · rw [if_neg hshort]
        have h1 : 4096 ≤ r1.length := by
          simp only [List.length_take] at hshort
          omega
        rw [ih (r1.drop 4096) (r2.drop 4096) (by simp [hlen]) (by
          simp only [List.length_drop]
          have : r1.length / 4096 = (r1.length - 4096) / 4096 + 1 := by omega
          omega)]
        congr 1
        apply propext
        constructor
        · intro hd
          rw [← List.take_append_drop 4096 r1, ← List.take_append_drop 4096 r2, hb, hd]
        · intro h
          rw [h]
    · rw [if_pos (by simpa using hb)]
      symm
      simp only [decide_eq_false_iff_not]
      intro h
      exact hb (by rw [h])

theorem areFilesEqual_iff (fs : FileSystem) (bytes : List Nat) (file2 : Path) :
    areFilesEqual fs bytes file2 = true ↔ fs.read file2 = some bytes := by
  unfold areFilesEqual FileSystem.file_size FileSystem.read
  cases hst : fs.status file2 with
  | none => simp
  | some ty =>
    cases ty with
    | regular ino =>
      simp only
      by_cases hlen : bytes.length = (fs.content ino).length
      · rw [if_neg (by simpa using hlen), compareChunks_eq _ _ _ hlen (by omega)]
        simp only [decide_eq_true_eq, Option.some.injEq]
        exact eq_comm
      · rw [if_pos (by simpa using hlen)]
        simp only [Bool.false_eq_true, Option.some.injEq, false_iff]
        intro h
        exact hlen (by rw [h])
    | directory => simp
    | other => simp

theorem mkdirStep_regular (fs fs1 : FileSystem) (p : Path)
    (h : FileSystem.mkdirStep (some fs) p = some fs1) :
    fs1.inodes = fs.inodes ∧
    ∀ q ino, fs1.status q = some (FileType.regular ino) ↔
      fs.status q = some (FileType.regular ino) := by
  unfold FileSystem.mkdirStep at h
  simp only at h
  cases hst : fs.status p with
  | none =>
    rw [hst] at h
    simp only [Option.some.injEq] at h
    subst h
    refine ⟨rfl, ?_⟩
    intro q ino
    unfold FileSystem.status at hst ⊢
    by_cases hq : q = []
    · simp [hq]
    · simp only [hq, if_false, List.find?_append]
      by_cases hqp : q = p
      · subst hqp
        simp only [hq, if_false, Option.map_eq_none'] at hst
        rw [hst]
        simp only [List.find?_cons, decide_True, Option.none_or, Option.map_some',
          Option.map_none']
        constructor <;> intro h <;> cases h
      · have : List.find? (fun e => decide (e.1 = q)) [(p, FileType.directory)] = none := by
          simp [List.find?_cons, Ne.symm hqp]
        rw [this, Option.or_none]
  | some ty =>
    rw [hst] at h
    cases ty with
    | directory =>
      simp only [Option.some.injEq] at h
      subst h
      exact ⟨rfl, fun _ _ => Iff.rfl⟩
    | regular ino => simp at h
    | other => simp at h

theorem foldl_mkdirStep_none (ps : List Path) :
    ps.foldl FileSystem.mkdirStep none = none := by
  induction ps with
  | nil => rfl
  | cons p rest ih => simpa [List.foldl_cons, FileSystem.mkdirStep] using ih

theorem foldl_mkdirStep_regular (ps : List Path) (fs fs1 : FileSystem)
    (h : ps.foldl FileSystem.mkdirStep (some fs) = some fs1) :
    fs1.inodes = fs.inodes ∧
    ∀ q ino, fs1.status q = some (FileType.regular ino) ↔
      fs.status q = some (FileType.regular ino) := by
  induction ps generalizing fs with
  | nil =>
    simp only [List.foldl_nil, Option.some.injEq] at h
    subst h
    exact ⟨rfl, fun _ _ => Iff.rfl⟩
  | cons p rest ih =>
    rw [List.foldl_cons] at h
    cases hstep : FileSystem.mkdirStep (some fs) p with
    | none =>
      rw [hstep, foldl_mkdirStep_none] at h
      exact absurd h (by simp)
    | some fs2 =>
      rw [hstep] at h
      have h1 := mkdirStep_regular fs fs2 p hstep
      have h2 := ih fs2 h
      exact ⟨h2.1.trans h1.1, fun q ino => (h2.2 q ino).trans (h1.2 q ino)⟩

theorem read_create_directories (fs fs1 : FileSystem) (p q : Path)
    (h : fs.create_directories p = some fs1) : fs1.read q = fs.read q := by
  have := foldl_mkdirStep_regular _ fs fs1 h
  unfold FileSystem.read FileSystem.content
  rw [this.1]
  cases h1 : fs1.status q with
  | none =>
    cases h2 : fs.status q with
    | none => rfl
    | some ty =>
      cases ty with
      | regular ino => rw [(this.2 q ino).mpr h2] at h1; exact absurd h1 (by simp)
      | directory => rfl
      | other => rfl
  | some ty =>
    cases ty with
    | regular ino => rw [(this.2 q ino).mp h1]
    | directory =>
      cases h2 : fs.status q with
      | none => rfl
      | some ty =>
        cases ty with
        | regular ino => rw [(this.2 q ino).mpr h2] at h1; exact absurd h1 (by simp)
        | directory => rfl
        | other => rfl
    | other =>
      cases h2 : fs.status q with
      | none => rfl
      | some ty =>
        cases ty with
        | regular ino => rw [(this.2 q ino).mpr h2] at h1; exact absurd h1 (by simp)
        | directory => rfl
        | other => rfl

theorem link_ne_copy (fs x : FileSystem) (a b c : Path) (bytes : List Nat)
    (h1 : fs.create_hard_link a b = some x) (h2 : fs.copy_file bytes c = some x) : False := by
  unfold FileSystem.create_hard_link at h1
  unfold FileSystem.copy_file at h2
  cases hst : fs.status a with
  | none => rw [hst] at h1; simp at h1
  | some ty =>
    rw [hst] at h1
    cases ty with
    | directory => simp at h1
    | other => simp at h1
    | regular ino =>
      simp only at h1
      split_ifs at h1
      simp only [Option.some.injEq] at h1
      subst h1
      cases hc : fs.status c with
      | none =>
        rw [hc] at h2
        simp only at h2
        split_ifs at h2
        simp only [Option.some.injEq, FileSystem.mk.injEq] at h2
        have := congrArg List.length h2.2
        simp at this
      | some ty =>
        rw [hc] at h2
        cases ty with
        | directory => simp at h2
        | other => simp at h2
        | regular ino2 =>
          simp only [Option.some.injEq, FileSystem.mk.injEq] at h2
          have := congrArg List.length h2.1
          simp at this

theorem copyAndCount_ok (bytes : List Nat) (destFile : Path) (fileChanged : Bool) (s : State)
    (h : (copyAndCount bytes destFile fileChanged s).1 = true) :
    s.fs.copy_file bytes destFile = some (copyAndCount bytes destFile fileChanged s).2.fs := by
  unfold copyAndCount at h ⊢
  cases hc : s.fs.copy_file bytes destFile with
  | none => rw [hc] at h; simp at h
  | some fs => cases fileChanged <;> simp

/-- The calls of `backupFile` that return true. For every such call, on a regular source
file with the given baseline directory: the file is hard-linked into the new
snapshot if and only if a baseline is given and holds, at the same relative
path, a regular file with the same bytes (so also the same size); and it is
copied if and only if that is not so. -/
theorem backupFile_links_iff_identical (sourceFile : Path) (bytes : List Nat)
    (backupDir basePath previousBackupDir : Path) (s : State)
    (hok : (backupFile sourceFile bytes backupDir basePath previousBackupDir s).1 = true) :
    ∃ fs1, s.fs.create_directories (joinRelative backupDir (relative s sourceFile basePath)).dropLast =
        some fs1 ∧
      (fs1.create_hard_link (joinRelative previousBackupDir (relative s sourceFile basePath))
          (joinRelative backupDir (relative s sourceFile basePath)) =
          some (backupFile sourceFile bytes backupDir basePath previousBackupDir s).2.fs ↔
        (previousBackupDir ≠ [] ∧
          s.fs.read (joinRelative previousBackupDir (relative s sourceFile basePath)) = some bytes)) ∧
      (fs1.copy_file bytes (joinRelative backupDir (relative s sourceFile basePath)) =
          some (backupFile sourceFile bytes backupDir basePath previousBackupDir s).2.fs ↔
        ¬ (previousBackupDir ≠ [] ∧
          s.fs.read (joinRelative previousBackupDir (relative s sourceFile basePath)) = some bytes)) := by
  unfold backupFile at hok ⊢
  simp only at hok ⊢
  cases hmk : s.fs.create_directories (joinRelative backupDir (relative s sourceFile basePath)).dropLast with
  | none => rw [hmk] at hok; simp at hok
  | some fs1 =>
    rw [hmk] at hok
    simp only at hok ⊢
    refine ⟨fs1, rfl, ?_⟩
    have hread := read_create_directories s.fs fs1 _
      (joinRelative previousBackupDir (relative s sourceFile basePath)) hmk
    have hI : (previousBackupDir ≠ [] ∧
          s.fs.read (joinRelative previousBackupDir (relative s sourceFile basePath)) = some bytes) ↔
        (previousBackupDir ≠ [] ∧
          fs1.read (joinRelative previousBackupDir (relative s sourceFile basePath)) = some bytes) := by
      rw [hread]
    generalize (previousBackupDir ≠ [] ∧
      s.fs.read (joinRelative previousBackupDir (relative s sourceFile basePath)) = some bytes) = I at hI ⊢
    -- the two outcomes exclude each other
    have copyCase : ∀ (x : FileSystem), ¬ I →
        fs1.copy_file bytes (joinRelative backupDir (relative s sourceFile basePath)) = some x →
        (fs1.create_hard_link (joinRelative previousBackupDir (relative s sourceFile basePath))
          (joinRelative backupDir (relative s sourceFile basePath)) = some x ↔ I) ∧
        (fs1.copy_file bytes (joinRelative backupDir (relative s sourceFile basePath)) = some x ↔ ¬ I) := by
      intro x hnot hcopy
      exact ⟨⟨fun hl => (link_ne_copy _ _ _ _ _ _ hl hcopy).elim, fun h => absurd h hnot⟩,
        ⟨fun _ => hnot, fun _ => hcopy⟩⟩
    by_cases hprev : previousBackupDir = []
    · have hnI : ¬ I := fun h => (hI.mp h).1 hprev
      simp only [hprev, ne_eq, not_true_eq_false, if_false] at hok ⊢
      have hc := copyAndCount_ok _ _ _ _ hok
      simp only [hprev] at copyCase
      exact copyCase _ hnI hc
    · simp only [ne_eq, hprev, not_false_eq_true, if_true] at hok ⊢
      by_cases hex : fs1.pathExists (joinRelative previousBackupDir (relative s sourceFile basePath)) = true
      · simp only [hex, if_true] at hok ⊢
        cases hsz : fs1.file_size (joinRelative previousBackupDir (relative s sourceFile basePath)) with
        | none => rw [hsz] at hok; simp at hok
        | some prevSize =>
          rw [hsz] at hok
          simp only at hok ⊢
          by_cases hlen : prevSize = bytes.length
          · simp only [hlen, if_true] at hok ⊢
            by_cases heq : areFilesEqual fs1 bytes
                (joinRelative previousBackupDir (relative s sourceFile basePath)) = true
            · simp only [heq, Bool.not_true, Bool.not_false, if_true] at hok ⊢
              have hrd := (areFilesEqual_iff _ _ _).mp heq
              have hIt : I := hI.mpr ⟨hprev, hrd⟩
              cases hl : fs1.create_hard_link
                  (joinRelative previousBackupDir (relative s sourceFile basePath))
                  (joinRelative backupDir (relative s sourceFile basePath)) with
              | none => rw [hl] at hok; simp at hok
              | some fs2 =>
                simp only
                exact ⟨⟨fun _ => hIt, fun _ => trivial⟩,
                  ⟨fun hc => (link_ne_copy _ _ _ _ _ _ hl hc).elim, fun hn => absurd hIt hn⟩⟩
            · simp only [Bool.not_eq_true] at heq
              simp only [heq, Bool.not_false, Bool.not_true, Bool.false_eq_true, if_false]
                at hok ⊢
              have hc := copyAndCount_ok _ _ _ _ hok
              refine copyCase _ ?_ hc
              intro h
              have := (areFilesEqual_iff _ _ _).mpr (hI.mp h).2
              rw [heq] at this
              exact absurd this (by simp)
          · simp only [hlen, if_false] at hok ⊢
            have hc := copyAndCount_ok _ _ _ _ hok
            refine copyCase _ ?_ hc
            intro h
            have hrd := (hI.mp h).2
            unfold FileSystem.file_size at hsz
            unfold FileSystem.read at hrd
            cases hst : fs1.status (joinRelative previousBackupDir (relative s sourceFile basePath)) with
            | none => rw [hst] at hrd; simp at hrd
            | some ty =>
              rw [hst] at hrd hsz
              cases ty with
              | regular ino =>
                simp only [Option.some.injEq] at hrd hsz
                exact hlen (by rw [← hsz, hrd])
              | directory => simp at hrd
              | other => simp at hrd
      · simp only [Bool.not_eq_true] at hex
        simp only [hex, Bool.false_eq_true, if_false] at hok ⊢
        have hc := copyAndCount_ok _ _ _ _ hok
        refine copyCase _ ?_ hc
        intro h
        have hrd := (hI.mp h).2
        unfold FileSystem.pathExists at hex
        unfold FileSystem.read at hrd
        cases hst : fs1.status (joinRelative previousBackupDir (relative s sourceFile basePath)) with
        | none => rw [hst] at hrd; simp at hrd
        | some ty => rw [hst] at hex; simp at hex

/-! ## The walks and the file system -/

theorem SameWorld.same (s : State) : SameWorld s s :=
  ⟨rfl, rfl, rfl, rfl, rfl, rfl, rfl, rfl⟩

theorem SameWorld.andThen {a b c : State} (h1 : SameWorld a b) (h2 : SameWorld b c) :
    SameWorld a c :=
  ⟨h2.1.trans h1.1, h2.2.1.trans h1.2.1, h2.2.2.1.trans h1.2.2.1,
    h2.2.2.2.1.trans h1.2.2.2.1, h2.2.2.2.2.1.trans h1.2.2.2.2.1,
    h2.2.2.2.2.2.1.trans h1.2.2.2.2.2.1, h2.2.2.2.2.2.2.1.trans h1.2.2.2.2.2.2.1,
    h2.2.2.2.2.2.2.2.trans h1.2.2.2.2.2.2.2⟩

theorem sameWorld_cancelBackup (s : State) : SameWorld s (cancelBackup s).2 := by
  unfold cancelBackup
  split_ifs <;> exact ⟨rfl, rfl, rfl, rfl, rfl, rfl, rfl, rfl⟩

theorem sameWorld_poll (s : State) : SameWorld s (poll s) := by
  unfold poll
  cases h : s.cancelIn with
  | none => exact SameWorld.same s
  | some n =>
    cases n with
    | zero => exact sameWorld_cancelBackup _
    | succ n => exact ⟨rfl, rfl, rfl, rfl, rfl, rfl, rfl, rfl⟩

theorem sameWorld_notify (s : State) : SameWorld s (notify s) := by
  unfold notify
  cases h : s.progressCallback with
  | none => exact SameWorld.same s
  | some v => exact ⟨rfl, rfl, rfl, rfl, h.symm, rfl, rfl, rfl⟩

theorem sameWorld_stats (s : State) (stats : BackupStats) :
    SameWorld s { s with stats := stats } :=
  ⟨rfl, rfl, rfl, rfl, rfl, rfl, rfl, rfl⟩

theorem sameWorld_status (s : State) (status : BackupStatus) :
    SameWorld s { s with status := status } :=
  ⟨rfl, rfl, rfl, rfl, rfl, rfl, rfl, rfl⟩

theorem sameWorld_setStatus (status : BackupStatus) (s : State) :
    SameWorld s (setStatus status s) :=
  ⟨rfl, rfl, rfl, rfl, rfl, rfl, rfl, rfl⟩

mutual
theorem sameWorld_scanDirectory (path : Path) (node : Node) (s : State) :
    SameWorld s (scanDirectory path node s) := by
  cases node with
  | file bytes => simp only [scanDirectory]; exact SameWorld.same s
  | other => simp only [scanDirectory]; exact SameWorld.same s
  | dir entries =>
    simp only [scanDirectory]
    exact sameWorld_scanEntries path entries s
theorem sameWorld_scanEntries (path : Path) (entries : List (String × Node)) (s : State) :
    SameWorld s (scanEntries path entries s) := by
  cases entries with
  | nil => simp only [scanEntries]; exact SameWorld.same s
  | cons e rest =>
    obtain ⟨name, node⟩ := e
    cases node with
    | file bytes =>
      simp only [scanEntries]
      have h1 := (sameWorld_stats s _).andThen (sameWorld_poll
        { s with stats := { s.stats with totalFiles := s.stats.totalFiles + 1,
                                         totalSize := s.stats.totalSize + bytes.length } })
      split_ifs
      · exact sameWorld_scanEntries path rest s
      · exact h1
      · exact h1.andThen (sameWorld_scanEntries path rest _)
    | other =>
      simp only [scanEntries]
      split_ifs
      · exact sameWorld_scanEntries path rest s
      · exact sameWorld_poll s
      · exact (sameWorld_poll s).andThen (sameWorld_scanEntries path rest _)
    | dir sub =>
      simp only [scanEntries]
      have h1 := ((sameWorld_stats s _).andThen (sameWorld_scanDirectory (path ++ [name])
        (Node.dir sub) { s with stats := { s.stats with
          totalDirectories := s.stats.totalDirectories + 1 } })).andThen (sameWorld_poll _)
      split_ifs
      · exact sameWorld_scanEntries path rest s
      · exact h1
      · exact h1.andThen (sameWorld_scanEntries path rest _)
end

theorem sameWorld_scanSources (sourcePaths : List Path) (s : State) :
    SameWorld s (scanSources sourcePaths s).2 := by
  induction sourcePaths generalizing s with
  | nil => exact SameWorld.same s
  | cons p rest ih =>
    unfold scanSources
    cases hl : s.source.lookup p with
    | none => exact SameWorld.same s
    | some node =>
      simp only
      have h1 := (sameWorld_scanDirectory p node s).andThen (sameWorld_poll _)
      split_ifs
      · exact h1
      · exact h1.andThen (ih _)

theorem sameWorld_scanFiles (s : State) : SameWorld s (scanFiles s).2 := by
  unfold scanFiles
  have h := sameWorld_scanSources s.config.sourcePaths s
  cases hs : scanSources s.config.sourcePaths s with
  | mk ok s1 =>
    rw [hs] at h
    cases ok with
    | false => exact h
    | true => exact h.andThen (sameWorld_notify s1)

theorem sameWorld_completeBackup (success cancelled : Bool) (s : State) :
    SameWorld s (completeBackup success cancelled s) := by
  unfold completeBackup
  exact SameWorld.andThen ⟨rfl, rfl, rfl, rfl, rfl, rfl, rfl, rfl⟩ (sameWorld_notify _)

theorem sameWorld_verifyTicks (n : Nat) (s : State) : SameWorld s (verifyTicks n s).2 := by
  induction n generalizing s with
  | zero => exact SameWorld.same s
  | succ n ih =>
    unfold verifyTicks
    simp only
    split_ifs
    · exact sameWorld_poll s
    · exact (sameWorld_poll s).andThen (ih _)

theorem Grows.still (s : State) : Grows s s :=
  ⟨List.prefix_rfl, rfl, rfl, rfl, rfl, rfl, rfl, rfl⟩

theorem Grows.step {a b c : State} (h1 : Grows a b) (h2 : Grows b c) : Grows a c :=
  ⟨h1.1.trans h2.1, h2.2.1.trans h1.2.1, h2.2.2.1.trans h1.2.2.1,
    h2.2.2.2.1.trans h1.2.2.2.1, h2.2.2.2.2.1.trans h1.2.2.2.2.1,
    h2.2.2.2.2.2.1.trans h1.2.2.2.2.2.1, h2.2.2.2.2.2.2.1.trans h1.2.2.2.2.2.2.1,
    h2.2.2.2.2.2.2.2.trans h1.2.2.2.2.2.2.2⟩

theorem SameWorld.grows {a b : State} (h : SameWorld a b) : Grows a b :=
  ⟨by rw [h.1], h.2⟩

theorem grows_of_fs (s : State) (fs : FileSystem) (h : s.fs.entries <+: fs.entries) :
    Grows s { s with fs := fs } :=
  ⟨h, rfl, rfl, rfl, rfl, rfl, rfl, rfl⟩

theorem prefix_mkdirStep (fs fs1 : FileSystem) (p : Path)
    (h : FileSystem.mkdirStep (some fs) p = some fs1) : fs.entries <+: fs1.entries := by
  unfold FileSystem.mkdirStep at h
  simp only at h
  cases hst : fs.status p with
  | none =>
    rw [hst] at h
    simp only [Option.some.injEq] at h
    subst h
    exact List.prefix_append _ _
  | some ty =>
    rw [hst] at h
    cases ty with
    | directory =>
      simp only [Option.some.injEq] at h
      subst h
      exact List.prefix_rfl
    | regular ino => simp at h
    | other => simp at h

theorem status_of_grown (fs fs1 : FileSystem) (h : fs.entries <+: fs1.entries) (p : Path)
    (ty : FileType) (hst : fs.status p = some ty) : fs1.status p = some ty := by
  obtain ⟨extra, he⟩ := h
  unfold FileSystem.status at hst ⊢
  by_cases hp : p = []
  · simpa [hp] using hst
  · simp only [hp, if_false] at hst ⊢
    rw [← he, List.find?_append]
    cases hf : List.find? (fun e => decide (e.1 = p)) fs.entries with
    | none => rw [hf] at hst; simp at hst
    | some e => rw [hf] at hst; simpa using hst

theorem is_directory_of_grown (fs fs1 : FileSystem) (h : fs.entries <+: fs1.entries) (p : Path)
    (hd : fs.is_directory p = true) : fs1.is_directory p = true := by
  unfold FileSystem.is_directory at hd ⊢
  simp only [decide_eq_true_eq] at hd ⊢
  exact status_of_grown fs fs1 h p _ hd

theorem is_directory_mkdirStep (fs fs1 : FileSystem) (p : Path)
    (h : FileSystem.mkdirStep (some fs) p = some fs1) : fs1.is_directory p = true := by
  unfold FileSystem.mkdirStep at h
  simp only at h
  unfold FileSystem.is_directory
  simp only [decide_eq_true_eq]
  cases hst : fs.status p with
  | none =>
    rw [hst] at h
    simp only [Option.some.injEq] at h
    subst h
    unfold FileSystem.status at hst ⊢
    by_cases hp : p = []
    · simp [hp]
    · simp only [hp, if_false, Option.map_eq_none'] at hst
      simp only [hp, if_false, List.find?_append, hst, Option.none_or, List.find?_cons,
        decide_True, Option.map_some']
  | some ty =>
    rw [hst] at h
    cases ty with
    | directory =>
      simp only [Option.some.injEq] at h
      subst h
      exact hst
    | regular ino => simp at h
    | other => simp at h

theorem foldl_mkdirStep_spec (ps : List Path) (fs fs1 : FileSystem)
    (h : ps.foldl FileSystem.mkdirStep (some fs) = some fs1) :
    fs.entries <+: fs1.entries ∧ ∀ q ∈ ps, fs1.is_directory q = true := by
  induction ps generalizing fs with
  | nil =>
    simp only [List.foldl_nil, Option.some.injEq] at h
    subst h
    exact ⟨List.prefix_rfl, fun q hq => absurd hq (List.not_mem_nil _)⟩
  | cons p rest ih =>
    rw [List.foldl_cons] at h
    cases hstep : FileSystem.mkdirStep (some fs) p with
    | none =>
      rw [hstep, foldl_mkdirStep_none] at h
      exact absurd h (by simp)
    | some fs2 =>
      rw [hstep] at h
      have h2 := ih fs2 h
      refine ⟨(prefix_mkdirStep fs fs2 p hstep).trans h2.1, ?_⟩
      intro q hq
      rcases List.mem_cons.mp hq with rfl | hq
      · exact is_directory_of_grown fs2 fs1 h2.1 _ (is_directory_mkdirStep fs fs2 _ hstep)
      · exact h2.2 q hq

theorem create_directories_spec (fs fs1 : FileSystem) (p : Path)
    (h : fs.create_directories p = some fs1) :
    fs.entries <+: fs1.entries ∧ ∀ q, q <+: p → fs1.is_directory q = true := by
  have := foldl_mkdirStep_spec p.inits fs fs1 h
  exact ⟨this.1, fun q hq => this.2 q ((List.mem_inits q p).mpr hq)⟩

theorem prefix_copy_file (fs fs1 : FileSystem) (bytes : List Nat) (dest : Path)
    (h : fs.copy_file bytes dest = some fs1) : fs.entries <+: fs1.entries := by
  unfold FileSystem.copy_file at h
  cases hst : fs.status dest with
  | none =>
    rw [hst] at h
    simp only at h
    split_ifs at h
    simp only [Option.some.injEq] at h
    subst h
    exact List.prefix_append _ _
  | some ty =>
    rw [hst] at h
    cases ty with
    | regular ino =>
      simp only [Option.some.injEq] at h
      subst h
      exact List.prefix_rfl
    | directory => simp at h
    | other => simp at h

theorem prefix_create_hard_link (fs fs1 : FileSystem) (target link : Path)
    (h : fs.create_hard_link target link = some fs1) : fs.entries <+: fs1.entries := by
  unfold FileSystem.create_hard_link at h
  cases hst : fs.status target with
  | none => rw [hst] at h; simp at h
  | some ty =>
    rw [hst] at h
    cases ty with
    | regular ino =>
      simp only at h
      split_ifs at h
      simp only [Option.some.injEq] at h
      subst h
      exact List.prefix_append _ _
    | directory => simp at h
    | other => simp at h

theorem grows_copyAndCount (bytes : List Nat) (destFile : Path) (fileChanged : Bool)
    (s : State) : Grows s (copyAndCount bytes destFile fileChanged s).2 := by
  unfold copyAndCount
  cases hc : s.fs.copy_file bytes destFile with
  | none => exact Grows.still s
  | some fs =>
    have := prefix_copy_file _ _ _ _ hc
    cases fileChanged <;> exact ⟨this, rfl, rfl, rfl, rfl, rfl, rfl, rfl⟩

theorem grows_backupFile (sourceFile : Path) (bytes : List Nat)
    (backupDir basePath previousBackupDir : Path) (s : State) :
    Grows s (backupFile sourceFile bytes backupDir basePath previousBackupDir s).2 := by
  unfold backupFile
  simp only
  cases hmk : s.fs.create_directories (joinRelative backupDir (relative s sourceFile basePath)).dropLast with
  | none => exact Grows.still s
  | some fs1 =>
    simp only
    have h1 : Grows s { s with fs := fs1 } :=
      grows_of_fs s fs1 (create_directories_spec _ _ _ hmk).1
    have hcopy := fun b => h1.step (grows_copyAndCount bytes
      (joinRelative backupDir (relative s sourceFile basePath)) b { s with fs := fs1 })
    by_cases hprev : previousBackupDir ≠ []
    · rw [if_pos hprev]
      by_cases hex : fs1.pathExists (joinRelative previousBackupDir (relative s sourceFile basePath)) = true
      · rw [if_pos hex]
        cases hsz : fs1.file_size (joinRelative previousBackupDir (relative s sourceFile basePath)) with
        | none => exact h1
        | some prevSize =>
          simp only
          by_cases hlen : prevSize = bytes.length
          · rw [if_pos hlen]
            by_cases heq : (!(!areFilesEqual fs1 bytes
                (joinRelative previousBackupDir (relative s sourceFile basePath)))) = true
            · rw [if_pos heq]
              cases hl : fs1.create_hard_link
                  (joinRelative previousBackupDir (relative s sourceFile basePath))
                  (joinRelative backupDir (relative s sourceFile basePath)) with
              | none => exact h1
              | some fs2 =>
                exact ⟨(create_directories_spec _ _ _ hmk).1.trans
                  (prefix_create_hard_link _ _ _ _ hl), rfl, rfl, rfl, rfl, rfl, rfl, rfl⟩
            · rw [if_neg heq]
              exact hcopy _
          · rw [if_neg hlen]
            exact hcopy _
      · rw [if_neg hex]
        exact hcopy _
    · rw [if_neg hprev]
      exact hcopy _

theorem grows_skipped (s : State) :
    Grows s { s with stats := { s.stats with skippedFiles := s.stats.skippedFiles + 1 } } :=
  ⟨List.prefix_rfl, rfl, rfl, rfl, rfl, rfl, rfl, rfl⟩

mutual
theorem grows_backupDirectory (sourcePath : Path) (node : Node)
    (backupDir basePath previousBackupDir : Path) (s : State) :
    Grows s (backupDirectory sourcePath node backupDir basePath previousBackupDir s).2 := by
  cases node with
  | file bytes =>
    simp only [backupDirectory]
    split_ifs with hex
    · exact Grows.still s
    · cases hmk : s.fs.create_directories (joinRelative backupDir (relative s sourcePath basePath)) with
      | none => exact Grows.still s
      | some fs1 => exact grows_of_fs s fs1 (create_directories_spec _ _ _ hmk).1
  | other =>
    simp only [backupDirectory]
    split_ifs with hex
    · exact Grows.still s
    · cases hmk : s.fs.create_directories (joinRelative backupDir (relative s sourcePath basePath)) with
      | none => exact Grows.still s
      | some fs1 => exact grows_of_fs s fs1 (create_directories_spec _ _ _ hmk).1
  | dir entries =>
    simp only [backupDirectory]
    split_ifs with hex
    · exact (Grows.still s).step
        (grows_backupEntries sourcePath entries backupDir basePath previousBackupDir _)
    · cases hmk : s.fs.create_directories (joinRelative backupDir (relative s sourcePath basePath)) with
      | none => exact Grows.still s
      | some fs1 =>
        exact (grows_of_fs s fs1 (create_directories_spec _ _ _ hmk).1).step
          (grows_backupEntries sourcePath entries backupDir basePath previousBackupDir _)
theorem grows_backupEntries (sourcePath : Path) (entries : List (String × Node))
    (backupDir basePath previousBackupDir : Path) (s : State) :
    Grows s (backupEntries sourcePath entries backupDir basePath previousBackupDir s).2 := by
  cases entries with
  | nil => simp only [backupEntries]; exact Grows.still s
  | cons e rest =>
    obtain ⟨name, node⟩ := e
    cases node with
    | file bytes =>
      simp only [backupEntries]
      split_ifs with hx
      · exact (grows_skipped s).step
          (grows_backupEntries sourcePath rest backupDir basePath previousBackupDir _)
      · have h1 := grows_backupFile (sourcePath ++ [name]) bytes backupDir basePath
          previousBackupDir s
        cases hb : backupFile (sourcePath ++ [name]) bytes backupDir basePath
            previousBackupDir s with
        | mk ok s1 =>
          rw [hb] at h1
          cases ok with
          | false => exact h1
          | true =>
            simp only
            have h2 := h1.step (((sameWorld_stats s1 { s1.stats with
                processedFiles := s1.stats.processedFiles + 1,
                processedSize := s1.stats.processedSize + bytes.length }).andThen
              (sameWorld_notify _)).andThen (sameWorld_poll _)).grows
            split_ifs
            · exact h2
            · exact h2.step
                (grows_backupEntries sourcePath rest backupDir basePath previousBackupDir _)
    | other =>
      simp only [backupEntries]
      split_ifs with hx
      · exact (grows_skipped s).step
          (grows_backupEntries sourcePath rest backupDir basePath previousBackupDir _)
      · exact (sameWorld_poll s).grows
      · exact (sameWorld_poll s).grows.step
          (grows_backupEntries sourcePath rest backupDir basePath previousBackupDir _)
    | dir sub =>
      simp only [backupEntries]
      split_ifs with hx
      · exact (grows_skipped s).step
          (grows_backupEntries sourcePath rest backupDir basePath previousBackupDir _)
      · have h1 := grows_backupDirectory (sourcePath ++ [name]) (Node.dir sub) backupDir
          basePath previousBackupDir s
        cases hb : backupDirectory (sourcePath ++ [name]) (Node.dir sub) backupDir basePath
            previousBackupDir s with
        | mk ok s1 =>
          rw [hb] at h1
          cases ok with
          | false => exact h1
          | true =>
            simp only
            have h2 := h1.step (sameWorld_poll s1).grows
            split_ifs
            · exact h2
            · exact h2.step
                (grows_backupEntries sourcePath rest backupDir basePath previousBackupDir _)
end

theorem grows_backupSources (sourcePaths : List Path) (backupDir previousBackupDir : Path)
    (s : State) : Grows s (backupSources sourcePaths backupDir previousBackupDir s).2 := by
  induction sourcePaths generalizing s with
  | nil => exact Grows.still s
  | cons p rest ih =>
    unfold backupSources
    have h1 := grows_backupDirectory p ((s.source.lookup p).getD Node.other) backupDir p
      previousBackupDir s
    cases hb : backupDirectory p ((s.source.lookup p).getD Node.other) backupDir p
        previousBackupDir s with
    | mk ok s1 =>
      rw [hb] at h1
      cases ok with
      | false => exact h1
      | true =>
        simp only
        have h2 := h1.step (sameWorld_poll s1).grows
        split_ifs
        · exact h2
        · exact h2.step (ih _)

theorem grows_saveBackupMetadata (backupDir : Path) (s : State) :
    Grows s (saveBackupMetadata backupDir s) := by
  unfold saveBackupMetadata
  cases hc : s.fs.copy_file ((backupInfo s).data.map Char.toNat)
      (backupDir ++ ["backup-info.json"]) with
  | none => exact Grows.still s
  | some fs => exact grows_of_fs s fs (prefix_copy_file _ _ _ _ hc)

theorem sameWorld_backupPhaseEntry (s : State) : SameWorld s (backupPhaseEntry s) := by
  unfold backupPhaseEntry
  exact (((sameWorld_setStatus _ s).andThen (sameWorld_scanFiles _)).andThen
    (sameWorld_poll _)).andThen (sameWorld_setStatus _ _)

theorem createBackupDir_spec (lib : TimeLib) (s s1 : State)
    (h : createBackupDir lib s = some s1) :
    Grows s s1 ∧ s1.fs.is_directory s.config.destinationPath = true ∧
      s1.fs.is_directory (s.config.destinationPath ++ ["backups"]) = true ∧
      s1.fs.is_directory (newBackupDir lib s) = true := by
  unfold createBackupDir at h
  simp only at h
  cases h1 : (if s.fs.pathExists s.config.destinationPath = true then some s.fs
      else s.fs.create_directories s.config.destinationPath) with
  | none => rw [h1] at h; simp at h
  | some fs1 =>
    rw [h1] at h
    simp only at h
    have p1 : s.fs.entries <+: fs1.entries := by
      split_ifs at h1
      · simp only [Option.some.injEq] at h1; subst h1; exact List.prefix_rfl
      · exact (create_directories_spec _ _ _ h1).1
    cases h2 : (if fs1.pathExists (s.config.destinationPath ++ ["backups"]) = true then some fs1
        else fs1.create_directories (s.config.destinationPath ++ ["backups"])) with
    | none => rw [h2] at h; simp at h
    | some fs2 =>
      rw [h2] at h
      simp only at h
      have p2 : fs1.entries <+: fs2.entries := by
        split_ifs at h2
        · simp only [Option.some.injEq] at h2; subst h2; exact List.prefix_rfl
        · exact (create_directories_spec _ _ _ h2).1
      cases h3 : fs2.create_directories (newBackupDir lib s) with
      | none => rw [h3] at h; simp at h
      | some fs3 =>
        rw [h3] at h
        simp only [Option.some.injEq] at h
        subst h
        have sp := create_directories_spec _ _ _ h3
        refine ⟨⟨(p1.trans p2).trans sp.1, rfl, rfl, rfl, rfl, rfl, rfl, rfl⟩, ?_, ?_, ?_⟩
        · exact sp.2 _ (by unfold newBackupDir; exact List.prefix_append _ _)
        · apply sp.2
          unfold newBackupDir
          exact ⟨[lib.stamp s.now], by simp⟩
        · exact sp.2 _ List.prefix_rfl

theorem mem_snapshotNames_of_is_directory (fs : FileSystem) (destination : Path) (n : String)
    (hb : fs.is_directory (destination ++ ["backups"]) = true)
    (hn : fs.is_directory (destination ++ ["backups", n]) = true) :
    n ∈ snapshotNames fs destination := by
  rw [snapshotNames_eq, if_pos hb, List.mem_filterMap]
  unfold FileSystem.is_directory FileSystem.status at hn
  have hne : destination ++ ["backups", n] ≠ [] := by simp
  simp only [hne, if_false, decide_eq_true_eq, Option.map_eq_some'] at hn
  obtain ⟨e, he, hty⟩ := hn
  have hmem := List.mem_of_find?_eq_some he
  have hpath := List.find?_some he
  simp only [decide_eq_true_eq] at hpath
  refine ⟨e, hmem, (nameBelow_eq_some _ _ _).mpr ⟨?_, hty⟩⟩
  rw [hpath]
  simp

theorem mem_listBackups_of_grows (lib : TimeLib) (s1 s2 : State) (destination : Path)
    (n : String) (t : Nat) (hg : Grows s1 s2)
    (hd : s1.fs.is_directory destination = true)
    (hb : s1.fs.is_directory (destination ++ ["backups"]) = true)
    (hn : s1.fs.is_directory (destination ++ ["backups", n]) = true)
    (ht : lib.get_time n = some t) : t ∈ listBackups lib s2.fs destination := by
  rw [mem_listBackups]
  refine ⟨is_directory_of_grown _ _ hg.1 _ hd, n, ?_, ht⟩
  exact mem_snapshotNames_of_is_directory _ _ _ (is_directory_of_grown _ _ hg.1 _ hb)
    (is_directory_of_grown _ _ hg.1 _ hn)

theorem grows_backupFiles (lib : TimeLib) (s s1 : State)
    (h : createBackupDir lib s = some s1) : Grows s1 (backupFiles lib s).2 := by
  unfold backupFiles
  rw [h]
  simp only
  have h1 := grows_backupSources s1.config.sourcePaths (newBackupDir lib s1)
    (findPreviousBackupDir lib s1) s1
  cases hb : backupSources s1.config.sourcePaths (newBackupDir lib s1)
      (findPreviousBackupDir lib s1) s1 with
  | mk ok s2 =>
    rw [hb] at h1
    cases ok with
    | false => exact h1
    | true => exact h1.step (grows_saveBackupMetadata _ _)

theorem backupFiles_of_none (lib : TimeLib) (s : State) (h : createBackupDir lib s = none) :
    backupFiles lib s = (false, s) := by
  unfold backupFiles
  rw [h]

/-- The file system the worker leaves, when it got as far as the backup phase, is the one
`backupFiles` leaves. -/
theorem fs_backupThreadFunction (lib : TimeLib) (s : State)
    (hscan : (scanFiles (setStatus BackupStatus.SCANNING s)).1 = true)
    (hflag : (backupPhaseEntry s).cancelRequested = false) :
    (backupThreadFunction lib s).fs = (backupFiles lib (backupPhaseEntry s)).2.fs := by
  unfold backupThreadFunction
  unfold backupPhaseEntry at hflag ⊢
  simp only at hflag ⊢
  cases hs : scanFiles (setStatus BackupStatus.SCANNING s) with
  | mk ok s1 =>
    rw [hs] at hscan hflag
    simp only at hscan hflag ⊢
    subst hscan
    simp only
    have hflag1 : (poll s1).cancelRequested = false := hflag
    rw [if_neg (by rw [hflag1]; simp)]
    cases hb : backupFiles lib (setStatus BackupStatus.BACKING_UP (poll s1)) with
    | mk ok2 s2 =>
      cases ok2 with
      | false => exact (sameWorld_completeBackup _ _ _).1
      | true =>
        simp only
        by_cases hc : (poll s2).cancelRequested = true
        · rw [if_pos hc]
          exact ((sameWorld_poll s2).andThen (sameWorld_completeBackup _ _ _)).1
        · rw [if_neg hc]
          by_cases hv : (poll s2).config.verifyBackup = true
          · rw [if_pos hv]
            have hsv := ((sameWorld_poll s2).andThen (sameWorld_setStatus BackupStatus.VERIFYING _)).andThen
              (sameWorld_verifyTicks 5 (setStatus BackupStatus.VERIFYING (poll s2)))
            unfold verifyBackup
            cases hvt : verifyTicks 5 (setStatus BackupStatus.VERIFYING (poll s2)) with
            | mk ok3 s3 =>
              rw [hvt] at hsv
              cases ok3 with
              | false => exact (hsv.andThen (sameWorld_completeBackup _ _ _)).1
              | true =>
                simp only
                split_ifs
                · exact ((hsv.andThen (sameWorld_poll s3)).andThen
                    (sameWorld_completeBackup _ _ _)).1
                · exact ((hsv.andThen (sameWorld_poll s3)).andThen
                    (sameWorld_completeBackup _ _ _)).1
          · rw [if_neg hv]
            exact ((sameWorld_poll s2).andThen (sameWorld_completeBackup _ _ _)).1

theorem status_notify (s : State) : (notify s).status = s.status := by
  unfold notify
  cases h : s.progressCallback with
  | none => rfl
  | some v => rfl

theorem status_completeBackup (success cancelled : Bool) (s : State) :
    (completeBackup success cancelled s).status =
      if cancelled then BackupStatus.CANCELLED
      else if success then BackupStatus.COMPLETED else BackupStatus.FAILED := by
  unfold completeBackup
  rw [status_notify]
  rfl

/-- A run that ends before `backupFiles` has created its directory ends FAILED or CANCELLED
and leaves the file system as it was. -/
theorem backupThreadFunction_before_directory (lib : TimeLib) (s : State)
    (h : (scanFiles (setStatus BackupStatus.SCANNING s)).1 = false ∨
      (backupPhaseEntry s).cancelRequested = true ∨
      (createBackupDir lib (backupPhaseEntry s)).isSome = false) :
    ((backupThreadFunction lib s).status = BackupStatus.FAILED ∨
      (backupThreadFunction lib s).status = BackupStatus.CANCELLED) ∧
    (backupThreadFunction lib s).fs = s.fs := by
  have hw := sameWorld_scanFiles (setStatus BackupStatus.SCANNING s)
  unfold backupThreadFunction
  unfold backupPhaseEntry at h
  simp only at h ⊢
  cases hs : scanFiles (setStatus BackupStatus.SCANNING s) with
  | mk ok s1 =>
    rw [hs] at h hw
    simp only at h hw ⊢
    cases ok with
    | false =>
      simp only
      exact ⟨Or.inl (by rw [status_completeBackup]; rfl),
        (hw.andThen (sameWorld_completeBackup _ _ _)).1⟩
    | true =>
      simp only [Bool.true_eq_false, false_or] at h ⊢
      by_cases hc : (poll s1).cancelRequested = true
      · rw [if_pos hc]
        exact ⟨Or.inr (by rw [status_completeBackup]; rfl),
          ((hw.andThen (sameWorld_poll s1)).andThen (sameWorld_completeBackup _ _ _)).1⟩
      · rw [if_neg hc]
        rcases h with h | h
        · exact absurd h hc
        · rw [backupFiles_of_none lib _ (Option.not_isSome_iff_eq_none.mp (by rw [h]; simp))]
          simp only
          exact ⟨Or.inl (by rw [status_completeBackup]; rfl),
            (((hw.andThen (sameWorld_poll s1)).andThen (sameWorld_setStatus _ _)).andThen
              (sameWorld_completeBackup _ _ _)).1⟩

/-- C4, as amended. A run that ends before `backupFiles` has created the
directory of the run (the scan fails, the flag is found set after the scan, or
the directory cannot be created) ends FAILED or CANCELLED and leaves what
`listBackups` returns as it was. A run that got as far as creating that
directory leaves it in place however the run ends, sidecar or not, and
`listBackups` reports its time whenever the name reads back as a time. -/
theorem unfinished_run_listed_once_directory_exists (lib : TimeLib) (s : State) :
    ((scanFiles (setStatus BackupStatus.SCANNING s)).1 = false ∨
        (backupPhaseEntry s).cancelRequested = true ∨
        (createBackupDir lib (backupPhaseEntry s)).isSome = false →
      ((backupThreadFunction lib s).status = BackupStatus.FAILED ∨
        (backupThreadFunction lib s).status = BackupStatus.CANCELLED) ∧
      listBackups lib (backupThreadFunction lib s).fs s.config.destinationPath =
        listBackups lib s.fs s.config.destinationPath) ∧
    ((scanFiles (setStatus BackupStatus.SCANNING s)).1 = true →
      (backupPhaseEntry s).cancelRequested = false →
      (createBackupDir lib (backupPhaseEntry s)).isSome = true →
      (backupThreadFunction lib s).fs.is_directory
        (s.config.destinationPath ++ ["backups", lib.stamp s.now]) = true ∧
      ∀ t, lib.get_time (lib.stamp s.now) = some t →
        t ∈ listBackups lib (backupThreadFunction lib s).fs s.config.destinationPath) := by
  constructor
  · intro h
    have := backupThreadFunction_before_directory lib s h
    exact ⟨this.1, by rw [this.2]⟩
  · intro hscan hflag hdir
    have hw := sameWorld_backupPhaseEntry s
    cases hc : createBackupDir lib (backupPhaseEntry s) with
    | none => rw [hc] at hdir; exact absurd hdir (by simp)
    | some s1 =>
      have sp := createBackupDir_spec lib _ s1 hc
      have hg := grows_backupFiles lib _ s1 hc
      have hnew : newBackupDir lib (backupPhaseEntry s) =
          s.config.destinationPath ++ ["backups", lib.stamp s.now] := by
        unfold newBackupDir
        rw [hw.2.1, hw.2.2.1]
      rw [hw.2.1, hnew] at sp
      have hg' : s1.fs.entries <+: (backupThreadFunction lib s).fs.entries := by
        rw [fs_backupThreadFunction lib s hscan hflag]
        exact hg.1
      refine ⟨is_directory_of_grown _ _ hg' _ sp.2.2.2, ?_⟩
      intro t ht
      rw [mem_listBackups]
      refine ⟨is_directory_of_grown _ _ hg' _ sp.2.1, lib.stamp s.now, ?_, ht⟩
      exact mem_snapshotNames_of_is_directory _ _ _ (is_directory_of_grown _ _ hg' _ sp.2.2.1)
        (is_directory_of_grown _ _ hg' _ sp.2.2.2)

/-! ## The scenario of two runs, and a cancelled run -/

theorem backupFile_links_iff_identical_witness :
    (backupFile ["home", "A"] [1, 2, 3] ["mnt", "backups", "20240102-000000"] ["home"]
      ["mnt", "backups", "20240101-000000"] { fs := fsBaseline }).1 = true ∧
    ∃ fs1, fsBaseline.create_directories
        ["mnt", "backups", "20240102-000000"] =
        some fs1 ∧
      (fs1.create_hard_link ["mnt", "backups", "20240101-000000", "A"]
          ["mnt", "backups", "20240102-000000", "A"] =
          some (backupFile ["home", "A"] [1, 2, 3] ["mnt", "backups", "20240102-000000"] ["home"]
            ["mnt", "backups", "20240101-000000"] { fs := fsBaseline }).2.fs ↔
        ((["mnt", "backups", "20240101-000000"] : Path) ≠ [] ∧
          fsBaseline.read ["mnt", "backups", "20240101-000000", "A"] =
            some [1, 2, 3])) ∧
      (fs1.copy_file [1, 2, 3] ["mnt", "backups", "20240102-000000", "A"] =
          some (backupFile ["home", "A"] [1, 2, 3] ["mnt", "backups", "20240102-000000"] ["home"]
            ["mnt", "backups", "20240101-000000"] { fs := fsBaseline }).2.fs ↔
        ¬ ((["mnt", "backups", "20240101-000000"] : Path) ≠ [] ∧
          fsBaseline.read ["mnt", "backups", "20240101-000000", "A"] =
            some [1, 2, 3])) :=
  ⟨by decide, backupFile_links_iff_identical ["home", "A"] [1, 2, 3]
    ["mnt", "backups", "20240102-000000"] ["home"] ["mnt", "backups", "20240101-000000"]
    { fs := fsBaseline } (by decide)⟩

/-- C2 (the code at the failing input). The destination holds the complete
snapshot of 2024-01-01; a run with `useHardLinks` starts a day later. What
`listBackups` returned before the run is the snapshot of 2024-01-01, but the
baseline that `backupFiles` resolves, after it has created the directory of
the run, is that new directory itself and not the directory of 2024-01-01. -/
theorem baseline_is_the_directory_of_the_run :
    listBackups utc beforeRun2.fs ["mnt"] = [1704067200] ∧
    (createBackupDir utc (backupPhaseEntry (started scenarioConfig (some 1) beforeRun2))).map
        (findPreviousBackupDir utc) = some ["mnt", "backups", "20240102-000000"] ∧
    newBackupDir utc (backupPhaseEntry (started scenarioConfig (some 1) beforeRun2)) =
      ["mnt", "backups", "20240102-000000"] ∧
    snapshotDir utc ["mnt"] 1704067200 = ["mnt", "backups", "20240101-000000"] := by
  decide

/-- C3 (the code at the failing input). Files A, B and C of 100 bytes; run 1
into an empty destination; B is changed; run 2 a day later, both with
`useHardLinks`. Both runs complete. In run 2 no file is hard-linked:
`unchangedFiles` is 0 and `modifiedFiles` is 3, and the unchanged file A of
the second snapshot has an inode of its own (4), not the inode (0) of A in the
first snapshot. -/
theorem second_run_copies_unchanged_files :
    afterRun1.status = BackupStatus.COMPLETED ∧ afterRun2.status = BackupStatus.COMPLETED ∧
    afterRun2.stats.unchangedFiles = 0 ∧ afterRun2.stats.modifiedFiles = 3 ∧
    afterRun2.fs.status ["mnt", "backups", "20240101-000000", "A"] = some (FileType.regular 0) ∧
    afterRun2.fs.status ["mnt", "backups", "20240102-000000", "A"] = some (FileType.regular 4) ∧
    afterRun2.fs.read ["mnt", "backups", "20240102-000000", "A"] =
      afterRun2.fs.read ["mnt", "backups", "20240101-000000", "A"] := by
  decide

/-- C4 fails as stated. A first run is cancelled while its first file is backed
up: the worker ends FAILED, the sidecar was never written, and `listBackups`,
empty before the run, reports the snapshot of the run. -/
theorem failed_run_is_listed :
    (backupThreadFunction utc cancelledStart).status = BackupStatus.FAILED ∧
    (backupThreadFunction utc cancelledStart).fs.pathExists
      ["mnt", "backups", "20240101-000000", "backup-info.json"] = false ∧
    listBackups utc cancelledStart.fs ["mnt"] = [] ∧
    listBackups utc (backupThreadFunction utc cancelledStart).fs ["mnt"] = [1704067200] := by
  decide

theorem unfinished_run_listed_once_directory_exists_witness :
    (scanFiles (setStatus BackupStatus.SCANNING cancelledStart)).1 = true ∧
    (backupPhaseEntry cancelledStart).cancelRequested = false ∧
    (createBackupDir utc (backupPhaseEntry cancelledStart)).isSome = true ∧
    utc.get_time (utc.stamp cancelledStart.now) = some 1704067200 ∧
    1704067200 ∈ listBackups utc (backupThreadFunction utc cancelledStart).fs
      cancelledStart.config.destinationPath :=
  ⟨by decide, by decide, by decide, by decide,
    ((unfinished_run_listed_once_directory_exists utc cancelledStart).2 (by decide) (by decide)
      (by decide)).2 1704067200 (by decide)⟩

/-! ## Retention: idempotence, and the baseline of a run -/

/-- The baseline that `backupFiles` resolves is the directory of the run itself whenever,
once that directory is created, no listed snapshot is newer than the clock and the stamp of the
clock reads back as the clock. -/
theorem findPreviousBackupDir_eq_newBackupDir (lib : TimeLib) (s s1 : State)
    (hc : createBackupDir lib s = some s1) (hl : s.config.useHardLinks = true)
    (hread : lib.get_time (lib.stamp s.now) = some s.now)
    (hnew : ∀ t ∈ listBackups lib s1.fs s.config.destinationPath, t ≤ s.now) :
    findPreviousBackupDir lib s1 = newBackupDir lib s := by
  have sp := createBackupDir_spec lib s s1 hc
  have hcfg : s1.config = s.config := sp.1.2.1
  have hmem : s.now ∈ listBackups lib s1.fs s.config.destinationPath := by
    refine mem_listBackups_of_grows lib s1 s1 _ (lib.stamp s.now) s.now (Grows.still s1)
      sp.2.1 sp.2.2.1 ?_ hread
    have := sp.2.2.2
    unfold newBackupDir at this
    exact this
  unfold findPreviousBackupDir newBackupDir
  rw [hcfg, hl]
  simp only [if_true]
  have hsorted : (listBackups lib s1.fs s.config.destinationPath).Sorted (fun a b => a ≥ b) := by
    rw [listBackups_eq]
    split_ifs
    · exact List.sorted_insertionSort _ _
    · exact List.sorted_nil
  cases hlist : listBackups lib s1.fs s.config.destinationPath with
  | nil => rw [hlist] at hmem; exact absurd hmem (List.not_mem_nil _)
  | cons newest rest =>
    simp only
    rw [hlist] at hmem hnew hsorted
    have h1 : newest ≤ s.now := hnew newest (List.mem_cons_self _ _)
    have h2 : s.now ≤ newest := by
      rcases List.mem_cons.mp hmem with h | h
      · exact le_of_eq h
      · exact (List.sorted_cons.mp hsorted).1 _ h
    rw [le_antisymm h1 h2]

/-! ## Retention and dedup: two inputs off the beaten path -/

/-- C9 (the code at the failing input). A destination with the snapshot of
2024-01-01 and a snapshot of 2024-01-02 whose directory was renamed to
`20240102-000000-old`, pruned with `keepDaily = 1` and the other counts 0. The
keep set of the two cataloged snapshots holds the one of 2024-01-01 only. The one of 2024-01-02 is not in the
keep set, yet the call, which succeeds, does not delete it: the directory named
by its stamp does not exist, so the deletion loop passes it over. The
directory stays, the catalog still lists it, and the two counts add up to 1
while the catalog has 2 entries. -/
theorem renamed_snapshot_is_not_deleted :
    listBackups utc fsRenamed ["mnt"] = [1704153600, 1704067200] ∧
    backupsToKeep utc (listBackups utc fsRenamed ["mnt"]) 1 0 0 = [1704067200] ∧
    (pruneBackups utc fsRenamed ["mnt"] 1 0 0).result = true ∧
    (pruneBackups utc fsRenamed ["mnt"] 1 0 0).fs.pathExists
      ["mnt", "backups", "20240102-000000-old"] = true ∧
    1704153600 ∈ listBackups utc (pruneBackups utc fsRenamed ["mnt"] 1 0 0).fs ["mnt"] ∧
    (pruneBackups utc fsRenamed ["mnt"] 1 0 0).deletedCount +
      (pruneBackups utc fsRenamed ["mnt"] 1 0 0).keptCount = 1 ∧
    (listBackups utc fsRenamed ["mnt"]).length = 2 := by
  decide

/-! ## The control calls: startBackup and cancelBackup -/

/-- C11. With the status at IDLE, COMPLETED, FAILED or CANCELLED: when no worker
was started before, `startBackup` returns true, resets the statistics, records
the start time, stores configuration and callback and sets the status to
SCANNING; when a worker was started before, as it was whenever a run has set
the status to COMPLETED, FAILED or CANCELLED, the call does not return: the
thread object is still joinable and the assignment to it ends the process. -/
theorem startBackup_after_a_run_ends_the_process (config : BackupConfig)
    (progressCallback : Option Nat) (s : State)
    (h : s.status = BackupStatus.IDLE ∨ s.status = BackupStatus.COMPLETED ∨
      s.status = BackupStatus.FAILED ∨ s.status = BackupStatus.CANCELLED) :
    (s.backupThread = 0 →
      startBackup config progressCallback s = some (true, startedState config progressCallback s)) ∧
    (0 < s.backupThread → startBackup config progressCallback s = none) := by
  unfold startBackup startedState
  constructor
  · intro h0
    rcases h with h | h | h | h <;> simp [h, h0]
  · intro h0
    rcases h with h | h | h | h <;> simp [h, h0]

theorem startBackup_after_a_run_ends_the_process_witness :
    afterRun1.status = BackupStatus.COMPLETED ∧ 0 < afterRun1.backupThread ∧
    (startBackup scenarioConfig (some 1) afterRun1).isSome = false :=
  ⟨by decide, by decide, by
    rw [(startBackup_after_a_run_ends_the_process scenarioConfig (some 1) afterRun1
      (by decide)).2 (by decide)]
    rfl⟩

/-- C12. The call `cancelBackup` returns true exactly when the status is SCANNING,
BACKING_UP or VERIFYING; it then sets the cancellation flag and nothing else;
when it returns false the state is as it was; the status is the same after the
call in both cases. -/
theorem cancelBackup_sets_only_the_flag (s : State) :
    ((cancelBackup s).1 = true ↔
      (s.status = BackupStatus.SCANNING ∨ s.status = BackupStatus.BACKING_UP ∨
        s.status = BackupStatus.VERIFYING)) ∧
    ((cancelBackup s).1 = true → (cancelBackup s).2 = { s with cancelRequested := true }) ∧
    ((cancelBackup s).1 = false → (cancelBackup s).2 = s) ∧
    (cancelBackup s).2.status = s.status := by
  unfold cancelBackup
  by_cases hc : s.status ≠ BackupStatus.SCANNING ∧ s.status ≠ BackupStatus.BACKING_UP ∧
      s.status ≠ BackupStatus.VERIFYING
  · rw [if_pos hc]
    refine ⟨?_, ?_, ?_, rfl⟩
    · constructor
      · intro h; exact absurd h (by simp)
      · rintro (h | h | h)
        · exact absurd h hc.1
        · exact absurd h hc.2.1
        · exact absurd h hc.2.2
    · intro h; exact absurd h (by simp)
    · intro _; rfl
  · rw [if_neg hc]
    refine ⟨?_, ?_, ?_, rfl⟩
    · constructor
      · intro _
        by_contra hn
        exact hc ⟨fun h => hn (Or.inl h), fun h => hn (Or.inr (Or.inl h)),
          fun h => hn (Or.inr (Or.inr h))⟩
      · intro _; rfl
    · intro _; rfl
    · intro h; exact absurd h (by simp)

theorem cancelBackup_sets_only_the_flag_witness :
    (cancelBackup (started {} none {})).1 = true ∧
    (cancelBackup (started {} none {})).2 =
      { started {} none {} with cancelRequested := true } ∧
    (cancelBackup afterRun1).1 = false ∧ (cancelBackup afterRun1).2 = afterRun1 :=
  ⟨by decide, (cancelBackup_sets_only_the_flag _).2.1 (by decide), by decide,
    (cancelBackup_sets_only_the_flag _).2.2.1 (by decide)⟩

/-! ## The catalog: listBackups -/

theorem pathExists_of_is_directory (fs : FileSystem) (p : Path)
    (h : fs.is_directory p = true) : fs.pathExists p = true := by
  unfold FileSystem.is_directory at h
  unfold FileSystem.pathExists
  simp only [decide_eq_true_eq] at h
  simp [h]

/-- C20. What `listBackups` returns is in descending order; when the destination
is a directory and `<destination>/backups` can be listed, it holds, as often as
they occur, exactly the times read from the names of the entries of that
listing that are directories and whose names read as a time; it is empty when
the destination does not exist, is not a directory, or has no `backups`
entry. -/
theorem listBackups_descending_and_exactly_the_parsed (lib : TimeLib) (fs : FileSystem)
    (destination : Path) :
    (listBackups lib fs destination).Sorted (fun a b => a ≥ b) ∧
    (∀ entries, fs.is_directory destination = true →
      fs.directory_iterator (destination ++ ["backups"]) = some entries →
      (listBackups lib fs destination).Perm
        (entries.filterMap (fun e =>
          if e.2 = FileType.directory then lib.get_time e.1 else none))) ∧
    (fs.pathExists destination = false → listBackups lib fs destination = []) ∧
    (fs.is_directory destination = false → listBackups lib fs destination = []) ∧
    (fs.pathExists (destination ++ ["backups"]) = false →
      listBackups lib fs destination = []) := by
  refine ⟨?_, ?_, ?_, ?_, ?_⟩
  · rw [listBackups_eq]
    split_ifs
    · exact List.sorted_insertionSort (fun a b : Nat => a ≥ b) _
    · exact List.sorted_nil
  · intro entries hd hit
    have he := pathExists_of_is_directory fs destination hd
    have hb : fs.pathExists (destination ++ ["backups"]) = true := by
      unfold FileSystem.directory_iterator at hit
      split_ifs at hit with h
      exact pathExists_of_is_directory fs _ h
    unfold listBackups
    simp only [he, hd, hb, Bool.not_true, Bool.false_eq_true, if_false, hit]
    exact List.perm_insertionSort _ _
  · intro h
    unfold listBackups
    simp [h]
  · intro h
    unfold listBackups
    simp [h]
  · intro h
    unfold listBackups
    simp [h]

theorem listBackups_descending_and_exactly_the_parsed_witness :
    fsW.is_directory ["mnt"] = true ∧
    (listBackups utc fsW ["mnt"]).Perm
      [1704067200, 1704110400, 1704153600, 1704240000] ∧
    listBackups utc fsW ["mnt"] = cat4 ∧
    listBackups utc fsW ["nowhere"] = [] :=
  ⟨by decide,
    (listBackups_descending_and_exactly_the_parsed utc fsW ["mnt"]).2.1
      [("20240101-000000", FileType.directory), ("20240101-120000", FileType.directory),
        ("20240102-000000", FileType.directory), ("20240103-000000", FileType.directory),
        ("junk", FileType.directory)] (by decide) (by decide),
    by decide,
    (listBackups_descending_and_exactly_the_parsed utc fsW ["nowhere"]).2.2.1 (by decide)⟩

/-! ## Cancellation inside a phase, and the counters of copied files -/

/-- C13 (the code at the failing input). A first run over the files A, B and C;
`cancelBackup` is called while the worker backs up file A. The worker enters
the backup phase with status BACKING_UP and the flag clear; the call, landing
in that status, is accepted; the walk finds the flag set after file A, so
`backupFiles` returns false, and the worker ends FAILED, not CANCELLED. -/
theorem cancel_during_backup_ends_failed :
    (backupPhaseEntry cancelledStart).status = BackupStatus.BACKING_UP ∧
    (backupPhaseEntry cancelledStart).cancelRequested = false ∧
    (backupPhaseEntry cancelledStart).cancelIn = some 0 ∧
    (cancelBackup (backupPhaseEntry cancelledStart)).1 = true ∧
    (backupFiles utc (backupPhaseEntry cancelledStart)).1 = false ∧
    (backupFiles utc (backupPhaseEntry cancelledStart)).2.cancelRequested = true ∧
    (backupFiles utc (backupPhaseEntry cancelledStart)).2.stats.processedFiles = 1 ∧
    (backupThreadFunction utc cancelledStart).statusLog =
      [BackupStatus.SCANNING, BackupStatus.BACKING_UP, BackupStatus.FAILED] ∧
    (backupThreadFunction utc cancelledStart).status = BackupStatus.FAILED := by
  decide

/-- C14 (the code at the failing inputs). A first run over the files A, B and
C. When `cancelBackup` lands while the scan walks the source, or when it has
walked the source root, the call is accepted in status SCANNING, `scanFiles`
returns false and the worker ends FAILED. When it lands in the first round of
`verifyBackup`, it is accepted in status VERIFYING, `verifyBackup` returns
false and the worker ends FAILED. In none of the three runs is the status ever
CANCELLED. -/
theorem cancel_during_scan_or_verify_ends_failed :
    ((scanFiles (setStatus BackupStatus.SCANNING cancelledInScan)).1 = false ∧
      (scanFiles (setStatus BackupStatus.SCANNING cancelledInScan)).2.cancelRequested = true ∧
      (scanFiles (setStatus BackupStatus.SCANNING cancelledInScan)).2.stats.totalFiles = 1 ∧
      (backupThreadFunction utc cancelledInScan).statusLog =
        [BackupStatus.SCANNING, BackupStatus.FAILED] ∧
      (backupThreadFunction utc cancelledInScan).status = BackupStatus.FAILED) ∧
    ((scanFiles (setStatus BackupStatus.SCANNING cancelledAfterRoot)).1 = false ∧
      (scanFiles (setStatus BackupStatus.SCANNING cancelledAfterRoot)).2.cancelRequested = true ∧
      (scanFiles (setStatus BackupStatus.SCANNING cancelledAfterRoot)).2.stats.totalFiles = 3 ∧
      (backupThreadFunction utc cancelledAfterRoot).statusLog =
        [BackupStatus.SCANNING, BackupStatus.FAILED] ∧
      (backupThreadFunction utc cancelledAfterRoot).status = BackupStatus.FAILED) ∧
    ((backupThreadFunction utc cancelledInVerify).cancelRequested = true ∧
      (backupThreadFunction utc cancelledInVerify).stats.processedFiles = 3 ∧
      (backupThreadFunction utc cancelledInVerify).statusLog =
        [BackupStatus.SCANNING, BackupStatus.BACKING_UP, BackupStatus.VERIFYING,
          BackupStatus.FAILED] ∧
      (backupThreadFunction utc cancelledInVerify).status = BackupStatus.FAILED) := by
  decide

theorem newFiles_copyAndCount (bytes : List Nat) (destFile : Path) (fileChanged : Bool)
    (s : State) (h : fileChanged = true) :
    (copyAndCount bytes destFile fileChanged s).2.stats.newFiles = s.stats.newFiles := by
  subst h
  unfold copyAndCount
  cases s.fs.copy_file bytes destFile with
  | none => rfl
  | some fs => rfl

/-- C17 (the code, and the code at the failing input). No call of `backupFile`
changes `newFiles`: the flag `fileChanged` is true whenever the copy is
reached, so a copied file counts as modified, baseline or not. The first run
of the scenario, into a destination without any snapshot, copies the three
files and ends COMPLETED with `newFiles` 0, `modifiedFiles` 3 and
`unchangedFiles` 0. -/
theorem copied_files_always_count_as_modified :
    (∀ (sourceFile : Path) (bytes : List Nat) (backupDir basePath previousBackupDir : Path)
        (s : State),
      (backupFile sourceFile bytes backupDir basePath previousBackupDir s).2.stats.newFiles =
        s.stats.newFiles) ∧
    (backupFile ["home", "A"] [1, 2, 3] ["mnt", "backups", "20240101-000000"] ["home"] []
        beforeRun1).1 = true ∧
    (backupFile ["home", "A"] [1, 2, 3] ["mnt", "backups", "20240101-000000"] ["home"] []
        beforeRun1).2.stats.modifiedFiles = 1 ∧
    listBackups utc beforeRun1.fs ["mnt"] = [] ∧
    afterRun1.status = BackupStatus.COMPLETED ∧ afterRun1.stats.processedFiles = 3 ∧
    afterRun1.stats.newFiles = 0 ∧ afterRun1.stats.modifiedFiles = 3 ∧
    afterRun1.stats.unchangedFiles = 0 := by
  refine ⟨?_, by decide, by decide, by decide, by decide, by decide, by decide, by decide,
    by decide⟩
  intro sourceFile bytes backupDir basePath previousBackupDir s
  unfold backupFile
  simp only
  cases s.fs.create_directories
      (joinRelative backupDir (relative s sourceFile basePath)).dropLast with
  | none => rfl
  | some fs =>
    simp only
    by_cases hp : previousBackupDir ≠ []
    · rw [if_pos hp]
      by_cases he : fs.pathExists (joinRelative previousBackupDir (relative s sourceFile basePath)) = true
      · rw [if_pos he]
        cases fs.file_size (joinRelative previousBackupDir (relative s sourceFile basePath)) with
        | none => rfl
        | some prevSize =>
          simp only
          by_cases hz : prevSize = bytes.length
          · rw [if_pos hz]
            cases hq : areFilesEqual fs bytes
                (joinRelative previousBackupDir (relative s sourceFile basePath)) with
            | true =>
              simp only [Bool.not_true, Bool.not_false, if_true]
              cases fs.create_hard_link (joinRelative previousBackupDir (relative s sourceFile basePath))
                  (joinRelative backupDir (relative s sourceFile basePath)) with
              | none => rfl
              | some fs2 => rfl
            | false =>
              simp only [Bool.not_false, Bool.not_true, Bool.false_eq_true, if_false]
              exact newFiles_copyAndCount _ _ _ _ rfl
          · rw [if_neg hz]
            exact newFiles_copyAndCount _ _ _ _ rfl
      · rw [if_neg he]
        exact newFiles_copyAndCount _ _ _ _ rfl
    · rw [if_neg hp]
      exact newFiles_copyAndCount _ _ _ _ rfl

/-! ## The steps the phases are made of -/

mutual
theorem inv_scanDirectory {R : State → State → Prop} (I : PhaseInvariant R)
    (path : Path) (node : Node) (s : State) : R s (scanDirectory path node s) := by
  cases node with
  | file bytes => simp only [scanDirectory]; exact I.same s
  | other => simp only [scanDirectory]; exact I.same s
  | dir entries =>
    simp only [scanDirectory]
    exact inv_scanEntries I path entries s
theorem inv_scanEntries {R : State → State → Prop} (I : PhaseInvariant R)
    (path : Path) (entries : List (String × Node)) (s : State) :
    R s (scanEntries path entries s) := by
  cases entries with
  | nil => simp only [scanEntries]; exact I.same s
  | cons e rest =>
    obtain ⟨name, node⟩ := e
    cases node with
    | file bytes =>
      simp only [scanEntries]
      have h1 := I.andThen _ _ _ (I.ofStats s _) (I.ofPoll
        { s with stats := { s.stats with totalFiles := s.stats.totalFiles + 1,
                                         totalSize := s.stats.totalSize + bytes.length } })
      split_ifs
      · exact inv_scanEntries I path rest s
      · exact h1
      · exact I.andThen _ _ _ h1 (inv_scanEntries I path rest _)
    | other =>
      simp only [scanEntries]
      split_ifs
      · exact inv_scanEntries I path rest s
      · exact I.ofPoll s
      · exact I.andThen _ _ _ (I.ofPoll s) (inv_scanEntries I path rest _)
    | dir sub =>
      simp only [scanEntries]
      have h1 := I.andThen _ _ _ (I.andThen _ _ _ (I.ofStats s _)
        (inv_scanDirectory I (path ++ [name])
        (Node.dir sub) { s with stats := { s.stats with
          totalDirectories := s.stats.totalDirectories + 1 } })) (I.ofPoll _)
      split_ifs
      · exact inv_scanEntries I path rest s
      · exact h1
      · exact I.andThen _ _ _ h1 (inv_scanEntries I path rest _)
end

theorem inv_scanSources {R : State → State → Prop} (I : PhaseInvariant R)
    (sourcePaths : List Path) (s : State) : R s (scanSources sourcePaths s).2 := by
  induction sourcePaths generalizing s with
  | nil => exact I.same s
  | cons p rest ih =>
    unfold scanSources
    cases hl : s.source.lookup p with
    | none => exact I.same s
    | some node =>
      simp only
      have h1 := I.andThen _ _ _ (inv_scanDirectory I p node s) (I.ofPoll _)
      split_ifs
      · exact h1
      · exact I.andThen _ _ _ h1 (ih _)

theorem inv_scanFiles {R : State → State → Prop} (I : PhaseInvariant R) (s : State) :
    R s (scanFiles s).2 := by
  unfold scanFiles
  have h1 := inv_scanSources I s.config.sourcePaths s
  cases hs : scanSources s.config.sourcePaths s with
  | mk ok s1 =>
    rw [hs] at h1
    cases ok with
    | false => exact h1
    | true => exact I.andThen _ _ _ h1 (I.ofNotify _)

theorem inv_verifyTicks {R : State → State → Prop} (I : PhaseInvariant R) (n : Nat)
    (s : State) : R s (verifyTicks n s).2 := by
  induction n generalizing s with
  | zero => exact I.same s
  | succ n ih =>
    unfold verifyTicks
    simp only
    split_ifs
    · exact I.ofPoll s
    · exact I.andThen _ _ _ (I.ofPoll s) (ih _)

theorem inv_copyAndCount {R : State → State → Prop} (I : PhaseInvariant R)
    (bytes : List Nat) (destFile : Path) (fileChanged : Bool)
    (s : State) : R s (copyAndCount bytes destFile fileChanged s).2 := by
  unfold copyAndCount
  cases hc : s.fs.copy_file bytes destFile with
  | none => exact I.same s
  | some fs =>
    cases fileChanged
    · exact I.andThen _ _ _ (I.ofFs s fs) (I.ofStats { s with fs := fs } _)
    · exact I.andThen _ _ _ (I.ofFs s fs) (I.ofStats { s with fs := fs } _)

theorem inv_backupFile {R : State → State → Prop} (I : PhaseInvariant R)
    (sourceFile : Path) (bytes : List Nat)
    (backupDir basePath previousBackupDir : Path) (s : State) :
    R s (backupFile sourceFile bytes backupDir basePath previousBackupDir s).2 := by
  unfold backupFile
  simp only
  cases hmk : s.fs.create_directories (joinRelative backupDir (relative s sourceFile basePath)).dropLast with
  | none => exact I.same s
  | some fs1 =>
    simp only
    have h1 : R s { s with fs := fs1 } := I.ofFs s fs1
    have hcopy := fun b => I.andThen _ _ _ h1 (inv_copyAndCount I bytes
      (joinRelative backupDir (relative s sourceFile basePath)) b { s with fs := fs1 })
    by_cases hprev : previousBackupDir ≠ []
    · rw [if_pos hprev]
      by_cases hex : fs1.pathExists (joinRelative previousBackupDir (relative s sourceFile basePath)) = true
      · rw [if_pos hex]
        cases hsz : fs1.file_size (joinRelative previousBackupDir (relative s sourceFile basePath)) with
        | none => exact h1
        | some prevSize =>
          simp only
          by_cases hlen : prevSize = bytes.length
          · rw [if_pos hlen]
            by_cases heq : (!(!areFilesEqual fs1 bytes
                (joinRelative previousBackupDir (relative s sourceFile basePath)))) = true
            · rw [if_pos heq]
              cases hl : fs1.create_hard_link
                  (joinRelative previousBackupDir (relative s sourceFile basePath))
                  (joinRelative backupDir (relative s sourceFile basePath)) with
              | none => exact h1
              | some fs2 =>
                exact I.andThen _ _ _ (I.ofFs s fs2) (I.ofStats { s with fs := fs2 } _)
            · rw [if_neg heq]
              exact hcopy _
          · rw [if_neg hlen]
            exact hcopy _
      · rw [if_neg hex]
        exact hcopy _
    · rw [if_neg hprev]
      exact hcopy _

mutual
theorem inv_backupDirectory {R : State → State → Prop} (I : PhaseInvariant R)
    (sourcePath : Path) (node : Node)
    (backupDir basePath previousBackupDir : Path) (s : State) :
    R s (backupDirectory sourcePath node backupDir basePath previousBackupDir s).2 := by
  cases node with
  | file bytes =>
    simp only [backupDirectory]
    split_ifs with hex
    · exact I.same s
    · cases hmk : s.fs.create_directories (joinRelative backupDir (relative s sourcePath basePath)) with
      | none => exact I.same s
      | some fs1 => exact I.ofFs s fs1
  | other =>
    simp only [backupDirectory]
    split_ifs with hex
    · exact I.same s
    · cases hmk : s.fs.create_directories (joinRelative backupDir (relative s sourcePath basePath)) with
      | none => exact I.same s
      | some fs1 => exact I.ofFs s fs1
  | dir entries =>
    simp only [backupDirectory]
    split_ifs with hex
    · exact I.andThen _ _ _ (I.same s)
        (inv_backupEntries I sourcePath entries backupDir basePath previousBackupDir _)
    · cases hmk : s.fs.create_directories (joinRelative backupDir (relative s sourcePath basePath)) with
      | none => exact I.same s
      | some fs1 =>
        exact I.andThen _ _ _ (I.ofFs s fs1)
          (inv_backupEntries I sourcePath entries backupDir basePath previousBackupDir _)
theorem inv_backupEntries {R : State → State → Prop} (I : PhaseInvariant R)
    (sourcePath : Path) (entries : List (String × Node))
    (backupDir basePath previousBackupDir : Path) (s : State) :
    R s (backupEntries sourcePath entries backupDir basePath previousBackupDir s).2 := by
  cases entries with
  | nil => simp only [backupEntries]; exact I.same s
  | cons e rest =>
    obtain ⟨name, node⟩ := e
    cases node with
    | file bytes =>
      simp only [backupEntries]
      split_ifs with hx
      · exact I.andThen _ _ _ (I.ofStats s _)
          (inv_backupEntries I sourcePath rest backupDir basePath previousBackupDir _)
      · have h1 := inv_backupFile I (sourcePath ++ [name]) bytes backupDir basePath
          previousBackupDir s
        cases hb : backupFile (sourcePath ++ [name]) bytes backupDir basePath
            previousBackupDir s with
        | mk ok s1 =>
          rw [hb] at h1
          cases ok with
          | false => exact h1
          | true =>
            simp only
            have h2 := I.andThen _ _ _ h1 (I.andThen _ _ _ (I.andThen _ _ _
              (I.ofStats s1 { s1.stats with
                processedFiles := s1.stats.processedFiles + 1,
                processedSize := s1.stats.processedSize + bytes.length })
              (I.ofNotify _)) (I.ofPoll _))
            split_ifs
            · exact h2
            · exact I.andThen _ _ _ h2
                (inv_backupEntries I sourcePath rest backupDir basePath previousBackupDir _)
    | other =>
      simp only [backupEntries]
      split_ifs with hx
      · exact I.andThen _ _ _ (I.ofStats s _)
          (inv_backupEntries I sourcePath rest backupDir basePath previousBackupDir _)
      · exact I.ofPoll s
      · exact I.andThen _ _ _ (I.ofPoll s)
          (inv_backupEntries I sourcePath rest backupDir basePath previousBackupDir _)
    | dir sub =>
      simp only [backupEntries]
      split_ifs with hx
      · exact I.andThen _ _ _ (I.ofStats s _)
          (inv_backupEntries I sourcePath rest backupDir basePath previousBackupDir _)
      · have h1 := inv_backupDirectory I (sourcePath ++ [name]) (Node.dir sub) backupDir
          basePath previousBackupDir s
        cases hb : backupDirectory (sourcePath ++ [name]) (Node.dir sub) backupDir basePath
            previousBackupDir s with
        | mk ok s1 =>
          rw [hb] at h1
          cases ok with
          | false => exact h1
          | true =>
            simp only
            have h2 := I.andThen _ _ _ h1 (I.ofPoll s1)
            split_ifs
            · exact h2
            · exact I.andThen _ _ _ h2
                (inv_backupEntries I sourcePath rest backupDir basePath previousBackupDir _)
end

theorem inv_backupSources {R : State → State → Prop} (I : PhaseInvariant R)
    (sourcePaths : List Path) (backupDir previousBackupDir : Path)
    (s : State) : R s (backupSources sourcePaths backupDir previousBackupDir s).2 := by
  induction sourcePaths generalizing s with
  | nil => exact I.same s
  | cons p rest ih =>
    unfold backupSources
    have h1 := inv_backupDirectory I p ((s.source.lookup p).getD Node.other) backupDir p
      previousBackupDir s
    cases hb : backupDirectory p ((s.source.lookup p).getD Node.other) backupDir p
        previousBackupDir s with
    | mk ok s1 =>
      rw [hb] at h1
      cases ok with
      | false => exact h1
      | true =>
        simp only
        have h2 := I.andThen _ _ _ h1 (I.ofPoll s1)
        split_ifs
        · exact h2
        · exact I.andThen _ _ _ h2 (ih _)

theorem inv_saveBackupMetadata {R : State → State → Prop} (I : PhaseInvariant R)
    (backupDir : Path) (s : State) : R s (saveBackupMetadata backupDir s) := by
  unfold saveBackupMetadata
  cases hc : s.fs.copy_file ((backupInfo s).data.map Char.toNat)
      (backupDir ++ ["backup-info.json"]) with
  | none => exact I.same s
  | some fs => exact I.ofFs s fs

theorem inv_createBackupDir {R : State → State → Prop} (I : PhaseInvariant R)
    (lib : TimeLib) (s s1 : State) (h : createBackupDir lib s = some s1) : R s s1 := by
  unfold createBackupDir at h
  simp only at h
  split at h
  · exact absurd h (by simp)
  · split at h
    · exact absurd h (by simp)
    · split at h
      · exact absurd h (by simp)
      · rename_i fs3 _
        have := Option.some.inj h
        rw [← this]
        exact I.ofFs s fs3

theorem inv_backupFiles {R : State → State → Prop} (I : PhaseInvariant R)
    (lib : TimeLib) (s : State) : R s (backupFiles lib s).2 := by
  unfold backupFiles
  cases hc : createBackupDir lib s with
  | none => exact I.same s
  | some s1 =>
    simp only
    have h0 := inv_createBackupDir I lib s s1 hc
    have h1 := I.andThen _ _ _ h0 (inv_backupSources I s1.config.sourcePaths
      (newBackupDir lib s1) (findPreviousBackupDir lib s1) s1)
    cases hb : backupSources s1.config.sourcePaths (newBackupDir lib s1)
        (findPreviousBackupDir lib s1) s1 with
    | mk ok s2 =>
      rw [hb] at h1
      cases ok with
      | false => exact h1
      | true => exact I.andThen _ _ _ h1 (inv_saveBackupMetadata I _ _)

theorem inv_verifyBackup {R : State → State → Prop} (I : PhaseInvariant R) (s : State) :
    R s (verifyBackup s).2 :=
  inv_verifyTicks I 5 s

/-! ## The worker, phase by phase -/

theorem WithinPhase.rfl1 (s : State) : WithinPhase s s :=
  ⟨rfl, rfl, rfl, rfl, rfl, rfl, id, [], (List.append_nil _).symm, fun _ => rfl,
    fun _ h => absurd h (List.not_mem_nil _)⟩

theorem WithinPhase.comp {a b c : State} (h1 : WithinPhase a b) (h2 : WithinPhase b c) :
    WithinPhase a c := by
  obtain ⟨a1, a2, a3, a4, a5, a6, a7, pre1, a8, a9, a10⟩ := h1
  obtain ⟨b1, b2, b3, b4, b5, b6, b7, pre2, b8, b9, b10⟩ := h2
  refine ⟨b1.trans a1, b2.trans a2, b3.trans a3, b4.trans a4, b5.trans a5, b6.trans a6,
    fun h => b7 (a7 h), pre1 ++ pre2, ?_, ?_, ?_⟩
  · rw [b8, a8, List.append_assoc]
  · intro h
    rw [a9 h, b9 (a4.trans h)]
    rfl
  · intro c hc
    rcases List.mem_append.mp hc with hc | hc
    · exact a10 c hc
    · exact (b10 c hc).trans a1

theorem withinPhase_cancelBackup (s : State) : WithinPhase s (cancelBackup s).2 := by
  unfold cancelBackup
  split_ifs
  · exact WithinPhase.rfl1 s
  · exact ⟨rfl, rfl, rfl, rfl, rfl, rfl, fun _ => rfl, [], (List.append_nil _).symm,
      fun _ => rfl, fun _ h => absurd h (List.not_mem_nil _)⟩

theorem withinPhase_poll (s : State) : WithinPhase s (poll s) := by
  unfold poll
  cases h : s.cancelIn with
  | none => exact WithinPhase.rfl1 s
  | some n =>
    cases n with
    | zero =>
      have h1 : WithinPhase s { s with cancelIn := none } :=
        ⟨rfl, rfl, rfl, rfl, rfl, rfl, id, [], (List.append_nil _).symm, fun _ => rfl,
          fun _ h => absurd h (List.not_mem_nil _)⟩
      exact h1.comp (withinPhase_cancelBackup _)
    | succ n =>
      exact ⟨rfl, rfl, rfl, rfl, rfl, rfl, id, [], (List.append_nil _).symm, fun _ => rfl,
        fun _ h => absurd h (List.not_mem_nil _)⟩

theorem withinPhase_notify (s : State) : WithinPhase s (notify s) := by
  unfold notify
  cases h : s.progressCallback with
  | none => exact WithinPhase.rfl1 s
  | some v =>
    refine ⟨rfl, rfl, rfl, h.symm, rfl, rfl, id, [(s.status, s.stats)], rfl, ?_, ?_⟩
    · intro h2
      rw [h] at h2
      exact absurd h2 (by simp)
    · intro c hc
      rw [List.mem_singleton.mp hc]

theorem phaseInvariant_withinPhase : PhaseInvariant WithinPhase where
  same := WithinPhase.rfl1
  andThen := fun _ _ _ h1 h2 => h1.comp h2
  ofPoll := withinPhase_poll
  ofNotify := withinPhase_notify
  ofStats := fun _ _ => ⟨rfl, rfl, rfl, rfl, rfl, rfl, id, [], (List.append_nil _).symm,
    fun _ => rfl, fun _ h => absurd h (List.not_mem_nil _)⟩
  ofFs := fun _ _ => ⟨rfl, rfl, rfl, rfl, rfl, rfl, id, [], (List.append_nil _).symm,
    fun _ => rfl, fun _ h => absurd h (List.not_mem_nil _)⟩

/-- The worker, phase by phase: which call of `completeBackup` ends the run, and in which
state. -/
theorem backupThreadFunction_eq (lib : TimeLib) (s : State) :
    backupThreadFunction lib s =
      if scanOk s = false then
        completeBackup false false (scanFiles (setStatus BackupStatus.SCANNING s)).2
      else if (afterScan s).cancelRequested = true then completeBackup false true (afterScan s)
      else if backupOk lib s = false then
        completeBackup false false (backupFiles lib (backupPhaseEntry s)).2
      else if (afterBackup lib s).cancelRequested = true then
        completeBackup false true (afterBackup lib s)
      else if (afterBackup lib s).config.verifyBackup = false then
        completeBackup true false (afterBackup lib s)
      else if verifyOk lib s = false then
        completeBackup false false (verifyBackup (verifyPhaseEntry lib s)).2
      else if (afterVerify lib s).cancelRequested = true then
        completeBackup false true (afterVerify lib s)
      else completeBackup true false (afterVerify lib s) := by
  unfold backupThreadFunction scanOk afterScan backupOk afterBackup verifyOk afterVerify
    verifyPhaseEntry afterBackup backupPhaseEntry
  simp only
  cases hs : scanFiles (setStatus BackupStatus.SCANNING s) with
  | mk ok s1 =>
    cases ok with
    | false => simp
    | true =>
      simp only [Bool.true_eq_false, if_false]
      by_cases h1 : (poll s1).cancelRequested = true
      · rw [if_pos h1, if_pos h1]
      · rw [if_neg h1, if_neg h1]
        cases hb : backupFiles lib (setStatus BackupStatus.BACKING_UP (poll s1)) with
        | mk ok2 s2 =>
          cases ok2 with
          | false => simp
          | true =>
            simp only [Bool.true_eq_false, if_false]
            by_cases h2 : (poll s2).cancelRequested = true
            · rw [if_pos h2, if_pos h2]
            · rw [if_neg h2, if_neg h2]
              by_cases hv : (poll s2).config.verifyBackup = true
              · rw [if_pos hv, if_neg (by rw [hv]; simp)]
                cases hvb : verifyBackup (setStatus BackupStatus.VERIFYING (poll s2)) with
                | mk ok3 s3 =>
                  cases ok3 with
                  | false => simp
                  | true => simp
              · rw [if_neg hv, if_pos (by simpa using hv)]

/-! ## The statuses of a run -/

theorem withinPhase_scanFiles (s : State) : WithinPhase s (scanFiles s).2 :=
  inv_scanFiles phaseInvariant_withinPhase s

theorem withinPhase_backupFiles (lib : TimeLib) (s : State) :
    WithinPhase s (backupFiles lib s).2 :=
  inv_backupFiles phaseInvariant_withinPhase lib s

theorem withinPhase_verifyBackup (s : State) : WithinPhase s (verifyBackup s).2 :=
  inv_verifyBackup phaseInvariant_withinPhase s

theorem statusLog_notify (s : State) : (notify s).statusLog = s.statusLog := by
  unfold notify
  cases s.progressCallback <;> rfl

theorem statusLog_completeBackup (success cancelled : Bool) (s : State) :
    (completeBackup success cancelled s).statusLog =
      s.statusLog ++ [if cancelled then BackupStatus.CANCELLED
        else if success then BackupStatus.COMPLETED else BackupStatus.FAILED] := by
  unfold completeBackup
  rw [statusLog_notify]
  rfl

theorem statusLog_scanned (s : State) :
    (scanFiles (setStatus BackupStatus.SCANNING s)).2.statusLog =
      s.statusLog ++ [BackupStatus.SCANNING] :=
  (withinPhase_scanFiles _).2.1

theorem statusLog_afterScan (s : State) :
    (afterScan s).statusLog = s.statusLog ++ [BackupStatus.SCANNING] :=
  ((withinPhase_scanFiles _).comp (withinPhase_poll _)).2.1

theorem statusLog_backedUp (lib : TimeLib) (s : State) :
    (backupFiles lib (backupPhaseEntry s)).2.statusLog =
      s.statusLog ++ [BackupStatus.SCANNING, BackupStatus.BACKING_UP] := by
  rw [(withinPhase_backupFiles lib _).2.1]
  show (afterScan s).statusLog ++ [BackupStatus.BACKING_UP] = _
  rw [statusLog_afterScan, List.append_assoc]
  rfl

theorem statusLog_afterBackup (lib : TimeLib) (s : State) :
    (afterBackup lib s).statusLog =
      s.statusLog ++ [BackupStatus.SCANNING, BackupStatus.BACKING_UP] := by
  unfold afterBackup
  rw [(withinPhase_poll _).2.1, statusLog_backedUp]

theorem statusLog_verified (lib : TimeLib) (s : State) :
    (verifyBackup (verifyPhaseEntry lib s)).2.statusLog =
      s.statusLog ++ [BackupStatus.SCANNING, BackupStatus.BACKING_UP,
        BackupStatus.VERIFYING] := by
  rw [(withinPhase_verifyBackup _).2.1]
  show (afterBackup lib s).statusLog ++ [BackupStatus.VERIFYING] = _
  rw [statusLog_afterBackup, List.append_assoc]
  rfl

theorem statusLog_afterVerify (lib : TimeLib) (s : State) :
    (afterVerify lib s).statusLog =
      s.statusLog ++ [BackupStatus.SCANNING, BackupStatus.BACKING_UP,
        BackupStatus.VERIFYING] := by
  unfold afterVerify
  rw [(withinPhase_poll _).2.1, statusLog_verified]

theorem config_afterBackup (lib : TimeLib) (s : State) :
    (afterBackup lib s).config = s.config := by
  have h1 := (withinPhase_scanFiles (setStatus BackupStatus.SCANNING s)).comp
    (withinPhase_poll _)
  have h2 := (withinPhase_backupFiles lib (backupPhaseEntry s)).comp (withinPhase_poll _)
  exact h2.2.2.1.trans h1.2.2.1

/-- The statuses the worker assigns are those of the table. -/
theorem workerStatuses_eq (lib : TimeLib) (s : State) :
    (backupThreadFunction lib s).statusLog = s.statusLog ++ workerStatuses lib s ∧
    workerStatuses lib s =
      runStatuses (scanOk s) (afterScan s).cancelRequested (backupOk lib s)
        (afterBackup lib s).cancelRequested s.config.verifyBackup (verifyOk lib s)
        (afterVerify lib s).cancelRequested := by
  have key : (backupThreadFunction lib s).statusLog = s.statusLog ++
      runStatuses (scanOk s) (afterScan s).cancelRequested (backupOk lib s)
        (afterBackup lib s).cancelRequested s.config.verifyBackup (verifyOk lib s)
        (afterVerify lib s).cancelRequested := by
    rw [backupThreadFunction_eq, config_afterBackup]
    unfold runStatuses
    split_ifs <;>
      simp only [statusLog_completeBackup, statusLog_scanned, statusLog_afterScan,
        statusLog_backedUp, statusLog_afterBackup, statusLog_verified, statusLog_afterVerify,
        List.append_assoc, List.cons_append, List.nil_append, if_true, if_false,
        Bool.false_eq_true]
  unfold workerStatuses
  rw [key, List.drop_left]
  exact ⟨rfl, rfl⟩

theorem status_backupThreadFunction (lib : TimeLib) (s : State) :
    some (backupThreadFunction lib s).status = (workerStatuses lib s).getLast? := by
  rw [(workerStatuses_eq lib s).2, backupThreadFunction_eq, config_afterBackup]
  unfold runStatuses
  split_ifs <;> simp [status_completeBackup]

/-! ## The order of the phases -/

/-- The worker for a callback that returns from every invocation. The statuses the worker
assigns are SCANNING, then possibly BACKING_UP,
then possibly VERIFYING, then one of COMPLETED, FAILED and CANCELLED, which is
the status the run ends with. BACKING_UP is entered exactly when the scan
returned true and the flag was clear at the check after it; VERIFYING exactly
when, besides, the backup phase returned true, the flag was clear at the check
after it and `verifyBackup` is enabled. A flag found set at the check after a
phase ends the run CANCELLED with no further phase, and that is the only way a
run ends CANCELLED. The run ends COMPLETED exactly when every phase that ran
returned true and every check after a phase found the flag clear. -/
theorem worker_statuses_follow_the_state_machine (lib : TimeLib) (s : State) :
    (backupThreadFunction lib s).statusLog = s.statusLog ++ workerStatuses lib s ∧
    workerStatuses lib s =
      (workerStatuses lib s).dropLast ++ [(backupThreadFunction lib s).status] ∧
    ((workerStatuses lib s).dropLast = [BackupStatus.SCANNING] ∨
      (workerStatuses lib s).dropLast = [BackupStatus.SCANNING, BackupStatus.BACKING_UP] ∨
      (workerStatuses lib s).dropLast =
        [BackupStatus.SCANNING, BackupStatus.BACKING_UP, BackupStatus.VERIFYING]) ∧
    ((backupThreadFunction lib s).status = BackupStatus.COMPLETED ∨
      (backupThreadFunction lib s).status = BackupStatus.FAILED ∨
      (backupThreadFunction lib s).status = BackupStatus.CANCELLED) ∧
    (BackupStatus.BACKING_UP ∈ workerStatuses lib s ↔
      scanOk s = true ∧ (afterScan s).cancelRequested = false) ∧
    (BackupStatus.VERIFYING ∈ workerStatuses lib s ↔
      s.config.verifyBackup = true ∧ scanOk s = true ∧ (afterScan s).cancelRequested = false ∧
      backupOk lib s = true ∧ (afterBackup lib s).cancelRequested = false) ∧
    (scanOk s = true → (afterScan s).cancelRequested = true →
      workerStatuses lib s = [BackupStatus.SCANNING, BackupStatus.CANCELLED]) ∧
    (BackupStatus.BACKING_UP ∈ workerStatuses lib s → backupOk lib s = true →
      (afterBackup lib s).cancelRequested = true →
      workerStatuses lib s =
        [BackupStatus.SCANNING, BackupStatus.BACKING_UP, BackupStatus.CANCELLED]) ∧
    (BackupStatus.VERIFYING ∈ workerStatuses lib s → verifyOk lib s = true →
      (afterVerify lib s).cancelRequested = true →
      workerStatuses lib s =
        [BackupStatus.SCANNING, BackupStatus.BACKING_UP, BackupStatus.VERIFYING,
          BackupStatus.CANCELLED]) ∧
    ((backupThreadFunction lib s).status = BackupStatus.CANCELLED ↔
      (scanOk s = true ∧ (afterScan s).cancelRequested = true) ∨
      (BackupStatus.BACKING_UP ∈ workerStatuses lib s ∧ backupOk lib s = true ∧
        (afterBackup lib s).cancelRequested = true) ∨
      (BackupStatus.VERIFYING ∈ workerStatuses lib s ∧ verifyOk lib s = true ∧
        (afterVerify lib s).cancelRequested = true)) ∧
    ((backupThreadFunction lib s).status = BackupStatus.COMPLETED ↔
      scanOk s = true ∧ (afterScan s).cancelRequested = false ∧
      backupOk lib s = true ∧ (afterBackup lib s).cancelRequested = false ∧
      (s.config.verifyBackup = true →
        verifyOk lib s = true ∧ (afterVerify lib s).cancelRequested = false)) := by
  refine ⟨(workerStatuses_eq lib s).1, ?_⟩
  have hS := status_backupThreadFunction lib s
  have hW := (workerStatuses_eq lib s).2
  generalize (backupThreadFunction lib s).status = st at hS ⊢
  rw [hW] at hS ⊢
  generalize scanOk s = a at hS ⊢
  generalize (afterScan s).cancelRequested = b at hS ⊢
  generalize backupOk lib s = c at hS ⊢
  generalize (afterBackup lib s).cancelRequested = d at hS ⊢
  generalize s.config.verifyBackup = e at hS ⊢
  generalize verifyOk lib s = f at hS ⊢
  generalize (afterVerify lib s).cancelRequested = g at hS ⊢
  cases a <;> cases b <;> cases c <;> cases d <;> cases e <;> cases f <;> cases g <;>
    simp [runStatuses] at hS ⊢ <;> subst hS <;> decide

theorem worker_statuses_follow_the_state_machine_witness :
    scanOk verifiedStart = true ∧ (afterScan verifiedStart).cancelRequested = false ∧
    backupOk utc verifiedStart = true ∧ (afterBackup utc verifiedStart).cancelRequested = false ∧
    verifiedStart.config.verifyBackup = true ∧
    verifyOk utc verifiedStart = true ∧ (afterVerify utc verifiedStart).cancelRequested = false ∧
    workerStatuses utc verifiedStart =
      [BackupStatus.SCANNING, BackupStatus.BACKING_UP, BackupStatus.VERIFYING,
        BackupStatus.COMPLETED] ∧
    (backupThreadFunction utc verifiedStart).status = BackupStatus.COMPLETED :=
  ⟨by decide, by decide, by decide, by decide, by decide, by decide, by decide, by decide,
    (worker_statuses_follow_the_state_machine utc verifiedStart).2.2.2.2.2.2.2.2.2.2.2
      ⟨by decide, by decide, by decide, by decide, fun _ => ⟨by decide, by decide⟩⟩⟩

/-! ## The end of a run -/

theorem runPrefix_setStatus (status : BackupStatus) (s : State) :
    RunPrefix s (setStatus status s) :=
  ⟨rfl, rfl, rfl, [], (List.append_nil _).symm, fun _ => rfl,
    fun _ h => absurd h (List.not_mem_nil _)⟩

theorem RunPrefix.next {a b c : State} (h1 : RunPrefix a b) (h2 : RunPrefix b c) :
    RunPrefix a c := by
  obtain ⟨a1, a2, a3, pre1, a4, a5, a6⟩ := h1
  obtain ⟨b1, b2, b3, pre2, b4, b5, b6⟩ := h2
  refine ⟨b1.trans a1, b2.trans a2, b3.trans a3, pre1 ++ pre2, ?_, ?_, ?_⟩
  · rw [b4, a4, List.append_assoc]
  · intro h
    rw [a5 h, b5 (a1.trans h)]
    rfl
  · intro c hc
    rcases List.mem_append.mp hc with hc | hc
    · exact a6 c hc
    · exact b6 c hc

theorem runPrefix_of_withinPhase {a b : State} (ha : InPhase a) (h : WithinPhase a b) :
    RunPrefix a b ∧ InPhase b := by
  obtain ⟨h1, _, _, h4, h5, h6, _, pre, h8, h9, h10⟩ := h
  refine ⟨⟨h4, h6, h5, pre, h8, h9, ?_⟩, ?_⟩
  · intro c hc
    rw [h10 c hc]
    exact ha
  · unfold InPhase
    rw [h1]
    exact ha

/-- The worker ends with a call of `completeBackup`, in a state that the run has reached in
a phase. -/
theorem backupThreadFunction_ends (lib : TimeLib) (s : State) :
    ∃ success cancelled sx, backupThreadFunction lib s = completeBackup success cancelled sx ∧
      RunPrefix s sx ∧ InPhase sx := by
  have p0 : RunPrefix s (setStatus BackupStatus.SCANNING s) ∧
      InPhase (setStatus BackupStatus.SCANNING s) :=
    ⟨runPrefix_setStatus _ _, Or.inl rfl⟩
  have p1 := runPrefix_of_withinPhase p0.2 (withinPhase_scanFiles _)
  have p2 := runPrefix_of_withinPhase p1.2 (withinPhase_poll _)
  have q1 : RunPrefix s (scanFiles (setStatus BackupStatus.SCANNING s)).2 := p0.1.next p1.1
  have q2 : RunPrefix s (afterScan s) := q1.next p2.1
  have p3 : RunPrefix s (backupPhaseEntry s) ∧ InPhase (backupPhaseEntry s) :=
    ⟨q2.next (runPrefix_setStatus _ _), Or.inr (Or.inl rfl)⟩
  have p4 := runPrefix_of_withinPhase p3.2 (withinPhase_backupFiles lib _)
  have p5 := runPrefix_of_withinPhase p4.2 (withinPhase_poll _)
  have q4 : RunPrefix s (backupFiles lib (backupPhaseEntry s)).2 := p3.1.next p4.1
  have q5 : RunPrefix s (afterBackup lib s) := q4.next p5.1
  have p6 : RunPrefix s (verifyPhaseEntry lib s) ∧ InPhase (verifyPhaseEntry lib s) :=
    ⟨q5.next (runPrefix_setStatus _ _), Or.inr (Or.inr rfl)⟩
  have p7 := runPrefix_of_withinPhase p6.2 (withinPhase_verifyBackup _)
  have p8 := runPrefix_of_withinPhase p7.2 (withinPhase_poll _)
  have q7 : RunPrefix s (verifyBackup (verifyPhaseEntry lib s)).2 := p6.1.next p7.1
  have q8 : RunPrefix s (afterVerify lib s) := q7.next p8.1
  rw [backupThreadFunction_eq]
  split_ifs
  · exact ⟨_, _, _, rfl, q1, p1.2⟩
  · exact ⟨_, _, _, rfl, q2, p2.2⟩
  · exact ⟨_, _, _, rfl, q4, p4.2⟩
  · exact ⟨_, _, _, rfl, q5, p5.2⟩
  · exact ⟨_, _, _, rfl, q5, p5.2⟩
  · exact ⟨_, _, _, rfl, q7, p7.2⟩
  · exact ⟨_, _, _, rfl, q8, p8.2⟩
  · exact ⟨_, _, _, rfl, q8, p8.2⟩

theorem terminal_completeBackup (success cancelled : Bool) (s : State) :
    (completeBackup success cancelled s).status = BackupStatus.COMPLETED ∨
    (completeBackup success cancelled s).status = BackupStatus.FAILED ∨
    (completeBackup success cancelled s).status = BackupStatus.CANCELLED := by
  rw [status_completeBackup]
  cases cancelled <;> cases success <;> simp

theorem stats_notify (s : State) : (notify s).stats = s.stats := by
  unfold notify
  cases s.progressCallback <;> rfl

theorem endTime_completeBackup (success cancelled : Bool) (s : State) :
    (completeBackup success cancelled s).stats.endTime = some s.now := by
  unfold completeBackup
  rw [stats_notify]
  rfl

theorem calls_completeBackup (success cancelled : Bool) (s : State) :
    (s.progressCallback = none → (completeBackup success cancelled s).calls = s.calls) ∧
    (s.progressCallback ≠ none → (completeBackup success cancelled s).calls =
      s.calls ++ [((completeBackup success cancelled s).status,
        (completeBackup success cancelled s).stats)]) := by
  unfold completeBackup notify
  cases h : s.progressCallback with
  | none =>
    refine ⟨fun _ => ?_, fun hn => absurd rfl hn⟩
    simp only [setStatus, h]
  | some v =>
    refine ⟨fun hn => absurd hn (by simp), fun _ => ?_⟩
    simp only [setStatus, h]

/-- Once a worker was started and has run to its end, `startBackup` does not return: the
status is one from which a start is accepted, and the thread object is joinable. -/
theorem startBackup_after_worker (lib : TimeLib) (config config2 : BackupConfig)
    (progressCallback callback2 : Option Nat) (s s1 : State)
    (h : startBackup config progressCallback s = some (true, s1)) :
    startBackup config2 callback2 (backupThreadFunction lib s1) = none := by
  have h1 : 0 < s1.backupThread := by
    unfold startBackup at h
    simp only at h
    split_ifs at h
    · exact absurd (Prod.mk.inj (Option.some.inj h)).1 (by simp)
    · have := (Prod.mk.inj (Option.some.inj h)).2
      rw [← this]
      exact Nat.succ_pos _
  obtain ⟨success, cancelled, sx, he, hp, _⟩ := backupThreadFunction_ends lib s1
  have h2 : (backupThreadFunction lib s1).backupThread = s1.backupThread := by
    rw [he]
    exact (sameWorld_completeBackup _ _ _).2.2.2.2.2.2.2.trans hp.2.2.1
  have h3 := terminal_completeBackup success cancelled sx
  rw [← he] at h3
  unfold startBackup
  simp only
  rw [if_neg (by rcases h3 with h3 | h3 | h3 <;> simp [h3]), if_pos (by rw [h2]; exact h1)]

/-- The end of the worker for a callback that returns from every invocation. However the
worker ends, the status is COMPLETED, FAILED or CANCELLED,
`stats.endTime` is set to the reading of the clock, and the callback, when one
was supplied, is invoked with that status and the final statistics as the last
invocation of the run, all invocations before it carrying the status of a
phase; without a callback nothing is invoked. -/
theorem terminal_transition_finalizes (lib : TimeLib) (s : State) :
    ((backupThreadFunction lib s).status = BackupStatus.COMPLETED ∨
      (backupThreadFunction lib s).status = BackupStatus.FAILED ∨
      (backupThreadFunction lib s).status = BackupStatus.CANCELLED) ∧
    (backupThreadFunction lib s).stats.endTime = some s.now ∧
    (s.progressCallback = none → (backupThreadFunction lib s).calls = s.calls) ∧
    (s.progressCallback ≠ none → ∃ pre,
      (backupThreadFunction lib s).calls =
        s.calls ++ pre ++
          [((backupThreadFunction lib s).status, (backupThreadFunction lib s).stats)] ∧
      ∀ c ∈ pre, c.1 = BackupStatus.SCANNING ∨ c.1 = BackupStatus.BACKING_UP ∨
        c.1 = BackupStatus.VERIFYING) := by
  obtain ⟨success, cancelled, sx, he, ⟨h1, h2, _, pre, h4, h5, h6⟩, _⟩ :=
    backupThreadFunction_ends lib s
  rw [he]
  refine ⟨terminal_completeBackup _ _ _, ?_, ?_, ?_⟩
  · rw [endTime_completeBackup, h2]
  · intro hn
    rw [(calls_completeBackup success cancelled sx).1 (h1.trans hn), h4, h5 hn,
      List.append_nil]
  · intro hn
    refine ⟨pre, ?_, h6⟩
    rw [(calls_completeBackup success cancelled sx).2 (by rw [h1]; exact hn), h4]

theorem terminal_transition_finalizes_witness :
    (started scenarioConfig (some 1) beforeRun1).progressCallback ≠ none ∧
    afterRun1.stats.endTime = some 1704067200 ∧
    afterRun1.calls.map Prod.fst =
      [BackupStatus.SCANNING, BackupStatus.BACKING_UP, BackupStatus.BACKING_UP,
        BackupStatus.BACKING_UP, BackupStatus.COMPLETED] ∧
    ∃ pre, afterRun1.calls =
        (started scenarioConfig (some 1) beforeRun1).calls ++ pre ++
          [(afterRun1.status, afterRun1.stats)] ∧
      ∀ c ∈ pre, c.1 = BackupStatus.SCANNING ∨ c.1 = BackupStatus.BACKING_UP ∨
        c.1 = BackupStatus.VERIFYING :=
  ⟨by decide, by decide, by decide,
    (terminal_transition_finalizes utc (started scenarioConfig (some 1) beforeRun1)).2.2.2
      (by decide)⟩

/-! ## Exclusion: the text of a path -/

theorem isSubstring_iff (pattern s : List Char) :
    isSubstring pattern s = true ↔ pattern <:+: s := by
  unfold isSubstring
  rw [List.any_eq_true, List.infix_iff_prefix_suffix]
  constructor
  · rintro ⟨t, ht, hp⟩
    exact ⟨t, List.isPrefixOf_iff_prefix.mp hp, (List.mem_tails _ _).mp ht⟩
  · rintro ⟨t, hp, ht⟩
    exact ⟨t, (List.mem_tails _ _).mpr ht, List.isPrefixOf_iff_prefix.mpr hp⟩

theorem data_intercalate_go (acc sep : String) (l : List String) :
    (String.intercalate.go acc sep l).data =
      acc.data ++ (l.map (fun a => sep.data ++ a.data)).flatten := by
  induction l generalizing acc with
  | nil => simp [String.intercalate.go]
  | cons a l ih =>
    simp only [String.intercalate.go, ih, String.data_append, List.map_cons, List.flatten_cons,
      List.append_assoc]

theorem data_pathString_cons (a : String) (l : Path) :
    (pathString (a :: l)).data =
      '/' :: a.data ++ (l.map (fun b => ['/'] ++ b.data)).flatten := by
  unfold pathString
  simp only [String.intercalate, String.data_append, data_intercalate_go]
  rfl

theorem data_pathString_nil : (pathString []).data = ['/'] := by
  decide

/-- The text of a path begins with the text of each of its ancestors. -/
theorem data_pathString_mono {q p : Path} (h : q <+: p) :
    (pathString q).data <+: (pathString p).data := by
  obtain ⟨r, rfl⟩ := h
  cases q with
  | nil =>
    rw [data_pathString_nil]
    cases r with
    | nil => rw [List.nil_append, data_pathString_nil]
    | cons a l =>
      rw [List.nil_append, data_pathString_cons]
      exact ⟨_, rfl⟩
  | cons a l =>
    rw [List.cons_append, data_pathString_cons, data_pathString_cons, List.map_append,
      List.flatten_append, ← List.append_assoc]
    exact ⟨_, rfl⟩

/-- A path below an excluded path is excluded. -/
theorem isExcluded_mono (excludePatterns : List String) {q p : Path} (h : q <+: p)
    (hq : isExcluded excludePatterns q = true) : isExcluded excludePatterns p = true := by
  unfold isExcluded at hq ⊢
  rw [List.any_eq_true] at hq ⊢
  obtain ⟨pattern, hm, hs⟩ := hq
  refine ⟨pattern, hm, ?_⟩
  rw [isSubstring_iff] at hs ⊢
  exact hs.trans (data_pathString_mono h).isInfix

/-! ## The entries below a source root -/

mutual
theorem mem_entriesBelow (path : Path) (node : Node) (e : Path × Node)
    (h : e ∈ entriesBelow path node) : ∃ r, r ≠ [] ∧ e.1 = path ++ r := by
  cases node with
  | file bytes => simp [entriesBelow] at h
  | other => simp [entriesBelow] at h
  | dir entries =>
    simp only [entriesBelow] at h
    exact mem_entriesOf path entries e h
theorem mem_entriesOf (path : Path) (entries : List (String × Node)) (e : Path × Node)
    (h : e ∈ entriesOf path entries) : ∃ r, r ≠ [] ∧ e.1 = path ++ r := by
  cases entries with
  | nil => simp [entriesOf] at h
  | cons x rest =>
    obtain ⟨name, node⟩ := x
    simp only [entriesOf, List.mem_cons, List.mem_append] at h
    rcases h with h | h | h
    · exact ⟨[name], by simp, by rw [h]⟩
    · obtain ⟨r, _, hr⟩ := mem_entriesBelow (path ++ [name]) node e h
      exact ⟨[name] ++ r, by simp, by rw [hr, List.append_assoc]⟩
    · exact mem_entriesOf path rest e h
end

/-- Below a root, an entry that is not excluded lies under no excluded directory. -/
theorem isCounted_eq (excludePatterns : List String) (root r : Path) (hr : r ≠ []) :
    isCounted excludePatterns root (root ++ r) = !isExcluded excludePatterns (root ++ r) := by
  unfold isCounted
  cases hx : isExcluded excludePatterns (root ++ r) with
  | true =>
    rw [Bool.not_true, List.all_eq_false]
    refine ⟨root ++ r, ?_, by simp [hx]⟩
    rw [List.mem_filter]
    refine ⟨(List.mem_inits _ _).mpr List.prefix_rfl, ?_⟩
    have : 0 < r.length := List.length_pos.mpr hr
    simp only [List.length_append, decide_eq_true_eq]
    omega
  | false =>
    rw [Bool.not_false, List.all_eq_true]
    intro q hq
    rw [List.mem_filter, List.mem_inits] at hq
    cases hq2 : isExcluded excludePatterns q with
    | false => rfl
    | true =>
      have := isExcluded_mono excludePatterns hq.1 hq2
      rw [hx] at this
      exact absurd this (by simp)

theorem keptBelow_eq (excludePatterns : List String) (root : Path) (node : Node) :
    keptBelow excludePatterns root node =
      (entriesBelow root node).filter (fun e => !isExcluded excludePatterns e.1) := by
  unfold keptBelow
  apply List.filter_congr
  intro e he
  obtain ⟨r, hr, h⟩ := mem_entriesBelow root node e he
  rw [h]
  exact isCounted_eq excludePatterns root r hr

/-! ## The totals of the scan -/

theorem stats_cancelBackup (s : State) : (cancelBackup s).2.stats = s.stats := by
  unfold cancelBackup
  split_ifs <;> rfl

theorem stats_poll (s : State) : (poll s).stats = s.stats := by
  unfold poll
  cases h : s.cancelIn with
  | none => rfl
  | some n =>
    cases n with
    | zero => exact stats_cancelBackup _
    | succ n => rfl

theorem WithinPhase.flag_clear {a b : State} (h : WithinPhase a b)
    (hb : b.cancelRequested = false) : a.cancelRequested = false := by
  cases ha : a.cancelRequested with
  | false => rfl
  | true =>
    rw [h.2.2.2.2.2.2.1 ha] at hb
    exact absurd hb (by simp)

theorem addTotals_nil (stats : BackupStats) : addTotals stats [] = stats := rfl

theorem addTotals_append (stats : BackupStats) (l1 l2 : List (Path × Node)) :
    addTotals stats (l1 ++ l2) = addTotals (addTotals stats l1) l2 := by
  unfold addTotals
  simp only [List.countP_append, List.map_append, List.sum_append, Nat.add_assoc]

/-- The entries of a list that no exclude pattern matches. -/
theorem filter_excluded_below (excludePatterns : List String) (path : Path) (node : Node)
    (hx : isExcluded excludePatterns path = true) :
    (entriesBelow path node).filter (fun e => !isExcluded excludePatterns e.1) = [] := by
  rw [List.filter_eq_nil_iff]
  intro e he
  obtain ⟨r, _, h⟩ := mem_entriesBelow path node e he
  have := isExcluded_mono excludePatterns (q := path) (p := e.1) ⟨r, h.symm⟩ hx
  simp [this]

mutual
theorem totals_scanDirectory (path : Path) (node : Node) (s : State)
    (h : (scanDirectory path node s).cancelRequested = false) :
    (scanDirectory path node s).stats = addTotals s.stats
      ((entriesBelow path node).filter (fun e => !isExcluded s.config.excludePatterns e.1)) := by
  cases node with
  | file bytes => simp only [scanDirectory, entriesBelow]; rfl
  | other => simp only [scanDirectory, entriesBelow]; rfl
  | dir entries =>
    simp only [scanDirectory, entriesBelow] at h ⊢
    exact totals_scanEntries path entries s h
theorem totals_scanEntries (path : Path) (entries : List (String × Node)) (s : State)
    (h : (scanEntries path entries s).cancelRequested = false) :
    (scanEntries path entries s).stats = addTotals s.stats
      ((entriesOf path entries).filter (fun e => !isExcluded s.config.excludePatterns e.1)) := by
  cases entries with
  | nil => simp only [scanEntries, entriesOf]; rfl
  | cons x rest =>
    obtain ⟨name, node⟩ := x
    by_cases hx : isExcluded s.config.excludePatterns (path ++ [name]) = true
    · have hrest : scanEntries path ((name, node) :: rest) s = scanEntries path rest s := by
        cases node <;> simp only [scanEntries, hx, if_true]
      rw [hrest] at h ⊢
      rw [totals_scanEntries path rest s h]
      simp only [entriesOf, List.filter_cons, hx, Bool.not_true, Bool.false_eq_true, if_false,
        List.filter_append, filter_excluded_below _ _ _ hx, List.nil_append]
    · have hk : (entriesOf path ((name, node) :: rest)).filter
          (fun e => !isExcluded s.config.excludePatterns e.1) =
          [(path ++ [name], node)] ++
            ((entriesBelow (path ++ [name]) node).filter
              (fun e => !isExcluded s.config.excludePatterns e.1) ++
            (entriesOf path rest).filter
              (fun e => !isExcluded s.config.excludePatterns e.1)) := by
        simp only [entriesOf, List.filter_cons, hx, Bool.not_false, if_true, List.filter_append,
          Bool.not_eq_true, Bool.not_eq_eq_eq_not, Bool.not_true]
        simp [hx]
      rw [hk, addTotals_append, addTotals_append]
      cases node with
      | file bytes =>
        simp only [scanEntries, hx, if_false, Bool.false_eq_true] at h ⊢
        by_cases hc : (poll { s with stats := { s.stats with
            totalFiles := s.stats.totalFiles + 1,
            totalSize := s.stats.totalSize + bytes.length } }).cancelRequested = true
        · rw [if_pos hc] at h
          rw [hc] at h
          exact absurd h (by simp)
        · rw [if_neg hc] at h ⊢
          rw [totals_scanEntries path rest _ h, stats_poll, (sameWorld_poll _).2.1]
          simp only [entriesBelow, List.filter_nil, addTotals_nil]
          rfl
      | other =>
        simp only [scanEntries, hx, if_false, Bool.false_eq_true] at h ⊢
        by_cases hc : (poll s).cancelRequested = true
        · rw [if_pos hc] at h
          rw [hc] at h
          exact absurd h (by simp)
        · rw [if_neg hc] at h ⊢
          rw [totals_scanEntries path rest _ h, stats_poll, (sameWorld_poll _).2.1]
          simp only [entriesBelow, List.filter_nil, addTotals_nil]
          rfl
      | dir sub =>
        simp only [scanEntries, hx, if_false, Bool.false_eq_true] at h ⊢
        by_cases hc : (poll (scanDirectory (path ++ [name]) (Node.dir sub)
            { s with stats := { s.stats with
              totalDirectories := s.stats.totalDirectories + 1 } })).cancelRequested = true
        · rw [if_pos hc] at h
          rw [hc] at h
          exact absurd h (by simp)
        · rw [if_neg hc] at h ⊢
          have hc2 := (withinPhase_poll _).flag_clear (by simpa using hc)
          have hw := (sameWorld_scanDirectory (path ++ [name]) (Node.dir sub)
            { s with stats := { s.stats with
              totalDirectories := s.stats.totalDirectories + 1 } }).andThen (sameWorld_poll _)
          rw [totals_scanEntries path rest _ h, stats_poll, hw.2.1,
            totals_scanDirectory (path ++ [name]) (Node.dir sub) _ hc2]
          rfl
end

theorem phaseInvariant_staysUncancelled : PhaseInvariant StaysUncancelled where
  same := fun _ => ⟨id, rfl, rfl⟩
  andThen := fun _ _ _ h1 h2 =>
    ⟨fun h => h2.1 (h1.1 h), h2.2.1.trans h1.2.1, h2.2.2.trans h1.2.2⟩
  ofPoll := fun s => by
    refine ⟨fun h => ?_, (sameWorld_poll s).2.2.2.1, (sameWorld_poll s).2.1⟩
    unfold poll
    rw [h.2]
    exact h
  ofNotify := fun s => by
    refine ⟨fun h => ?_, (sameWorld_notify s).2.2.2.1, (sameWorld_notify s).2.1⟩
    unfold notify
    cases s.progressCallback <;> exact h
  ofStats := fun _ _ => ⟨id, rfl, rfl⟩
  ofFs := fun _ _ => ⟨id, rfl, rfl⟩

theorem totals_scanSources (sourcePaths : List Path) (s : State)
    (h : (scanSources sourcePaths s).1 = true) :
    (scanSources sourcePaths s).2.stats = addTotals s.stats
      (sourcePaths.flatMap (fun root =>
        keptBelow s.config.excludePatterns root ((s.source.lookup root).getD Node.other))) := by
  induction sourcePaths generalizing s with
  | nil => rfl
  | cons root rest ih =>
    unfold scanSources at h ⊢
    cases hl : s.source.lookup root with
    | none =>
      rw [hl] at h
      exact absurd h (by simp)
    | some node =>
      rw [hl] at h
      simp only at h ⊢
      by_cases hc : (poll (scanDirectory root node s)).cancelRequested = true
      · rw [if_pos hc] at h
        exact absurd h (by simp)
      · rw [if_neg hc] at h ⊢
        have hc2 := (withinPhase_poll _).flag_clear (by simpa using hc)
        have hw := (sameWorld_scanDirectory root node s).andThen (sameWorld_poll _)
        rw [ih _ h, stats_poll, hw.2.1, hw.2.2.2.1, totals_scanDirectory root node s hc2,
          List.flatMap_cons, addTotals_append, keptBelow_eq, hl]
        rfl

theorem scanSources_of_uncancelled (sourcePaths : List Path) (s : State)
    (hf : s.cancelRequested = false) (hc : s.cancelIn = none)
    (hr : ∀ root ∈ sourcePaths, (s.source.lookup root).isSome = true) :
    (scanSources sourcePaths s).1 = true := by
  induction sourcePaths generalizing s with
  | nil => rfl
  | cons root rest ih =>
    unfold scanSources
    cases hl : s.source.lookup root with
    | none =>
      have := hr root (List.mem_cons_self _ _)
      rw [hl] at this
      exact absurd this (by simp)
    | some node =>
      simp only
      have hu := phaseInvariant_staysUncancelled.andThen _ _ _
        (inv_scanDirectory phaseInvariant_staysUncancelled root node s)
        (phaseInvariant_staysUncancelled.ofPoll _)
      have h2 := hu.1 ⟨hf, hc⟩
      rw [if_neg (by rw [h2.1]; simp)]
      refine ih _ h2.1 h2.2 ?_
      intro r hm
      rw [hu.2.1]
      exact hr r (List.mem_cons_of_mem _ hm)

/-- C19. A scan that returns true, as every scan does during which no
cancellation arrives and whose source paths all exist, leaves the statistics
as they were except for the totals: `totalFiles` has grown by the number of
regular files below the source roots that are not excluded and lie under no
excluded directory, `totalSize` by the sum of their sizes, and
`totalDirectories` by the number of directories below the source roots that
are not excluded and lie under no excluded directory. -/
theorem scan_totals_are_the_entries_not_excluded (s : State) :
    ((scanFiles s).1 = true →
      (scanFiles s).2.stats = addTotals s.stats (keptEntries s)) ∧
    (s.cancelRequested = false → s.cancelIn = none →
      (∀ root ∈ s.config.sourcePaths, (s.source.lookup root).isSome = true) →
      (scanFiles s).1 = true) := by
  constructor
  · intro h
    unfold scanFiles at h ⊢
    have := totals_scanSources s.config.sourcePaths s
    cases hs : scanSources s.config.sourcePaths s with
    | mk ok s1 =>
      rw [hs] at this h
      cases ok with
      | false => exact absurd h (by simp)
      | true =>
        simp only
        rw [stats_notify, this rfl]
        rfl
  · intro hf hc hr
    have := scanSources_of_uncancelled s.config.sourcePaths s hf hc hr
    unfold scanFiles
    cases hs : scanSources s.config.sourcePaths s with
    | mk ok s1 =>
      rw [hs] at this
      simp only at this
      subst this
      rfl

theorem scan_totals_are_the_entries_not_excluded_witness :
    (scanFiles (started beforeRunWithCache.config none beforeRunWithCache)).1 = true ∧
    (keptEntries (started beforeRunWithCache.config none beforeRunWithCache)).map Prod.fst =
      [["home", "notes"], ["home", "docs"], ["home", "docs", "a"]] ∧
    (scanFiles (started beforeRunWithCache.config none beforeRunWithCache)).2.stats =
      addTotals (started beforeRunWithCache.config none beforeRunWithCache).stats
        (keptEntries (started beforeRunWithCache.config none beforeRunWithCache)) ∧
    (scanFiles (started beforeRunWithCache.config none beforeRunWithCache)).2.stats.totalFiles
      = 2 ∧
    (scanFiles (started beforeRunWithCache.config none beforeRunWithCache)).2.stats.totalSize
      = 7 ∧
    (scanFiles
      (started beforeRunWithCache.config none beforeRunWithCache)).2.stats.totalDirectories
      = 1 :=
  ⟨by decide, by decide,
    (scan_totals_are_the_entries_not_excluded _).1 (by decide), by decide, by decide,
    by decide⟩

/-! ## Exclusion: the entries the walk skips -/

theorem isCounted_self (excludePatterns : List String) (root : Path) :
    isCounted excludePatterns root root = true := by
  unfold isCounted
  rw [List.all_eq_true]
  intro q hq
  rw [List.mem_filter, List.mem_inits] at hq
  have := hq.1.length_le
  have h2 := hq.2
  simp only [decide_eq_true_eq] at h2
  omega

theorem isSkipped_child (excludePatterns : List String) (path : Path) (name : String) :
    isSkipped excludePatterns path (path ++ [name]) =
      isExcluded excludePatterns (path ++ [name]) := by
  unfold isSkipped
  rw [List.dropLast_concat, isCounted_self, Bool.and_true]

theorem isSkipped_below (excludePatterns : List String) (path : Path) (name : String)
    (node : Node) (e : Path × Node) (he : e ∈ entriesBelow (path ++ [name]) node) :
    isSkipped excludePatterns path e.1 =
      (!isExcluded excludePatterns (path ++ [name]) &&
        isSkipped excludePatterns (path ++ [name]) e.1) := by
  obtain ⟨r, hr, h⟩ := mem_entriesBelow _ _ e he
  have hd : e.1.dropLast = path ++ ([name] ++ r.dropLast) := by
    rw [h, List.append_assoc, List.dropLast_append_of_ne_nil _ (by simp),
      List.dropLast_append_of_ne_nil _ hr]
  unfold isSkipped
  rw [hd, isCounted_eq _ _ _ (by simp)]
  cases hx : isExcluded excludePatterns (path ++ [name]) with
  | true =>
    have := isExcluded_mono excludePatterns (q := path ++ [name])
      (p := path ++ ([name] ++ r.dropLast)) ⟨r.dropLast, by simp⟩ hx
    rw [this]
    simp
  | false =>
    simp only [Bool.not_false, Bool.true_and]
    by_cases hr2 : r.dropLast = []
    · rw [hr2, List.append_nil, hx, ← List.append_nil (path ++ [name]), ]
      simp [isCounted_self]
    · rw [← List.append_assoc, isCounted_eq _ _ _ hr2]

theorem skippedFiles_copyAndCount (bytes : List Nat) (destFile : Path) (fileChanged : Bool)
    (s : State) :
    (copyAndCount bytes destFile fileChanged s).2.stats.skippedFiles =
      s.stats.skippedFiles := by
  unfold copyAndCount
  cases s.fs.copy_file bytes destFile with
  | none => rfl
  | some fs => cases fileChanged <;> rfl

theorem skippedFiles_backupFile (sourceFile : Path) (bytes : List Nat)
    (backupDir basePath previousBackupDir : Path) (s : State) :
    (backupFile sourceFile bytes backupDir basePath previousBackupDir s).2.stats.skippedFiles =
      s.stats.skippedFiles := by
  unfold backupFile
  simp only
  cases s.fs.create_directories
      (joinRelative backupDir (relative s sourceFile basePath)).dropLast with
  | none => rfl
  | some fs =>
    simp only
    by_cases hp : previousBackupDir ≠ []
    · rw [if_pos hp]
      by_cases he : fs.pathExists (joinRelative previousBackupDir (relative s sourceFile basePath)) = true
      · rw [if_pos he]
        cases fs.file_size (joinRelative previousBackupDir (relative s sourceFile basePath)) with
        | none => rfl
        | some prevSize =>
          simp only
          by_cases hz : prevSize = bytes.length
          · rw [if_pos hz]
            cases hq : areFilesEqual fs bytes
                (joinRelative previousBackupDir (relative s sourceFile basePath)) with
            | true =>
              simp only [Bool.not_true, Bool.not_false, if_true]
              cases fs.create_hard_link (joinRelative previousBackupDir (relative s sourceFile basePath))
                  (joinRelative backupDir (relative s sourceFile basePath)) with
              | none => rfl
              | some fs2 => rfl
            | false =>
              simp only [Bool.not_false, Bool.not_true, Bool.false_eq_true, if_false]
              exact skippedFiles_copyAndCount _ _ _ _
          · rw [if_neg hz]
            exact skippedFiles_copyAndCount _ _ _ _
      · rw [if_neg he]
        exact skippedFiles_copyAndCount _ _ _ _
    · rw [if_neg hp]
      exact skippedFiles_copyAndCount _ _ _ _

/-! ## Exclusion: the count of skipped entries -/

theorem filter_isSkipped_of_excluded (excludePatterns : List String) (path : Path)
    (name : String) (node : Node)
    (hx : isExcluded excludePatterns (path ++ [name]) = true) :
    (entriesBelow (path ++ [name]) node).filter
      (fun e => isSkipped excludePatterns path e.1) = [] := by
  rw [List.filter_eq_nil_iff]
  intro e he
  rw [isSkipped_below _ _ _ node e he, hx]
  simp

theorem filter_isSkipped_of_kept (excludePatterns : List String) (path : Path)
    (name : String) (node : Node)
    (hx : ¬ isExcluded excludePatterns (path ++ [name]) = true) :
    (entriesBelow (path ++ [name]) node).filter
      (fun e => isSkipped excludePatterns path e.1) =
    (entriesBelow (path ++ [name]) node).filter
      (fun e => isSkipped excludePatterns (path ++ [name]) e.1) := by
  apply List.filter_congr
  intro e he
  rw [isSkipped_below _ _ _ node e he]
  simp [hx]

mutual
theorem skipped_backupDirectory (sourcePath : Path) (node : Node)
    (backupDir basePath previousBackupDir : Path) (s : State)
    (h : (backupDirectory sourcePath node backupDir basePath previousBackupDir s).1 = true) :
    (backupDirectory sourcePath node backupDir basePath
        previousBackupDir s).2.stats.skippedFiles =
      s.stats.skippedFiles +
        (skippedBelow s.config.excludePatterns sourcePath node).length := by
  cases node with
  | file bytes =>
    simp only [backupDirectory] at h
    split at h <;> simp at h
  | other =>
    simp only [backupDirectory] at h
    split at h <;> simp at h
  | dir entries =>
    simp only [backupDirectory] at h ⊢
    cases hm : (if s.fs.pathExists (joinRelative backupDir (relative s sourcePath basePath)) = true
        then some s.fs
        else s.fs.create_directories (joinRelative backupDir (relative s sourcePath basePath))) with
    | none =>
      rw [hm] at h
      exact absurd h (by simp)
    | some fs =>
      rw [hm] at h
      simp only at h ⊢
      rw [skipped_backupEntries sourcePath entries backupDir basePath previousBackupDir _ h]
      simp only [skippedBelow, entriesBelow]
theorem skipped_backupEntries (sourcePath : Path) (entries : List (String × Node))
    (backupDir basePath previousBackupDir : Path) (s : State)
    (h : (backupEntries sourcePath entries backupDir basePath previousBackupDir s).1 = true) :
    (backupEntries sourcePath entries backupDir basePath
        previousBackupDir s).2.stats.skippedFiles =
      s.stats.skippedFiles +
        ((entriesOf sourcePath entries).filter
          (fun e => isSkipped s.config.excludePatterns sourcePath e.1)).length := by
  cases entries with
  | nil => simp only [backupEntries, entriesOf]; rfl
  | cons x rest =>
    obtain ⟨name, node⟩ := x
    by_cases hx : isExcluded s.config.excludePatterns (sourcePath ++ [name]) = true
    · have hrest : backupEntries sourcePath ((name, node) :: rest) backupDir basePath
          previousBackupDir s =
          backupEntries sourcePath rest backupDir basePath previousBackupDir
            { s with stats := { s.stats with skippedFiles := s.stats.skippedFiles + 1 } } := by
        cases node <;> simp only [backupEntries, hx, if_true]
      rw [hrest] at h ⊢
      rw [skipped_backupEntries sourcePath rest backupDir basePath previousBackupDir _ h]
      simp only [entriesOf, List.filter_cons, isSkipped_child, hx, if_true, List.filter_append,
        filter_isSkipped_of_excluded _ _ _ _ hx, List.nil_append, List.length_cons]
      omega
    · have hk : ((entriesOf sourcePath ((name, node) :: rest)).filter
          (fun e => isSkipped s.config.excludePatterns sourcePath e.1)).length =
          ((entriesBelow (sourcePath ++ [name]) node).filter
              (fun e => isSkipped s.config.excludePatterns (sourcePath ++ [name]) e.1)).length +
            ((entriesOf sourcePath rest).filter
              (fun e => isSkipped s.config.excludePatterns sourcePath e.1)).length := by
        simp only [entriesOf, List.filter_cons, isSkipped_child, hx, if_false, List.filter_append,
          filter_isSkipped_of_kept _ _ _ _ hx, List.length_append, Bool.false_eq_true]
      rw [hk]
      cases node with
      | file bytes =>
        simp only [backupEntries, hx, if_false, Bool.false_eq_true] at h ⊢
        have hsk := skippedFiles_backupFile (sourcePath ++ [name]) bytes backupDir basePath
          previousBackupDir s
        have hg := grows_backupFile (sourcePath ++ [name]) bytes backupDir basePath
          previousBackupDir s
        cases hb : backupFile (sourcePath ++ [name]) bytes backupDir basePath
            previousBackupDir s with
        | mk ok s1 =>
          rw [hb] at h hsk hg
          cases ok with
          | false => exact absurd h (by simp)
          | true =>
            simp only at h hsk hg ⊢
            split_ifs at h ⊢ with hc
            · rw [skipped_backupEntries sourcePath rest backupDir basePath previousBackupDir _ h,
                stats_poll, stats_notify,
                ((sameWorld_notify _).andThen (sameWorld_poll _)).2.1]
              simp only [entriesBelow, List.filter_nil, List.length_nil, Nat.zero_add]
              show s1.stats.skippedFiles + _ = _
              rw [hsk, hg.2.1]
      | other =>
        simp only [backupEntries, hx, if_false, Bool.false_eq_true] at h ⊢
        split_ifs at h ⊢ with hc
        · rw [skipped_backupEntries sourcePath rest backupDir basePath previousBackupDir _ h,
            stats_poll, (sameWorld_poll _).2.1]
          simp only [entriesBelow, List.filter_nil, List.length_nil, Nat.zero_add]
      | dir sub =>
        simp only [backupEntries, hx, if_false, Bool.false_eq_true] at h ⊢
        have hd := skipped_backupDirectory (sourcePath ++ [name]) (Node.dir sub) backupDir
          basePath previousBackupDir s
        have hg := grows_backupDirectory (sourcePath ++ [name]) (Node.dir sub) backupDir
          basePath previousBackupDir s
        cases hb : backupDirectory (sourcePath ++ [name]) (Node.dir sub) backupDir basePath
            previousBackupDir s with
        | mk ok s1 =>
          rw [hb] at h hd hg
          cases ok with
          | false => exact absurd h (by simp)
          | true =>
            simp only at h hd hg ⊢
            split_ifs at h ⊢ with hc
            · rw [skipped_backupEntries sourcePath rest backupDir basePath previousBackupDir _ h,
                stats_poll, (sameWorld_poll _).2.1, hd trivial, hg.2.1]
              simp only [skippedBelow]
              omega
end

/-! ## Exclusion: what the backup walk adds to the file system -/

theorem AddsOnly.none (A : Path → Prop) (fs : FileSystem) : AddsOnly A fs fs :=
  fun _ he => Or.inl he

theorem AddsOnly.more {A : Path → Prop} {a b c : FileSystem} (h1 : AddsOnly A a b)
    (h2 : AddsOnly A b c) : AddsOnly A a c := by
  intro e he
  rcases h2 e he with h | h
  · exact h1 e h
  · exact Or.inr h

theorem AddsOnly.weaken {A B : Path → Prop} {a b : FileSystem} (h : AddsOnly A a b)
    (hAB : ∀ q, A q → B q) : AddsOnly B a b := by
  intro e he
  rcases h e he with h | h
  · exact Or.inl h
  · exact Or.inr (hAB _ h)

theorem addsOnly_mkdirStep (fs fs1 : FileSystem) (p : Path)
    (h : FileSystem.mkdirStep (some fs) p = some fs1) : AddsOnly (fun q => q = p) fs fs1 := by
  unfold FileSystem.mkdirStep at h
  simp only at h
  cases hst : fs.status p with
  | none =>
    rw [hst] at h
    simp only [Option.some.injEq] at h
    subst h
    intro e he
    rcases List.mem_append.mp he with he | he
    · exact Or.inl he
    · rw [List.mem_singleton.mp he]
      exact Or.inr rfl
  | some ty =>
    rw [hst] at h
    cases ty with
    | directory =>
      simp only [Option.some.injEq] at h
      subst h
      exact AddsOnly.none _ _
    | regular ino => simp at h
    | other => simp at h

theorem addsOnly_foldl_mkdirStep (ps : List Path) (fs fs1 : FileSystem)
    (h : ps.foldl FileSystem.mkdirStep (some fs) = some fs1) :
    AddsOnly (fun q => q ∈ ps) fs fs1 := by
  induction ps generalizing fs with
  | nil =>
    simp only [List.foldl_nil, Option.some.injEq] at h
    subst h
    exact AddsOnly.none _ _
  | cons p rest ih =>
    rw [List.foldl_cons] at h
    cases hm : FileSystem.mkdirStep (some fs) p with
    | none =>
      rw [hm, foldl_mkdirStep_none] at h
      exact absurd h (by simp)
    | some fs2 =>
      rw [hm] at h
      exact ((addsOnly_mkdirStep fs fs2 p hm).weaken
          (fun q hq => by rw [hq]; exact List.mem_cons_self _ _)).more
        ((ih fs2 h).weaken (fun q hq => List.mem_cons_of_mem _ hq))

theorem addsOnly_create_directories (fs fs1 : FileSystem) (p : Path)
    (h : fs.create_directories p = some fs1) : AddsOnly (fun q => q <+: p) fs fs1 :=
  (addsOnly_foldl_mkdirStep p.inits fs fs1 h).weaken (fun q hq => (List.mem_inits q p).mp hq)

theorem addsOnly_copy_file (fs fs1 : FileSystem) (bytes : List Nat) (dest : Path)
    (h : fs.copy_file bytes dest = some fs1) : AddsOnly (fun q => q = dest) fs fs1 := by
  unfold FileSystem.copy_file at h
  cases hst : fs.status dest with
  | none =>
    rw [hst] at h
    simp only at h
    split_ifs at h
    simp only [Option.some.injEq] at h
    subst h
    intro e he
    rcases List.mem_append.mp he with he | he
    · exact Or.inl he
    · rw [List.mem_singleton.mp he]
      exact Or.inr rfl
  | some ty =>
    rw [hst] at h
    cases ty with
    | regular ino =>
      simp only [Option.some.injEq] at h
      subst h
      exact fun e he => Or.inl he
    | directory => simp at h
    | other => simp at h

theorem addsOnly_create_hard_link (fs fs1 : FileSystem) (target link : Path)
    (h : fs.create_hard_link target link = some fs1) :
    AddsOnly (fun q => q = link) fs fs1 := by
  unfold FileSystem.create_hard_link at h
  cases hst : fs.status target with
  | none => rw [hst] at h; simp at h
  | some ty =>
    rw [hst] at h
    cases ty with
    | regular ino =>
      simp only at h
      split_ifs at h
      simp only [Option.some.injEq] at h
      subst h
      intro e he
      rcases List.mem_append.mp he with he | he
      · exact Or.inl he
      · rw [List.mem_singleton.mp he]
        exact Or.inr rfl
    | directory => simp at h
    | other => simp at h

/-! ## Exclusion: the backup walk mirrors only what is kept -/

theorem commonPrefixLength_append (base r : Path) :
    commonPrefixLength (base ++ r) base = base.length := by
  induction base with
  | nil => cases r <;> rfl
  | cons b base ih => simp [commonPrefixLength, ih]

theorem relative_self (s : State) (p : Path) : relative s p p = (0, []) := by
  unfold relative lexically_relative
  have h := commonPrefixLength_append (s.weakly_canonical p) []
  rw [List.append_nil] at h
  rw [h]
  simp

theorem joinRelative_zero (dir r : Path) : joinRelative dir (0, r) = dir ++ r := by
  unfold joinRelative
  simp

theorem phaseInvariant_sameLinks : PhaseInvariant SameLinks where
  same := fun _ => rfl
  andThen := fun _ _ _ h1 h2 => h2.trans h1
  ofPoll := fun s => by
    unfold SameLinks poll cancelBackup
    cases s.cancelIn with
    | none => rfl
    | some n =>
      cases n with
      | zero =>
        simp only
        split_ifs <;> rfl
      | succ n => rfl
  ofNotify := fun s => by
    unfold SameLinks notify
    cases s.progressCallback <;> rfl
  ofStats := fun _ _ => rfl
  ofFs := fun _ _ => rfl

theorem mirrorsVisited_congr {s sX : State} (h1 : sX.config = s.config)
    (h2 : sX.weakly_canonical = s.weakly_canonical) (backupDir basePath rel q : Path)
    (h : MirrorsVisited sX backupDir basePath rel q) :
    MirrorsVisited s backupDir basePath rel q := by
  unfold MirrorsVisited relative at h ⊢
  rw [h1, h2] at h
  exact h

theorem mirrorsRoots_congr {s sX : State} (h1 : sX.config = s.config)
    (h2 : sX.weakly_canonical = s.weakly_canonical) (sourcePaths : List Path)
    (backupDir q : Path) (h : MirrorsRoots sX sourcePaths backupDir q) :
    MirrorsRoots s sourcePaths backupDir q := by
  unfold MirrorsRoots relative at h ⊢
  rw [h1, h2] at h
  exact h

theorem mirrorsVisited_child (s : State) (backupDir basePath rel : Path)
    (name : String)
    (hx : isExcluded s.config.excludePatterns (basePath ++ rel ++ [name]) = false)
    (q : Path) (h : MirrorsVisited s backupDir basePath (rel ++ [name]) q) :
    MirrorsVisited s backupDir basePath rel q := by
  rcases h with h | ⟨r, _, hq, he⟩
  · rw [← List.append_assoc] at h
    exact Or.inr ⟨[name], by simp, h, hx⟩
  · refine Or.inr ⟨[name] ++ r, by simp, ?_, ?_⟩
    · simp only [List.append_assoc] at hq ⊢
      exact hq
    · simp only [List.append_assoc] at he ⊢
      exact he

theorem addsOnly_copyAndCount (bytes : List Nat) (destFile : Path) (fileChanged : Bool)
    (s : State) :
    AddsOnly (fun q => q = destFile) s.fs (copyAndCount bytes destFile fileChanged s).2.fs := by
  unfold copyAndCount
  cases hc : s.fs.copy_file bytes destFile with
  | none => exact AddsOnly.none _ _
  | some fs =>
    have := addsOnly_copy_file _ _ _ _ hc
    cases fileChanged <;> exact this

theorem addsOnly_backupFile (sourceFile : Path) (bytes : List Nat)
    (backupDir basePath previousBackupDir : Path) (s : State) :
    AddsOnly (fun q => q <+: (joinRelative backupDir (relative s sourceFile basePath)).dropLast ∨
        q = joinRelative backupDir (relative s sourceFile basePath)) s.fs
      (backupFile sourceFile bytes backupDir basePath previousBackupDir s).2.fs := by
  unfold backupFile
  simp only
  cases hmk : s.fs.create_directories (joinRelative backupDir (relative s sourceFile basePath)).dropLast with
  | none => exact AddsOnly.none _ _
  | some fs1 =>
    simp only
    have h1 : AddsOnly (fun q => q <+: (joinRelative backupDir (relative s sourceFile basePath)).dropLast ∨
        q = joinRelative backupDir (relative s sourceFile basePath)) s.fs fs1 :=
      (addsOnly_create_directories _ _ _ hmk).weaken (fun _ h => Or.inl h)
    have hcopy := fun b => h1.more ((addsOnly_copyAndCount bytes
      (joinRelative backupDir (relative s sourceFile basePath)) b { s with fs := fs1 }).weaken
        (fun _ h => Or.inr h))
    by_cases hprev : previousBackupDir ≠ []
    · rw [if_pos hprev]
      by_cases hex : fs1.pathExists (joinRelative previousBackupDir (relative s sourceFile basePath)) = true
      · rw [if_pos hex]
        cases hsz : fs1.file_size (joinRelative previousBackupDir (relative s sourceFile basePath)) with
        | none => exact h1
        | some prevSize =>
          simp only
          by_cases hlen : prevSize = bytes.length
          · rw [if_pos hlen]
            by_cases heq : (!(!areFilesEqual fs1 bytes
                (joinRelative previousBackupDir (relative s sourceFile basePath)))) = true
            · rw [if_pos heq]
              cases hl : fs1.create_hard_link
                  (joinRelative previousBackupDir (relative s sourceFile basePath))
                  (joinRelative backupDir (relative s sourceFile basePath)) with
              | none => exact h1
              | some fs2 =>
                exact h1.more ((addsOnly_create_hard_link _ _ _ _ hl).weaken
                  (fun _ h => Or.inr h))
            · rw [if_neg heq]
              exact hcopy _
          · rw [if_neg hlen]
            exact hcopy _
      · rw [if_neg hex]
        exact hcopy _
    · rw [if_neg hprev]
      exact hcopy _

theorem fs_poll (s : State) : (poll s).fs = s.fs := (sameWorld_poll s).1

theorem fs_notify (s : State) : (notify s).fs = s.fs := (sameWorld_notify s).1

mutual
theorem addsOnly_backupDirectory (rel : Path) (node : Node)
    (backupDir basePath previousBackupDir : Path) (s : State) :
    AddsOnly (MirrorsVisited s backupDir basePath rel) s.fs
      (backupDirectory (basePath ++ rel) node backupDir basePath previousBackupDir s).2.fs := by
  have hmk : ∀ fs1,
      (if s.fs.pathExists (joinRelative backupDir (relative s (basePath ++ rel) basePath)) = true
        then some s.fs
        else s.fs.create_directories
          (joinRelative backupDir (relative s (basePath ++ rel) basePath))) = some fs1 →
      AddsOnly (MirrorsVisited s backupDir basePath rel) s.fs fs1 := by
    intro fs1 h
    split_ifs at h
    · rw [← Option.some.inj h]
      exact AddsOnly.none _ _
    · exact (addsOnly_create_directories _ _ _ h).weaken (fun _ hq => Or.inl hq)
  cases node with
  | file bytes =>
    simp only [backupDirectory]
    cases hm : (if s.fs.pathExists
        (joinRelative backupDir (relative s (basePath ++ rel) basePath)) = true then some s.fs
      else s.fs.create_directories
        (joinRelative backupDir (relative s (basePath ++ rel) basePath))) with
    | none => exact AddsOnly.none _ _
    | some fs1 => exact hmk fs1 hm
  | other =>
    simp only [backupDirectory]
    cases hm : (if s.fs.pathExists
        (joinRelative backupDir (relative s (basePath ++ rel) basePath)) = true then some s.fs
      else s.fs.create_directories
        (joinRelative backupDir (relative s (basePath ++ rel) basePath))) with
    | none => exact AddsOnly.none _ _
    | some fs1 => exact hmk fs1 hm
  | dir entries =>
    simp only [backupDirectory]
    cases hm : (if s.fs.pathExists
        (joinRelative backupDir (relative s (basePath ++ rel) basePath)) = true then some s.fs
      else s.fs.create_directories
        (joinRelative backupDir (relative s (basePath ++ rel) basePath))) with
    | none => exact AddsOnly.none _ _
    | some fs1 =>
      exact (hmk fs1 hm).more
        ((addsOnly_backupEntries rel entries backupDir basePath previousBackupDir
          { s with fs := fs1 }).weaken (mirrorsVisited_congr rfl rfl backupDir basePath rel))
theorem addsOnly_backupEntries (rel : Path) (entries : List (String × Node))
    (backupDir basePath previousBackupDir : Path) (s : State) :
    AddsOnly (MirrorsVisited s backupDir basePath rel) s.fs
      (backupEntries (basePath ++ rel) entries backupDir basePath previousBackupDir s).2.fs := by
  cases entries with
  | nil => simp only [backupEntries]; exact AddsOnly.none _ _
  | cons x rest =>
    obtain ⟨name, node⟩ := x
    have key : ∀ (sX : State) (fs1 : FileSystem), sX.config = s.config →
        sX.weakly_canonical = s.weakly_canonical → sX.fs = fs1 →
        AddsOnly (MirrorsVisited s backupDir basePath rel) fs1
          (backupEntries (basePath ++ rel) rest backupDir basePath previousBackupDir
            sX).2.fs := by
      intro sX fs1 h1 h2 h3
      have := (addsOnly_backupEntries rel rest backupDir basePath previousBackupDir sX).weaken
        (mirrorsVisited_congr h1 h2 backupDir basePath rel)
      rw [h3] at this
      exact this
    by_cases hx : isExcluded s.config.excludePatterns (basePath ++ rel ++ [name]) = true
    · have hrest : backupEntries (basePath ++ rel) ((name, node) :: rest) backupDir basePath
          previousBackupDir s =
          backupEntries (basePath ++ rel) rest backupDir basePath previousBackupDir
            { s with stats := { s.stats with skippedFiles := s.stats.skippedFiles + 1 } } := by
        cases node <;> simp only [backupEntries, hx, if_true]
      rw [hrest]
      exact key _ _ rfl rfl rfl
    · have hx2 : isExcluded s.config.excludePatterns (basePath ++ rel ++ [name]) = false := by
        simpa using hx
      cases node with
      | file bytes =>
        simp only [backupEntries, hx, if_false, Bool.false_eq_true]
        have h1 := addsOnly_backupFile (basePath ++ rel ++ [name]) bytes backupDir basePath
          previousBackupDir s
        have hg := grows_backupFile (basePath ++ rel ++ [name]) bytes backupDir basePath
          previousBackupDir s
        have hl := inv_backupFile phaseInvariant_sameLinks (basePath ++ rel ++ [name]) bytes
          backupDir basePath previousBackupDir s
        have h2 := h1.weaken (B := MirrorsVisited s backupDir basePath rel)
          (fun q hq => by
            rcases hq with hq | hq
            · exact Or.inr ⟨[name], by simp, hq.trans (List.dropLast_prefix _), hx2⟩
            · exact Or.inr ⟨[name], by simp, by rw [hq], hx2⟩)
        cases hb : backupFile (basePath ++ rel ++ [name]) bytes backupDir basePath
            previousBackupDir s with
        | mk ok s1 =>
          rw [hb] at h2 hg hl
          cases ok with
          | false => exact h2
          | true =>
            simp only at h2 hg hl ⊢
            split_ifs with hc
            · rw [fs_poll, fs_notify]
              exact h2
            · exact h2.more (key _ _
                ((((sameWorld_notify _).andThen (sameWorld_poll _)).2.1).trans hg.2.1)
                (((phaseInvariant_sameLinks.ofPoll _).trans
                  (phaseInvariant_sameLinks.ofNotify _)).trans hl)
                (by rw [fs_poll, fs_notify]))
      | other =>
        simp only [backupEntries, hx, if_false, Bool.false_eq_true]
        split_ifs with hc
        · rw [fs_poll]
          exact AddsOnly.none _ _
        · exact key _ _ (sameWorld_poll _).2.1 (phaseInvariant_sameLinks.ofPoll _) (fs_poll _)
      | dir sub =>
        simp only [backupEntries, hx, if_false, Bool.false_eq_true]
        have h1 := addsOnly_backupDirectory (rel ++ [name]) (Node.dir sub) backupDir basePath
          previousBackupDir s
        have hg := grows_backupDirectory (basePath ++ rel ++ [name]) (Node.dir sub) backupDir
          basePath previousBackupDir s
        have hl := inv_backupDirectory phaseInvariant_sameLinks (basePath ++ rel ++ [name])
          (Node.dir sub) backupDir basePath previousBackupDir s
        rw [← List.append_assoc] at h1
        have h2 := h1.weaken (mirrorsVisited_child s backupDir basePath rel name hx2)
        cases hb : backupDirectory (basePath ++ rel ++ [name]) (Node.dir sub) backupDir basePath
            previousBackupDir s with
        | mk ok s1 =>
          rw [hb] at h2 hg hl
          cases ok with
          | false => exact h2
          | true =>
            simp only at h2 hg hl ⊢
            split_ifs with hc
            · rw [fs_poll]
              exact h2
            · exact h2.more (key _ _ ((sameWorld_poll _).2.1.trans hg.2.1)
                ((phaseInvariant_sameLinks.ofPoll _).trans hl) (fs_poll _))
end

/-! ## Exclusion: the backup phase -/

theorem createBackupDir_eq (lib : TimeLib) (s s1 : State)
    (h : createBackupDir lib s = some s1) :
    s1 = { s with fs := s1.fs } ∧ AddsOnly (fun q => q <+: newBackupDir lib s) s.fs s1.fs := by
  unfold createBackupDir at h
  simp only at h
  cases h1 : (if s.fs.pathExists s.config.destinationPath = true then some s.fs
      else s.fs.create_directories s.config.destinationPath) with
  | none => rw [h1] at h; simp at h
  | some fs1 =>
    rw [h1] at h
    simp only at h
    have p1 : AddsOnly (fun q => q <+: newBackupDir lib s) s.fs fs1 := by
      split_ifs at h1
      · simp only [Option.some.injEq] at h1; subst h1; exact AddsOnly.none _ _
      · exact (addsOnly_create_directories _ _ _ h1).weaken (fun q hq =>
          hq.trans (by unfold newBackupDir; exact List.prefix_append _ _))
    cases h2 : (if fs1.pathExists (s.config.destinationPath ++ ["backups"]) = true then some fs1
        else fs1.create_directories (s.config.destinationPath ++ ["backups"])) with
    | none => rw [h2] at h; simp at h
    | some fs2 =>
      rw [h2] at h
      simp only at h
      have p2 : AddsOnly (fun q => q <+: newBackupDir lib s) fs1 fs2 := by
        split_ifs at h2
        · simp only [Option.some.injEq] at h2; subst h2; exact AddsOnly.none _ _
        · exact (addsOnly_create_directories _ _ _ h2).weaken (fun q hq =>
            hq.trans (by unfold newBackupDir; exact ⟨[lib.stamp s.now], by simp⟩))
      cases h3 : fs2.create_directories (newBackupDir lib s) with
      | none => rw [h3] at h; simp at h
      | some fs3 =>
        rw [h3] at h
        simp only [Option.some.injEq] at h
        subst h
        exact ⟨rfl, (p1.more p2).more (addsOnly_create_directories _ _ _ h3)⟩

theorem addsOnly_backupSources (sourcePaths : List Path) (backupDir previousBackupDir : Path)
    (s : State) :
    AddsOnly (MirrorsRoots s sourcePaths backupDir) s.fs
      (backupSources sourcePaths backupDir previousBackupDir s).2.fs := by
  induction sourcePaths generalizing s with
  | nil => exact AddsOnly.none _ _
  | cons root rest ih =>
    unfold backupSources
    have h1 := addsOnly_backupDirectory [] ((s.source.lookup root).getD Node.other) backupDir
      root previousBackupDir s
    have hg := grows_backupDirectory root ((s.source.lookup root).getD Node.other) backupDir
      root previousBackupDir s
    have hl := inv_backupDirectory phaseInvariant_sameLinks root
      ((s.source.lookup root).getD Node.other) backupDir root previousBackupDir s
    rw [List.append_nil] at h1
    have h2 := h1.weaken (B := MirrorsRoots s (root :: rest) backupDir)
      (fun q hq => by
        rcases hq with hq | ⟨r, hr, hq, he⟩
        · rw [List.append_nil, relative_self, joinRelative_zero, List.append_nil] at hq
          exact Or.inl hq
        · rw [List.append_nil] at hq he
          exact Or.inr (Or.inr ⟨root, List.mem_cons_self _ _, r, hr, hq, he⟩))
    cases hb : backupDirectory root ((s.source.lookup root).getD Node.other) backupDir root
        previousBackupDir s with
    | mk ok s1 =>
      rw [hb] at h2 hg hl
      cases ok with
      | false => exact h2
      | true =>
        simp only at h2 hg hl ⊢
        split_ifs
        · rw [fs_poll]
          exact h2
        · have h3 := (ih (poll s1)).weaken (mirrorsRoots_congr
            ((sameWorld_poll s1).2.1.trans hg.2.1)
            ((phaseInvariant_sameLinks.ofPoll s1).trans hl) rest backupDir)
          rw [fs_poll] at h3
          exact h2.more (h3.weaken (fun q hq => by
            rcases hq with hq | hq | ⟨r0, hm, hq⟩
            · exact Or.inl hq
            · exact Or.inr (Or.inl hq)
            · exact Or.inr (Or.inr ⟨r0, List.mem_cons_of_mem _ hm, hq⟩)))

theorem skipped_backupSources (sourcePaths : List Path) (backupDir previousBackupDir : Path)
    (s : State) (h : (backupSources sourcePaths backupDir previousBackupDir s).1 = true) :
    (backupSources sourcePaths backupDir previousBackupDir s).2.stats.skippedFiles =
      s.stats.skippedFiles + (sourcePaths.flatMap (fun root =>
        skippedBelow s.config.excludePatterns root
          ((s.source.lookup root).getD Node.other))).length := by
  induction sourcePaths generalizing s with
  | nil => rfl
  | cons root rest ih =>
    unfold backupSources at h ⊢
    have hd := skipped_backupDirectory root ((s.source.lookup root).getD Node.other) backupDir
      root previousBackupDir s
    have hg := grows_backupDirectory root ((s.source.lookup root).getD Node.other) backupDir
      root previousBackupDir s
    cases hb : backupDirectory root ((s.source.lookup root).getD Node.other) backupDir root
        previousBackupDir s with
    | mk ok s1 =>
      rw [hb] at h hd hg
      cases ok with
      | false => exact absurd h (by simp)
      | true =>
        simp only at h hd hg ⊢
        split_ifs at h ⊢
        rw [ih _ h, stats_poll, (sameWorld_poll s1).2.1, (sameWorld_poll s1).2.2.2.1, hg.2.1,
          hg.2.2.2.1, hd trivial, List.flatMap_cons, List.length_append]
        omega

theorem stats_saveBackupMetadata (backupDir : Path) (s : State) :
    (saveBackupMetadata backupDir s).stats = s.stats := by
  unfold saveBackupMetadata
  cases s.fs.copy_file ((backupInfo s).data.map Char.toNat)
      (backupDir ++ ["backup-info.json"]) <;> rfl

theorem addsOnly_saveBackupMetadata (backupDir : Path) (s : State) :
    AddsOnly (fun q => q = backupDir ++ ["backup-info.json"]) s.fs
      (saveBackupMetadata backupDir s).fs := by
  unfold saveBackupMetadata
  cases hc : s.fs.copy_file ((backupInfo s).data.map Char.toNat)
      (backupDir ++ ["backup-info.json"]) with
  | none => exact AddsOnly.none _ _
  | some fs => exact addsOnly_copy_file _ _ _ _ hc

/-- What the backup phase adds to the file system. -/
theorem addsOnly_backupFiles (lib : TimeLib) (s : State) :
    AddsOnly (MirrorsRoots s s.config.sourcePaths (newBackupDir lib s))
      s.fs (backupFiles lib s).2.fs := by
  unfold backupFiles
  cases hc : createBackupDir lib s with
  | none => exact AddsOnly.none _ _
  | some s1 =>
    simp only
    obtain ⟨e1, a1⟩ := createBackupDir_eq lib s s1 hc
    have hcfg : s1.config = s.config := by rw [e1]
    have hlinks : s1.weakly_canonical = s.weakly_canonical := by rw [e1]
    have hnow : newBackupDir lib s1 = newBackupDir lib s := by rw [e1]; rfl
    have a2 := (addsOnly_backupSources s1.config.sourcePaths (newBackupDir lib s1)
      (findPreviousBackupDir lib s1) s1).weaken
        (mirrorsRoots_congr hcfg hlinks s1.config.sourcePaths (newBackupDir lib s1))
    generalize backupSources s1.config.sourcePaths (newBackupDir lib s1)
      (findPreviousBackupDir lib s1) s1 = r at a2 ⊢
    obtain ⟨ok, s2⟩ := r
    rw [hcfg, hnow] at a2
    rw [hnow]
    have a12 := (a1.weaken (B := MirrorsRoots s s.config.sourcePaths
      (newBackupDir lib s)) (fun _ hq => Or.inl hq)).more a2
    cases ok with
    | false => exact a12
    | true =>
      exact a12.more ((addsOnly_saveBackupMetadata (newBackupDir lib s) s2).weaken
        (fun _ hq => Or.inr (Or.inl hq)))

/-- The count of skipped entries of a backup phase that returns true. -/
theorem skipped_backupFiles (lib : TimeLib) (s : State) (h : (backupFiles lib s).1 = true) :
    (backupFiles lib s).2.stats.skippedFiles =
      s.stats.skippedFiles + (skippedEntries s).length := by
  unfold backupFiles at h ⊢
  cases hc : createBackupDir lib s with
  | none => rw [hc] at h; exact absurd h (by simp)
  | some s1 =>
    rw [hc] at h
    simp only at h ⊢
    obtain ⟨e1, _⟩ := createBackupDir_eq lib s s1 hc
    have hcfg : s1.config = s.config := by rw [e1]
    have hsrc : s1.source = s.source := by rw [e1]
    have hst : s1.stats = s.stats := by rw [e1]
    have k2 := skipped_backupSources s1.config.sourcePaths (newBackupDir lib s1)
      (findPreviousBackupDir lib s1) s1
    generalize backupSources s1.config.sourcePaths (newBackupDir lib s1)
      (findPreviousBackupDir lib s1) s1 = r at k2 h ⊢
    obtain ⟨ok, s2⟩ := r
    rw [hcfg, hsrc, hst] at k2
    cases ok with
    | false => exact absurd h (by simp)
    | true =>
      simp only
      rw [stats_saveBackupMetadata]
      exact k2 rfl

/-- A backup phase over a source in which `data` is a symbolic link to the directory
`cache`, with the exclude pattern `cache`: the path of the entry `data` does not contain
the pattern, `relative` resolves the link, and the directory and its file are mirrored as
`cache` and `cache/x`. -/
theorem linked_directory_is_mirrored_at_its_target :
    isExcluded linkedPhaseEntry.config.excludePatterns ["home", "data"] = false ∧
    relative linkedPhaseEntry ["home", "data", "x"] ["home"] = (0, ["cache", "x"]) ∧
    (backupFiles utc linkedPhaseEntry).1 = true ∧
    (backupFiles utc linkedPhaseEntry).2.fs.entries.map Prod.fst =
      [["mnt"], ["mnt", "backups"], ["mnt", "backups", "20240101-000000"],
        ["mnt", "backups", "20240101-000000", "cache"],
        ["mnt", "backups", "20240101-000000", "cache", "x"],
        ["mnt", "backups", "20240101-000000", "backup-info.json"]] := by
  decide

/-! ## The chunked comparison of areFilesEqual -/

/-- The loop of `areFilesEqual` decides equality of what the two streams hold, also when the
streams differ in length: a short read on one side only shows in the read counts. -/
theorem compareChunks_any_lengths (fuel : Nat) (r1 r2 : List Nat)
    (hfuel : r1.length / 4096 < fuel) : compareChunks fuel r1 r2 = decide (r1 = r2) := by
  induction fuel generalizing r1 r2 with
  | zero => omega
  | succ fuel ih =>
    unfold compareChunks
    simp only
    by_cases htl : (r1.take 4096).length = (r2.take 4096).length
    · rw [if_neg (by simpa using htl)]
      by_cases hb : r1.take 4096 = r2.take 4096
      · rw [if_neg (by simpa using hb)]
        by_cases hshort : (r1.take 4096).length < 4096 ∨ (r2.take 4096).length < 4096
        · rw [if_pos hshort]
          have h1 : r1.length < 4096 ∧ r2.length < 4096 := by
            simp only [List.length_take] at hshort htl
            omega
          have e1 : r1.take 4096 = r1 := List.take_of_length_le (by omega)
          have e2 : r2.take 4096 = r2 := List.take_of_length_le (by omega)
          rw [e1, e2] at hb
          simp [hb]
        · rw [if_neg hshort]
          have h1 : 4096 ≤ r1.length := by
            simp only [List.length_take] at hshort
            omega
          rw [ih (r1.drop 4096) (r2.drop 4096) (by
            simp only [List.length_drop]
            have : r1.length / 4096 = (r1.length - 4096) / 4096 + 1 := by omega
            omega)]
          congr 1
          apply propext
          constructor
          · intro hd
            rw [← List.take_append_drop 4096 r1, ← List.take_append_drop 4096 r2, hb, hd]
          · intro h
            rw [h]
      · rw [if_pos (by simpa using hb)]
        symm
        simp only [decide_eq_false_iff_not]
        intro h
        exact hb (by rw [h])
    · rw [if_pos (by simpa using htl)]
      symm
      simp only [decide_eq_false_iff_not]
      intro h
      exact htl (by rw [h])

/-- C24. For a source file with bytes `bytes1` and a readable file `file2` with
bytes `bytes2`, `areFilesEqual` returns true exactly when the two have the same
length and the same byte at every position, whatever the lengths are; the
loop over the 4096-byte buffers alone decides the same, also for streams of
different lengths; and a round in which the read counts differ or the buffers
differ returns false whatever follows in the files. -/
theorem areFilesEqual_is_byte_equality (fs : FileSystem) (bytes1 bytes2 : List Nat)
    (file2 : Path) (h : fs.read file2 = some bytes2) :
    (areFilesEqual fs bytes1 file2 = true ↔
      bytes1.length = bytes2.length ∧ ∀ i, i < bytes1.length → bytes1[i]? = bytes2[i]?) ∧
    (areFilesEqual fs bytes1 file2 = true ↔ bytes1 = bytes2) ∧
    (∀ fuel, bytes1.length / 4096 < fuel →
      compareChunks fuel bytes1 bytes2 = decide (bytes1 = bytes2)) ∧
    (∀ fuel, (bytes1.take 4096).length ≠ (bytes2.take 4096).length ∨
        bytes1.take 4096 ≠ bytes2.take 4096 →
      compareChunks (fuel + 1) bytes1 bytes2 = false) := by
  have key : areFilesEqual fs bytes1 file2 = true ↔ bytes1 = bytes2 := by
    rw [areFilesEqual_iff, h]
    simp only [Option.some.injEq]
    exact eq_comm
  refine ⟨?_, key, fun fuel hf => compareChunks_any_lengths fuel bytes1 bytes2 hf, ?_⟩
  · rw [key]
    constructor
    · intro e
      rw [e]
      exact ⟨rfl, fun _ _ => rfl⟩
    · rintro ⟨hl, hi⟩
      apply List.ext_getElem? 
      intro i
      by_cases hlt : i < bytes1.length
      · exact hi i hlt
      · rw [List.getElem?_eq_none (by omega), List.getElem?_eq_none (by omega)]
  · intro fuel hd
    unfold compareChunks
    simp only
    rcases hd with hd | hd
    · rw [if_pos hd]
    · by_cases htl : (bytes1.take 4096).length ≠ (bytes2.take 4096).length
      · rw [if_pos htl]
      · rw [if_neg htl, if_pos hd]

theorem areFilesEqual_is_byte_equality_witness :
    fsBaseline.read ["mnt", "backups", "20240101-000000", "A"] = some [1, 2, 3] ∧
    (areFilesEqual fsBaseline [1, 2, 3] ["mnt", "backups", "20240101-000000", "A"] = true ↔
      [1, 2, 3] = [1, 2, 3]) ∧
    areFilesEqual fsBaseline [1, 2, 3] ["mnt", "backups", "20240101-000000", "A"] = true ∧
    areFilesEqual fsBaseline [1, 2, 4] ["mnt", "backups", "20240101-000000", "A"] = false ∧
    areFilesEqual fsBaseline [1, 2] ["mnt", "backups", "20240101-000000", "A"] = false :=
  ⟨by decide,
    (areFilesEqual_is_byte_equality fsBaseline [1, 2, 3] [1, 2, 3]
      ["mnt", "backups", "20240101-000000", "A"] (by decide)).2.1,
    by decide, by decide, by decide⟩

/-! ## A missing source path, and the flag that is never cleared -/

theorem Quiet.here (s : State) : Quiet s s := ⟨rfl, rfl, rfl, rfl, rfl, rfl, rfl⟩

theorem Quiet.after {a b c : State} (h1 : Quiet a b) (h2 : Quiet b c) : Quiet a c :=
  ⟨h2.1.trans h1.1, h2.2.1.trans h1.2.1, h2.2.2.1.trans h1.2.2.1,
    h2.2.2.2.1.trans h1.2.2.2.1, h2.2.2.2.2.1.trans h1.2.2.2.2.1,
    h2.2.2.2.2.2.1.trans h1.2.2.2.2.2.1, h2.2.2.2.2.2.2.trans h1.2.2.2.2.2.2⟩

theorem calls_cancelBackup (s : State) : (cancelBackup s).2.calls = s.calls := by
  unfold cancelBackup
  split_ifs <;> rfl

theorem calls_poll (s : State) : (poll s).calls = s.calls := by
  unfold poll
  cases h : s.cancelIn with
  | none => rfl
  | some n =>
    cases n with
    | zero => exact calls_cancelBackup _
    | succ n => rfl

theorem quiet_poll (s : State) : Quiet s (poll s) := by
  refine ⟨calls_poll s, ?_⟩
  rw [stats_poll]
  exact ⟨rfl, rfl, rfl, rfl, rfl, rfl⟩

mutual
theorem quiet_scanDirectory (path : Path) (node : Node) (s : State) :
    Quiet s (scanDirectory path node s) := by
  cases node with
  | file bytes => simp only [scanDirectory]; exact Quiet.here s
  | other => simp only [scanDirectory]; exact Quiet.here s
  | dir entries =>
    simp only [scanDirectory]
    exact quiet_scanEntries path entries s
theorem quiet_scanEntries (path : Path) (entries : List (String × Node)) (s : State) :
    Quiet s (scanEntries path entries s) := by
  cases entries with
  | nil => simp only [scanEntries]; exact Quiet.here s
  | cons e rest =>
    obtain ⟨name, node⟩ := e
    cases node with
    | file bytes =>
      simp only [scanEntries]
      have h0 : Quiet s { s with stats := { s.stats with
          totalFiles := s.stats.totalFiles + 1,
          totalSize := s.stats.totalSize + bytes.length } } :=
        ⟨rfl, rfl, rfl, rfl, rfl, rfl, rfl⟩
      have h1 := h0.after (quiet_poll _)
      split_ifs
      · exact quiet_scanEntries path rest s
      · exact h1
      · exact h1.after (quiet_scanEntries path rest _)
    | other =>
      simp only [scanEntries]
      split_ifs
      · exact quiet_scanEntries path rest s
      · exact quiet_poll s
      · exact (quiet_poll s).after (quiet_scanEntries path rest _)
    | dir sub =>
      simp only [scanEntries]
      have h0 : Quiet s { s with stats := { s.stats with
          totalDirectories := s.stats.totalDirectories + 1 } } :=
        ⟨rfl, rfl, rfl, rfl, rfl, rfl, rfl⟩
      have h1 := (h0.after (quiet_scanDirectory (path ++ [name]) (Node.dir sub) _)).after
        (quiet_poll _)
      split_ifs
      · exact quiet_scanEntries path rest s
      · exact h1
      · exact h1.after (quiet_scanEntries path rest _)
end

theorem quiet_scanSources (sourcePaths : List Path) (s : State) :
    Quiet s (scanSources sourcePaths s).2 := by
  induction sourcePaths generalizing s with
  | nil => exact Quiet.here s
  | cons p rest ih =>
    unfold scanSources
    cases hl : s.source.lookup p with
    | none => exact Quiet.here s
    | some node =>
      simp only
      have h1 := (quiet_scanDirectory p node s).after (quiet_poll _)
      split_ifs
      · exact h1
      · exact h1.after (ih _)

theorem quiet_verifyTicks (n : Nat) (s : State) : Quiet s (verifyTicks n s).2 := by
  induction n generalizing s with
  | zero => exact Quiet.here s
  | succ n ih =>
    unfold verifyTicks
    simp only
    split_ifs
    · exact quiet_poll s
    · exact (quiet_poll s).after (ih _)

/-- What `scanFiles` returns, from what its loop returns. -/
theorem scanFiles_eq (s : State) :
    scanFiles s =
      if (scanSources s.config.sourcePaths s).1 = true then
        (true, notify (scanSources s.config.sourcePaths s).2)
      else (false, (scanSources s.config.sourcePaths s).2) := by
  unfold scanFiles
  cases hs : scanSources s.config.sourcePaths s with
  | mk ok s1 => cases ok <;> simp

theorem scanSources_of_missing (sourcePaths : List Path) (s : State)
    (h : ∃ root ∈ sourcePaths, s.source.lookup root = none) :
    (scanSources sourcePaths s).1 = false := by
  induction sourcePaths generalizing s with
  | nil =>
    obtain ⟨root, hm, _⟩ := h
    exact absurd hm (List.not_mem_nil _)
  | cons p rest ih =>
    unfold scanSources
    cases hl : s.source.lookup p with
    | none => rfl
    | some node =>
      simp only
      split_ifs
      · rfl
      · apply ih
        obtain ⟨root, hm, hr⟩ := h
        rcases List.mem_cons.mp hm with hm | hm
        · rw [hm, hl] at hr
          exact absurd hr (by simp)
        · refine ⟨root, hm, ?_⟩
          rw [((sameWorld_scanDirectory p node s).andThen (sameWorld_poll _)).2.2.2.1]
          exact hr

theorem phaseInvariant_flagStays : PhaseInvariant FlagStays where
  same := fun _ => id
  andThen := fun _ _ _ h1 h2 h => h2 (h1 h)
  ofPoll := fun s => (withinPhase_poll s).2.2.2.2.2.2.1
  ofNotify := fun s => (withinPhase_notify s).2.2.2.2.2.2.1
  ofStats := fun _ _ => id
  ofFs := fun _ _ => id

theorem flag_notify (s : State) : (notify s).cancelRequested = s.cancelRequested := by
  unfold notify
  cases s.progressCallback <;> rfl

theorem flag_completeBackup (success cancelled : Bool) (s : State) :
    (completeBackup success cancelled s).cancelRequested = s.cancelRequested := by
  unfold completeBackup
  rw [flag_notify]
  rfl

/-- C25. When some source path of the configuration does not exist, the worker
assigns SCANNING and then FAILED and nothing else, the file system is left as
it was, so that no directory is created at the destination, and the callback,
when one was supplied, is invoked once, with FAILED: the invocation at the end
of the scan does not take place. -/
theorem missing_source_fails_before_backup (lib : TimeLib) (s : State)
    (h : ∃ root ∈ s.config.sourcePaths, s.source.lookup root = none) :
    workerStatuses lib s = [BackupStatus.SCANNING, BackupStatus.FAILED] ∧
    (backupThreadFunction lib s).status = BackupStatus.FAILED ∧
    (backupThreadFunction lib s).fs = s.fs ∧
    (s.progressCallback = none → (backupThreadFunction lib s).calls = s.calls) ∧
    (s.progressCallback ≠ none → (backupThreadFunction lib s).calls =
      s.calls ++ [(BackupStatus.FAILED, (backupThreadFunction lib s).stats)]) := by
  have hsrc : (scanSources (setStatus BackupStatus.SCANNING s).config.sourcePaths
      (setStatus BackupStatus.SCANNING s)).1 = false :=
    scanSources_of_missing _ _ h
  have hsf : scanFiles (setStatus BackupStatus.SCANNING s) =
      (false, (scanSources (setStatus BackupStatus.SCANNING s).config.sourcePaths
        (setStatus BackupStatus.SCANNING s)).2) := by
    rw [scanFiles_eq, if_neg (by rw [hsrc]; simp)]
  have hok : scanOk s = false := by
    unfold scanOk
    rw [hsf]
  have hq := quiet_scanSources (setStatus BackupStatus.SCANNING s).config.sourcePaths
    (setStatus BackupStatus.SCANNING s)
  have hw := (sameWorld_setStatus BackupStatus.SCANNING s).andThen
    (sameWorld_scanSources (setStatus BackupStatus.SCANNING s).config.sourcePaths
      (setStatus BackupStatus.SCANNING s))
  have hfin : backupThreadFunction lib s = completeBackup false false
      (scanSources (setStatus BackupStatus.SCANNING s).config.sourcePaths
        (setStatus BackupStatus.SCANNING s)).2 := by
    rw [backupThreadFunction_eq, if_pos hok, hsf]
  refine ⟨?_, ?_, ?_, ?_, ?_⟩
  · rw [(workerStatuses_eq lib s).2, hok]
    rfl
  · rw [hfin, status_completeBackup]
    rfl
  · rw [hfin]
    exact (hw.andThen (sameWorld_completeBackup _ _ _)).1
  · intro hn
    rw [hfin, (calls_completeBackup _ _ _).1 (hw.2.2.2.2.1.trans hn)]
    exact hq.1
  · intro hn
    have hst : (backupThreadFunction lib s).status = BackupStatus.FAILED := by
      rw [hfin, status_completeBackup]
      rfl
    rw [← hst]
    rw [hfin, (calls_completeBackup _ _ _).2 (by rw [hw.2.2.2.2.1]; exact hn), hq.1]
    rfl

theorem missing_source_fails_before_backup_witness :
    (∃ root ∈ missingSourceStart.config.sourcePaths,
      missingSourceStart.source.lookup root = none) ∧
    workerStatuses utc missingSourceStart = [BackupStatus.SCANNING, BackupStatus.FAILED] ∧
    (backupThreadFunction utc missingSourceStart).fs.entries = [] ∧
    (backupThreadFunction utc missingSourceStart).calls.map Prod.fst = [BackupStatus.FAILED] ∧
    (backupThreadFunction utc missingSourceStart).stats.totalFiles = 3 :=
  ⟨⟨["nowhere"], by decide, rfl⟩,
    (missing_source_fails_before_backup utc missingSourceStart
      ⟨["nowhere"], by decide, rfl⟩).1,
    by decide, by decide, by decide⟩

/-- C26. A cancellation flag that is set stays set through `cancelBackup`,
through a `startBackup` that returns, through every read of the flag and
through a whole run of the worker; and a worker that starts with the flag set
ends FAILED or CANCELLED, never COMPLETED. -/
theorem cancellation_flag_is_never_cleared (lib : TimeLib) (config : BackupConfig)
    (progressCallback : Option Nat) (s : State) (h : s.cancelRequested = true) :
    (cancelBackup s).2.cancelRequested = true ∧
    (∀ r, startBackup config progressCallback s = some r → r.2.cancelRequested = true) ∧
    (poll s).cancelRequested = true ∧
    (backupThreadFunction lib s).cancelRequested = true ∧
    ((backupThreadFunction lib s).status = BackupStatus.FAILED ∨
      (backupThreadFunction lib s).status = BackupStatus.CANCELLED) := by
  have I := phaseInvariant_flagStays
  have f1 : (scanFiles (setStatus BackupStatus.SCANNING s)).2.cancelRequested = true :=
    inv_scanFiles I _ h
  have f2 : (afterScan s).cancelRequested = true := I.ofPoll _ f1
  refine ⟨(withinPhase_cancelBackup s).2.2.2.2.2.2.1 h, ?_, I.ofPoll s h, ?_, ?_⟩
  · intro r hr
    unfold startBackup at hr
    simp only at hr
    split_ifs at hr
    · rw [← Option.some.inj hr]
      exact h
    · rw [← Option.some.inj hr]
      exact h
  · rw [backupThreadFunction_eq]
    split_ifs
    · rw [flag_completeBackup]
      exact f1
    · rw [flag_completeBackup]
      exact f2
  · rw [backupThreadFunction_eq]
    split_ifs
    · left
      rw [status_completeBackup]
      rfl
    · right
      rw [status_completeBackup]
      rfl

theorem cancellation_flag_is_never_cleared_witness :
    flaggedStart.cancelRequested = true ∧
    (backupThreadFunction utc flaggedStart).cancelRequested = true ∧
    ((backupThreadFunction utc flaggedStart).status = BackupStatus.FAILED ∨
      (backupThreadFunction utc flaggedStart).status = BackupStatus.CANCELLED) ∧
    (backupThreadFunction utc flaggedStart).status = BackupStatus.FAILED :=
  ⟨by decide,
    (cancellation_flag_is_never_cleared utc scenarioConfig none flaggedStart (by decide)).2.2.2.1,
    (cancellation_flag_is_never_cleared utc scenarioConfig none flaggedStart (by decide)).2.2.2.2,
    by decide⟩

/-! ## The profiles of the configuration -/

theorem updateProfiles_of_absent (profiles : List BackupProfile) (profileId : String)
    (profile : BackupProfile) (h : ∀ p ∈ profiles, p.name ≠ profileId) :
    updateProfiles profiles profileId profile = profiles ++ [profile] := by
  induction profiles with
  | nil => rfl
  | cons p rest ih =>
    unfold updateProfiles
    rw [if_neg (h p (List.mem_cons_self _ _)), ih (fun q hq => h q (List.mem_cons_of_mem _ hq))]
    rfl

theorem saveProfile_profiles (json : BackupProfile → List Nat) (profile : BackupProfile)
    (c : ConfigState) (h : (saveProfile json profile c).1 = true) :
    (saveProfile json profile c).2.profiles =
      updateProfiles c.profiles (sanitizedId profile.name) profile := by
  unfold saveProfile at h ⊢
  simp only at h ⊢
  cases h1 : c.fs.create_directories c.profilesDir with
  | none => rw [h1] at h; exact absurd h (by simp)
  | some fs =>
    rw [h1] at h
    simp only at h ⊢
    cases h2 : fs.copy_file (json profile)
        (c.profilesDir ++ [sanitizedId profile.name ++ ".json"]) with
    | none => rw [h2] at h; exact absurd h (by simp)
    | some fs2 => rfl

/-- Where the sanitized identifier is the name itself and at most one profile of the list has
that name, `updateProfiles` adds or updates. -/
theorem updateProfiles_plain (profiles : List BackupProfile) (profile : BackupProfile)
    (h : (profiles.filter (fun p => decide (p.name = profile.name))).length ≤ 1) :
    (updateProfiles profiles profile.name profile).filter
        (fun p => decide (p.name = profile.name)) = [profile] ∧
    (updateProfiles profiles profile.name profile).find?
        (fun p => decide (p.name = profile.name)) = some profile := by
  induction profiles with
  | nil => simp [updateProfiles]
  | cons p rest ih =>
    unfold updateProfiles
    by_cases hp : p.name = profile.name
    · rw [if_pos hp]
      simp only [List.filter_cons, hp, decide_True, if_true, List.length_cons] at h
      have h0 : rest.filter (fun p => decide (p.name = profile.name)) = [] :=
        List.length_eq_zero.mp (by omega)
      simp [h0]
    · rw [if_neg hp]
      simp only [List.filter_cons, hp, decide_False, Bool.false_eq_true, if_false] at h
      have := ih h
      simp [hp, this.1, this.2]

/-- C23 (the code at the failing input). Into a configuration without profiles
the profile `My Backup` is saved, and then a profile of the same name with
compression switched on. Both calls return true. The identifier under which
the second call looks for an entry to replace is `My_Backup`, which is the
name of no entry, so the profile is pushed at the back: the list holds two
profiles named `My Backup`, and `getBackupProfile` returns the first, which
is not the profile just saved. -/
theorem saving_a_profile_again_adds_a_second_entry (json : BackupProfile → List Nat) :
    (saveProfile json myBackup emptyConfig).1 = true ∧
    (saveProfile json myBackupCompressed (saveProfile json myBackup emptyConfig).2).1 = true ∧
    sanitizedId myBackupCompressed.name = "My_Backup" ∧
    getAllBackupProfiles (saveProfile json myBackup emptyConfig).2 = [myBackup] ∧
    getAllBackupProfiles
      (saveProfile json myBackupCompressed (saveProfile json myBackup emptyConfig).2).2 =
        [myBackup, myBackupCompressed] ∧
    ((getAllBackupProfiles
      (saveProfile json myBackupCompressed (saveProfile json myBackup emptyConfig).2).2).filter
        (fun p => decide (p.name = myBackupCompressed.name))).length = 2 ∧
    getBackupProfile myBackupCompressed.name
      (saveProfile json myBackupCompressed (saveProfile json myBackup emptyConfig).2).2 =
        some myBackup ∧
    myBackup ≠ myBackupCompressed :=
  ⟨rfl, rfl, by decide, rfl, rfl, rfl, rfl, by decide⟩

/-! ## The empty exclude pattern -/

theorem isSubstring_nil (s : List Char) : isSubstring [] s = true := by
  rw [isSubstring_iff]
  exact List.nil_infix

theorem isExcluded_of_empty (excludePatterns : List String) (h : "" ∈ excludePatterns)
    (p : Path) : isExcluded excludePatterns p = true := by
  unfold isExcluded
  rw [List.any_eq_true]
  exact ⟨"", h, isSubstring_nil _⟩

theorem scanEntries_all_excluded (path : Path) (entries : List (String × Node)) (s : State)
    (h : ∀ p, isExcluded s.config.excludePatterns p = true) :
    scanEntries path entries s = s := by
  induction entries with
  | nil => simp only [scanEntries]
  | cons x rest ih =>
    obtain ⟨name, node⟩ := x
    cases node <;> simp only [scanEntries, h, if_true] <;> exact ih

theorem scanDirectory_all_excluded (path : Path) (node : Node) (s : State)
    (h : ∀ p, isExcluded s.config.excludePatterns p = true) :
    scanDirectory path node s = s := by
  cases node with
  | file bytes => simp only [scanDirectory]
  | other => simp only [scanDirectory]
  | dir entries =>
    simp only [scanDirectory]
    exact scanEntries_all_excluded path entries s h

theorem stats_scanSources_all_excluded (sourcePaths : List Path) (s : State)
    (h : ∀ p, isExcluded s.config.excludePatterns p = true) :
    (scanSources sourcePaths s).2.stats = s.stats := by
  induction sourcePaths generalizing s with
  | nil => rfl
  | cons root rest ih =>
    unfold scanSources
    cases hl : s.source.lookup root with
    | none => rfl
    | some node =>
      simp only
      rw [scanDirectory_all_excluded root node s h]
      split_ifs
      · exact stats_poll s
      · rw [ih (poll s) (by rw [(sameWorld_poll s).2.1]; exact h)]
        exact stats_poll s

theorem length_skipped_all_excluded (excludePatterns : List String) (path : Path)
    (entries : List (String × Node)) (h : ∀ p, isExcluded excludePatterns p = true) :
    ((entriesOf path entries).filter (fun e => isSkipped excludePatterns path e.1)).length =
      entries.length := by
  induction entries with
  | nil => simp [entriesOf]
  | cons x rest ih =>
    obtain ⟨name, node⟩ := x
    simp only [entriesOf, List.filter_cons, isSkipped_child, h, if_true, List.filter_append,
      filter_isSkipped_of_excluded _ _ _ _ (h _), List.nil_append, List.length_cons, ih]

theorem length_skippedEntries_all_excluded (s : State)
    (h : ∀ p, isExcluded s.config.excludePatterns p = true) :
    (skippedEntries s).length = topLevelCount s := by
  unfold skippedEntries topLevelCount
  induction s.config.sourcePaths with
  | nil => rfl
  | cons root rest ih =>
    rw [List.flatMap_cons, List.length_append, ih, List.map_cons, List.sum_cons]
    congr 1
    cases (s.source.lookup root).getD Node.other with
    | file bytes => simp [skippedBelow, entriesBelow]
    | other => simp [skippedBelow, entriesBelow]
    | dir entries =>
      simp only [skippedBelow, entriesBelow]
      exact length_skipped_all_excluded _ _ _ h

/-- C30. When the exclude patterns hold the empty string, every path is
excluded; the scan leaves the statistics as they were, so that the totals stay
at the zero `startBackup` has set; the backup phase adds to the file system
nothing but the directory of the run, the directories above it and the
sidecar; and a backup phase that returns true has incremented `skippedFiles`
by the number of entries directly in the source roots. -/
theorem empty_pattern_excludes_everything (lib : TimeLib) (s : State)
    (h : "" ∈ s.config.excludePatterns) :
    (∀ p, isExcluded s.config.excludePatterns p = true) ∧
    (scanFiles s).2.stats = s.stats ∧
    AddsOnly (fun q => q <+: newBackupDir lib s ∨ q = newBackupDir lib s ++ ["backup-info.json"])
      s.fs (backupFiles lib s).2.fs ∧
    ((backupFiles lib s).1 = true →
      (backupFiles lib s).2.stats.skippedFiles = s.stats.skippedFiles + topLevelCount s) := by
  have hx := isExcluded_of_empty s.config.excludePatterns h
  refine ⟨hx, ?_, ?_, ?_⟩
  · rw [scanFiles_eq]
    split_ifs
    · simp only
      rw [stats_notify]
      exact stats_scanSources_all_excluded _ s hx
    · exact stats_scanSources_all_excluded _ s hx
  · refine (addsOnly_backupFiles lib s).weaken ?_
    rintro q (hq | hq | ⟨root, _, r, _, _, he⟩)
    · exact Or.inl hq
    · exact Or.inr hq
    · rw [hx] at he
      exact absurd he (by simp)
  · intro hb
    rw [skipped_backupFiles lib s hb, length_skippedEntries_all_excluded s hx]

theorem empty_pattern_excludes_everything_witness :
    "" ∈ emptyPatternPhaseEntry.config.excludePatterns ∧
    (backupFiles utc emptyPatternPhaseEntry).1 = true ∧
    topLevelCount emptyPatternPhaseEntry = 2 ∧
    emptyPatternPhaseEntry.stats.totalFiles = 0 ∧
    emptyPatternPhaseEntry.stats.totalDirectories = 0 ∧
    emptyPatternPhaseEntry.stats.totalSize = 0 ∧
    (backupFiles utc emptyPatternPhaseEntry).2.stats.processedFiles = 0 ∧
    (backupFiles utc emptyPatternPhaseEntry).2.stats.skippedFiles =
      emptyPatternPhaseEntry.stats.skippedFiles + topLevelCount emptyPatternPhaseEntry :=
  ⟨by decide, by decide, by decide, by decide, by decide, by decide, by decide,
    (empty_pattern_excludes_everything utc emptyPatternPhaseEntry (by decide)).2.2.2
      (by decide)⟩

/-! ## The tally of the backup walk -/

theorem fileOutcome_copyAndCount (bytes : List Nat) (destFile : Path) (s : State) :
    FileOutcome s (copyAndCount bytes destFile true s) := by
  unfold copyAndCount
  cases s.fs.copy_file bytes destFile with
  | none => exact ⟨rfl, rfl, rfl, fun _ => rfl, fun h => absurd h (by simp)⟩
  | some fs => exact ⟨rfl, rfl, rfl, fun h => absurd h (by simp), fun _ => Or.inl rfl⟩

theorem fileOutcome_backupFile (sourceFile : Path) (bytes : List Nat)
    (backupDir basePath previousBackupDir : Path) (s : State) :
    FileOutcome s (backupFile sourceFile bytes backupDir basePath previousBackupDir s) := by
  unfold backupFile
  simp only
  cases s.fs.create_directories
      (joinRelative backupDir (relative s sourceFile basePath)).dropLast with
  | none => exact ⟨rfl, rfl, rfl, fun _ => rfl, fun h => absurd h (by simp)⟩
  | some fs =>
    simp only
    have hfail : FileOutcome s (false, { s with fs := fs }) :=
      ⟨rfl, rfl, rfl, fun _ => rfl, fun h => absurd h (by simp)⟩
    have hcopy : FileOutcome s (copyAndCount bytes
        (joinRelative backupDir (relative s sourceFile basePath)) true { s with fs := fs }) :=
      fileOutcome_copyAndCount bytes _ { s with fs := fs }
    by_cases hp : previousBackupDir ≠ []
    · rw [if_pos hp]
      by_cases he : fs.pathExists (joinRelative previousBackupDir (relative s sourceFile basePath)) = true
      · rw [if_pos he]
        cases fs.file_size (joinRelative previousBackupDir (relative s sourceFile basePath)) with
        | none => exact hfail
        | some prevSize =>
          simp only
          by_cases hz : prevSize = bytes.length
          · rw [if_pos hz]
            cases hq : areFilesEqual fs bytes
                (joinRelative previousBackupDir (relative s sourceFile basePath)) with
            | true =>
              simp only [Bool.not_true, Bool.not_false, if_true]
              cases fs.create_hard_link (joinRelative previousBackupDir (relative s sourceFile basePath))
                  (joinRelative backupDir (relative s sourceFile basePath)) with
              | none => exact hfail
              | some fs2 =>
                exact ⟨rfl, rfl, rfl, fun h => absurd h (by simp), fun _ => Or.inr rfl⟩
            | false =>
              simp only [Bool.not_false, Bool.not_true, Bool.false_eq_true, if_false]
              exact hcopy
          · rw [if_neg hz]
            exact hcopy
      · rw [if_neg he]
        exact hcopy
    · rw [if_neg hp]
      exact hcopy

theorem Advanced.zero (st : BackupStats) : Advanced st st 0 := ⟨rfl, rfl, rfl⟩

theorem Advanced.plus {a b c : BackupStats} {k m : Nat} (h1 : Advanced a b k)
    (h2 : Advanced b c m) : Advanced a c (k + m) := by
  obtain ⟨a1, a2, a3⟩ := h1
  obtain ⟨b1, b2, b3⟩ := h2
  refine ⟨?_, b2.trans a2, ?_⟩
  · omega
  · omega

theorem tally_of_same (s s' : State) (hc : s'.calls = s.calls) (hs : s'.status = s.status)
    (hp : s'.progressCallback = s.progressCallback)
    (ht : SameTotals s.stats s'.stats) (ha : Advanced s.stats s'.stats 0) :
    BackupTally s s' :=
  ⟨hs, hp, ht, 0, ha, [], by rw [hc, List.append_nil], fun _ => rfl, fun _ => rfl,
    fun i c h => by simp at h⟩

theorem BackupTally.start (s : State) : BackupTally s s :=
  tally_of_same s s rfl rfl rfl ⟨rfl, rfl, rfl⟩ (Advanced.zero _)

theorem BackupTally.andThen2 {a b c : State} (h1 : BackupTally a b) (h2 : BackupTally b c) :
    BackupTally a c := by
  obtain ⟨s1, p1, t1, k1, a1, L1, c1, n1, m1, g1⟩ := h1
  obtain ⟨s2, p2, t2, k2, a2, L2, c2, n2, m2, g2⟩ := h2
  refine ⟨s2.trans s1, p2.trans p1, ⟨t2.1.trans t1.1, t2.2.1.trans t1.2.1,
    t2.2.2.trans t1.2.2⟩, k1 + k2, a1.plus a2, L1 ++ L2, ?_, ?_, ?_, ?_⟩
  · rw [c2, c1, List.append_assoc]
  · intro hn
    rw [n1 hn, n2 (p1.trans hn)]
    rfl
  · intro hn
    rw [List.length_append, m1 hn, m2 (by rw [p1]; exact hn)]
  · intro i c hi
    by_cases hn : a.progressCallback = none
    · rw [n1 hn, n2 (p1.trans hn)] at hi
      simp at hi
    · rw [List.getElem?_append] at hi
      split_ifs at hi with hlt
      · exact g1 i c hi
      · obtain ⟨e1, e2⟩ := g2 _ c hi
        refine ⟨e1.trans s1, ?_⟩
        have hk : L1.length = k1 := m1 hn
        have := a1.plus e2
        have hidx : k1 + (i - L1.length + 1) = i + 1 := by omega
        rw [hidx] at this
        exact this

theorem tally_poll (s : State) : BackupTally s (poll s) := by
  have hw := withinPhase_poll s
  refine tally_of_same s _ (calls_poll s) hw.1 hw.2.2.2.1 ?_ ?_
  · rw [stats_poll]; exact ⟨rfl, rfl, rfl⟩
  · rw [stats_poll]; exact Advanced.zero _

theorem tally_of_fs (s : State) (fs : FileSystem) : BackupTally s { s with fs := fs } :=
  tally_of_same s _ rfl rfl rfl ⟨rfl, rfl, rfl⟩ (Advanced.zero _)

theorem tally_skipped (s : State) :
    BackupTally s
      { s with stats := { s.stats with skippedFiles := s.stats.skippedFiles + 1 } } :=
  tally_of_same s _ rfl rfl rfl ⟨rfl, rfl, rfl⟩ ⟨rfl, rfl, rfl⟩

theorem status_poll (s : State) : (poll s).status = s.status := (withinPhase_poll s).1

theorem callback_poll (s : State) : (poll s).progressCallback = s.progressCallback :=
  (withinPhase_poll s).2.2.2.1

/-- The step of the walk at a regular file that `backupFile` has backed up: the counters of
processed files and sizes are incremented, the callback is invoked, the flag is read. -/
theorem tally_file (s s1 : State) (n : Nat) (h : FileOutcome s (true, s1)) :
    BackupTally s (poll (notify { s1 with stats := { s1.stats with
      processedFiles := s1.stats.processedFiles + 1,
      processedSize := s1.stats.processedSize + n } })) := by
  obtain ⟨hc, hs, hp, _, ho⟩ := h
  have ho := ho rfl
  simp only at hc hs hp ho
  have hadv : Advanced s.stats { s1.stats with
      processedFiles := s1.stats.processedFiles + 1,
      processedSize := s1.stats.processedSize + n } 1 := by
    rcases ho with ho | ho <;> rw [ho] <;> refine ⟨rfl, rfl, ?_⟩ <;> simp only <;> omega
  have htot : SameTotals s.stats { s1.stats with
      processedFiles := s1.stats.processedFiles + 1,
      processedSize := s1.stats.processedSize + n } := by
    rcases ho with ho | ho <;> rw [ho] <;> exact ⟨rfl, rfl, rfl⟩
  refine ⟨?_, ?_, ?_, 1, ?_, ?_⟩
  · rw [status_poll, status_notify]; exact hs
  · rw [callback_poll, (withinPhase_notify _).2.2.2.1]; exact hp
  · rw [stats_poll, stats_notify]; exact htot
  · rw [stats_poll, stats_notify]; exact hadv
  · rw [calls_poll]
    unfold notify
    cases hcb : s1.progressCallback with
    | none =>
      refine ⟨[], ?_, fun _ => rfl, fun hn => ?_, fun i c h => by simp at h⟩
      · simp only [hcb]
        rw [List.append_nil]
        exact hc
      · rw [← hp, hcb] at hn
        exact absurd rfl hn
    | some v =>
      refine ⟨[(s1.status, { s1.stats with
        processedFiles := s1.stats.processedFiles + 1,
        processedSize := s1.stats.processedSize + n })], ?_, fun hn => ?_, fun _ => rfl, ?_⟩
      · simp only [hcb]
        rw [hc]
      · rw [← hp, hcb] at hn
        exact absurd hn (by simp)
      · intro i c hi
        cases i with
        | zero =>
          simp only [List.getElem?_cons_zero, Option.some.injEq] at hi
          rw [← hi]
          exact ⟨hs, hadv⟩
        | succ i => simp at hi

theorem tally_failed_file (s s1 : State) (h : FileOutcome s (false, s1)) :
    BackupTally s s1 := by
  obtain ⟨hc, hs, hp, hf, _⟩ := h
  have hf := hf rfl
  simp only at hc hs hp hf
  refine tally_of_same s s1 hc hs hp ?_ ?_
  · rw [hf]; exact ⟨rfl, rfl, rfl⟩
  · rw [hf]; exact Advanced.zero _

mutual
theorem tally_backupDirectory (sourcePath : Path) (node : Node)
    (backupDir basePath previousBackupDir : Path) (s : State) :
    BackupTally s
      (backupDirectory sourcePath node backupDir basePath previousBackupDir s).2 := by
  cases node with
  | file bytes =>
    simp only [backupDirectory]
    split_ifs with hex
    · exact BackupTally.start s
    · cases hmk : s.fs.create_directories (joinRelative backupDir (relative s sourcePath basePath)) with
      | none => exact BackupTally.start s
      | some fs1 => exact tally_of_fs s fs1
  | other =>
    simp only [backupDirectory]
    split_ifs with hex
    · exact BackupTally.start s
    · cases hmk : s.fs.create_directories (joinRelative backupDir (relative s sourcePath basePath)) with
      | none => exact BackupTally.start s
      | some fs1 => exact tally_of_fs s fs1
  | dir entries =>
    simp only [backupDirectory]
    split_ifs with hex
    · exact (BackupTally.start s).andThen2
        (tally_backupEntries sourcePath entries backupDir basePath previousBackupDir _)
    · cases hmk : s.fs.create_directories (joinRelative backupDir (relative s sourcePath basePath)) with
      | none => exact BackupTally.start s
      | some fs1 =>
        exact (tally_of_fs s fs1).andThen2
          (tally_backupEntries sourcePath entries backupDir basePath previousBackupDir _)
theorem tally_backupEntries (sourcePath : Path) (entries : List (String × Node))
    (backupDir basePath previousBackupDir : Path) (s : State) :
    BackupTally s
      (backupEntries sourcePath entries backupDir basePath previousBackupDir s).2 := by
  cases entries with
  | nil => simp only [backupEntries]; exact BackupTally.start s
  | cons e rest =>
    obtain ⟨name, node⟩ := e
    cases node with
    | file bytes =>
      simp only [backupEntries]
      split_ifs with hx
      · exact (tally_skipped s).andThen2
          (tally_backupEntries sourcePath rest backupDir basePath previousBackupDir _)
      · have h1 := fileOutcome_backupFile (sourcePath ++ [name]) bytes backupDir basePath
          previousBackupDir s
        cases hb : backupFile (sourcePath ++ [name]) bytes backupDir basePath
            previousBackupDir s with
        | mk ok s1 =>
          rw [hb] at h1
          cases ok with
          | false => exact tally_failed_file s s1 h1
          | true =>
            simp only
            have h2 := tally_file s s1 bytes.length h1
            split_ifs
            · exact h2
            · exact h2.andThen2
                (tally_backupEntries sourcePath rest backupDir basePath previousBackupDir _)
    | other =>
      simp only [backupEntries]
      split_ifs with hx
      · exact (tally_skipped s).andThen2
          (tally_backupEntries sourcePath rest backupDir basePath previousBackupDir _)
      · exact tally_poll s
      · exact (tally_poll s).andThen2
          (tally_backupEntries sourcePath rest backupDir basePath previousBackupDir _)
    | dir sub =>
      simp only [backupEntries]
      split_ifs with hx
      · exact (tally_skipped s).andThen2
          (tally_backupEntries sourcePath rest backupDir basePath previousBackupDir _)
      · have h1 := tally_backupDirectory (sourcePath ++ [name]) (Node.dir sub) backupDir
          basePath previousBackupDir s
        cases hb : backupDirectory (sourcePath ++ [name]) (Node.dir sub) backupDir basePath
            previousBackupDir s with
        | mk ok s1 =>
          rw [hb] at h1
          cases ok with
          | false => exact h1
          | true =>
            simp only
            have h2 := h1.andThen2 (tally_poll s1)
            split_ifs
            · exact h2
            · exact h2.andThen2
                (tally_backupEntries sourcePath rest backupDir basePath previousBackupDir _)
end

theorem tally_backupSources (sourcePaths : List Path) (backupDir previousBackupDir : Path)
    (s : State) :
    BackupTally s (backupSources sourcePaths backupDir previousBackupDir s).2 := by
  induction sourcePaths generalizing s with
  | nil => exact BackupTally.start s
  | cons p rest ih =>
    unfold backupSources
    have h1 := tally_backupDirectory p ((s.source.lookup p).getD Node.other) backupDir p
      previousBackupDir s
    cases hb : backupDirectory p ((s.source.lookup p).getD Node.other) backupDir p
        previousBackupDir s with
    | mk ok s1 =>
      rw [hb] at h1
      cases ok with
      | false => exact h1
      | true =>
        simp only
        have h2 := h1.andThen2 (tally_poll s1)
        split_ifs
        · exact h2
        · exact h2.andThen2 (ih _)

theorem saveBackupMetadata_eq (backupDir : Path) (s : State) :
    saveBackupMetadata backupDir s = { s with fs := (saveBackupMetadata backupDir s).fs } := by
  unfold saveBackupMetadata
  cases s.fs.copy_file ((backupInfo s).data.map Char.toNat)
      (backupDir ++ ["backup-info.json"]) <;> rfl

theorem tally_backupFiles (lib : TimeLib) (s : State) :
    BackupTally s (backupFiles lib s).2 := by
  unfold backupFiles
  cases hc : createBackupDir lib s with
  | none => exact BackupTally.start s
  | some s1 =>
    simp only
    have h0 : BackupTally s s1 := by
      rw [(createBackupDir_eq lib s s1 hc).1]
      exact tally_of_fs s _
    have h1 := h0.andThen2 (tally_backupSources s1.config.sourcePaths (newBackupDir lib s1)
      (findPreviousBackupDir lib s1) s1)
    generalize backupSources s1.config.sourcePaths (newBackupDir lib s1)
      (findPreviousBackupDir lib s1) s1 = r at h1 ⊢
    obtain ⟨ok, s2⟩ := r
    cases ok with
    | false => exact h1
    | true =>
      refine h1.andThen2 ?_
      simp only
      rw [saveBackupMetadata_eq]
      exact tally_of_fs s2 _

/-! ## The balance of the outcome counters -/

theorem keeps_of_same (s s' : State) (hc : s'.calls = s.calls) (hst : s'.stats = s.stats) :
    KeepsBalance s s' :=
  ⟨0, by rw [hst]; exact Advanced.zero _, [], by rw [hc, List.append_nil],
    fun _ h => absurd h (List.not_mem_nil _)⟩

theorem KeepsBalance.chain {a b c : State} (h1 : KeepsBalance a b) (h2 : KeepsBalance b c) :
    KeepsBalance a c := by
  obtain ⟨k1, a1, L1, c1, g1⟩ := h1
  obtain ⟨k2, a2, L2, c2, g2⟩ := h2
  refine ⟨k1 + k2, a1.plus a2, L1 ++ L2, by rw [c2, c1, List.append_assoc], ?_⟩
  intro x hx
  rcases List.mem_append.mp hx with hx | hx
  · exact g1 x hx
  · obtain ⟨i, hi⟩ := g2 x hx
    exact ⟨k1 + i, a1.plus hi⟩

theorem keeps_of_tally {a b : State} (h : BackupTally a b) : KeepsBalance a b := by
  obtain ⟨_, _, _, k, a1, L, c1, _, _, g⟩ := h
  refine ⟨k, a1, L, c1, ?_⟩
  intro c hc
  obtain ⟨i, hi⟩ := List.mem_iff_getElem?.mp hc
  exact ⟨i + 1, (g i c hi).2⟩

theorem keeps_of_quiet {a b : State} (h : Quiet a b) : KeepsBalance a b := by
  obtain ⟨hc, h1, _, h3, h4, h5, _⟩ := h
  refine ⟨0, ⟨h1, h3, ?_⟩, [], by rw [hc, List.append_nil],
    fun _ h => absurd h (List.not_mem_nil _)⟩
  rw [h4, h5]
  rfl

theorem keeps_notify (s : State) : KeepsBalance s (notify s) := by
  unfold notify
  cases s.progressCallback with
  | none => exact keeps_of_same s s rfl rfl
  | some v =>
    refine ⟨0, Advanced.zero _, [(s.status, s.stats)], rfl, ?_⟩
    intro c hc
    rw [List.mem_singleton.mp hc]
    exact ⟨0, Advanced.zero _⟩

theorem keeps_setStatus (status : BackupStatus) (s : State) :
    KeepsBalance s (setStatus status s) :=
  keeps_of_same s _ rfl rfl

theorem keeps_completeBackup (success cancelled : Bool) (s : State) :
    KeepsBalance s (completeBackup success cancelled s) := by
  unfold completeBackup
  simp only
  have h1 : KeepsBalance s { setStatus (if cancelled = true then BackupStatus.CANCELLED
      else if success = true then BackupStatus.COMPLETED else BackupStatus.FAILED) s with
      stats := { s.stats with endTime := some s.now } } :=
    ⟨0, ⟨rfl, rfl, rfl⟩, [], (List.append_nil _).symm, fun _ h => absurd h (List.not_mem_nil _)⟩
  exact h1.chain (keeps_notify _)

theorem keeps_scanFiles (s : State) : KeepsBalance s (scanFiles s).2 := by
  rw [scanFiles_eq]
  have h := keeps_of_quiet (quiet_scanSources s.config.sourcePaths s)
  split_ifs
  · exact h.chain (keeps_notify _)
  · exact h

theorem keeps_poll (s : State) : KeepsBalance s (poll s) := keeps_of_quiet (quiet_poll s)

theorem keeps_backupFiles (lib : TimeLib) (s : State) : KeepsBalance s (backupFiles lib s).2 :=
  keeps_of_tally (tally_backupFiles lib s)

theorem keeps_verifyBackup (s : State) : KeepsBalance s (verifyBackup s).2 :=
  keeps_of_quiet (quiet_verifyTicks 5 s)

/-- The worker from its start to its end. -/
theorem keeps_backupThreadFunction (lib : TimeLib) (s : State) :
    KeepsBalance s (backupThreadFunction lib s) := by
  have q1 : KeepsBalance s (scanFiles (setStatus BackupStatus.SCANNING s)).2 :=
    (keeps_setStatus _ s).chain (keeps_scanFiles _)
  have q2 : KeepsBalance s (afterScan s) := q1.chain (keeps_poll _)
  have q4 : KeepsBalance s (backupFiles lib (backupPhaseEntry s)).2 :=
    (q2.chain (keeps_setStatus _ _)).chain (keeps_backupFiles lib _)
  have q5 : KeepsBalance s (afterBackup lib s) := q4.chain (keeps_poll _)
  have q7 : KeepsBalance s (verifyBackup (verifyPhaseEntry lib s)).2 :=
    (q5.chain (keeps_setStatus _ _)).chain (keeps_verifyBackup _)
  have q8 : KeepsBalance s (afterVerify lib s) := q7.chain (keeps_poll _)
  rw [backupThreadFunction_eq]
  split_ifs
  · exact q1.chain (keeps_completeBackup _ _ _)
  · exact q2.chain (keeps_completeBackup _ _ _)
  · exact q4.chain (keeps_completeBackup _ _ _)
  · exact q5.chain (keeps_completeBackup _ _ _)
  · exact q5.chain (keeps_completeBackup _ _ _)
  · exact q7.chain (keeps_completeBackup _ _ _)
  · exact q8.chain (keeps_completeBackup _ _ _)
  · exact q8.chain (keeps_completeBackup _ _ _)

theorem copyAndCount_of_changed (bytes : List Nat) (destFile : Path) (s : State)
    (h : (copyAndCount bytes destFile true s).1 = true) :
    (copyAndCount bytes destFile true s).2.stats =
      { s.stats with modifiedFiles := s.stats.modifiedFiles + 1 } ∧
    s.fs.copy_file bytes destFile = some (copyAndCount bytes destFile true s).2.fs := by
  unfold copyAndCount at h ⊢
  cases hc : s.fs.copy_file bytes destFile with
  | none =>
    rw [hc] at h
    exact absurd h (by simp)
  | some fs => exact ⟨rfl, rfl⟩

/-- A call of `backupFile` that returns true has made a hard link and counted the file as
unchanged, or has copied the file and counted it as modified. -/
theorem backupFile_links_or_copies (sourceFile : Path) (bytes : List Nat)
    (backupDir basePath previousBackupDir : Path) (s : State)
    (h : (backupFile sourceFile bytes backupDir basePath previousBackupDir s).1 = true) :
    ∃ fs, s.fs.create_directories (joinRelative backupDir (relative s sourceFile basePath)).dropLast =
        some fs ∧
      (((backupFile sourceFile bytes backupDir basePath previousBackupDir s).2.stats =
          { s.stats with unchangedFiles := s.stats.unchangedFiles + 1 } ∧
        fs.create_hard_link (joinRelative previousBackupDir (relative s sourceFile basePath))
          (joinRelative backupDir (relative s sourceFile basePath)) =
          some (backupFile sourceFile bytes backupDir basePath previousBackupDir s).2.fs) ∨
      ((backupFile sourceFile bytes backupDir basePath previousBackupDir s).2.stats =
          { s.stats with modifiedFiles := s.stats.modifiedFiles + 1 } ∧
        fs.copy_file bytes (joinRelative backupDir (relative s sourceFile basePath)) =
          some (backupFile sourceFile bytes backupDir basePath previousBackupDir s).2.fs)) := by
  unfold backupFile at h ⊢
  simp only at h ⊢
  cases hmk : s.fs.create_directories
      (joinRelative backupDir (relative s sourceFile basePath)).dropLast with
  | none =>
    rw [hmk] at h
    exact absurd h (by simp)
  | some fs =>
    rw [hmk] at h
    simp only at h ⊢
    refine ⟨fs, rfl, ?_⟩
    have hcopy : (copyAndCount bytes (joinRelative backupDir (relative s sourceFile basePath)) true
        { s with fs := fs }).1 = true →
        ((copyAndCount bytes (joinRelative backupDir (relative s sourceFile basePath)) true
          { s with fs := fs }).2.stats =
          { s.stats with modifiedFiles := s.stats.modifiedFiles + 1 } ∧
        fs.copy_file bytes (joinRelative backupDir (relative s sourceFile basePath)) =
          some (copyAndCount bytes (joinRelative backupDir (relative s sourceFile basePath)) true
            { s with fs := fs }).2.fs) :=
      fun h => copyAndCount_of_changed bytes _ { s with fs := fs } h
    by_cases hp : previousBackupDir ≠ []
    · rw [if_pos hp] at h ⊢
      by_cases he : fs.pathExists (joinRelative previousBackupDir (relative s sourceFile basePath)) = true
      · rw [if_pos he] at h ⊢
        cases hfz : fs.file_size (joinRelative previousBackupDir (relative s sourceFile basePath)) with
        | none =>
          rw [hfz] at h
          exact absurd h (by simp)
        | some prevSize =>
          rw [hfz] at h
          simp only at h ⊢
          by_cases hz : prevSize = bytes.length
          · rw [if_pos hz] at h ⊢
            cases hq : areFilesEqual fs bytes
                (joinRelative previousBackupDir (relative s sourceFile basePath)) with
            | true =>
              rw [hq] at h
              simp only [Bool.not_true, Bool.not_false, if_true] at h ⊢
              cases hl : fs.create_hard_link
                  (joinRelative previousBackupDir (relative s sourceFile basePath))
                  (joinRelative backupDir (relative s sourceFile basePath)) with
              | none =>
                rw [hl] at h
                exact absurd h (by simp)
              | some fs2 => exact Or.inl ⟨rfl, rfl⟩
            | false =>
              rw [hq] at h
              simp only [Bool.not_false, Bool.not_true, Bool.false_eq_true, if_false] at h ⊢
              exact Or.inr (hcopy h)
          · rw [if_neg hz] at h ⊢
            exact Or.inr (hcopy h)
      · rw [if_neg he] at h ⊢
        exact Or.inr (hcopy h)
    · rw [if_neg hp] at h ⊢
      exact Or.inr (hcopy h)

/-- C27. Through a whole run of the worker `newFiles` keeps the value it had at
the start, in the final statistics and in the statistics of every invocation
of the callback; that value is the 0 to which `startBackup` has reset it. A
call of `backupFile` that returns true increments `modifiedFiles` or
`unchangedFiles` and leaves every other counter alone; one that returns false
leaves the statistics as they are. The call that returns true has either made
the hard link and incremented `unchangedFiles`, or copied the file and
incremented `modifiedFiles`. -/
theorem newFiles_is_never_incremented (lib : TimeLib) (s : State) :
    (backupThreadFunction lib s).stats.newFiles = s.stats.newFiles ∧
    (∃ L, (backupThreadFunction lib s).calls = s.calls ++ L ∧
      ∀ c ∈ L, c.2.newFiles = s.stats.newFiles) ∧
    (∀ (config : BackupConfig) (progressCallback : Option Nat) (s0 : State) (r : Bool × State),
      startBackup config progressCallback s0 = some r → r.1 = true → r.2.stats.newFiles = 0) ∧
    (∀ (sourceFile : Path) (bytes : List Nat) (backupDir basePath previousBackupDir : Path),
      FileOutcome s (backupFile sourceFile bytes backupDir basePath previousBackupDir s)) ∧
    (∀ (sourceFile : Path) (bytes : List Nat) (backupDir basePath previousBackupDir : Path),
      (backupFile sourceFile bytes backupDir basePath previousBackupDir s).1 = true →
      ∃ fs, s.fs.create_directories (joinRelative backupDir (relative s sourceFile basePath)).dropLast =
          some fs ∧
        (((backupFile sourceFile bytes backupDir basePath previousBackupDir s).2.stats =
            { s.stats with unchangedFiles := s.stats.unchangedFiles + 1 } ∧
          fs.create_hard_link (joinRelative previousBackupDir (relative s sourceFile basePath))
            (joinRelative backupDir (relative s sourceFile basePath)) =
            some (backupFile sourceFile bytes backupDir basePath previousBackupDir s).2.fs) ∨
        ((backupFile sourceFile bytes backupDir basePath previousBackupDir s).2.stats =
            { s.stats with modifiedFiles := s.stats.modifiedFiles + 1 } ∧
          fs.copy_file bytes (joinRelative backupDir (relative s sourceFile basePath)) =
            some (backupFile sourceFile bytes backupDir basePath previousBackupDir s).2.fs))) := by
  obtain ⟨k, a1, L, c1, g⟩ := keeps_backupThreadFunction lib s
  refine ⟨a1.2.1, ⟨L, c1, fun c hc => ?_⟩, ?_, fun _ _ _ _ _ => fileOutcome_backupFile _ _ _ _ _ s,
    fun _ _ _ _ _ h => backupFile_links_or_copies _ _ _ _ _ s h⟩
  · obtain ⟨i, hi⟩ := g c hc
    exact hi.2.1
  · intro config progressCallback s0 r hr h1
    unfold startBackup at hr
    simp only at hr
    split_ifs at hr
    · rw [← Option.some.inj hr] at h1
      exact absurd h1 (by simp)
    · rw [← Option.some.inj hr]

theorem newFiles_is_never_incremented_witness :
    startBackup scenarioConfig (some 1) beforeRun1 =
      some (true, started scenarioConfig (some 1) beforeRun1) ∧
    (started scenarioConfig (some 1) beforeRun1).stats.newFiles = 0 ∧
    afterRun1.stats.newFiles = 0 ∧ afterRun1.stats.modifiedFiles = 3 ∧
    afterRun1.calls.map (fun c => c.2.newFiles) = [0, 0, 0, 0, 0] :=
  ⟨rfl,
    (newFiles_is_never_incremented utc beforeRun1).2.2.1 scenarioConfig (some 1) beforeRun1
      (true, started scenarioConfig (some 1) beforeRun1) rfl rfl,
    by decide, by decide, by decide⟩

/-- C28. When `processedFiles` is the sum of `newFiles`, `modifiedFiles` and
`unchangedFiles` at the start of the worker, as it is after `startBackup`, it
is so in the final statistics of the run, however the run ends, and in the
statistics of every invocation of the callback. A call of `backupFile` that
returns true increments exactly one of `modifiedFiles` and `unchangedFiles` by
one; a call that returns false changes no counter, and the walk then stops
without counting the file as processed. -/
theorem processedFiles_is_the_sum_of_the_outcomes (lib : TimeLib) (s : State)
    (h : Balanced s.stats) :
    Balanced (backupThreadFunction lib s).stats ∧
    (∃ L, (backupThreadFunction lib s).calls = s.calls ++ L ∧ ∀ c ∈ L, Balanced c.2) ∧
    (∀ (sourceFile : Path) (bytes : List Nat) (backupDir basePath previousBackupDir : Path),
      FileOutcome s (backupFile sourceFile bytes backupDir basePath previousBackupDir s)) := by
  have hb : ∀ st k, Advanced s.stats st k → Balanced st := by
    intro st k ha
    unfold Balanced at h ⊢
    obtain ⟨a1, a2, a3⟩ := ha
    omega
  obtain ⟨k, a1, L, c1, g⟩ := keeps_backupThreadFunction lib s
  refine ⟨hb _ k a1, ⟨L, c1, fun c hc => ?_⟩, fun _ _ _ _ _ => fileOutcome_backupFile _ _ _ _ _ s⟩
  obtain ⟨i, hi⟩ := g c hc
  exact hb _ i hi

theorem processedFiles_is_the_sum_of_the_outcomes_witness :
    Balanced (started scenarioConfig (some 1) beforeRun1).stats ∧
    Balanced afterRun1.stats ∧
    afterRun1.calls.map (fun c => (c.2.processedFiles, c.2.modifiedFiles)) =
      [(0, 0), (1, 1), (2, 2), (3, 3), (3, 3)] ∧
    Balanced (backupThreadFunction utc cancelledStart).stats ∧
    (backupThreadFunction utc cancelledStart).stats.processedFiles = 1 :=
  ⟨rfl, (processedFiles_is_the_sum_of_the_outcomes utc
      (started scenarioConfig (some 1) beforeRun1) rfl).1,
    by decide,
    (processedFiles_is_the_sum_of_the_outcomes utc cancelledStart rfl).1, by decide⟩

/-! ## The invocations of the callback in a completed run -/

/-- The last call of a run that succeeds: one more invocation, with COMPLETED. -/
theorem calls_of_completed (base L : List (BackupStatus × BackupStats)) (sx : State)
    (hcb : sx.progressCallback ≠ none) (hc : sx.calls = base ++ L)
    (hpf : sx.stats.processedFiles = L.length) :
    (completeBackup true false sx).calls =
      base ++ L ++ [(BackupStatus.COMPLETED, (completeBackup true false sx).stats)] ∧
    L.length = (completeBackup true false sx).stats.processedFiles := by
  have h1 := (calls_completeBackup true false sx).2 hcb
  have h2 : (completeBackup true false sx).status = BackupStatus.COMPLETED := by
    rw [status_completeBackup]
    rfl
  have h3 : (completeBackup true false sx).stats.processedFiles = sx.stats.processedFiles := by
    unfold completeBackup
    simp only
    rw [stats_notify]
    rfl
  rw [h2, hc] at h1
  exact ⟨h1, by rw [h3, hpf]⟩

/-- The scan phase that returns true has invoked the callback once, with the statistics in
which it ends. -/
theorem calls_of_scanned (s : State) (hcb : s.progressCallback ≠ none)
    (hok : scanOk s = true) :
    (scanFiles (setStatus BackupStatus.SCANNING s)).2.calls =
      s.calls ++ [(BackupStatus.SCANNING,
        (scanFiles (setStatus BackupStatus.SCANNING s)).2.stats)] ∧
    (scanFiles (setStatus BackupStatus.SCANNING s)).2.progressCallback = s.progressCallback ∧
    (scanFiles (setStatus BackupStatus.SCANNING s)).2.stats.processedFiles =
      s.stats.processedFiles := by
  have hq := quiet_scanSources (setStatus BackupStatus.SCANNING s).config.sourcePaths
    (setStatus BackupStatus.SCANNING s)
  have hw := inv_scanSources phaseInvariant_withinPhase
    (setStatus BackupStatus.SCANNING s).config.sourcePaths (setStatus BackupStatus.SCANNING s)
  unfold scanOk at hok
  rw [scanFiles_eq] at hok ⊢
  split_ifs at hok ⊢ with h1
  generalize (scanSources (setStatus BackupStatus.SCANNING s).config.sourcePaths
    (setStatus BackupStatus.SCANNING s)).2 = xs at hq hw
  obtain ⟨hst, _, _, hcbx, _⟩ := hw
  have hcbx1 : xs.progressCallback = s.progressCallback := hcbx
  have hst1 : xs.status = BackupStatus.SCANNING := hst
  have hcalls : xs.calls = s.calls := hq.1
  have hpf : xs.stats.processedFiles = s.stats.processedFiles := hq.2.1
  cases hv : xs.progressCallback with
  | none => exact absurd (hcbx1.symm.trans hv) hcb
  | some v =>
    have hn : notify xs = { xs with calls := xs.calls ++ [(xs.status, xs.stats)] } := by
      unfold notify
      rw [hv]
    refine ⟨?_, ?_, ?_⟩
    · show (notify xs).calls = s.calls ++ [(BackupStatus.SCANNING, (notify xs).stats)]
      rw [hn]
      show xs.calls ++ [(xs.status, xs.stats)] = _
      rw [hcalls, hst1]
    · show (notify xs).progressCallback = s.progressCallback
      rw [hn]
      exact hcbx1
    · show (notify xs).stats.processedFiles = s.stats.processedFiles
      rw [hn]
      exact hpf

/-- The backup phase of a run with a callback: one invocation for each processed file. -/
theorem calls_of_backedUp (lib : TimeLib) (s : State) (hcb : s.progressCallback ≠ none)
    (h0 : s.stats.processedFiles = 0) (hok : scanOk s = true) :
    ∃ L, (afterBackup lib s).calls = (s.calls ++ [(BackupStatus.SCANNING,
        (scanFiles (setStatus BackupStatus.SCANNING s)).2.stats)]) ++ L ∧
      (afterBackup lib s).stats.processedFiles = L.length ∧
      (afterBackup lib s).progressCallback = s.progressCallback ∧
      ∀ i c, L[i]? = some c → c.1 = BackupStatus.BACKING_UP ∧ c.2.processedFiles = i + 1 := by
  obtain ⟨hc1, hcb1, hpf1⟩ := calls_of_scanned s hcb hok
  have e1 : (backupPhaseEntry s).calls = (scanFiles (setStatus BackupStatus.SCANNING s)).2.calls :=
    calls_poll _
  have e2 : (backupPhaseEntry s).stats = (scanFiles (setStatus BackupStatus.SCANNING s)).2.stats :=
    stats_poll _
  have e3 : (backupPhaseEntry s).progressCallback = s.progressCallback :=
    (callback_poll _).trans hcb1
  have e4 : (backupPhaseEntry s).status = BackupStatus.BACKING_UP := rfl
  obtain ⟨_, hcbk, _, k, adv, L, hc, _, hlen, hall⟩ := tally_backupFiles lib (backupPhaseEntry s)
  have hlen1 : L.length = k := hlen (by rw [e3]; exact hcb)
  refine ⟨L, ?_, ?_, ?_, ?_⟩
  · unfold afterBackup
    rw [calls_poll, hc, e1, hc1]
  · unfold afterBackup
    rw [stats_poll, adv.1, e2, hpf1, h0, hlen1, Nat.zero_add]
  · unfold afterBackup
    rw [callback_poll, hcbk, e3]
  · intro i c hi
    obtain ⟨g1, g2⟩ := hall i c hi
    refine ⟨g1.trans e4, ?_⟩
    rw [g2.1, e2, hpf1, h0, Nat.zero_add]

/-- C22. A run of the worker with a callback that ends COMPLETED, started with
no file processed as `startBackup` leaves it, has invoked the callback first
once with SCANNING and the statistics in which the scan ended, then once for
each processed file with BACKING_UP and `processedFiles` equal to 1, 2, ... in
order, and last once with COMPLETED and the final statistics: with n the
final `processedFiles`, n + 2 invocations in all. -/
theorem completed_run_invokes_the_callback_n_plus_two_times (lib : TimeLib) (s : State)
    (hcb : s.progressCallback ≠ none) (h0 : s.stats.processedFiles = 0)
    (hdone : (backupThreadFunction lib s).status = BackupStatus.COMPLETED) :
    ∃ L, (backupThreadFunction lib s).calls =
        s.calls ++ [(BackupStatus.SCANNING,
          (scanFiles (setStatus BackupStatus.SCANNING s)).2.stats)] ++ L ++
          [(BackupStatus.COMPLETED, (backupThreadFunction lib s).stats)] ∧
      L.length = (backupThreadFunction lib s).stats.processedFiles ∧
      (∀ i c, L[i]? = some c →
        c.1 = BackupStatus.BACKING_UP ∧ c.2.processedFiles = i + 1) ∧
      (backupThreadFunction lib s).calls.length =
        s.calls.length + ((backupThreadFunction lib s).stats.processedFiles + 2) := by
  have key : ∀ sx : State, backupThreadFunction lib s = completeBackup true false sx →
      sx.progressCallback = s.progressCallback →
      (∃ L, sx.calls = (s.calls ++ [(BackupStatus.SCANNING,
        (scanFiles (setStatus BackupStatus.SCANNING s)).2.stats)]) ++ L ∧
        sx.stats.processedFiles = L.length ∧
        ∀ i c, L[i]? = some c → c.1 = BackupStatus.BACKING_UP ∧ c.2.processedFiles = i + 1) →
      ∃ L, (backupThreadFunction lib s).calls =
        s.calls ++ [(BackupStatus.SCANNING,
          (scanFiles (setStatus BackupStatus.SCANNING s)).2.stats)] ++ L ++
          [(BackupStatus.COMPLETED, (backupThreadFunction lib s).stats)] ∧
      L.length = (backupThreadFunction lib s).stats.processedFiles ∧
      (∀ i c, L[i]? = some c →
        c.1 = BackupStatus.BACKING_UP ∧ c.2.processedFiles = i + 1) ∧
      (backupThreadFunction lib s).calls.length =
        s.calls.length + ((backupThreadFunction lib s).stats.processedFiles + 2) := by
    intro sx hfin hcbx ⟨L, hc, hpf, hall⟩
    obtain ⟨g1, g2⟩ := calls_of_completed _ L sx (by rw [hcbx]; exact hcb) hc hpf
    rw [hfin]
    refine ⟨L, g1, g2, hall, ?_⟩
    rw [g1, ← g2]
    simp only [List.length_append, List.length_singleton]
    omega
  have hbad : ∀ (c : Bool) (sx : State),
      (completeBackup false c sx).status ≠ BackupStatus.COMPLETED := by
    intro c sx
    rw [status_completeBackup]
    cases c <;> simp
  have hfin := backupThreadFunction_eq lib s
  split_ifs at hfin with c1 c2 c3 c4 c5 c6 c7
  · rw [hfin] at hdone
    exact absurd hdone (hbad _ _)
  · rw [hfin] at hdone
    exact absurd hdone (hbad _ _)
  · rw [hfin] at hdone
    exact absurd hdone (hbad _ _)
  · rw [hfin] at hdone
    exact absurd hdone (hbad _ _)
  · obtain ⟨L, a, b, c, d⟩ := calls_of_backedUp lib s hcb h0 (by simpa using c1)
    exact key _ hfin c ⟨L, a, b, d⟩
  · rw [hfin] at hdone
    exact absurd hdone (hbad _ _)
  · rw [hfin] at hdone
    exact absurd hdone (hbad _ _)
  · obtain ⟨L, a, b, c, d⟩ := calls_of_backedUp lib s hcb h0 (by simpa using c1)
    have hq : Quiet (verifyPhaseEntry lib s) (verifyBackup (verifyPhaseEntry lib s)).2 :=
      quiet_verifyTicks 5 _
    have hw := inv_verifyBackup phaseInvariant_withinPhase (verifyPhaseEntry lib s)
    have v1 : (afterVerify lib s).calls = (afterBackup lib s).calls := by
      unfold afterVerify
      rw [calls_poll, hq.1]
      rfl
    have v2 : (afterVerify lib s).stats.processedFiles =
        (afterBackup lib s).stats.processedFiles := by
      unfold afterVerify
      rw [stats_poll, hq.2.1]
      rfl
    have v3 : (afterVerify lib s).progressCallback = (afterBackup lib s).progressCallback := by
      unfold afterVerify
      rw [callback_poll, hw.2.2.2.1]
      rfl
    exact key _ hfin (v3.trans c) ⟨L, v1.trans a, v2.trans b, d⟩

theorem completed_run_invokes_the_callback_n_plus_two_times_witness :
    afterRun1.status = BackupStatus.COMPLETED ∧ afterRun1.stats.processedFiles = 3 ∧
    afterRun1.calls.map (fun c => (c.1, c.2.processedFiles)) =
      [(BackupStatus.SCANNING, 0), (BackupStatus.BACKING_UP, 1), (BackupStatus.BACKING_UP, 2),
        (BackupStatus.BACKING_UP, 3), (BackupStatus.COMPLETED, 3)] ∧
    ∃ L, afterRun1.calls =
        [] ++ [(BackupStatus.SCANNING,
          (scanFiles (setStatus BackupStatus.SCANNING
            (started scenarioConfig (some 1) beforeRun1))).2.stats)] ++ L ++
          [(BackupStatus.COMPLETED, afterRun1.stats)] ∧
      L.length = afterRun1.stats.processedFiles ∧
      (∀ i c, L[i]? = some c →
        c.1 = BackupStatus.BACKING_UP ∧ c.2.processedFiles = i + 1) ∧
      afterRun1.calls.length = 0 + (afterRun1.stats.processedFiles + 2) :=
  ⟨by decide, by decide, by decide,
    completed_run_invokes_the_callback_n_plus_two_times utc
      (started scenarioConfig (some 1) beforeRun1) (by decide) rfl (by decide)⟩

/-! ## The calls of the backup walk -/

theorem noFailure_nil : NoFailure [] := fun _ h => absurd h (List.not_mem_nil _)

theorem NoFailure.append {T1 T2 : List WalkEvent} (h1 : NoFailure T1) (h2 : NoFailure T2) :
    NoFailure (T1 ++ T2) := by
  intro x hx
  rcases List.mem_append.mp hx with hx | hx
  · exact h1 x hx
  · exact h2 x hx

theorem FailFast.noFailure {T : List WalkEvent} (h : FailFast T true) : NoFailure T := by
  rcases h with h | ⟨h, _⟩
  · exact h
  · exact absurd h (by simp)

theorem FailFast.followedBy {T1 T2 : List WalkEvent} {ok : Bool} (h1 : FailFast T1 true)
    (h2 : FailFast T2 ok) : FailFast (T1 ++ T2) ok := by
  rcases h2 with h2 | ⟨hok, pre, e, hT, hpre, he⟩
  · exact Or.inl (h1.noFailure.append h2)
  · refine Or.inr ⟨hok, T1 ++ pre, e, ?_, h1.noFailure.append hpre, he⟩
    rw [hT, List.append_assoc]

theorem specTrace_append (l1 l2 : List (Path × Node)) :
    specTrace (l1 ++ l2) = specTrace l1 ++ specTrace l2 := by
  unfold specTrace
  exact List.filterMap_append _ _ _

theorem Traced.seq {s s1 : State} {r : Bool × State} {T1 T2 : List WalkEvent}
    {K1 K2 : List (Path × Node)} (h1 : Traced s (true, s1) T1 K1) (h2 : Traced s1 r T2 K2) :
    Traced s r (T1 ++ T2) (K1 ++ K2) := by
  obtain ⟨a1, a2, a3, a4, a5, a6⟩ := h1
  obtain ⟨b1, b2, b3, b4, b5, b6⟩ := h2
  refine ⟨?_, ?_, b3.trans a3, b4.trans a4, a5.followedBy b5, fun h => ?_⟩
  · rw [b1, a1, List.countP_append, Nat.add_assoc]
  · rw [b2, a2, List.map_append, List.sum_append, Nat.add_assoc]
  · rw [a6 rfl, b6 h, specTrace_append]

/-- A walk that returned false may have been to meet any entries. -/
theorem Traced.anyK {s : State} {r : Bool × State} {T : List WalkEvent}
    {K : List (Path × Node)} (K1 : List (Path × Node)) (h : Traced s r T K)
    (hr : r.1 = false) : Traced s r T K1 := by
  obtain ⟨a1, a2, a3, a4, a5, _⟩ := h
  refine ⟨a1, a2, a3, a4, a5, fun h => ?_⟩
  rw [hr] at h
  exact absurd h (by simp)

/-- A walk that is cancelled after steps that went well. -/
theorem Traced.cancelled {s s1 : State} {T : List WalkEvent} {K : List (Path × Node)}
    (K1 : List (Path × Node)) (h : Traced s (true, s1) T K) : Traced s (false, s1) T K1 := by
  obtain ⟨a1, a2, a3, a4, a5, _⟩ := h
  exact ⟨a1, a2, a3, a4, Or.inl a5.noFailure, fun h => absurd h (by simp)⟩

/-- A step that makes no call and leaves counters, configuration and sources alone. -/
theorem traced_of_same (s s1 : State) (h1 : s1.stats.processedFiles = s.stats.processedFiles)
    (h2 : s1.stats.processedSize = s.stats.processedSize) (h3 : s1.config = s.config)
    (h4 : s1.source = s.source) (ok : Bool) : Traced s (ok, s1) [] [] :=
  ⟨h1, h2, h3, h4, Or.inl noFailure_nil, fun _ => rfl⟩

theorem traced_poll (s : State) (ok : Bool) : Traced s (ok, poll s) [] [] :=
  traced_of_same s _ (by rw [stats_poll]) (by rw [stats_poll]) (sameWorld_poll s).2.1
    (sameWorld_poll s).2.2.2.1 ok

/-- The read of the flag after steps that went well. -/
theorem Traced.polled {s s1 : State} {T : List WalkEvent} {K : List (Path × Node)}
    (h : Traced s (true, s1) T K) : Traced s (true, poll s1) T K := by
  obtain ⟨a1, a2, a3, a4, a5, a6⟩ := h
  refine ⟨?_, ?_, ?_, ?_, a5, a6⟩
  · show (poll s1).stats.processedFiles = _
    rw [stats_poll]
    exact a1
  · show (poll s1).stats.processedSize = _
    rw [stats_poll]
    exact a2
  · exact (sameWorld_poll s1).2.1.trans a3
  · exact (sameWorld_poll s1).2.2.2.1.trans a4

/-- The step of the walk at an entry that is neither a regular file nor a directory. -/
theorem traced_other (s : State) (p : Path) : Traced s (true, poll s) [] [(p, Node.other)] :=
  ⟨by rw [stats_poll]; rfl, by rw [stats_poll]; rfl, (sameWorld_poll s).2.1,
    (sameWorld_poll s).2.2.2.1, Or.inl noFailure_nil, fun _ => rfl⟩

/-- The recursive call on a directory entry, before the callee runs. -/
theorem traced_recursed (s : State) (p : Path) (sub : List (String × Node)) :
    Traced s (true, s) [WalkEvent.recursed p] [(p, Node.dir sub)] := by
  refine ⟨rfl, rfl, rfl, rfl, Or.inl ?_, fun _ => rfl⟩
  intro x hx
  rw [List.mem_singleton.mp hx]
  rfl

/-- The step of the walk at a regular file that `backupFile` has backed up. -/
theorem traced_file (s s1 : State) (p : Path) (bytes : List Nat)
    (h : FileOutcome s (true, s1)) (hu : StaysUncancelled s s1) :
    Traced s (true, poll (notify { s1 with stats := { s1.stats with
        processedFiles := s1.stats.processedFiles + 1,
        processedSize := s1.stats.processedSize + bytes.length } }))
      [WalkEvent.filed p bytes.length true] [(p, Node.file bytes)] := by
  have hst : s1.stats.processedFiles = s.stats.processedFiles ∧
      s1.stats.processedSize = s.stats.processedSize := by
    rcases h.2.2.2.2 rfl with h | h <;> exact ⟨by rw [h], by rw [h]⟩
  refine ⟨?_, ?_, ?_, ?_, Or.inl ?_, fun _ => rfl⟩
  · rw [stats_poll, stats_notify]
    show s1.stats.processedFiles + 1 = _
    rw [hst.1]
    rfl
  · rw [stats_poll, stats_notify]
    show s1.stats.processedSize + bytes.length = _
    rw [hst.2]
    simp [WalkEvent.okSize]
  · rw [(sameWorld_poll _).2.1, (sameWorld_notify _).2.1]
    exact hu.2.2
  · rw [(sameWorld_poll _).2.2.2.1, (sameWorld_notify _).2.2.2.1]
    exact hu.2.1
  · intro x hx
    rw [List.mem_singleton.mp hx]
    rfl

/-- The step of the walk at a regular file on which `backupFile` fails. -/
theorem traced_failed_file (s s1 : State) (p : Path) (n : Nat) (K : List (Path × Node))
    (h : FileOutcome s (false, s1)) (hu : StaysUncancelled s s1) :
    Traced s (false, s1) [WalkEvent.filed p n false] K := by
  have hst : s1.stats = s.stats := h.2.2.2.1 rfl
  refine ⟨by rw [hst]; rfl, by rw [hst]; rfl, hu.2.2, hu.2.1, Or.inr ⟨rfl, [], _, rfl,
    noFailure_nil, rfl⟩, fun h => absurd h (by simp)⟩

theorem kept_cons_excluded (pats : List String) (path : Path) (name : String) (node : Node)
    (rest : List (String × Node)) (hx : isExcluded pats (path ++ [name]) = true) :
    (entriesOf path ((name, node) :: rest)).filter (fun e => !isExcluded pats e.1) =
      (entriesOf path rest).filter (fun e => !isExcluded pats e.1) := by
  simp only [entriesOf, List.filter_cons, hx, Bool.not_true, Bool.false_eq_true, if_false,
    List.filter_append, filter_excluded_below _ _ _ hx, List.nil_append]

theorem kept_cons_kept (pats : List String) (path : Path) (name : String) (node : Node)
    (rest : List (String × Node)) (hx : ¬ isExcluded pats (path ++ [name]) = true) :
    (entriesOf path ((name, node) :: rest)).filter (fun e => !isExcluded pats e.1) =
      [(path ++ [name], node)] ++
        ((entriesBelow (path ++ [name]) node).filter (fun e => !isExcluded pats e.1) ++
          (entriesOf path rest).filter (fun e => !isExcluded pats e.1)) := by
  simp only [entriesOf, List.filter_cons, hx, Bool.not_false, if_true, List.filter_append,
    Bool.not_eq_true, Bool.not_eq_eq_eq_not, Bool.not_true]
  simp [hx]

mutual
theorem traced_backupDirectory (sourcePath : Path) (node : Node)
    (backupDir basePath previousBackupDir : Path) (s : State) (pats : List String)
    (hp : s.config.excludePatterns = pats) :
    Traced s (backupDirectory sourcePath node backupDir basePath previousBackupDir s)
      (traceDirectory sourcePath node backupDir basePath previousBackupDir s)
      ((entriesBelow sourcePath node).filter (fun e => !isExcluded pats e.1)) := by
  cases node with
  | file bytes =>
    simp only [backupDirectory, traceDirectory]
    split_ifs
    · exact traced_of_same s _ rfl rfl rfl rfl false
    · cases s.fs.create_directories (joinRelative backupDir (relative s sourcePath basePath)) with
      | none => exact traced_of_same s _ rfl rfl rfl rfl false
      | some fs1 => exact traced_of_same s _ rfl rfl rfl rfl false
  | other =>
    simp only [backupDirectory, traceDirectory]
    split_ifs
    · exact traced_of_same s _ rfl rfl rfl rfl false
    · cases s.fs.create_directories (joinRelative backupDir (relative s sourcePath basePath)) with
      | none => exact traced_of_same s _ rfl rfl rfl rfl false
      | some fs1 => exact traced_of_same s _ rfl rfl rfl rfl false
  | dir entries =>
    simp only [backupDirectory, traceDirectory, entriesBelow]
    split_ifs with hex
    · exact traced_backupEntries sourcePath entries backupDir basePath previousBackupDir _
        pats hp
    · cases hmk : s.fs.create_directories (joinRelative backupDir (relative s sourcePath basePath)) with
      | none => exact (traced_of_same s s rfl rfl rfl rfl false).anyK _ rfl
      | some fs1 =>
        exact traced_backupEntries sourcePath entries backupDir basePath previousBackupDir _
          pats hp
theorem traced_backupEntries (sourcePath : Path) (entries : List (String × Node))
    (backupDir basePath previousBackupDir : Path) (s : State) (pats : List String)
    (hp : s.config.excludePatterns = pats) :
    Traced s (backupEntries sourcePath entries backupDir basePath previousBackupDir s)
      (traceEntries sourcePath entries backupDir basePath previousBackupDir s)
      ((entriesOf sourcePath entries).filter (fun e => !isExcluded pats e.1)) := by
  cases entries with
  | nil =>
    simp only [backupEntries, traceEntries, entriesOf]
    exact traced_of_same s s rfl rfl rfl rfl true
  | cons e rest =>
    obtain ⟨name, node⟩ := e
    by_cases hx : isExcluded pats (sourcePath ++ [name]) = true
    · rw [kept_cons_excluded pats sourcePath name node rest hx]
      have hx1 : isExcluded s.config.excludePatterns (sourcePath ++ [name]) = true := by
        rw [hp]; exact hx
      have ih := traced_backupEntries sourcePath rest backupDir basePath previousBackupDir
        { s with stats := { s.stats with skippedFiles := s.stats.skippedFiles + 1 } } pats hp
      cases node <;> simp only [backupEntries, traceEntries, hx1, if_true] <;> exact ih
    · rw [kept_cons_kept pats sourcePath name node rest hx]
      have hx1 : ¬ isExcluded s.config.excludePatterns (sourcePath ++ [name]) = true := by
        rw [hp]; exact hx
      cases node with
      | file bytes =>
        simp only [backupEntries, traceEntries, hx1, if_false, Bool.false_eq_true, entriesBelow,
          List.filter_nil,
          List.nil_append]
        have h1 := fileOutcome_backupFile (sourcePath ++ [name]) bytes backupDir basePath
          previousBackupDir s
        have hu := inv_backupFile phaseInvariant_staysUncancelled (sourcePath ++ [name]) bytes
          backupDir basePath previousBackupDir s
        cases hb : backupFile (sourcePath ++ [name]) bytes backupDir basePath
            previousBackupDir s with
        | mk ok s1 =>
          rw [hb] at h1 hu
          cases ok with
          | false => exact traced_failed_file s s1 _ _ _ h1 hu
          | true =>
            simp only
            have h2 := traced_file s s1 (sourcePath ++ [name]) bytes h1 hu
            split_ifs
            · exact h2.cancelled _
            · exact h2.seq (traced_backupEntries sourcePath rest backupDir basePath
                previousBackupDir _ pats (by rw [h2.2.2.1]; exact hp))
      | other =>
        simp only [backupEntries, traceEntries, hx1, if_false, Bool.false_eq_true, entriesBelow,
          List.filter_nil,
          List.nil_append]
        have h2 := traced_other s (sourcePath ++ [name])
        split_ifs
        · exact h2.cancelled _
        · exact h2.seq (traced_backupEntries sourcePath rest backupDir basePath
            previousBackupDir _ pats (by rw [h2.2.2.1]; exact hp))
      | dir sub =>
        simp only [backupEntries, traceEntries, hx1, if_false, Bool.false_eq_true]
        have h1 := traced_backupDirectory (sourcePath ++ [name]) (Node.dir sub) backupDir
          basePath previousBackupDir s pats hp
        have h0 := traced_recursed s (sourcePath ++ [name]) sub
        cases hb : backupDirectory (sourcePath ++ [name]) (Node.dir sub) backupDir basePath
            previousBackupDir s with
        | mk ok s1 =>
          rw [hb] at h1
          cases ok with
          | false =>
            simp only [List.append_nil]
            exact (h0.seq h1).anyK _ rfl
          | true =>
            simp only
            have h2 := h1.polled
            split_ifs
            · simp only [List.append_nil]
              exact (h0.seq h2).cancelled _
            · exact h0.seq (h2.seq (traced_backupEntries sourcePath rest backupDir basePath
                previousBackupDir _ pats (by rw [h2.2.2.1]; exact hp)))
end

theorem traced_backupSources (sourcePaths : List Path) (backupDir previousBackupDir : Path)
    (s : State) :
    Traced s (backupSources sourcePaths backupDir previousBackupDir s)
      (traceSources sourcePaths backupDir previousBackupDir s)
      (sourcePaths.flatMap (fun root =>
        keptBelow s.config.excludePatterns root ((s.source.lookup root).getD Node.other))) := by
  induction sourcePaths generalizing s with
  | nil => exact traced_of_same s s rfl rfl rfl rfl true
  | cons p rest ih =>
    unfold backupSources traceSources
    rw [List.flatMap_cons, keptBelow_eq]
    have h1 := traced_backupDirectory p ((s.source.lookup p).getD Node.other) backupDir p
      previousBackupDir s s.config.excludePatterns rfl
    cases hb : backupDirectory p ((s.source.lookup p).getD Node.other) backupDir p
        previousBackupDir s with
    | mk ok s1 =>
      rw [hb] at h1
      cases ok with
      | false =>
        simp only [List.append_nil]
        exact h1.anyK _ rfl
      | true =>
        simp only
        have h2 := h1.polled
        have ih1 := ih (poll s1)
        rw [h2.2.2.1, h2.2.2.2.1] at ih1
        split_ifs
        · simp only [List.append_nil]
          exact h2.cancelled _
        · exact h2.seq ih1

theorem traced_backupFiles (lib : TimeLib) (s : State) :
    Traced s (backupFiles lib s) (traceFiles lib s) (keptEntries s) := by
  unfold backupFiles traceFiles
  cases hc : createBackupDir lib s with
  | none => exact (traced_of_same s s rfl rfl rfl rfl false).anyK _ rfl
  | some s1 =>
    simp only
    have e1 := (createBackupDir_eq lib s s1 hc).1
    have c1 : s1.config = s.config := by rw [e1]
    have c2 : s1.source = s.source := by rw [e1]
    have c3 : s1.stats = s.stats := by rw [e1]
    have h1 := traced_backupSources s1.config.sourcePaths (newBackupDir lib s1)
      (findPreviousBackupDir lib s1) s1
    have hk : (s1.config.sourcePaths.flatMap (fun root =>
        keptBelow s1.config.excludePatterns root ((s1.source.lookup root).getD Node.other))) =
        keptEntries s := by
      unfold keptEntries
      rw [c1, c2]
    rw [hk] at h1
    generalize backupSources s1.config.sourcePaths (newBackupDir lib s1)
      (findPreviousBackupDir lib s1) s1 = r at h1 ⊢
    obtain ⟨ok, s2⟩ := r
    obtain ⟨a1, a2, a3, a4, a5, a6⟩ := h1
    cases ok with
    | false =>
      exact ⟨by rw [a1, c3], by rw [a2, c3], a3.trans c1, a4.trans c2, a5, a6⟩
    | true =>
      simp only
      rw [saveBackupMetadata_eq]
      exact ⟨by rw [← c3]; exact a1, by rw [← c3]; exact a2, a3.trans c1, a4.trans c2, a5, a6⟩

/-! ## The failing file -/

theorem isOk_of_isFailure (e : WalkEvent) (h : e.isFailure = true) : e.isOk = false := by
  cases e with
  | recursed d => rfl
  | filed f n ok =>
    cases ok with
    | false => rfl
    | true => exact absurd h (by simp [WalkEvent.isFailure])

theorem stats_completeBackup (success cancelled : Bool) (s : State) :
    (completeBackup success cancelled s).stats = { s.stats with endTime := some s.now } := by
  unfold completeBackup
  simp only
  rw [stats_notify]
  rfl

theorem stats_verifyTicks (n : Nat) (s : State) : (verifyTicks n s).2.stats = s.stats := by
  induction n generalizing s with
  | zero => rfl
  | succ n ih =>
    unfold verifyTicks
    simp only
    split_ifs
    · exact stats_poll s
    · rw [ih, stats_poll]

/-- The scan leaves the counters of processed files and sizes alone. -/
theorem processed_backupPhaseEntry (s : State) :
    (backupPhaseEntry s).stats.processedFiles = s.stats.processedFiles ∧
    (backupPhaseEntry s).stats.processedSize = s.stats.processedSize := by
  have hq := quiet_scanSources (setStatus BackupStatus.SCANNING s).config.sourcePaths
    (setStatus BackupStatus.SCANNING s)
  have e1 : (backupPhaseEntry s).stats =
      (scanFiles (setStatus BackupStatus.SCANNING s)).2.stats := stats_poll _
  rw [e1, scanFiles_eq]
  split_ifs
  · simp only
    rw [stats_notify]
    exact ⟨hq.2.1, hq.2.2.1⟩
  · exact ⟨hq.2.1, hq.2.2.1⟩

/-- The worker that gets as far as the backup phase and whose backup phase returns false. -/
theorem backupThreadFunction_of_failed_backup (lib : TimeLib) (s : State)
    (h1 : scanOk s = true) (h2 : (afterScan s).cancelRequested = false)
    (h3 : (backupFiles lib (backupPhaseEntry s)).1 = false) :
    backupThreadFunction lib s =
      completeBackup false false (backupFiles lib (backupPhaseEntry s)).2 := by
  have h4 : backupOk lib s = false := h3
  rw [backupThreadFunction_eq, if_neg (by rw [h1]; simp), if_neg (by rw [h2]; simp),
    if_pos h4]

/-- C21. When a call of `backupFile` in the backup phase of a run returns
false, that call is the last call the walk makes: no file and no directory is
visited after it, in the directory of the file, in a directory above it or
under a later source path, and every call of `backupFile` before it returned
true. `backupFiles` then returns what its loop over the source paths returned
without calling `saveBackupMetadata`, the run ends FAILED with the file system
in which the walk stopped, and `processedFiles` has grown by the number of
calls of `backupFile` before the failing one. -/
theorem backup_stops_at_the_first_failing_file (lib : TimeLib) (s : State) (e : WalkEvent)
    (he : e ∈ runTrace lib s) (hf : e.isFailure = true) :
    (∃ pre, runTrace lib s = pre ++ [e] ∧ NoFailure pre ∧
      (backupThreadFunction lib s).stats.processedFiles =
        s.stats.processedFiles + pre.countP WalkEvent.isOk ∧
      pre.countP WalkEvent.isOk = (pre.filter (fun x => !x.isRecursed)).length) ∧
    (∃ s0, createBackupDir lib (backupPhaseEntry s) = some s0 ∧
      backupFiles lib (backupPhaseEntry s) =
        backupSources s0.config.sourcePaths (newBackupDir lib s0)
          (findPreviousBackupDir lib s0) s0) ∧
    (backupFiles lib (backupPhaseEntry s)).1 = false ∧
    (backupThreadFunction lib s).fs = (backupFiles lib (backupPhaseEntry s)).2.fs ∧
    (backupThreadFunction lib s).status = BackupStatus.FAILED ∧
    workerStatuses lib s =
      [BackupStatus.SCANNING, BackupStatus.BACKING_UP, BackupStatus.FAILED] := by
  unfold runTrace at he ⊢
  split_ifs at he ⊢ with hc
  swap
  · exact absurd he (List.not_mem_nil _)
  obtain ⟨a1, _, _, _, a5, _⟩ := traced_backupFiles lib (backupPhaseEntry s)
  have hfail : (backupFiles lib (backupPhaseEntry s)).1 = false ∧
      ∃ pre, traceFiles lib (backupPhaseEntry s) = pre ++ [e] ∧ NoFailure pre := by
    rcases a5 with a5 | ⟨hok, pre, e1, hT, hpre, _⟩
    · rw [a5 e he] at hf
      exact absurd hf (by simp)
    · refine ⟨hok, pre, ?_, hpre⟩
      rw [hT] at he
      rcases List.mem_append.mp he with h | h
      · rw [hpre e h] at hf
        exact absurd hf (by simp)
      · rw [hT, List.mem_singleton.mp h]
  obtain ⟨hok, pre, hT, hpre⟩ := hfail
  have hfin := backupThreadFunction_of_failed_backup lib s hc.1 hc.2 hok
  have hpf : (backupThreadFunction lib s).stats.processedFiles =
      s.stats.processedFiles + pre.countP WalkEvent.isOk := by
    rw [hfin, stats_completeBackup]
    show (backupFiles lib (backupPhaseEntry s)).2.stats.processedFiles = _
    rw [a1, (processed_backupPhaseEntry s).1, hT, List.countP_append]
    simp [isOk_of_isFailure e hf]
  have hcount : pre.countP WalkEvent.isOk = (pre.filter (fun x => !x.isRecursed)).length := by
    rw [List.countP_eq_length_filter]
    congr 1
    apply List.filter_congr
    intro x hx
    have := hpre x hx
    cases x with
    | recursed d => rfl
    | filed f n ok =>
      cases ok with
      | true => rfl
      | false => exact absurd this (by simp [WalkEvent.isFailure])
  refine ⟨⟨pre, hT, hpre, hpf, hcount⟩, ?_, hok, ?_, ?_, ?_⟩
  · unfold backupFiles traceFiles at *
    cases hcd : createBackupDir lib (backupPhaseEntry s) with
    | none =>
      rw [hcd] at he
      exact absurd he (List.not_mem_nil _)
    | some s0 =>
      rw [hcd] at hok
      simp only at hok ⊢
      refine ⟨s0, rfl, ?_⟩
      generalize backupSources s0.config.sourcePaths (newBackupDir lib s0)
        (findPreviousBackupDir lib s0) s0 = r at hok ⊢
      obtain ⟨ok, s2⟩ := r
      cases ok with
      | false => rfl
      | true => exact absurd hok (by simp)
  · rw [hfin]
    exact (sameWorld_completeBackup _ _ _).1
  · rw [hfin, status_completeBackup]
    rfl
  · rw [(workerStatuses_eq lib s).2]
    unfold runStatuses
    have hok1 : backupOk lib s = false := hok
    rw [if_neg (by rw [hc.1]; simp), if_neg (by rw [hc.2]; simp), if_pos hok1]

theorem backup_stops_at_the_first_failing_file_witness :
    runTrace utc blockedStart =
      [WalkEvent.filed ["home", "A"] 100 true, WalkEvent.filed ["home", "B"] 100 false] ∧
    (backupThreadFunction utc blockedStart).stats.processedFiles = 1 ∧
    (backupThreadFunction utc blockedStart).fs.pathExists
      ["mnt", "backups", "20240101-000000", "C"] = false ∧
    (backupThreadFunction utc blockedStart).fs.pathExists
      ["mnt", "backups", "20240101-000000", "backup-info.json"] = false ∧
    ((∃ pre, runTrace utc blockedStart = pre ++ [WalkEvent.filed ["home", "B"] 100 false] ∧
      NoFailure pre ∧
      (backupThreadFunction utc blockedStart).stats.processedFiles =
        blockedStart.stats.processedFiles + pre.countP WalkEvent.isOk ∧
      pre.countP WalkEvent.isOk = (pre.filter (fun x => !x.isRecursed)).length) ∧
    (∃ s0, createBackupDir utc (backupPhaseEntry blockedStart) = some s0 ∧
      backupFiles utc (backupPhaseEntry blockedStart) =
        backupSources s0.config.sourcePaths (newBackupDir utc s0)
          (findPreviousBackupDir utc s0) s0) ∧
    (backupFiles utc (backupPhaseEntry blockedStart)).1 = false ∧
    (backupThreadFunction utc blockedStart).fs =
      (backupFiles utc (backupPhaseEntry blockedStart)).2.fs ∧
    (backupThreadFunction utc blockedStart).status = BackupStatus.FAILED ∧
    workerStatuses utc blockedStart =
      [BackupStatus.SCANNING, BackupStatus.BACKING_UP, BackupStatus.FAILED]) :=
  ⟨by decide, by decide, by decide, by decide,
    backup_stops_at_the_first_failing_file utc blockedStart
      (WalkEvent.filed ["home", "B"] 100 false) (by decide) rfl⟩

/-! ## The backup walk and the scan -/

theorem counts_specTrace (l : List (Path × Node)) :
    (specTrace l).countP WalkEvent.isOk = l.countP (fun e => isRegularFile e.2) ∧
    ((specTrace l).map WalkEvent.okSize).sum = (l.map (fun e => fileSize e.2)).sum ∧
    (specTrace l).countP WalkEvent.isRecursed = l.countP (fun e => isDirectory e.2) := by
  induction l with
  | nil => exact ⟨rfl, rfl, rfl⟩
  | cons e rest ih =>
    obtain ⟨p, node⟩ := e
    obtain ⟨i1, i2, i3⟩ := ih
    unfold specTrace at i1 i2 i3 ⊢
    cases node with
    | file bytes =>
      simp only [List.filterMap_cons, List.countP_cons, List.map_cons, List.sum_cons, i1, i2, i3,
        WalkEvent.isOk, WalkEvent.okSize, WalkEvent.isRecursed, isRegularFile, isDirectory,
        fileSize]
      simp
    | dir sub =>
      simp only [List.filterMap_cons, List.countP_cons, List.map_cons, List.sum_cons, i1, i2, i3,
        WalkEvent.isOk, WalkEvent.okSize, WalkEvent.isRecursed, isRegularFile, isDirectory,
        fileSize]
      simp
    | other =>
      simp only [List.filterMap_cons, List.countP_cons, List.map_cons, List.sum_cons, i1, i2, i3,
        isRegularFile, isDirectory, fileSize]
      simp

/-- The statistics with which a scan that returns true leaves the worker. -/
theorem stats_backupPhaseEntry (s : State) (h : scanOk s = true) :
    (backupPhaseEntry s).stats = addTotals s.stats (keptEntries s) := by
  have e1 : (backupPhaseEntry s).stats =
      (scanFiles (setStatus BackupStatus.SCANNING s)).2.stats := stats_poll _
  unfold scanOk at h
  rw [e1]
  rw [scanFiles_eq] at h ⊢
  split_ifs at h ⊢ with hs
  simp only
  rw [stats_notify, totals_scanSources _ _ hs]
  rfl

theorem keptEntries_backupPhaseEntry (s : State) :
    keptEntries (backupPhaseEntry s) = keptEntries s := by
  have hw := sameWorld_backupPhaseEntry s
  unfold keptEntries
  rw [hw.2.1, hw.2.2.2.1]

/-- The run that ends COMPLETED: scan and backup phase returned true, and the statistics in
the end are those with which `backupFiles` returned, but for the end time. -/
theorem stats_of_completed (lib : TimeLib) (s : State)
    (hdone : (backupThreadFunction lib s).status = BackupStatus.COMPLETED) :
    scanOk s = true ∧ (afterScan s).cancelRequested = false ∧
    (backupFiles lib (backupPhaseEntry s)).1 = true ∧
    ∃ t, (backupThreadFunction lib s).stats =
      { (backupFiles lib (backupPhaseEntry s)).2.stats with endTime := t } := by
  have hbad : ∀ (c : Bool) (sx : State),
      (completeBackup false c sx).status ≠ BackupStatus.COMPLETED := by
    intro c sx
    rw [status_completeBackup]
    cases c <;> simp
  have e1 : (afterBackup lib s).stats = (backupFiles lib (backupPhaseEntry s)).2.stats :=
    stats_poll _
  have e2 : (afterVerify lib s).stats = (backupFiles lib (backupPhaseEntry s)).2.stats := by
    unfold afterVerify verifyBackup
    rw [stats_poll, stats_verifyTicks]
    exact e1
  have hfin := backupThreadFunction_eq lib s
  split_ifs at hfin with c1 c2 c3 c4 c5 c6 c7
  · rw [hfin] at hdone
    exact absurd hdone (hbad _ _)
  · rw [hfin] at hdone
    exact absurd hdone (hbad _ _)
  · rw [hfin] at hdone
    exact absurd hdone (hbad _ _)
  · rw [hfin] at hdone
    exact absurd hdone (hbad _ _)
  · refine ⟨by simpa using c1, by simpa using c2, ?_, some (afterBackup lib s).now, ?_⟩
    · have : backupOk lib s = true := by simpa using c3
      exact this
    · rw [hfin, stats_completeBackup, e1]
  · rw [hfin] at hdone
    exact absurd hdone (hbad _ _)
  · rw [hfin] at hdone
    exact absurd hdone (hbad _ _)
  · refine ⟨by simpa using c1, by simpa using c2, ?_, some (afterVerify lib s).now, ?_⟩
    · have : backupOk lib s = true := by simpa using c3
      exact this
    · rw [hfin, stats_completeBackup, e2]

/-- C29. A run of the worker that ends COMPLETED, started with `processedFiles`
equal to `totalFiles`, `processedSize` equal to `totalSize` and
`totalDirectories` 0, as `startBackup` leaves them, ends with `processedFiles`
equal to `totalFiles` and `processedSize` equal to `totalSize`; the number of
recursive calls of `backupDirectory` in the backup phase is `totalDirectories`.
The calls of the backup phase are those for the entries below the source
roots that are not excluded and lie under no excluded directory, the entries
the scan has counted, in the same order. -/
theorem backup_walk_visits_what_the_scan_counted (lib : TimeLib) (s : State)
    (h0 : s.stats.processedFiles = s.stats.totalFiles ∧
      s.stats.processedSize = s.stats.totalSize ∧ s.stats.totalDirectories = 0)
    (hdone : (backupThreadFunction lib s).status = BackupStatus.COMPLETED) :
    (backupThreadFunction lib s).stats.processedFiles =
      (backupThreadFunction lib s).stats.totalFiles ∧
    (backupThreadFunction lib s).stats.processedSize =
      (backupThreadFunction lib s).stats.totalSize ∧
    (runTrace lib s).countP WalkEvent.isRecursed =
      (backupThreadFunction lib s).stats.totalDirectories ∧
    runTrace lib s = specTrace (keptEntries s) ∧
    (backupThreadFunction lib s).stats.totalFiles =
      s.stats.totalFiles + (keptEntries s).countP (fun e => isRegularFile e.2) := by
  obtain ⟨h1, h2, h3, t, hst⟩ := stats_of_completed lib s hdone
  obtain ⟨a1, a2, _, _, _, a6⟩ := traced_backupFiles lib (backupPhaseEntry s)
  obtain ⟨_, _, ⟨b1, b2, b3⟩, _⟩ := tally_backupFiles lib (backupPhaseEntry s)
  obtain ⟨k1, k2, k3⟩ := counts_specTrace (keptEntries s)
  have hT := a6 h3
  rw [keptEntries_backupPhaseEntry] at hT
  have hsb := stats_backupPhaseEntry s h1
  have hrun : runTrace lib s = traceFiles lib (backupPhaseEntry s) := by
    unfold runTrace
    rw [if_pos ⟨h1, h2⟩]
  rw [hT, k1, hsb] at a1
  rw [hT, k2, hsb] at a2
  rw [hsb] at b1 b2 b3
  rw [hrun, hT, k3, hst]
  obtain ⟨g1, g2, g3⟩ := h0
  refine ⟨?_, ?_, ?_, rfl, ?_⟩
  · show (backupFiles lib (backupPhaseEntry s)).2.stats.processedFiles =
      (backupFiles lib (backupPhaseEntry s)).2.stats.totalFiles
    rw [a1, b1]
    show s.stats.processedFiles + _ = s.stats.totalFiles + _
    rw [g1]
  · show (backupFiles lib (backupPhaseEntry s)).2.stats.processedSize =
      (backupFiles lib (backupPhaseEntry s)).2.stats.totalSize
    rw [a2, b2]
    show s.stats.processedSize + _ = s.stats.totalSize + _
    rw [g2]
  · show _ = (backupFiles lib (backupPhaseEntry s)).2.stats.totalDirectories
    rw [b3]
    show _ = s.stats.totalDirectories + _
    rw [g3, Nat.zero_add]
  · show (backupFiles lib (backupPhaseEntry s)).2.stats.totalFiles = _
    rw [b1]
    rfl

theorem backup_walk_visits_what_the_scan_counted_witness :
    runTrace utc keptCacheStart =
      [WalkEvent.recursed ["home", "cache"], WalkEvent.filed ["home", "cache", "y"] 1 true,
        WalkEvent.filed ["home", "notes"] 3 true] ∧
    (backupThreadFunction utc keptCacheStart).stats.totalFiles = 2 ∧
    (backupThreadFunction utc keptCacheStart).stats.totalSize = 4 ∧
    (backupThreadFunction utc keptCacheStart).stats.totalDirectories = 1 ∧
    ((backupThreadFunction utc keptCacheStart).stats.processedFiles =
      (backupThreadFunction utc keptCacheStart).stats.totalFiles ∧
    (backupThreadFunction utc keptCacheStart).stats.processedSize =
      (backupThreadFunction utc keptCacheStart).stats.totalSize ∧
    (runTrace utc keptCacheStart).countP WalkEvent.isRecursed =
      (backupThreadFunction utc keptCacheStart).stats.totalDirectories ∧
    runTrace utc keptCacheStart = specTrace (keptEntries keptCacheStart) ∧
    (backupThreadFunction utc keptCacheStart).stats.totalFiles =
      keptCacheStart.stats.totalFiles +
        (keptEntries keptCacheStart).countP (fun e => isRegularFile e.2)) :=
  ⟨by decide, by decide, by decide, by decide,
    backup_walk_visits_what_the_scan_counted utc keptCacheStart ⟨rfl, rfl, rfl⟩ (by decide)⟩

/-! ## The worker and a callback that throws -/

theorem invoke_neverThrows (s : State) : Catching.invoke neverThrows s = (false, notify s) := by
  unfold Catching.invoke neverThrows
  simp

theorem scanFiles_neverThrows (s : State) : Catching.scanFiles neverThrows s = scanFiles s := by
  unfold Catching.scanFiles scanFiles
  cases scanSources s.config.sourcePaths s with
  | mk ok s1 =>
    cases ok with
    | false => rfl
    | true => simp only [invoke_neverThrows]

mutual
theorem backupDirectory_neverThrows (sourcePath : Path) (node : Node)
    (backupDir basePath previousBackupDir : Path) (s : State) :
    Catching.backupDirectory neverThrows sourcePath node backupDir basePath previousBackupDir
      s = backupDirectory sourcePath node backupDir basePath previousBackupDir s := by
  cases node with
  | file bytes =>
    simp only [Catching.backupDirectory, backupDirectory]
  | other =>
    simp only [Catching.backupDirectory, backupDirectory]
  | dir entries =>
    simp only [Catching.backupDirectory, backupDirectory]
    cases (if s.fs.pathExists (joinRelative backupDir (relative s sourcePath basePath)) = true
      then some s.fs
      else s.fs.create_directories (joinRelative backupDir (relative s sourcePath basePath))) with
    | none => rfl
    | some fs1 =>
      exact backupEntries_neverThrows sourcePath entries backupDir basePath previousBackupDir _
theorem backupEntries_neverThrows (sourcePath : Path) (entries : List (String × Node))
    (backupDir basePath previousBackupDir : Path) (s : State) :
    Catching.backupEntries neverThrows sourcePath entries backupDir basePath previousBackupDir
      s = backupEntries sourcePath entries backupDir basePath previousBackupDir s := by
  cases entries with
  | nil => simp only [Catching.backupEntries, backupEntries]
  | cons e rest =>
    obtain ⟨name, node⟩ := e
    cases node with
    | file bytes =>
      simp only [Catching.backupEntries, backupEntries, invoke_neverThrows]
      split_ifs
      · exact backupEntries_neverThrows sourcePath rest backupDir basePath previousBackupDir _
      · cases backupFile (sourcePath ++ [name]) bytes backupDir basePath previousBackupDir s with
        | mk ok s1 =>
          cases ok with
          | false => rfl
          | true =>
            simp only
            split_ifs
            · rfl
            · exact backupEntries_neverThrows sourcePath rest backupDir basePath
                previousBackupDir _
    | other =>
      simp only [Catching.backupEntries, backupEntries]
      split_ifs
      · exact backupEntries_neverThrows sourcePath rest backupDir basePath previousBackupDir _
      · rfl
      · exact backupEntries_neverThrows sourcePath rest backupDir basePath previousBackupDir _
    | dir sub =>
      simp only [Catching.backupEntries, backupEntries]
      split_ifs
      · exact backupEntries_neverThrows sourcePath rest backupDir basePath previousBackupDir _
      · rw [backupDirectory_neverThrows (sourcePath ++ [name]) (Node.dir sub) backupDir
          basePath previousBackupDir s]
        cases backupDirectory (sourcePath ++ [name]) (Node.dir sub) backupDir basePath
            previousBackupDir s with
        | mk ok s1 =>
          cases ok with
          | false => rfl
          | true =>
            simp only
            split_ifs
            · rfl
            · exact backupEntries_neverThrows sourcePath rest backupDir basePath
                previousBackupDir _
end

theorem backupSources_neverThrows (sourcePaths : List Path)
    (backupDir previousBackupDir : Path) (s : State) :
    Catching.backupSources neverThrows sourcePaths backupDir previousBackupDir s =
      backupSources sourcePaths backupDir previousBackupDir s := by
  induction sourcePaths generalizing s with
  | nil => rfl
  | cons p rest ih =>
    unfold Catching.backupSources backupSources
    rw [backupDirectory_neverThrows]
    cases backupDirectory p ((s.source.lookup p).getD Node.other) backupDir p
        previousBackupDir s with
    | mk ok s1 =>
      cases ok with
      | false => rfl
      | true =>
        simp only
        split_ifs
        · rfl
        · exact ih _

theorem backupFiles_neverThrows (lib : TimeLib) (s : State) :
    Catching.backupFiles neverThrows lib s = backupFiles lib s := by
  unfold Catching.backupFiles backupFiles
  cases createBackupDir lib s with
  | none => rfl
  | some s1 =>
    simp only [backupSources_neverThrows]

theorem completeBackup_neverThrows (success cancelled : Bool) (s : State) :
    Catching.completeBackup neverThrows success cancelled s =
      (false, completeBackup success cancelled s) := by
  unfold Catching.completeBackup completeBackup
  simp only [invoke_neverThrows]

theorem tryBlock_neverThrows (lib : TimeLib) (s : State) :
    Catching.tryBlock neverThrows lib s = (false, backupThreadFunction lib s) := by
  unfold Catching.tryBlock backupThreadFunction
  simp only [scanFiles_neverThrows, backupFiles_neverThrows, completeBackup_neverThrows]
  cases scanFiles (setStatus BackupStatus.SCANNING s) with
  | mk ok s1 =>
    cases ok with
    | false => rfl
    | true =>
      simp only
      split_ifs with h1
      · rfl
      · cases backupFiles lib (setStatus BackupStatus.BACKING_UP (poll s1)) with
        | mk ok2 s2 =>
          cases ok2 with
          | false => rfl
          | true =>
            simp only
            split_ifs with h2 h3
            · rfl
            · cases verifyBackup (setStatus BackupStatus.VERIFYING (poll s2)) with
              | mk ok3 s3 =>
                cases ok3 with
                | false => rfl
                | true =>
                  simp only
                  split_ifs <;> rfl
            · rfl

/-- The worker for a callback that returns from every invocation is the worker
`backupThreadFunction`: the handler of the `try` block is not entered. -/
theorem backupThreadFunction_neverThrows (lib : TimeLib) (s : State) :
    Catching.backupThreadFunction neverThrows lib s = some (backupThreadFunction lib s) := by
  unfold Catching.backupThreadFunction
  rw [tryBlock_neverThrows]

/-- C15 (the code at the failing input). The first run of the scenario with a
callback that throws when it is handed COMPLETED: the three files are backed
up and the sidecar is written, `completeBackup` assigns COMPLETED, the
exception of the callback leaves the `try` block, and the handler assigns
FAILED. The worker has gone through two of the three terminal statuses, and
the run that completed ends FAILED. With a callback that returns, the same
run goes through SCANNING, BACKING_UP, COMPLETED. -/
theorem callback_exception_adds_a_second_terminal_status :
    (Catching.backupThreadFunction throwsOnCompleted utc
      (started scenarioConfig (some 1) beforeRun1)).map (fun r => r.statusLog) =
      some [BackupStatus.SCANNING, BackupStatus.BACKING_UP, BackupStatus.COMPLETED,
        BackupStatus.FAILED] ∧
    (Catching.backupThreadFunction throwsOnCompleted utc
      (started scenarioConfig (some 1) beforeRun1)).map (fun r => r.status) =
      some BackupStatus.FAILED ∧
    (Catching.backupThreadFunction throwsOnCompleted utc
      (started scenarioConfig (some 1) beforeRun1)).map (fun r => r.stats.processedFiles) =
      some 3 ∧
    (Catching.backupThreadFunction throwsOnCompleted utc
      (started scenarioConfig (some 1) beforeRun1)).map (fun r => r.fs.pathExists
        ["mnt", "backups", "20240101-000000", "backup-info.json"]) = some true ∧
    (Catching.backupThreadFunction neverThrows utc
      (started scenarioConfig (some 1) beforeRun1)).map (fun r => r.statusLog) =
      some [BackupStatus.SCANNING, BackupStatus.BACKING_UP, BackupStatus.COMPLETED] := by
  decide

/-- C16 (the code at the failing input). The first run of the scenario with
verification enabled and a callback that throws when it is handed COMPLETED:
`completeBackup` sets the end time and invokes the callback with COMPLETED,
the exception leaves the `try` block, and the handler assigns FAILED and
invokes the callback again. The invocation with COMPLETED is not the last
one of the run, and two invocations carry a terminal status. With a callback
that throws at every terminal status the invocation of the handler throws as
well, and the process ends. -/
theorem callback_exception_adds_a_second_terminal_invocation :
    (Catching.backupThreadFunction throwsOnCompleted utc verifiedStart).map
      (fun r => r.calls.map Prod.fst) =
      some [BackupStatus.SCANNING, BackupStatus.BACKING_UP, BackupStatus.BACKING_UP,
        BackupStatus.BACKING_UP, BackupStatus.COMPLETED, BackupStatus.FAILED] ∧
    (Catching.backupThreadFunction throwsOnCompleted utc verifiedStart).map
      (fun r => r.status) = some BackupStatus.FAILED ∧
    (Catching.backupThreadFunction throwsOnCompleted utc verifiedStart).map
      (fun r => r.stats.endTime) = some (some 1704067200) ∧
    (Catching.backupThreadFunction throwsOnTerminal utc verifiedStart).isNone = true ∧
    (Catching.backupThreadFunction neverThrows utc verifiedStart).map
      (fun r => r.calls.map Prod.fst) =
      some [BackupStatus.SCANNING, BackupStatus.BACKING_UP, BackupStatus.BACKING_UP,
        BackupStatus.BACKING_UP, BackupStatus.COMPLETED] := by
  decide

/-! ## Calls that throw, and a snapshot that outlives the keep sets -/

set_option maxHeartbeats 4000000 in
/-- C1 (the code at the failing inputs). Three calls of `backupFile` with a
baseline that neither link nor copy the file. In the first the baseline holds
a directory at the relative path of the source file: there is no counterpart
file, `file_size` throws on the directory, and the call returns false with
nothing written at the new path. In the second the baseline holds a file with
the same bytes at the relative path and the new path exists already:
`create_hard_link` throws, the call returns false, and the new path is not a
link of the baseline file. The third is the call for a file `A` of a second
source root in a run whose first root held a file `A` with the same bytes: the
baseline is the directory of the run itself, the counterpart is the copy made
for the first root, and `create_hard_link` throws again. -/
theorem backupFile_throws_where_it_was_to_copy_or_link :
    (backupFile ["home", "notes"] [1, 2, 3] ["mnt", "backups", "20240102-000000"] ["home"]
      ["mnt", "backups", "20240101-000000"] { fs := fsBaselineDirectory }).1 = false ∧
    fsBaselineDirectory.read ["mnt", "backups", "20240101-000000", "notes"] = none ∧
    (backupFile ["home", "notes"] [1, 2, 3] ["mnt", "backups", "20240102-000000"] ["home"]
      ["mnt", "backups", "20240101-000000"] { fs := fsBaselineDirectory }).2.fs.pathExists
        ["mnt", "backups", "20240102-000000", "notes"] = false ∧
    fsTargetExists.read ["mnt", "backups", "20240101-000000", "notes"] = some [1, 2, 3] ∧
    (backupFile ["home", "notes"] [1, 2, 3] ["mnt", "backups", "20240102-000000"] ["home"]
      ["mnt", "backups", "20240101-000000"] { fs := fsTargetExists }).1 = false ∧
    (backupFile ["home", "notes"] [1, 2, 3] ["mnt", "backups", "20240102-000000"] ["home"]
      ["mnt", "backups", "20240101-000000"] { fs := fsTargetExists }).2.fs.status
        ["mnt", "backups", "20240102-000000", "notes"] = some (FileType.regular 1) ∧
    (backupFile ["home", "notes"] [1, 2, 3] ["mnt", "backups", "20240102-000000"] ["home"]
      ["mnt", "backups", "20240101-000000"] { fs := fsTargetExists }).2.fs.read
        ["mnt", "backups", "20240102-000000", "notes"] = some [9] ∧
    fsBaseline.read ["mnt", "backups", "20240101-000000", "A"] = some [1, 2, 3] ∧
    (backupFile ["srv", "A"] [1, 2, 3] ["mnt", "backups", "20240101-000000"] ["srv"]
      ["mnt", "backups", "20240101-000000"] { fs := fsBaseline }).1 = false := by
  decide

/-- C5 (the code at the failing input). A destination with the snapshots of
2024-01-01, 2024-01-02 and 2024-01-03, the directory of the second renamed to
`20240102-000000-old`, pruned with `keepDaily = 1` and the other counts 0. The
three per-pass keep sets are the snapshot of 2024-01-01, nothing and nothing,
and `backupsToKeep` is their union. The call succeeds and deletes the snapshot
of 2024-01-03; the snapshot of 2024-01-02 is in no keep set, yet its directory
stays and the catalog still lists it: what the call keeps is not the union of
the keep sets. -/
theorem renamed_snapshot_survives_outside_the_keep_sets :
    listBackups utc fsRenamedOfThree ["mnt"] = [1704240000, 1704153600, 1704067200] ∧
    keepPass (dayKey utc) (listBackups utc fsRenamedOfThree ["mnt"]) 1 = [1704067200] ∧
    keepPass (weekKey utc) (listBackups utc fsRenamedOfThree ["mnt"]) 0 = [] ∧
    keepPass (monthKey utc) (listBackups utc fsRenamedOfThree ["mnt"]) 0 = [] ∧
    backupsToKeep utc (listBackups utc fsRenamedOfThree ["mnt"]) 1 0 0 = [1704067200] ∧
    (pruneBackups utc fsRenamedOfThree ["mnt"] 1 0 0).result = true ∧
    (pruneBackups utc fsRenamedOfThree ["mnt"] 1 0 0).deletedCount = 1 ∧
    (pruneBackups utc fsRenamedOfThree ["mnt"] 1 0 0).fs.pathExists
      ["mnt", "backups", "20240103-000000"] = false ∧
    (pruneBackups utc fsRenamedOfThree ["mnt"] 1 0 0).fs.pathExists
      ["mnt", "backups", "20240102-000000-old"] = true ∧
    listBackups utc (pruneBackups utc fsRenamedOfThree ["mnt"] 1 0 0).fs ["mnt"] =
      [1704153600, 1704067200] := by
  decide

end utm
